import Mathlib

/-!
# moga: overlap graph, run-length BWT and FM-index

A shallow embedding of `src/bwt.cpp`, `src/fmindex.cpp`, `src/bigraph.cpp` and
`src/bigraph_visitors.cpp`, followed by theorems about it.

Conventions of the embedding.

* `size_t` values are natural numbers.  Sums of run counts and marker positions
  are bounded by the size of the data and are left unreduced; a subtraction on
  `size_t` is written with `sub64` (wrap-around modulo `2^64`) and a store into a
  `uint16_t` field with `u16`.
* A function whose C++ body can hit an `assert`, index a container out of its
  bounds or touch a freed object returns an `Option`; `none` stands for that
  outcome.
* A `while` loop is a function recursing on a fuel argument; the caller
  supplies a bound that the loop cannot exceed.
-/

namespace Moga

/-! ## Machine arithmetic -/

/-- Subtraction on `size_t`: wraps modulo `2^64`. -/
def sub64 (a b : Nat) : Nat := (a % 2 ^ 64 + 2 ^ 64 - b % 2 ^ 64) % 2 ^ 64

/-- Store into a `uint16_t`. -/
def u16 (a : Nat) : Nat := a % 65536

/-! ## DNA alphabet and run-length units -/

namespace DNAAlphabet

/-- Modelled from the spec: the alphabet header is not among the sources.  The
spec lists the six symbols of the DNA alphabet as A, C, G, T, N, $. -/
def DNA_ALL : List Char := ['A', 'C', 'G', 'T', 'N', '$']

/-- Modelled from the spec: `ALL_SIZE`, the number of symbols (6). -/
def ALL_SIZE : Nat := 6

/-- Modelled from the spec: `torank`, the index of a symbol in `DNA_ALL`
(`ALL_SIZE` for a character outside the alphabet). -/
def torank (c : Char) : Nat := DNA_ALL.indexOf c

/-- Modelled from the spec: `tochar`, the symbol of a rank (the NUL character
for a rank outside the alphabet). -/
def tochar (r : Nat) : Char := DNA_ALL.getD r (Char.ofNat 0)

end DNAAlphabet

/-- Modelled from the spec: `RLUnit` (its header is not among the sources) is
one byte `data` holding a 3-bit symbol rank (high bits) and a 5-bit count (low
bits). -/
structure RLUnit where
  data : Nat
deriving DecidableEq, Repr

namespace RLUnit

/-- The run length `count()`: the low five bits. -/
def count (u : RLUnit) : Nat := u.data % 32

/-- The symbol rank: the high three bits. -/
def rank (u : RLUnit) : Nat := u.data / 32 % 8

/-- The conversion `(char)run`. -/
def toChar (u : RLUnit) : Char := DNAAlphabet.tochar u.rank

/-- The comparison `run == c` of a run with a character. -/
def eqChar (u : RLUnit) (c : Char) : Bool := u.toChar == c

/-- The constructor `RLUnit(c)`: symbol `c`, count 1. -/
def ofChar (c : Char) : RLUnit := ⟨DNAAlphabet.torank c % 8 * 32 + 1⟩

/-- The default constructor: no symbol, count 0. -/
def empty : RLUnit := ⟨0⟩

/-- Spec: `initialized` iff count > 0. -/
def initialized (u : RLUnit) : Bool := decide (0 < u.count)

/-- Spec: `full` iff count == 31. -/
def full (u : RLUnit) : Bool := decide (u.count = 31)

/-- The increment `++run` of the count (on the byte). -/
def incr (u : RLUnit) : RLUnit := ⟨(u.data + 1) % 256⟩

end RLUnit

/-- The decoded column of a run list: each run's symbol repeated `count`
times. -/
def decodeRuns (runs : List RLUnit) : List Char :=
  runs.flatMap (fun u => List.replicate u.count u.toChar)

/-- The BWT object: header fields and the run list. -/
structure BWT where
  strings : Nat
  suffixes : Nat
  runs : List RLUnit
deriving DecidableEq, Repr

/-- Modelled from the spec: `BWT::length()` (declared in `bwt.h`, not among the
sources), the number of symbols of the BWT column, as held in the header field
`num_suffixes`. -/
def BWT.length (b : BWT) : Nat := b.suffixes

/-! ## FM-index markers (`fmindex.cpp`) -/

/-- Modelled from the spec: `DEFAULT_SAMPLE_RATE_LARGE` is `L_RATE = 8192`. -/
def DEFAULT_SAMPLE_RATE_LARGE : Nat := 8192

/-- A large marker: absolute unit index and absolute counts per symbol. -/
structure LargeMarker where
  unitIndex : Nat
  counts : List Nat
deriving DecidableEq, Repr

/-- Modelled from the spec: `LargeMarker::total()`, the position of the marker,
that is the sum of its counts. -/
def LargeMarker.total (m : LargeMarker) : Nat := m.counts.sum

/-- A small marker: 16-bit deltas from a large marker. -/
structure SmallMarker where
  unitIndex : Nat
  counts : List Nat
deriving DecidableEq, Repr

/-- A value-initialised large marker. -/
def LargeMarker.zero : LargeMarker := ⟨0, List.replicate DNAAlphabet.ALL_SIZE 0⟩

/-- A value-initialised small marker. -/
def SmallMarker.zero : SmallMarker := ⟨0, List.replicate DNAAlphabet.ALL_SIZE 0⟩

/-- The effect of `std::vector::resize(n)` with value `d` for new slots. -/
def resize {α : Type} (l : List α) (n : Nat) (d : α) : List α :=
  l.take n ++ List.replicate (n - l.length) d

/-- The state of a `MarkerFill< MarkerList >`. -/
structure MarkerFill (M : Type) where
  markers : List M
  sampleRate : Nat
  currIdx : Nat
  nextPos : Nat

/-- The constructor of `MarkerFill` with its call of `initialize(symbols)`
(lines 19-41); `zero` is the blank marker. -/
def MarkerFill.initialize {M : Type} (zero : M) (markers : List M) (n sampleRate : Nat) :
    MarkerFill M :=
  let required_markers :=
    if n % sampleRate = 0 then n / sampleRate + 1 else n / sampleRate + 2
  let markers := resize markers required_markers zero
  let markers := if markers.isEmpty then markers else markers.set 0 zero
  { markers := markers, sampleRate := sampleRate, currIdx := 1, nextPos := sampleRate }

/-- The loop of `LargeMarkerFill::fill` (lines 57-74). -/
def LargeMarkerFill.fillLoop :
    Nat → MarkerFill LargeMarker → List Nat → Nat → Nat → Bool → Option (MarkerFill LargeMarker)
  | 0, _, _, _, _, _ => none
  | fuel + 1, f, counts, total, unitIndex, lastOne =>
    if f.nextPos ≤ total ∨ lastOne = true then
      let expectedPos := f.currIdx * f.sampleRate
      if ¬ (expectedPos ≤ total ∨ lastOne = true) then none
      else if ¬ (f.currIdx < f.markers.length) then none
      else
        let marker : LargeMarker := { unitIndex := unitIndex, counts := counts }
        let nextPos := f.nextPos + f.sampleRate
        LargeMarkerFill.fillLoop fuel
          { f with markers := f.markers.set f.currIdx marker,
                   currIdx := f.currIdx + 1, nextPos := nextPos }
          counts total unitIndex (lastOne && decide (nextPos ≤ total))
    else some f

/-- The method `LargeMarkerFill::fill`; the loop runs at most `total + 1`
times when the sample rate is positive. -/
def LargeMarkerFill.fill (f : MarkerFill LargeMarker) (counts : List Nat)
    (total unitIndex : Nat) (lastOne : Bool) : Option (MarkerFill LargeMarker) :=
  LargeMarkerFill.fillLoop (total + 2) f counts total unitIndex lastOne

/-- The loop of `SmallMarkerFill::fill` (lines 82-107); `lmarkers` is the
large marker list the filler refers to. -/
def SmallMarkerFill.fillLoop (lmarkers : List LargeMarker) :
    Nat → MarkerFill SmallMarker → List Nat → Nat → Nat → Bool → Option (MarkerFill SmallMarker)
  | 0, _, _, _, _, _ => none
  | fuel + 1, f, counts, total, unitIndex, lastOne =>
    if f.nextPos ≤ total ∨ lastOne = true then
      let expectedPos := f.currIdx * f.sampleRate
      if ¬ (expectedPos ≤ total ∨ lastOne = true) then none
      else if ¬ (f.currIdx < f.markers.length) then none
      else
        let largeIndex := expectedPos / DEFAULT_SAMPLE_RATE_LARGE
        match lmarkers[largeIndex]? with
        | none => none
        | some lmarker =>
          let smarker : SmallMarker :=
            { unitIndex := u16 (sub64 unitIndex lmarker.unitIndex),
              counts := List.zipWith (fun c l => u16 (sub64 c l)) counts lmarker.counts }
          let nextPos := f.nextPos + f.sampleRate
          SmallMarkerFill.fillLoop lmarkers fuel
            { f with markers := f.markers.set f.currIdx smarker,
                     currIdx := f.currIdx + 1, nextPos := nextPos }
            counts total unitIndex (lastOne && decide (nextPos ≤ total))
    else some f

/-- The method `SmallMarkerFill::fill`. -/
def SmallMarkerFill.fill (lmarkers : List LargeMarker) (f : MarkerFill SmallMarker)
    (counts : List Nat) (total unitIndex : Nat) (lastOne : Bool) :
    Option (MarkerFill SmallMarker) :=
  SmallMarkerFill.fillLoop lmarkers (total + 2) f counts total unitIndex lastOne

/-- The state built by the run loop of `FMIndex::initialize`. -/
structure FillState where
  counts : List Nat
  total : Nat
  f1 : MarkerFill LargeMarker
  f2 : MarkerFill SmallMarker

/-- The run loop of `FMIndex::initialize` (lines 128-142): `i` is the index of
the head of `rest` in the run list, `size` the number of runs. -/
def FMIndex.runLoop (size : Nat) : List RLUnit → Nat → FillState → Option FillState
  | [], _, s => some s
  | run :: rest, i, s =>
    let c := run.toChar
    let len := run.count
    match s.counts[DNAAlphabet.torank c]? with
    | none => none
    | some old =>
      let counts := s.counts.set (DNAAlphabet.torank c) (old + len)
      let total := s.total + len
      let lastOne := decide (i = sub64 size 1)
      match LargeMarkerFill.fill s.f1 counts total (i + 1) lastOne with
      | none => none
      | some f1 =>
        match SmallMarkerFill.fill f1.markers s.f2 counts total (i + 1) lastOne with
        | none => none
        | some f2 =>
          FMIndex.runLoop size rest (i + 1)
            { counts := counts, total := total, f1 := f1, f2 := f2 }

/-- Modelled from the spec: the table `_pred` is declared in `fmindex.h`, which
is not among the sources.  Section 4.I describes it as the table `C[σ]` with an
entry for each alphabet symbol `σ`, and lines 153-156 address the entry of a
symbol by the character itself: an index is inside the table when it is a
symbol of the alphabet. -/
def FMIndex.predHasEntry (c : Char) : Bool := DNAAlphabet.DNA_ALL.contains c

/-- The predecessor table loop of `FMIndex::initialize` (lines 153-157).  The
embedding keeps the table `_pred` as the list of `(index, value)` stores, latest
first, the index being the character code; an access at an index outside the
table, or a read of an entry that has not been stored, has no defined result. -/
def FMIndex.predLoop (counts : List Nat) :
    List Char → Char → List (Nat × Nat) → Option (List (Nat × Nat))
  | [], _, pred => some pred
  | curr :: rest, prev, pred =>
    if FMIndex.predHasEntry curr = false ∨ FMIndex.predHasEntry prev = false then none
    else
      match pred.lookup prev.toNat, counts[DNAAlphabet.torank prev]? with
      | some p, some n => FMIndex.predLoop counts rest curr ((curr.toNat, p + n) :: pred)
      | _, _ => none

/-- The FM-index: the BWT, the sample rate, both marker lists and the
predecessor table. -/
structure FMIndex where
  bwt : BWT
  sampleRate : Nat
  lmarkers : List LargeMarker
  smarkers : List SmallMarker
  pred : List (Nat × Nat)

/-- Modelled from the spec: the macro `IS_POWER_OF_2` (from `utils.h`, not
among the sources). -/
def IS_POWER_OF_2 (x : Nat) : Bool := decide (x ≠ 0) && decide (x &&& (x - 1) = 0)

/-- The method `FMIndex::initialize` (lines 112-158), including the assertions
of the two `MarkerFill` destructors that run when it returns. -/
def FMIndex.initialize (x : FMIndex) : Option FMIndex :=
  if IS_POWER_OF_2 x.sampleRate = false then none
  else
    let counts := List.replicate DNAAlphabet.ALL_SIZE 0
    let f1 := MarkerFill.initialize LargeMarker.zero x.lmarkers x.bwt.length
      DEFAULT_SAMPLE_RATE_LARGE
    let f2 := MarkerFill.initialize SmallMarker.zero x.smarkers x.bwt.length x.sampleRate
    match FMIndex.runLoop x.bwt.runs.length x.bwt.runs 0
        { counts := counts, total := 0, f1 := f1, f2 := f2 } with
    | none => none
    | some s =>
      match DNAAlphabet.DNA_ALL with
      | [] => none
      | first :: rest =>
        if FMIndex.predHasEntry first = false then none
        else
          match FMIndex.predLoop s.counts rest first [(first.toNat, 0)] with
          | none => none
          | some pred =>
            if s.f2.currIdx ≠ s.f2.markers.length then none
            else if s.f1.currIdx ≠ s.f1.markers.length then none
            else some { x with lmarkers := s.f1.markers, smarkers := s.f2.markers, pred := pred }

/-! ## Rank queries (`MarkerFind`) -/

/-- The state of a `MarkerFind`. -/
structure MarkerFind where
  runs : List RLUnit
  lmarkers : List LargeMarker
  smarkers : List SmallMarker
  sampleRate : Nat

/-- The method `MarkerFind::interpolated` (lines 237-249). -/
def MarkerFind.interpolated (m : MarkerFind) (smallIdx : Nat) : Option LargeMarker :=
  let largeIdx := smallIdx * m.sampleRate / DEFAULT_SAMPLE_RATE_LARGE
  match m.lmarkers[largeIdx]?, m.smarkers[smallIdx]? with
  | some absolute, some relative =>
    some { unitIndex := absolute.unitIndex + relative.unitIndex,
           counts := List.zipWith (fun a r => a + r) absolute.counts relative.counts }
  | _, _ => none

/-- The method `MarkerFind::nearest` (lines 225-232); `MOD_POWER_2(i, rate)` is
`i % rate`, as the source comments. -/
def MarkerFind.nearest (m : MarkerFind) (i : Nat) : Option LargeMarker :=
  let baseIdx := i / m.sampleRate
  let offset := i % m.sampleRate
  let baseIdx := if m.sampleRate / 2 ≤ offset then baseIdx + 1 else baseIdx
  m.interpolated baseIdx

/-- The walk state of `MarkerFind::find`. -/
structure Walk where
  position : Nat
  r : Nat
  currIdx : Nat
deriving DecidableEq, Repr

/-- The forward loop of `MarkerFind::find` (lines 188-202). -/
def MarkerFind.forward (runs : List RLUnit) (c : Char) (i : Nat) : Nat → Walk → Option Walk
  | 0, _ => none
  | fuel + 1, w =>
    if w.position < i then
      let delta := i - w.position
      match runs[w.currIdx]? with
      | none => none
      | some run =>
        let n := if delta < run.count then delta else run.count
        let r := if run.eqChar c then w.r + n else w.r
        MarkerFind.forward runs c i fuel
          { position := w.position + n, r := r, currIdx := w.currIdx + 1 }
    else some w

/-- The backward loop of `MarkerFind::find` (lines 204-218). -/
def MarkerFind.backward (runs : List RLUnit) (c : Char) (i : Nat) : Nat → Walk → Option Walk
  | 0, _ => none
  | fuel + 1, w =>
    if i < w.position then
      let delta := w.position - i
      match runs[w.currIdx]? with
      | none => none
      | some run =>
        let n := if delta < run.count then delta else run.count
        let r := if run.eqChar c then sub64 w.r n else w.r
        MarkerFind.backward runs c i fuel
          { position := w.position - n, r := r, currIdx := sub64 w.currIdx 1 }
    else some w

/-- The method `MarkerFind::find` (lines 176-223); `++i` is the increment of a
`size_t`.  Each loop reads one run per round at an index that moves by one, so
it cannot run more often than there are runs before an assertion stops it. -/
def MarkerFind.find (m : MarkerFind) (c : Char) (i : Nat) : Option Nat :=
  let i := (i + 1) % 2 ^ 64
  match m.nearest i with
  | none => none
  | some lmarker =>
    match lmarker.counts[DNAAlphabet.torank c]? with
    | none => none
    | some r =>
      let w : Walk := { position := lmarker.total, r := r, currIdx := lmarker.unitIndex }
      match MarkerFind.forward m.runs c i (m.runs.length + 1) w with
      | none => none
      | some w =>
        match MarkerFind.backward m.runs c i (m.runs.length + 2) w with
        | none => none
        | some w => if w.position = i then some w.r else none

/-- The method `FMIndex::getOcc` (lines 257-260). -/
def FMIndex.getOcc (x : FMIndex) (c : Char) (i : Nat) : Option Nat :=
  MarkerFind.find
    { runs := x.bwt.runs, lmarkers := x.lmarkers, smarkers := x.smarkers,
      sampleRate := x.sampleRate } c i

/-- The number of occurrences of `c` among the first `i + 1` symbols of the
decoded BWT column. -/
def naiveOcc (runs : List RLUnit) (c : Char) (i : Nat) : Nat :=
  ((decodeRuns runs).take (i + 1)).count c

/-- A fresh index over the runs `runs` with small sample rate `rate`, as
`operator>>` builds it before calling `initialize`. -/
def FMIndex.ofRuns (runs : List RLUnit) (rate : Nat) : FMIndex :=
  { bwt := { strings := 0, suffixes := (runs.map RLUnit.count).sum, runs := runs },
    sampleRate := rate, lmarkers := [], smarkers := [], pred := [] }

/-! ## Byte streams -/

/-- The `k` little-endian bytes of `n` (the object representation of an
unsigned integer of `k` bytes). -/
def leBytes : Nat → Nat → List Nat
  | 0, _ => []
  | k + 1, n => n % 256 :: leBytes k (n / 256)

/-- The unsigned integer held by little-endian bytes. -/
def leValue : List Nat → Nat
  | [] => 0
  | b :: bs => b % 256 + 256 * leValue bs

/-- An output stream: its bytes, the put position and the state `good`
(no failure flag set).  A seek past the end fails, as on a string stream. -/
structure OStream where
  bytes : List Nat
  pos : Nat
  good : Bool
deriving DecidableEq, Repr

/-- The call `stream.write(p, n)` with the `n` bytes `bs`: a stream that has
failed writes nothing; otherwise the bytes go to the put position, over what is
there. -/
def OStream.write (s : OStream) (bs : List Nat) : OStream :=
  if s.good then
    { bytes := s.bytes.take s.pos ++ bs ++ s.bytes.drop (s.pos + bs.length),
      pos := s.pos + bs.length, good := true }
  else s

/-- The call `stream.seekp(p)` to an absolute position. -/
def OStream.seekp (s : OStream) (p : Nat) : OStream :=
  if s.good then
    if p ≤ s.bytes.length then { s with pos := p } else { s with good := false }
  else s

/-- The value of the enumerator `std::ios_base::end`, which
`BWTWriter::finalize` passes to the one-argument `seekp` as a position. -/
def ios_base_end : Nat := 2

/-- An input stream: its bytes, the get position and the state `good`. -/
structure IStream where
  bytes : List Nat
  pos : Nat
  good : Bool
deriving DecidableEq, Repr

/-- The call `stream.read(dst, n)` where `old` are the `n` bytes of the
destination before the call: returns whether the stream is good afterwards,
the bytes of the destination and the stream.  A short read stores the bytes
that are left and sets the failure flag. -/
def IStream.read (s : IStream) (n : Nat) (old : List Nat) : Bool × List Nat × IStream :=
  if s.good then
    if s.pos + n ≤ s.bytes.length then
      (true, (s.bytes.drop s.pos).take n, { s with pos := s.pos + n })
    else
      let avail := s.bytes.drop s.pos
      (false, avail ++ old.drop avail.length, { s with pos := s.bytes.length, good := false })
  else (false, old, s)

/-! ## BWT writer and reader (`bwt.cpp`) -/

/-- The constant `BWT_FILE_MAGIC`. -/
def BWT_FILE_MAGIC : Nat := 0xCACA

/-- Modelled from the spec: the flag `BWF_NOFMI` is 0, stored in 4 bytes. -/
def BWF_NOFMI : Nat := 0

/-- Modelled from the spec: the width of `BWFlag` on disk (`u32`). -/
def SIZEOF_FLAG : Nat := 4

/-- Modelled from the spec: the width of `size_t` on disk, pinned to 8 bytes. -/
def SIZEOF_SIZE_T : Nat := 8

/-- An element `(i, j)` of the suffix array: string index and offset. -/
structure Elem where
  i : Nat
  j : Nat
deriving DecidableEq, Repr

/-- Modelled from the spec: the suffix array (its header is not among the
sources) gives `strings()`, `size()` and its elements by index. -/
structure SuffixArray where
  strings : Nat
  elems : List Elem
deriving DecidableEq, Repr

/-- The method `SuffixArray::size`. -/
def SuffixArray.size (sa : SuffixArray) : Nat := sa.elems.length

/-- A named DNA sequence (`DNASeq` of `kseq.h`, which is not among the sources;
the test `KSeq_transform` reads its members `name`, `seq` and `quality`). -/
structure DNASeq where
  name : String
  seq : List Char
  quality : List Char
deriving DecidableEq, Repr

/-- The expression `s[k]` on a constant `std::string`: the character at `k`,
the NUL character at `k = size()`, undefined beyond. -/
def strAt (s : List Char) (k : Nat) : Option Char :=
  if k < s.length then s[k]? else if k = s.length then some (Char.ofNat 0) else none

/-- The state of a `BWTWriter`. -/
structure BWTWriter where
  stream : OStream
  posRun : Nat
  numRuns : Nat
  currRun : RLUnit
deriving DecidableEq, Repr

/-- A writer on the stream `s`, before its first call. -/
def BWTWriter.new (s : OStream) : BWTWriter :=
  { stream := s, posRun := 0, numRuns := 0, currRun := RLUnit.empty }

/-- The method `BWTWriter::writeRun` (lines 136-142). -/
def BWTWriter.writeRun (w : BWTWriter) (run : RLUnit) : Bool × BWTWriter :=
  let s := w.stream.write [run.data % 256]
  if s.good = false then (false, { w with stream := s })
  else (true, { w with stream := s, numRuns := w.numRuns + 1 })

/-- The method `BWTWriter::writeChar` (lines 106-122). -/
def BWTWriter.writeChar (w : BWTWriter) (c : Char) : Bool × BWTWriter :=
  if w.currRun.initialized = true then
    if w.currRun.eqChar c = true ∧ w.currRun.full = false then
      (true, { w with currRun := w.currRun.incr })
    else
      match w.writeRun w.currRun with
      | (false, w1) => (false, w1)
      | (true, w1) => (true, { w1 with currRun := RLUnit.ofChar c })
  else (true, { w with currRun := RLUnit.ofChar c })

/-- The method `BWTWriter::finalize` (lines 124-134). -/
def BWTWriter.finalize (w : BWTWriter) : Bool × BWTWriter :=
  match (if w.currRun.initialized = true then w.writeRun w.currRun else (true, w)) with
  | (false, w1) => (false, w1)
  | (true, w1) =>
    let s := w1.stream.seekp w1.posRun
    let s := s.write (leBytes SIZEOF_SIZE_T w1.numRuns)
    let s := s.seekp ios_base_end
    (s.good, { w1 with stream := s })

/-- The method `BWTWriter::writeHeader` (lines 78-104). -/
def BWTWriter.writeHeader (w : BWTWriter) (num_strings num_suffixes flag : Nat) :
    Option (Bool × BWTWriter) :=
  let s := w.stream.write (leBytes 2 BWT_FILE_MAGIC)
  if s.good = false then some (false, { w with stream := s })
  else
    let s := s.write (leBytes SIZEOF_SIZE_T num_strings)
    if s.good = false then some (false, { w with stream := s })
    else
      let s := s.write (leBytes SIZEOF_SIZE_T num_suffixes)
      if s.good = false then some (false, { w with stream := s })
      else
        let posRun := s.pos
        let s := s.write (leBytes SIZEOF_SIZE_T 0)
        if s.good = false then some (false, { w with stream := s, posRun := posRun, numRuns := 0 })
        else if flag ≠ BWF_NOFMI then none
        else
          let s := s.write (leBytes SIZEOF_FLAG flag)
          if s.good = false then
            some (false, { w with stream := s, posRun := posRun, numRuns := 0 })
          else some (true, { w with stream := s, posRun := posRun, numRuns := 0 })

/-- The character written for a suffix array element (line 67 of
`BWTWriter::write`). -/
def BWTWriter.charOf (sequences : List DNASeq) (elem : Elem) : Option Char :=
  match sequences[elem.i]? with
  | none => none
  | some read => if elem.j = 0 then some '$' else strAt read.seq (elem.j - 1)

/-- The loop of `BWTWriter::write` (lines 64-71) over the elements of the
suffix array. -/
def BWTWriter.writeLoop (sequences : List DNASeq) :
    List Elem → BWTWriter → Option (Bool × BWTWriter)
  | [], w => some (true, w)
  | elem :: rest, w =>
    match BWTWriter.charOf sequences elem with
    | none => none
    | some c =>
      match w.writeChar c with
      | (false, w1) => some (false, w1)
      | (true, w1) => BWTWriter.writeLoop sequences rest w1

/-- The method `BWTWriter::write` (lines 58-76). -/
def BWTWriter.write (w : BWTWriter) (sa : SuffixArray) (sequences : List DNASeq) :
    Option (Bool × BWTWriter) :=
  match w.writeHeader sa.strings sa.size BWF_NOFMI with
  | none => none
  | some (false, w1) => some (false, w1)
  | some (true, w1) =>
    match BWTWriter.writeLoop sequences sa.elems w1 with
    | none => none
    | some (false, w2) => some (false, w2)
    | some (true, w2) =>
      match w2.finalize with
      | (false, w3) => some (false, w3)
      | (true, w3) => some (true, w3)

/-- The state of a `BWTReader`. -/
structure BWTReader where
  stream : IStream
  numRuns : Nat
deriving DecidableEq, Repr

/-- The outcome of `BWTReader::readHeader`: the result, the reader and the
three destinations `num_strings`, `num_suffixes`, `flag`. -/
structure HeaderRead where
  ok : Bool
  reader : BWTReader
  num_strings : Nat
  num_suffixes : Nat
  flag : Nat
deriving DecidableEq, Repr

/-- The method `BWTReader::readHeader` (lines 28-46); `magic0` is what the
uninitialised local `magic` holds. -/
def BWTReader.readHeader (r : BWTReader) (magic0 num_strings num_suffixes flag : Nat) :
    HeaderRead :=
  match r.stream.read 2 (leBytes 2 magic0) with
  | (ok, mg, s) =>
    if ok = false ∨ leValue mg ≠ BWT_FILE_MAGIC then
      { ok := false, reader := { r with stream := s }, num_strings := num_strings,
        num_suffixes := num_suffixes, flag := flag }
    else
      match s.read SIZEOF_SIZE_T (leBytes SIZEOF_SIZE_T num_strings) with
      | (ok, b1, s) =>
        if ok = false then
          { ok := false, reader := { r with stream := s }, num_strings := leValue b1,
            num_suffixes := num_suffixes, flag := flag }
        else
          match s.read SIZEOF_SIZE_T (leBytes SIZEOF_SIZE_T num_suffixes) with
          | (ok, b2, s) =>
            if ok = false then
              { ok := false, reader := { r with stream := s }, num_strings := leValue b1,
                num_suffixes := leValue b2, flag := flag }
            else
              match s.read SIZEOF_SIZE_T (leBytes SIZEOF_SIZE_T r.numRuns) with
              | (ok, b3, s) =>
                if ok = false then
                  { ok := false, reader := { stream := s, numRuns := leValue b3 },
                    num_strings := leValue b1, num_suffixes := leValue b2, flag := flag }
                else
                  match s.read SIZEOF_FLAG (leBytes SIZEOF_FLAG flag) with
                  | (ok, b4, s) =>
                    { ok := ok, reader := { stream := s, numRuns := leValue b3 },
                      num_strings := leValue b1, num_suffixes := leValue b2,
                      flag := leValue b4 }

/-- The method `BWTReader::readRuns` (lines 48-56) for a `numRuns` that
`runs.resize(numRuns)` accepts: one byte per run.  The outcome with the
exception of `resize` is `BWTReader.readRunsOrThrow`. -/
def BWTReader.readRuns (r : BWTReader) (runs : List RLUnit) (numRuns : Nat) :
    Bool × BWTReader × List RLUnit :=
  let runs := resize runs numRuns RLUnit.empty
  if runs.isEmpty then (true, r, runs)
  else
    match r.stream.read numRuns (runs.map (fun u => u.data % 256)) with
    | (ok, bs, s) => (ok, { r with stream := s }, bs.map RLUnit.mk)

/-- The method `BWTReader::read` (lines 17-26) for a field `num_runs` that
`resize` accepts; `magic0` and `flag0` are what the uninitialised locals hold.
The outcome with the exception of `resize` is `BWTReader.readOrThrow`. -/
def BWTReader.read (r : BWTReader) (bwt : BWT) (magic0 flag0 : Nat) :
    Bool × BWTReader × BWT :=
  let h := r.readHeader magic0 bwt.strings bwt.suffixes flag0
  let bwt := { bwt with strings := h.num_strings, suffixes := h.num_suffixes }
  if h.ok = false then (false, h.reader, bwt)
  else
    match h.reader.readRuns bwt.runs h.reader.numRuns with
    | (ok, r1, runs) => (ok, r1, { bwt with runs := runs })

/-- Modelled from the spec: `RLList` is declared in `bwt.h`, which is not among
the sources; section 4.H has the reader allocate `num_runs` run units of one
byte.  The value is `max_size()` of a `std::vector` of one-byte units on a
64-bit machine (`PTRDIFF_MAX`): `resize(n)` throws `std::length_error` for a
larger `n`.  An allocation within `max_size()` is taken to succeed. -/
def RLLIST_MAX_SIZE : Nat := 2 ^ 63 - 1

/-- The method `BWTReader::readRuns` (lines 48-56) with the exception of line
49: `none` when `runs.resize(numRuns)` throws, before anything is read;
otherwise the result of the method. -/
def BWTReader.readRunsOrThrow (r : BWTReader) (runs : List RLUnit) (numRuns : Nat) :
    Option (Bool × BWTReader × List RLUnit) :=
  if RLLIST_MAX_SIZE < numRuns then none else some (r.readRuns runs numRuns)

/-- The method `BWTReader::read` (lines 17-26) with the exception that
`readRuns` lets through: `none` when the call does not return. -/
def BWTReader.readOrThrow (r : BWTReader) (bwt : BWT) (magic0 flag0 : Nat) :
    Option (Bool × BWTReader × BWT) :=
  let h := r.readHeader magic0 bwt.strings bwt.suffixes flag0
  let bwt := { bwt with strings := h.num_strings, suffixes := h.num_suffixes }
  if h.ok = false then some (false, h.reader, bwt)
  else
    match h.reader.readRunsOrThrow bwt.runs h.reader.numRuns with
    | none => none
    | some (ok, r1, runs) => some (ok, r1, { bwt with runs := runs })

/-- The bytes of a BWT file: the header with its `num_runs` field, then one
byte per run (section 4.H of the spec). -/
def bwtFile (num_strings num_suffixes : Nat) (runs : List RLUnit) : List Nat :=
  leBytes 2 BWT_FILE_MAGIC ++ leBytes SIZEOF_SIZE_T num_strings ++
    leBytes SIZEOF_SIZE_T num_suffixes ++ leBytes SIZEOF_SIZE_T runs.length ++
    leBytes SIZEOF_FLAG BWF_NOFMI ++ runs.map RLUnit.data

/-! ## Sequence coordinates and overlaps -/

/-- An interval `[start, end)` of positions. -/
structure Interval where
  start : Nat
  end_ : Nat
deriving DecidableEq, Repr

/-- Modelled from the spec: `SeqCoord` (its header is not among the sources) is
a half-open interval into a sequence of known length `seqlen`. -/
structure SeqCoord where
  interval : Interval
  seqlen : Nat
deriving DecidableEq, Repr

namespace SeqCoord

/-- Spec: `isLeftExtreme` is `start == 0`. -/
def isLeftExtreme (c : SeqCoord) : Bool := decide (c.interval.start = 0)

/-- Spec: `isRightExtreme` is `end == L`. -/
def isRightExtreme (c : SeqCoord) : Bool := decide (c.interval.end_ = c.seqlen)

/-- Spec: `isExtreme` is either extreme. -/
def isExtreme (c : SeqCoord) : Bool := c.isLeftExtreme || c.isRightExtreme

/-- Spec: `length = end - start`. -/
def length (c : SeqCoord) : Nat := c.interval.end_ - c.interval.start

/-- Whether the coordinate spans the whole sequence. -/
def isFull (c : SeqCoord) : Bool := c.isLeftExtreme && c.isRightExtreme

end SeqCoord

/-- Modelled from the spec: the match of an overlap, with one coordinate per
read and the flag `isRC`. -/
structure Match where
  coords0 : SeqCoord
  coords1 : SeqCoord
  isRC : Bool
deriving DecidableEq, Repr

/-- Spec: `isContainment` holds when one coordinate spans its whole sequence
while the other does not. -/
def Match.isContainment (m : Match) : Bool :=
  (m.coords0.isFull && !m.coords1.isFull) || (m.coords1.isFull && !m.coords0.isFull)

/-- Spec: the overlap length is the length of either coordinate. -/
def Match.length (m : Match) : Nat := m.coords0.length

/-- An overlap between the reads `id0` and `id1` (`id[0]`, `id[1]`). -/
structure Overlap where
  id0 : String
  id1 : String
  match_ : Match
deriving DecidableEq, Repr

/-! ## Vertices, edges and the graph (`bigraph.cpp`) -/

/-- The direction `Edge::Dir`. -/
inductive Dir where
  | ED_SENSE
  | ED_ANTISENSE
deriving DecidableEq, Repr

/-- The orientation `Edge::Comp`. -/
inductive Comp where
  | EC_SAME
  | EC_REVERSE
deriving DecidableEq, Repr

/-- The colours of vertices and edges. -/
inductive GraphColor where
  | GC_WHITE
  | GC_GRAY
  | GC_BLACK
  | GC_RED
deriving DecidableEq, Repr

/-- An edge object.  A `Vertex*` is the id of a vertex of the table and an
`Edge*` is an address of the edge store; `twin` is `none` for a null pointer. -/
structure Edge where
  end_ : String
  dir : Dir
  comp : Comp
  coord : SeqCoord
  twin : Option Nat
  color : GraphColor
deriving DecidableEq, Repr

/-- A vertex object; `edges` is the list `_edges` of edge pointers. -/
structure Vertex where
  id : String
  seq : String
  edges : List Nat
  color : GraphColor
  contained : Bool
deriving DecidableEq, Repr

/-- The constructor `Vertex(id, seq)`. -/
def Vertex.new (id seq : String) : Vertex :=
  { id := id, seq := seq, edges := [], color := GraphColor.GC_WHITE, contained := false }

/-- Modelled from the spec: `Vertex::degrees()`, the number of edges of the
vertex. -/
def Vertex.degrees (v : Vertex) : Nat := v.edges.length

/-- Modelled from the spec: `Vertex::removeEdge(e)` finds the pointer by a
linear scan and takes it out of `_edges`. -/
def Vertex.removeEdge (v : Vertex) (p : Nat) : Vertex := { v with edges := v.edges.erase p }

/-- The graph: the vertex table (in insertion order), the flag `containment`,
and the store of the edge objects the vertices point to.  A cell of the store
is `none` once the edge has been deleted. -/
structure Bigraph where
  vertices : List Vertex
  store : List (Option Edge)
  containment : Bool
deriving DecidableEq, Repr

namespace Bigraph

/-- The graph without vertices. -/
def empty : Bigraph := { vertices := [], store := [], containment := false }

/-- The method `Bigraph::getVertex` (lines 77-83). -/
def getVertex (g : Bigraph) (id : String) : Option Vertex :=
  g.vertices.find? (fun v => decide (v.id = id))

/-- The method `Bigraph::addVertex` (lines 68-75). -/
def addVertex (g : Bigraph) (vertex : Vertex) : Bool × Bigraph :=
  match g.getVertex vertex.id with
  | some _ => (false, g)
  | none => (true, { g with vertices := g.vertices ++ [vertex] })

/-- The edge object at an address, if it is live. -/
def deref (g : Bigraph) (p : Nat) : Option Edge := (g.store[p]?).join

/-- The expression `new Edge(end, dir, comp, coord)`: the new object gets the
next address of the store; its twin is null. -/
def newEdge (g : Bigraph) (end_ : String) (dir : Dir) (comp : Comp) (coord : SeqCoord) :
    Nat × Bigraph :=
  (g.store.length,
    { g with store := g.store ++
        [some { end_ := end_, dir := dir, comp := comp, coord := coord, twin := none,
                color := GraphColor.GC_WHITE }] })

/-- The call `p->twin(q)`. -/
def setTwin (g : Bigraph) (p q : Nat) : Option Bigraph :=
  match g.deref p with
  | none => none
  | some e => some { g with store := g.store.set p (some { e with twin := some q }) }

/-- The expression `delete p`. -/
def delete (g : Bigraph) (p : Nat) : Option Bigraph :=
  match g.deref p with
  | none => none
  | some _ => some { g with store := g.store.set p none }

/-- Applies `f` to the vertex object of id `id` in a vertex table. -/
def updateIn (id : String) (f : Vertex → Vertex) : List Vertex → List Vertex
  | [] => []
  | v :: vs => if v.id = id then f v :: vs else v :: updateIn id f vs

/-- Applies `f` to the vertex object of id `id`. -/
def updateVertex (g : Bigraph) (id : String) (f : Vertex → Vertex) : Bigraph :=
  { g with vertices := updateIn id f g.vertices }

/-- Modelled from the spec: `Edge::start()` is the end of the twin. -/
def edgeStart (g : Bigraph) (p : Nat) : Option String :=
  match g.deref p with
  | none => none
  | some e =>
    match e.twin with
    | none => none
    | some q =>
      match g.deref q with
      | none => none
      | some t => some t.end_

/-- The methods `Bigraph::addEdge` and `Vertex::addEdge` (lines 54-57 and
85-87), with the assertion `edge->start() == this`. -/
def addEdge (g : Bigraph) (vertex : String) (edge : Nat) : Option Bigraph :=
  match g.edgeStart edge with
  | none => none
  | some s =>
    if s = vertex then
      some (g.updateVertex vertex (fun v => { v with edges := v.edges ++ [edge] }))
    else none

end Bigraph

/-- The parameters of an `EdgeCreator`; the graph is passed to `create`. -/
structure EdgeCreator where
  allowContainments : Bool
  maxEdges : Nat
deriving DecidableEq, Repr

/-- The branch of `EdgeCreator::create` for an overlap that is not a
containment (lines 169-180). -/
def EdgeCreator.createPair (g : Bigraph) (overlap : Overlap) (comp : Comp)
    (v0 v1 : String) : Option Bigraph :=
  let coord0 := overlap.match_.coords0
  let dir0 := if coord0.isLeftExtreme = true then Dir.ED_ANTISENSE else Dir.ED_SENSE
  let (e0, g) := g.newEdge v1 dir0 comp coord0
  let coord1 := overlap.match_.coords1
  let dir1 := if coord1.isLeftExtreme = true then Dir.ED_ANTISENSE else Dir.ED_SENSE
  let (e1, g) := g.newEdge v0 dir1 comp coord1
  (g.setTwin e0 e1).bind fun g =>
  (g.setTwin e1 e0).bind fun g =>
  (g.addEdge v0 e0).bind fun g =>
  g.addEdge v1 e1

/-- The branch of `EdgeCreator::create` for a containment (lines 186-204). -/
def EdgeCreator.createContainment (g : Bigraph) (overlap : Overlap) (comp : Comp)
    (v0 v1 : String) : Option Bigraph :=
  let coord0 := overlap.match_.coords0
  let (e0, g) := g.newEdge v1 Dir.ED_SENSE comp coord0
  let (e2, g) := g.newEdge v1 Dir.ED_ANTISENSE comp coord0
  let coord1 := overlap.match_.coords1
  let (e1, g) := g.newEdge v0 Dir.ED_SENSE comp coord1
  let (e3, g) := g.newEdge v0 Dir.ED_ANTISENSE comp coord1
  (g.setTwin e0 e1).bind fun g =>
  (g.setTwin e1 e0).bind fun g =>
  (g.setTwin e2 e3).bind fun g =>
  (g.setTwin e3 e2).bind fun g =>
  (g.addEdge v0 e0).bind fun g =>
  (g.addEdge v1 e1).bind fun g =>
  (g.addEdge v0 e2).bind fun g =>
  g.addEdge v1 e3

/-- The method `EdgeCreator::create` (lines 130-208).  The result `NULL` of the
degree-cap branch converts to `false`. -/
def EdgeCreator.create (c : EdgeCreator) (g : Bigraph) (overlap : Overlap) :
    Option (Bool × Bigraph) :=
  let isContainment := overlap.match_.isContainment
  let comp := if overlap.match_.isRC = true then Comp.EC_REVERSE else Comp.EC_SAME
  match g.getVertex overlap.id0 with
  | none => some (false, g)
  | some v0 =>
    match g.getVertex overlap.id1 with
    | none => some (false, g)
    | some v1 =>
      if overlap.match_.coords0.isExtreme = false then some (false, g)
      else if overlap.match_.coords1.isExtreme = false then some (false, g)
      else if c.maxEdges < v0.degrees ∨ c.maxEdges < v1.degrees then some (false, g)
      else if isContainment = false then
        (EdgeCreator.createPair g overlap comp v0.id v1.id).map fun g => (true, g)
      else
        (EdgeCreator.createContainment g overlap comp v0.id v1.id).map fun g => (true, g)

/-! ## The ASQG loader -/

/-- The stage of the loader. -/
inductive Stage where
  | STAGE_HEAD
  | STAGE_VERTEX
  | STAGE_EDGE
deriving DecidableEq, Repr

/-- The integer value of a stage. -/
def Stage.toNat : Stage → Nat
  | Stage.STAGE_HEAD => 0
  | Stage.STAGE_VERTEX => 1
  | Stage.STAGE_EDGE => 2

/-- A vertex record `{id, seq}`. -/
structure VertexRecord where
  id : String
  seq : String
deriving DecidableEq, Repr

/-- A line of the stream, as `ASQG::recordtype` classifies it and the `parse`
function of its record type reads it (the ASQG parsers are not among the
sources): a header line with the result of its parse, a vertex or edge line
with the record parsed (`none` when the parse fails), or a line of no known
record type. -/
inductive Line where
  | header (parsed : Bool)
  | vertex (record : Option VertexRecord)
  | edge (overlap : Option Overlap)
  | unknown
deriving DecidableEq, Repr

/-- The arguments of `loadASQG` besides the stream and the graph. -/
structure LoadConfig where
  minOverlap : Nat
  allowContainments : Bool
  maxEdges : Nat
deriving DecidableEq, Repr

/-- What one round of the loop of `loadASQG` does: go on to the next line, or
return false. -/
inductive Step where
  | next (stage : Stage) (g : Bigraph)
  | fail (g : Bigraph)
deriving DecidableEq, Repr

/-- The body of the loop of `loadASQG` (lines 225-288) on one line. -/
def loadASQG.step (cfg : LoadConfig) (stage : Stage) (g : Bigraph) : Line → Option Step
  | Line.header parsed =>
    if stage ≠ Stage.STAGE_HEAD then some (Step.fail g)
    else if parsed = false then some (Step.fail g)
    else some (Step.next stage g)
  | Line.vertex record =>
    let stage := if stage = Stage.STAGE_HEAD then Stage.STAGE_VERTEX else stage
    if stage ≠ Stage.STAGE_VERTEX then some (Step.fail g)
    else
      match record with
      | none => some (Step.fail g)
      | some record =>
        match g.addVertex (Vertex.new record.id record.seq) with
        | (false, g) => some (Step.fail g)
        | (true, g) => some (Step.next stage g)
  | Line.edge overlap =>
    let stage := if stage = Stage.STAGE_VERTEX then Stage.STAGE_EDGE else stage
    if stage ≠ Stage.STAGE_EDGE then some (Step.fail g)
    else
      match overlap with
      | none => some (Step.fail g)
      | some ovr =>
        if cfg.minOverlap ≤ ovr.match_.length then
          match EdgeCreator.create ⟨cfg.allowContainments, cfg.maxEdges⟩ g ovr with
          | none => none
          | some (false, g) => some (Step.fail g)
          | some (true, g) => some (Step.next stage g)
        else some (Step.next stage g)
  | Line.unknown => some (Step.fail g)

/-- The loop of `loadASQG` over the lines of the stream: the result, the stage
reached and the graph. -/
def loadASQG.loop (cfg : LoadConfig) : List Line → Stage → Bigraph → Option (Bool × Stage × Bigraph)
  | [], stage, g => some (true, stage, g)
  | line :: rest, stage, g =>
    match loadASQG.step cfg stage g line with
    | none => none
    | some (Step.fail g) => some (false, stage, g)
    | some (Step.next stage g) => loadASQG.loop cfg rest stage g

/-- The function `loadASQG` on a stream (lines 215-292). -/
def loadASQG (stream : List Line) (cfg : LoadConfig) (g : Bigraph) : Option (Bool × Bigraph) :=
  (loadASQG.loop cfg stream Stage.STAGE_HEAD g).map fun r => (r.1, r.2.2)

/-! ## The contain-remove visitor (`bigraph_visitors.cpp`) -/

/-- The state of a `ContainRemoveVisitor`: the counter `_contained`. -/
structure ContainRemoveVisitor where
  contained : Nat
deriving DecidableEq, Repr

/-- The loop of `ContainRemoveVisitor::visit` (lines 93-103) over the copy
`edges` of the edge list of `vertex`.  `SAFE_DELETE(p)` deletes the object `p`
points to, if `p` is not null. -/
def ContainRemoveVisitor.removeLoop (vertex : String) : List Nat → Bigraph → Option Bigraph
  | [], g => some g
  | edge :: rest, g =>
    match g.deref edge with
    | none => none
    | some e =>
      match g.getVertex e.end_ with
      | none => none
      | some _ =>
        match e.twin with
        | none =>
          let g := g.updateVertex vertex (fun v => v.removeEdge edge)
          (g.delete edge).bind fun g => ContainRemoveVisitor.removeLoop vertex rest g
        | some twin =>
          let g := g.updateVertex e.end_ (fun v => v.removeEdge twin)
          let g := g.updateVertex vertex (fun v => v.removeEdge edge)
          (g.delete twin).bind fun g =>
          (g.delete edge).bind fun g => ContainRemoveVisitor.removeLoop vertex rest g

/-- The method `ContainRemoveVisitor::visit` (lines 86-111) on the vertex of id
`vertex`. -/
def ContainRemoveVisitor.visit (s : ContainRemoveVisitor) (g : Bigraph) (vertex : String) :
    Option (Bool × ContainRemoveVisitor × Bigraph) :=
  match g.getVertex vertex with
  | none => none
  | some v =>
    if v.contained = true then
      (ContainRemoveVisitor.removeLoop vertex v.edges g).map fun g =>
        (true, { contained := s.contained + 1 },
          g.updateVertex vertex (fun v => { v with color := GraphColor.GC_BLACK }))
    else some (false, s, g)

/-- Twin consistency of a graph: every edge `e` stored on a vertex `v` is
live, its twin `t` is live, `t.twin == e`, `t.end == v` and `t` is stored on
`e.end`. -/
def TwinConsistent (g : Bigraph) : Prop :=
  ∀ (id : String) (v : Vertex), g.getVertex id = some v → ∀ p ∈ v.edges,
    ∃ (e : Edge) (q : Nat) (t : Edge) (w : Vertex),
      g.deref p = some e ∧ e.twin = some q ∧ g.deref q = some t ∧ t.twin = some p ∧
      t.end_ = id ∧ g.getVertex e.end_ = some w ∧ q ∈ w.edges

/-- Whether a line is a header record. -/
def Line.isHeader : Line → Bool
  | Line.header _ => true
  | _ => false

/-- Whether a line is a vertex record. -/
def Line.isVertex : Line → Bool
  | Line.vertex _ => true
  | _ => false

/-- Whether a line is an edge record. -/
def Line.isEdge : Line → Bool
  | Line.edge _ => true
  | _ => false

/-- A line that is out of order after the lines `pre`: a header record after a
vertex or edge record, a vertex record after an edge record, or a line of
unknown record type. -/
def OutOfOrder (pre : List Line) (line : Line) : Prop :=
  (line.isHeader = true ∧ ∃ l ∈ pre, l.isVertex = true ∨ l.isEdge = true) ∨
  (line.isVertex = true ∧ ∃ l ∈ pre, l.isEdge = true) ∨
  line = Line.unknown

/-! ## Concrete inputs -/

/-- The runs `A x 3, C x 3`: the column `AAACCC`. -/
def exampleRuns : List RLUnit := [⟨3⟩, ⟨35⟩]

/-- A graph of two reads, `A` of 10 bases and `B` of 12 bases, without
edges. -/
def exampleGraph : Bigraph :=
  { vertices := [Vertex.new "A" "ACGTAACGTA", Vertex.new "B" "ACGTATTTTTTT"],
    store := [], containment := false }

/-- The last 5 bases of `A` overlap the first 5 bases of `B`. -/
def exampleOverlap : Overlap :=
  { id0 := "A", id1 := "B",
    match_ := { coords0 := ⟨⟨5, 10⟩, 10⟩, coords1 := ⟨⟨0, 5⟩, 12⟩, isRC := false } }

/-- The whole of `A` matches the first 10 bases of `B`: a containment. -/
def exampleContainment : Overlap :=
  { id0 := "A", id1 := "B",
    match_ := { coords0 := ⟨⟨0, 10⟩, 10⟩, coords1 := ⟨⟨0, 10⟩, 12⟩, isRC := true } }

/-- An overlap whose left coord is `[2, 5]` on the 10-base read `A`: not
extreme. -/
def exampleNonExtreme : Overlap :=
  { id0 := "A", id1 := "B",
    match_ := { coords0 := ⟨⟨2, 5⟩, 10⟩, coords1 := ⟨⟨0, 3⟩, 12⟩, isRC := false } }

/-- The last 5 bases of `A` overlap its own first 5 bases. -/
def selfOverlap : Overlap :=
  { id0 := "A", id1 := "A",
    match_ := { coords0 := ⟨⟨5, 10⟩, 10⟩, coords1 := ⟨⟨0, 5⟩, 10⟩, isRC := false } }

/-- A stream with one read and its overlap with itself. -/
def selfLoopStream : List Line :=
  [Line.header true, Line.vertex (some ⟨"A", "ACGTAACGTA"⟩), Line.edge (some selfOverlap)]

/-- The graph `loadASQG` builds from `selfLoopStream`: the vertex `A` with a
pair of twinned self edges. -/
def selfLoopLoaded : Bigraph :=
  { vertices := [{ id := "A", seq := "ACGTAACGTA", edges := [0, 1],
                   color := GraphColor.GC_WHITE, contained := false }],
    store := [some { end_ := "A", dir := Dir.ED_SENSE, comp := Comp.EC_SAME,
                     coord := ⟨⟨5, 10⟩, 10⟩, twin := some 1, color := GraphColor.GC_WHITE },
              some { end_ := "A", dir := Dir.ED_ANTISENSE, comp := Comp.EC_SAME,
                     coord := ⟨⟨0, 5⟩, 10⟩, twin := some 0, color := GraphColor.GC_WHITE }],
    containment := false }

/-- The graph `selfLoopLoaded` after the read `A` has been flagged as
contained. -/
def selfLoopGraph : Bigraph :=
  selfLoopLoaded.updateVertex "A" (fun v => { v with contained := true })

/-- An overlap of the read `A` with a read `B`. -/
def overlapAB : Overlap :=
  { id0 := "A", id1 := "B",
    match_ := { coords0 := ⟨⟨5, 10⟩, 10⟩, coords1 := ⟨⟨0, 5⟩, 12⟩, isRC := false } }

/-- An overlap of the read `A` with the read `C`. -/
def overlapAC : Overlap :=
  { id0 := "A", id1 := "C",
    match_ := { coords0 := ⟨⟨5, 10⟩, 10⟩, coords1 := ⟨⟨0, 5⟩, 10⟩, isRC := false } }

/-- A stream whose first edge record names the read `B`, which is not a vertex
of the file, and whose second edge record is an overlap of `A` and `C`. -/
def softSkipStream : List Line :=
  [Line.header true,
   Line.vertex (some ⟨"A", "ACGTAACGTA"⟩),
   Line.vertex (some ⟨"C", "ACGTATTTTT"⟩),
   Line.edge (some overlapAB),
   Line.edge (some overlapAC)]

/-! ## Definitions used by the statements and proofs -/

/-- The first 18 bytes of a BWT file: magic, `num_strings`, `num_suffixes`. -/
def headPart (s f : Nat) : List Nat :=
  leBytes 2 BWT_FILE_MAGIC ++ (leBytes SIZEOF_SIZE_T s ++ leBytes SIZEOF_SIZE_T f)

/-- The state of a writer between `writeHeader` and `finalize`: the stream is
good, positioned at its end, and holds the bytes `pre` it started with, the
header with a zero `num_runs`, and the bytes of the runs `R` written so far. -/
structure WriterInv (pre : List Nat) (s f : Nat) (R : List RLUnit) (w : BWTWriter) : Prop where
  stream : w.stream =
    ⟨(pre ++ headPart s f) ++ (leBytes SIZEOF_SIZE_T 0 ++
        (leBytes SIZEOF_FLAG BWF_NOFMI ++ R.map RLUnit.data)),
      ((pre ++ headPart s f) ++ (leBytes SIZEOF_SIZE_T 0 ++
        (leBytes SIZEOF_FLAG BWF_NOFMI ++ R.map RLUnit.data))).length, true⟩
  posRun : w.posRun = (pre ++ headPart s f).length
  numRuns : w.numRuns = R.length
  curr : w.currRun.data < 256

/-- A small suffix array: the three suffixes of the read `AC$` in sorted
order. -/
def exampleSA : SuffixArray := ⟨1, [⟨0, 2⟩, ⟨0, 0⟩, ⟨0, 1⟩]⟩

/-- The read of `exampleSA`. -/
def exampleReads : List DNASeq := [⟨"read0", ['A', 'C'], []⟩]

/-- The BWT file of `exampleSA`: its column is `C$A`, three runs of one
symbol. -/
def exampleFile : List Nat := bwtFile 1 3 [RLUnit.ofChar 'C', RLUnit.ofChar '$', RLUnit.ofChar 'A']

/-- The 30 bytes of a header with the magic, one string, three suffixes and the
field `num_runs` set to `n`, with no run byte after them. -/
def headerOnly (n : Nat) : List Nat :=
  leBytes 2 BWT_FILE_MAGIC ++ leBytes SIZEOF_SIZE_T 1 ++ leBytes SIZEOF_SIZE_T 3 ++
    leBytes SIZEOF_SIZE_T n ++ leBytes SIZEOF_FLAG BWF_NOFMI

/-- The graph that the non-containment branch of `create` builds. -/
def pairResult (g : Bigraph) (overlap : Overlap) (comp : Comp) (v0 v1 : String) : Bigraph :=
  { vertices :=
      Bigraph.updateIn v1 (fun v => { v with edges := v.edges ++ [g.store.length + 1] })
        (Bigraph.updateIn v0 (fun v => { v with edges := v.edges ++ [g.store.length] })
          g.vertices),
    store := g.store ++
      [some { end_ := v1,
              dir := if overlap.match_.coords0.isLeftExtreme = true then Dir.ED_ANTISENSE
                     else Dir.ED_SENSE,
              comp := comp, coord := overlap.match_.coords0,
              twin := some (g.store.length + 1), color := GraphColor.GC_WHITE },
       some { end_ := v0,
              dir := if overlap.match_.coords1.isLeftExtreme = true then Dir.ED_ANTISENSE
                     else Dir.ED_SENSE,
              comp := comp, coord := overlap.match_.coords1,
              twin := some g.store.length, color := GraphColor.GC_WHITE }],
    containment := g.containment }

/-- The graph that the containment branch of `create` builds. -/
def containResult (g : Bigraph) (overlap : Overlap) (comp : Comp) (v0 v1 : String) : Bigraph :=
  { vertices :=
      Bigraph.updateIn v1 (fun v => { v with edges := v.edges ++ [g.store.length + 3] })
        (Bigraph.updateIn v0 (fun v => { v with edges := v.edges ++ [g.store.length + 1] })
          (Bigraph.updateIn v1 (fun v => { v with edges := v.edges ++ [g.store.length + 2] })
            (Bigraph.updateIn v0 (fun v => { v with edges := v.edges ++ [g.store.length] })
              g.vertices))),
    store := g.store ++
      [some { end_ := v1, dir := Dir.ED_SENSE, comp := comp,
              coord := overlap.match_.coords0, twin := some (g.store.length + 2),
              color := GraphColor.GC_WHITE },
       some { end_ := v1, dir := Dir.ED_ANTISENSE, comp := comp,
              coord := overlap.match_.coords0, twin := some (g.store.length + 3),
              color := GraphColor.GC_WHITE },
       some { end_ := v0, dir := Dir.ED_SENSE, comp := comp,
              coord := overlap.match_.coords1, twin := some g.store.length,
              color := GraphColor.GC_WHITE },
       some { end_ := v0, dir := Dir.ED_ANTISENSE, comp := comp,
              coord := overlap.match_.coords1, twin := some (g.store.length + 1),
              color := GraphColor.GC_WHITE }],
    containment := g.containment }

/-! ## Edge lists by direction, labels and merging -/

/-- The pointers of `ps` whose edge has direction `dir`; `none` when a pointer
of `ps` is not a live edge. -/
def Bigraph.filterDir (g : Bigraph) (dir : Dir) : List Nat → Option (List Nat)
  | [] => some []
  | p :: ps =>
    match g.deref p with
    | none => none
    | some e => (Bigraph.filterDir g dir ps).map fun r => if e.dir = dir then p :: r else r

/-- Modelled from the spec: `Vertex::edges(dir)`, the filter of `_edges` by
direction. -/
def Bigraph.edgesDir (g : Bigraph) (v : Vertex) (dir : Dir) : Option (List Nat) :=
  g.filterDir dir v.edges

/-- Modelled from the spec: `Vertex::degrees(dir)`, the number of edges of the
vertex in direction `dir`. -/
def Bigraph.degreesDir (g : Bigraph) (v : Vertex) (dir : Dir) : Option Nat :=
  (g.edgesDir v dir).map List.length

/-- Modelled from the spec: `Edge::isSelf()` is `start == end`. -/
def Bigraph.isSelf (g : Bigraph) (p : Nat) : Option Bool :=
  match g.deref p, g.edgeStart p with
  | some e, some s => some (decide (s = e.end_))
  | _, _ => none

/-- The overlap length `coord().length()` of the edge at `p` (0 when `p` is
not a live edge; the callers read it only for live edges). -/
def Bigraph.lenOf (g : Bigraph) (p : Nat) : Nat :=
  match g.deref p with
  | some e => e.coord.length
  | none => 0

/-- Modelled from the spec: `SeqCoord::complement`, the remaining interval
`[end, L)` of a left-extreme coord and `[0, start)` of a right-extreme coord;
undefined for a coord that is not extreme. -/
def SeqCoord.complement (c : SeqCoord) : Option SeqCoord :=
  if c.isLeftExtreme = true then some ⟨⟨c.interval.end_, c.seqlen⟩, c.seqlen⟩
  else if c.isRightExtreme = true then some ⟨⟨0, c.interval.start⟩, c.seqlen⟩
  else none

/-- The complement of a base (A with T, C with G); other characters stay. -/
def complementBase (c : Char) : Char :=
  if c = 'A' then 'T' else if c = 'T' then 'A' else if c = 'C' then 'G'
  else if c = 'G' then 'C' else c

/-- The function `make_reverse_complement_dna` (of `kseq.h`, not among the
sources; the test `KSeq_transform` fixes reverse and complement). -/
def make_reverse_complement_dna (s : List Char) : List Char :=
  (s.reverse).map complementBase

/-- The call `seq.substr(pos, n)`: throws when `pos` is past the end. -/
def substr (s : List Char) (pos n : Nat) : Option (List Char) :=
  if s.length < pos then none else some ((s.drop pos).take n)

/-- The method `Edge::label` (lines 21-31) of the edge at `p`. -/
def Bigraph.label (g : Bigraph) (p : Nat) : Option (List Char) :=
  match g.deref p with
  | none => none
  | some e =>
    match e.twin with
    | none => none
    | some q =>
      match g.deref q with
      | none => none
      | some t =>
        match t.coord.complement with
        | none => none
        | some unmatched =>
          match g.getVertex e.end_ with
          | none => none
          | some endv =>
            match substr endv.seq.data unmatched.interval.start unmatched.length with
            | none => none
            | some label =>
              if e.comp = Comp.EC_REVERSE then some (make_reverse_complement_dna label)
              else some label

/-- The method `Vertex::merge` (lines 42-52): it reads the twin of the edge and
computes the label of the edge; it changes nothing. -/
def Bigraph.vertexMerge (g : Bigraph) (vertex : String) (edge : Nat) : Option Bigraph :=
  match g.getVertex vertex, g.deref edge, g.label edge with
  | some _, some _, some _ => some g
  | _, _, _ => none

/-- The method `Bigraph::merge` (lines 94-99). -/
def Bigraph.merge (g : Bigraph) (start : String) (edge : Nat) : Option Bigraph :=
  match g.deref edge with
  | none => none
  | some _ => g.vertexMerge start edge

/-- The body of the `for` loop of `Bigraph::simplify(dir)` (lines 106-120) on
the vertex of id `vertex`: the graph afterwards and whether `merge` was
called. -/
def Bigraph.simplifyVertex (g : Bigraph) (dir : Dir) (vertex : String) :
    Option (Bool × Bigraph) :=
  match g.getVertex vertex with
  | none => none
  | some v =>
    match g.edgesDir v dir with
    | none => none
    | some [single] =>
      match g.isSelf single with
      | none => none
      | some true => some (false, g)
      | some false =>
        match g.deref single with
        | none => none
        | some e =>
          match e.twin with
          | none => none
          | some twin =>
            match g.deref twin, g.getVertex e.end_ with
            | some t, some endv =>
              match g.degreesDir endv t.dir with
              | none => none
              | some d =>
                if d = 1 then (g.merge vertex single).map fun g => (true, g)
                else some (false, g)
            | _, _ => none
    | some _ => some (false, g)

/-- One pass of the `for` loop of `Bigraph::simplify(dir)` over the vertices
`ids` of the table: the value of `changed` and the graph afterwards. -/
def Bigraph.simplifyPass (dir : Dir) : List String → Bool → Bigraph → Option (Bool × Bigraph)
  | [], changed, g => some (changed, g)
  | vertex :: rest, changed, g =>
    match g.simplifyVertex dir vertex with
    | none => none
    | some (merged, g) => Bigraph.simplifyPass dir rest (changed || merged) g

/-- The `while (changed)` loop of `Bigraph::simplify(dir)` (lines 101-123),
run for at most `fuel` passes; `none` when a pass fails or when more passes are
needed. -/
def Bigraph.simplifyDir (dir : Dir) : Nat → Bigraph → Option Bigraph
  | 0, _ => none
  | fuel + 1, g =>
    match Bigraph.simplifyPass dir (g.vertices.map Vertex.id) false g with
    | none => none
    | some (true, g) => Bigraph.simplifyDir dir fuel g
    | some (false, g) => some g

/-- The method `Bigraph::simplify()` (lines 89-92), each direction run for at
most `fuel` passes. -/
def Bigraph.simplify (fuel : Nat) (g : Bigraph) : Option Bigraph :=
  (Bigraph.simplifyDir Dir.ED_SENSE fuel g).bind fun g =>
    Bigraph.simplifyDir Dir.ED_ANTISENSE fuel g

/-- Modelled from the spec: `Bigraph::color(c)`, the mass colouring of the
vertices and of their edges. -/
def Bigraph.color (g : Bigraph) (c : GraphColor) : Bigraph :=
  { g with vertices := g.vertices.map (fun v => { v with color := c }),
           store := g.store.map (Option.map fun e => { e with color := c }) }

/-- The call `p->color(c)` on an edge. -/
def Bigraph.setEdgeColor (g : Bigraph) (p : Nat) (c : GraphColor) : Option Bigraph :=
  match g.deref p with
  | none => none
  | some e => some { g with store := g.store.set p (some { e with color := c }) }

/-- Every pointer held by the graph points to a live object: the edges stored
on a vertex are live, their twin is a live edge and their end is a vertex of the
table. -/
def Bigraph.Valid (g : Bigraph) : Prop :=
  ∀ (id : String) (v : Vertex), g.getVertex id = some v → ∀ p ∈ v.edges,
    ∃ (e : Edge) (q : Nat) (t : Edge) (w : Vertex),
      g.deref p = some e ∧ e.twin = some q ∧ g.deref q = some t ∧
      g.getVertex e.end_ = some w

/-! ## Visitors (`bigraph_visitors.cpp`) -/

/-- The method `ContainRemoveVisitor::previsit` (lines 75-84). -/
def ContainRemoveVisitor.previsit (_s : ContainRemoveVisitor) (g : Bigraph) :
    ContainRemoveVisitor × Bigraph :=
  ({ contained := 0 }, { g.color GraphColor.GC_WHITE with containment := false })

/-- The state of a `ChimericVisitor`. -/
structure ChimericVisitor where
  minLength : Nat
  delta : Nat
  chimeric : Nat
deriving DecidableEq, Repr

/-- The test of the loops at lines 43-47 and 51-55 of `ChimericVisitor::visit`:
some edge of `edges` is longer than the edge `ref`, by at least `delta`. -/
def ChimericVisitor.hasLonger (g : Bigraph) (delta : Nat) (ref : Nat) (edges : List Nat) : Bool :=
  edges.any fun k =>
    decide (g.lenOf ref < g.lenOf k) && decide (delta ≤ g.lenOf k - g.lenOf ref)

/-- The method `ChimericVisitor::visit` (lines 22-66) on the vertex of id
`vertex`. -/
def ChimericVisitor.visit (s : ChimericVisitor) (g : Bigraph) (vertex : String) :
    Option (Bool × ChimericVisitor × Bigraph) :=
  match g.getVertex vertex with
  | none => none
  | some v =>
    match g.edgesDir v Dir.ED_SENSE with
    | none => none
    | some [nextEdge] =>
      match g.edgesDir v Dir.ED_ANTISENSE with
      | none => none
      | some [prevEdge] =>
        if v.seq.length < s.minLength then
          match g.deref prevEdge, g.deref nextEdge with
          | some pe, some ne =>
            match g.getVertex pe.end_ with
            | none => none
            | some prevVert =>
              match g.edgesDir prevVert Dir.ED_SENSE with
              | none => none
              | some pedges =>
                if pedges.length < 2 then some (false, s, g)
                else
                  match g.getVertex ne.end_ with
                  | none => none
                  | some nextVert =>
                    match g.edgesDir nextVert Dir.ED_ANTISENSE with
                    | none => none
                    | some nedges =>
                      if nedges.length < 2 then some (false, s, g)
                      else if (ChimericVisitor.hasLonger g s.delta prevEdge pedges ||
                          ChimericVisitor.hasLonger g s.delta nextEdge nedges) = true then
                        some (true, { s with chimeric := s.chimeric + 1 },
                          g.updateVertex vertex
                            (fun v => { v with color := GraphColor.GC_BLACK }))
                      else some (false, s, g)
          | _, _ => none
        else some (false, s, g)
      | some _ => some (false, s, g)
    | some _ => some (false, s, g)

/-- The state of a `TrimVisitor`. -/
structure TrimVisitor where
  minLength : Nat
  island : Nat
  terminal : Nat
deriving DecidableEq, Repr

/-- The method `TrimVisitor::visit` (lines 398-425) on the vertex of id
`vertex`; the directions are tried in the order SENSE, ANTISENSE. -/
def TrimVisitor.visit (s : TrimVisitor) (g : Bigraph) (vertex : String) :
    Option (Bool × TrimVisitor × Bigraph) :=
  match g.getVertex vertex with
  | none => none
  | some v =>
    if v.degrees = 0 then
      if v.seq.length < s.minLength then
        some (true, { s with island := s.island + 1 },
          g.updateVertex vertex (fun v => { v with color := GraphColor.GC_BLACK }))
      else some (false, s, g)
    else
      match g.degreesDir v Dir.ED_SENSE with
      | none => none
      | some d0 =>
        if d0 = 0 ∧ v.seq.length < s.minLength then
          some (true, { s with terminal := s.terminal + 1 },
            g.updateVertex vertex (fun v => { v with color := GraphColor.GC_BLACK }))
        else
          match g.degreesDir v Dir.ED_ANTISENSE with
          | none => none
          | some d1 =>
            if d1 = 0 ∧ v.seq.length < s.minLength then
              some (true, { s with terminal := s.terminal + 1 },
                g.updateVertex vertex (fun v => { v with color := GraphColor.GC_BLACK }))
            else some (false, s, g)

/-- The counters of a `StatisticsVisitor`. -/
structure StatisticsVisitor where
  terminal : Nat
  island : Nat
  monobranch : Nat
  dibranch : Nat
  simple : Nat
  edges : Nat
  vertics : Nat
deriving DecidableEq, Repr

/-- The method `StatisticsVisitor::previsit` (lines 349-357). -/
def StatisticsVisitor.previsit (_s : StatisticsVisitor) (g : Bigraph) :
    StatisticsVisitor × Bigraph :=
  ({ terminal := 0, island := 0, monobranch := 0, dibranch := 0, simple := 0, edges := 0,
     vertics := 0 }, g)

/-- The method `StatisticsVisitor::visit` (lines 359-383) on the vertex of id
`vertex`. -/
def StatisticsVisitor.visit (s : StatisticsVisitor) (g : Bigraph) (vertex : String) :
    Option (Bool × StatisticsVisitor × Bigraph) :=
  match g.getVertex vertex with
  | none => none
  | some v =>
    match g.degreesDir v Dir.ED_SENSE, g.degreesDir v Dir.ED_ANTISENSE with
    | some fdegrees, some rdegrees =>
      let s := if fdegrees = 0 ∧ rdegrees = 0 then { s with island := s.island + 1 }
        else if fdegrees = 0 ∨ rdegrees = 0 then { s with terminal := s.terminal + 1 }
        else s
      let s := if 1 < fdegrees ∧ 1 < rdegrees then { s with dibranch := s.dibranch + 1 }
        else if 1 < fdegrees ∨ 1 < rdegrees then { s with monobranch := s.monobranch + 1 }
        else s
      let s := if fdegrees = 1 ∨ rdegrees = 1 then { s with simple := s.simple + 1 } else s
      some (false, { s with edges := s.edges + (fdegrees + rdegrees),
                            vertics := s.vertics + 1 }, g)
    | _, _ => none

/-- The driver of a visitor on the vertices `ids`, one call of `visit` per
vertex, for the statistics visitor. -/
def StatisticsVisitor.visitAll :
    List String → StatisticsVisitor → Bigraph → Option (StatisticsVisitor × Bigraph)
  | [], s, g => some (s, g)
  | vertex :: rest, s, g =>
    match s.visit g vertex with
    | none => none
    | some (_, s, g) => StatisticsVisitor.visitAll rest s g

/-- The vertices `vs` added to the graph one after the other with
`Bigraph::addVertex`. -/
def Bigraph.addAll : List Vertex → Bigraph → Bigraph
  | [], g => g
  | v :: vs, g => Bigraph.addAll vs (g.addVertex v).2

/-- All edge pointers stored on the vertices of the graph. -/
def Bigraph.storedEdges (g : Bigraph) : List Nat := g.vertices.flatMap Vertex.edges

/-- The twin pointer of the edge at `p` (`p` itself when there is none). -/
def Bigraph.twinOf (g : Bigraph) (p : Nat) : Nat :=
  match g.deref p with
  | some e => e.twin.getD p
  | none => p

/-- The number of twin pairs: the stored edges that come before their twin in
the store, one per pair. -/
def Bigraph.twinPairs (g : Bigraph) : Nat :=
  (g.storedEdges.filter fun p => decide (p < g.twinOf p)).length

/-- A graph at rest, as the data model describes it: the ids of the table are
unique, the graph is twin consistent, every edge object is stored once (it is
owned by its starting vertex) and no edge is its own twin (twins form a
2-cycle). -/
structure Bigraph.AtRest (g : Bigraph) : Prop where
  ids : (g.vertices.map Vertex.id).Nodup
  twins : TwinConsistent g
  once : g.storedEdges.Nodup
  pair : ∀ p ∈ g.storedEdges, g.twinOf p ≠ p

/-- The degree `degrees(SENSE) + degrees(ANTISENSE)` of a vertex (0 for a
degree that cannot be read). -/
def Bigraph.bothDegrees (g : Bigraph) (v : Vertex) : Nat :=
  (g.degreesDir v Dir.ED_SENSE).getD 0 + (g.degreesDir v Dir.ED_ANTISENSE).getD 0

/-- A check of twin consistency that can be run: for every vertex that its id
finds and every edge stored on it, the edge and its twin are live, the twin
points back, ends at the vertex and is stored on the end of the edge. -/
def Bigraph.checkTwins (g : Bigraph) : Bool :=
  g.vertices.all fun v =>
    !decide (g.getVertex v.id = some v) ||
    v.edges.all fun p =>
      match g.deref p with
      | none => false
      | some e =>
        match e.twin with
        | none => false
        | some q =>
          match g.deref q, g.getVertex e.end_ with
          | some t, some w =>
            decide (t.twin = some p) && decide (t.end_ = v.id) && decide (q ∈ w.edges)
          | _, _ => false

/-- The condition of the claim for a chimeric vertex `v`: one edge in each
direction, a sequence shorter than `minLength`, at least two SENSE edges on the
end `prev` of the ANTISENSE edge, at least two ANTISENSE edges on the end `next`
of the SENSE edge, and a SENSE edge of `prev` or an ANTISENSE edge of `next`
that is longer than the edge of `v` to that neighbour, by at least `delta`. -/
def ChimericVisitor.IsChimeric (s : ChimericVisitor) (g : Bigraph) (v : Vertex) : Prop :=
  ∃ (prevEdge nextEdge : Nat) (pe ne : Edge) (prevVert nextVert : Vertex)
    (pedges nedges : List Nat),
    g.edgesDir v Dir.ED_SENSE = some [nextEdge] ∧
    g.edgesDir v Dir.ED_ANTISENSE = some [prevEdge] ∧
    v.seq.length < s.minLength ∧
    g.deref prevEdge = some pe ∧ g.deref nextEdge = some ne ∧
    g.getVertex pe.end_ = some prevVert ∧ g.getVertex ne.end_ = some nextVert ∧
    g.edgesDir prevVert Dir.ED_SENSE = some pedges ∧
    g.edgesDir nextVert Dir.ED_ANTISENSE = some nedges ∧
    2 ≤ pedges.length ∧ 2 ≤ nedges.length ∧
    ((∃ k ∈ pedges, g.lenOf prevEdge < g.lenOf k ∧ s.delta ≤ g.lenOf k - g.lenOf prevEdge) ∨
     (∃ k ∈ nedges, g.lenOf nextEdge < g.lenOf k ∧ s.delta ≤ g.lenOf k - g.lenOf nextEdge))

/-- The condition under which `simplify(dir)` merges at the vertex `v`: the
vertex has a single edge `p` in direction `dir`, the edge does not end at `v`,
and the end of the edge has exactly one edge in the direction of the twin. -/
def Bigraph.Mergeable (g : Bigraph) (dir : Dir) (v : Vertex) : Prop :=
  ∃ (p : Nat) (e : Edge) (q : Nat) (t : Edge) (w : Vertex),
    g.edgesDir v dir = some [p] ∧ g.deref p = some e ∧ e.end_ ≠ v.id ∧
    e.twin = some q ∧ g.deref q = some t ∧ g.getVertex e.end_ = some w ∧
    g.degreesDir w t.dir = some 1

/-- The graph of the reads `reads` (id and sequence) with the edges that
`EdgeCreator::create` builds for the overlaps `overlaps`, in this order. -/
def graphOf (reads : List (String × String)) (overlaps : List Overlap) : Bigraph :=
  overlaps.foldl
    (fun g o =>
      match EdgeCreator.create { allowContainments := true, maxEdges := 128 } g o with
      | some (_, g1) => g1
      | none => g)
    (Bigraph.addAll (reads.map fun r => Vertex.new r.1 r.2) Bigraph.empty)

/-- The overlap of the last `n` bases of the read `a` (of `la` bases) with the
first `n` bases of the read `b` (of `lb` bases), both on the same strand. -/
def suffixPrefix (a : String) (la : Nat) (b : String) (lb : Nat) (n : Nat) : Overlap :=
  { id0 := a, id1 := b,
    match_ := { coords0 := ⟨⟨la - n, la⟩, la⟩, coords1 := ⟨⟨0, n⟩, lb⟩, isRC := false } }

/-- The linear chain of the reads `A`, `B`, `C`: the last two bases of `A` are
the first two of `B`, and the last two of `B` the first two of `C`. -/
def chainGraph : Bigraph :=
  graphOf [("A", "ACGT"), ("B", "GTAC"), ("C", "ACCC")]
    [suffixPrefix "A" 4 "B" 4 2, suffixPrefix "B" 4 "C" 4 2]

/-! ## The maximal-overlap visitor (`bigraph_visitors.cpp`) -/

/-- The state of a `MaximalOverlapVisitor`: the parameter `_delta` and the
counter `_dummys`. -/
structure MaximalOverlapVisitor where
  delta : Nat
  dummys : Nat
deriving DecidableEq, Repr

/-- The method `MaximalOverlapVisitor::isSenseEdge` (lines 202-204).  Modelled
from the spec: `edge->match().isRC` is the orientation of the edge, `comp ==
EC_REVERSE`. -/
def MaximalOverlapVisitor.isSenseEdge (e : Edge) : Bool :=
  (!decide (e.comp = Comp.EC_REVERSE) && decide (e.dir = Dir.ED_SENSE)) ||
    (decide (e.comp = Comp.EC_REVERSE) && decide (e.dir = Dir.ED_ANTISENSE))

/-- The method `MaximalOverlapVisitor::isAntiSenseEdge` (lines 206-208). -/
def MaximalOverlapVisitor.isAntiSenseEdge (e : Edge) : Bool :=
  !MaximalOverlapVisitor.isSenseEdge e

/-- The entry of `PredicateEdgeArray` for the index of the direction `dir`
(SENSE is direction 0, ANTISENSE is direction 1). -/
def MaximalOverlapVisitor.predicateEdge : Dir → Edge → Bool
  | Dir.ED_SENSE => MaximalOverlapVisitor.isSenseEdge
  | Dir.ED_ANTISENSE => MaximalOverlapVisitor.isAntiSenseEdge

/-- The calls `std::remove_if(…, pred)` and `resize` on a list of edge
pointers: the pointers whose edge does not satisfy `pred`, in their order;
`none` when a pointer is not a live edge. -/
def Bigraph.removeIf (g : Bigraph) (pred : Edge → Bool) : List Nat → Option (List Nat)
  | [] => some []
  | p :: ps =>
    match g.deref p with
    | none => none
    | some e => (Bigraph.removeIf g pred ps).map fun r => if pred e = true then r else p :: r

/-- The scan of `std::min_element` with `OverlapCmp` (lines 140-145): the
candidate `m` is replaced by `y` when `OverlapCmp()(y, m)`, that is when `y` is
longer than `m`. -/
def Bigraph.minElementFrom (g : Bigraph) : Nat → List Nat → Nat
  | m, [] => m
  | m, y :: ys => Bigraph.minElementFrom g (if g.lenOf m < g.lenOf y then y else m) ys

/-- The call `std::min_element(begin, end, OverlapCmp())`; `none` for the end
iterator of an empty list. -/
def Bigraph.minElement (g : Bigraph) : List Nat → Option Nat
  | [] => none
  | x :: xs => some (g.minElementFrom x xs)

/-- The call `std::sort(begin, end, OverlapCmp())`: the edges by overlap length,
longest first.  The order `std::sort` gives to edges of the same length is not
fixed; the model keeps them in the order of an insertion sort. -/
def Bigraph.sortByOverlap (g : Bigraph) (edges : List Nat) : List Nat :=
  edges.insertionSort fun x y => g.lenOf y ≤ g.lenOf x

/-- The tests of lines 167-180 of `MaximalOverlapVisitor::visit` on the edge
`edge` (not BLACK) against the first edge `first` of the sorted list, for the
value `delta` of `_delta`: whether the edge is to be coloured.  The subtractions are those of `size_t`; the
assertion `!redges.empty()` is the case `none` of `minElement`. -/
def MaximalOverlapVisitor.dropsEdge (delta : Nat) (g : Bigraph) (dir : Dir)
    (first edge : Nat) : Option Bool :=
  match g.deref edge with
  | none => none
  | some e =>
    if sub64 (g.lenOf first) e.coord.length ≤ delta then some false
    else
      match g.getVertex e.end_ with
      | none => none
      | some w =>
        match g.removeIf (MaximalOverlapVisitor.predicateEdge dir) w.edges with
        | none => none
        | some redges =>
          match g.minElement redges with
          | none => none
          | some largest =>
            if sub64 (g.lenOf largest) e.coord.length ≤ delta then some false
            else some true

/-- The loop over `j` of `MaximalOverlapVisitor::visit` (lines 162-190) on the
edges `edges[1..]` of the sorted list, with `first` the edge `edges[0]`.  The
log lines are not modelled. -/
def MaximalOverlapVisitor.visitEdges (dir : Dir) (first : Nat) :
    List Nat → Bool → MaximalOverlapVisitor → Bigraph →
      Option (Bool × MaximalOverlapVisitor × Bigraph)
  | [], modified, s, g => some (modified, s, g)
  | edge :: rest, modified, s, g =>
    match g.deref edge with
    | none => none
    | some e =>
      if e.color = GraphColor.GC_BLACK then
        MaximalOverlapVisitor.visitEdges dir first rest modified s g
      else
        match MaximalOverlapVisitor.dropsEdge s.delta g dir first edge with
        | none => none
        | some false => MaximalOverlapVisitor.visitEdges dir first rest modified s g
        | some true =>
          match e.twin with
          | none => none
          | some twin =>
            match g.setEdgeColor edge GraphColor.GC_BLACK with
            | none => none
            | some g1 =>
              match g1.setEdgeColor twin GraphColor.GC_BLACK with
              | none => none
              | some g2 =>
                MaximalOverlapVisitor.visitEdges dir first rest true
                  { s with dummys := s.dummys + 1 } g2

/-- The body of the loop over the directions of `MaximalOverlapVisitor::visit`
(lines 157-190) for the direction `dir`. -/
def MaximalOverlapVisitor.visitDir (dir : Dir) (modified : Bool) (s : MaximalOverlapVisitor)
    (g : Bigraph) (vertex : String) : Option (Bool × MaximalOverlapVisitor × Bigraph) :=
  match g.getVertex vertex with
  | none => none
  | some v =>
    match g.edgesDir v dir with
    | none => none
    | some edges =>
      match g.sortByOverlap edges with
      | [] => some (modified, s, g)
      | first :: rest => MaximalOverlapVisitor.visitEdges dir first rest modified s g

/-- The method `MaximalOverlapVisitor::visit` (lines 147-195) on the vertex of
id `vertex`: the direction SENSE, then the direction ANTISENSE. -/
def MaximalOverlapVisitor.visit (s : MaximalOverlapVisitor) (g : Bigraph) (vertex : String) :
    Option (Bool × MaximalOverlapVisitor × Bigraph) :=
  match MaximalOverlapVisitor.visitDir Dir.ED_SENSE false s g vertex with
  | none => none
  | some (modified, s, g) => MaximalOverlapVisitor.visitDir Dir.ED_ANTISENSE modified s g vertex

/-- Whether the edge at `p` is live and BLACK. -/
def Bigraph.isBlack (g : Bigraph) (p : Nat) : Bool :=
  match g.deref p with
  | some e => decide (e.color = GraphColor.GC_BLACK)
  | none => false

/-- The graph `g1` is the graph `g` with some of its edges coloured BLACK:
nothing else differs. -/
structure Bigraph.Recolored (g g1 : Bigraph) : Prop where
  vertices : g1.vertices = g.vertices
  containment : g1.containment = g.containment
  edges : ∀ p : Nat, g1.deref p = g.deref p ∨
    ∃ e, g.deref p = some e ∧ g1.deref p = some { e with color := GraphColor.GC_BLACK }

/-- The greatest overlap length of the edges `l` (0 for no edge). -/
def Bigraph.maxLen (g : Bigraph) (l : List Nat) : Nat :=
  l.foldr (fun p m => max (g.lenOf p) m) 0

/-- The least overlap length of the edges `l` (0 for no edge). -/
def Bigraph.minLen (g : Bigraph) : List Nat → Nat
  | [] => 0
  | [p] => g.lenOf p
  | p :: q :: l => min (g.lenOf p) (Bigraph.minLen g (q :: l))

/-- Whether the twin of the edge at `p` passes the filter of the reciprocal
sense that `MaximalOverlapVisitor::visit` applies for the direction of the
edge. -/
def Bigraph.reciprocalTwin (g : Bigraph) (p : Nat) : Bool :=
  match g.deref p with
  | none => false
  | some e =>
    match g.deref (g.twinOf p) with
    | none => false
    | some t => !MaximalOverlapVisitor.predicateEdge e.dir t

/-- The twin of every stored edge is of the reciprocal sense: an edge and its
twin have opposite directions when the reads are on the same strand and the
same direction when one is reverse-complemented. -/
def Bigraph.Oriented (g : Bigraph) : Prop :=
  ∀ v ∈ g.vertices, ∀ p ∈ v.edges, g.reciprocalTwin p = true

/-- The tests of `MaximalOverlapVisitor::visit` on the edge `j` of the vertex
`v` in direction `dir`, stated on lengths: the edge is one of the edges `edges`
of `v` in that direction, the greatest length among `edges` exceeds its length
by more than `delta`, and so does the greatest length among the edges `redges`
of the reciprocal sense on its end (the differences are those of `size_t`). -/
def MaximalOverlapVisitor.MarksIn (delta : Nat) (g : Bigraph) (v : Vertex) (dir : Dir)
    (j : Nat) : Prop :=
  ∃ (edges : List Nat) (e : Edge) (w : Vertex) (redges : List Nat),
    g.edgesDir v dir = some edges ∧ j ∈ edges ∧ g.deref j = some e ∧
    delta < sub64 (g.maxLen edges) e.coord.length ∧
    g.getVertex e.end_ = some w ∧
    g.removeIf (MaximalOverlapVisitor.predicateEdge dir) w.edges = some redges ∧
    delta < sub64 (g.maxLen redges) e.coord.length

/-- The condition under which `MaximalOverlapVisitor::visit` colours the edge
`j` of the vertex `v`: the edge is not BLACK and passes the two tests on
lengths in the direction it has. -/
def MaximalOverlapVisitor.Marks (s : MaximalOverlapVisitor) (g : Bigraph) (v : Vertex)
    (j : Nat) : Prop :=
  g.isBlack j = false ∧ ∃ dir : Dir, MaximalOverlapVisitor.MarksIn s.delta g v dir j

/-- A read of `n` bases `A`. -/
def polyA (n : Nat) : String := String.mk (List.replicate n 'A')

/-- Four reads of 60 bases: the last 30 bases of `V` overlap `U`, the last 10
bases of `V` overlap `W`, and the last 50 bases of `X` overlap `W`. -/
def overlapGraph : Bigraph :=
  graphOf [("V", polyA 60), ("U", polyA 60), ("W", polyA 60), ("X", polyA 60)]
    [suffixPrefix "V" 60 "U" 60 30, suffixPrefix "V" 60 "W" 60 10,
     suffixPrefix "X" 60 "W" 60 50]

/-- The vertex `V` of `overlapGraph`, with its two SENSE edges. -/
def overlapV : Vertex :=
  { id := "V", seq := polyA 60, edges := [0, 2], color := GraphColor.GC_WHITE,
    contained := false }

/-- The chain of the reads `A`, `B`, `C` after the read `B` has been flagged as
contained. -/
def chainContained : Bigraph :=
  chainGraph.updateVertex "B" (fun v => { v with contained := true })

/-- The reads of the trimming scenario: the pendant `T` of 20 bases, whose last
10 bases overlap the central read `M`, and the read `R` that the last 30 bases
of `M` overlap. -/
def trimGraph : Bigraph :=
  graphOf [("M", polyA 60), ("T", polyA 20), ("R", polyA 60)]
    [suffixPrefix "T" 20 "M" 60 10, suffixPrefix "M" 60 "R" 60 30]

/-- The vertex `T` of `trimGraph`, with its one SENSE edge. -/
def trimT : Vertex :=
  { id := "T", seq := polyA 20, edges := [0], color := GraphColor.GC_WHITE,
    contained := false }

/-- The reads of the chimeric scenario: the short read `X` of 30 bases between
`P` and `N` with overlaps of 20; `P` also overlaps `Q` by 40 and `Q2` by 30, and
`R` overlaps `N` by 40. -/
def chimericGraph : Bigraph :=
  graphOf [("X", polyA 30), ("P", polyA 60), ("N", polyA 60), ("Q", polyA 60),
           ("Q2", polyA 60), ("R", polyA 60)]
    [suffixPrefix "P" 60 "X" 30 20, suffixPrefix "X" 30 "N" 60 20,
     suffixPrefix "P" 60 "Q" 60 40, suffixPrefix "P" 60 "Q2" 60 30,
     suffixPrefix "R" 60 "N" 60 40]

/-- The vertex `X` of `chimericGraph`: the edge 1 to `P` and the edge 2 to
`N`. -/
def chimericX : Vertex :=
  { id := "X", seq := polyA 30, edges := [1, 2], color := GraphColor.GC_WHITE,
    contained := false }

/-- The graph `g` is the graph `g0` after the edges `P` and their twins have
been taken out of the edge lists and deleted: the vertices are those of `g0`
with the same id, sequence, colour and flag, an edge list holds an edge of `g0`
exactly when the edge is neither in `P` nor a twin of an edge of `P`, and these
edges are the deleted cells of the store. -/
structure ContainRemoveVisitor.Removed (g0 g : Bigraph) (P : List Nat) : Prop where
  vertex : ∀ (id : String) (u0 : Vertex), g0.getVertex id = some u0 →
    ∃ u, g.getVertex id = some u ∧ u.id = u0.id ∧ u.seq = u0.seq ∧ u.color = u0.color ∧
      u.contained = u0.contained ∧ u.edges.Nodup ∧
      ∀ x, x ∈ u.edges ↔ (x ∈ u0.edges ∧ x ∉ P ∧ x ∉ P.map g0.twinOf)
  absent : ∀ id : String, g0.getVertex id = none → g.getVertex id = none
  store : ∀ x : Nat, g.deref x = if x ∈ P ∨ x ∈ P.map g0.twinOf then none else g0.deref x

/-! ## DNA sequence transforms (`kseq.h`) -/

/-- Modelled from the spec: `DNASeq::make_reverse` (of `kseq.h`, not among the
sources; the test `KSeq_transform` fixes its result on `ACGTGAC`) puts the
bases of `seq` in reverse order. -/
def DNASeq.make_reverse (s : DNASeq) : DNASeq := { s with seq := s.seq.reverse }

/-- Modelled from the spec: `DNASeq::make_complement` (of `kseq.h`, not among
the sources) replaces every base of `seq` by its complement, in place. -/
def DNASeq.make_complement (s : DNASeq) : DNASeq :=
  { s with seq := s.seq.map complementBase }

/-- The sequence `DNASeq seq("test", "ACGTGAC")` of the test `KSeq_transform`. -/
def exampleSeq : DNASeq :=
  { name := "test", seq := ['A', 'C', 'G', 'T', 'G', 'A', 'C'], quality := [] }

/-- A stream of two reads and one overlap record, the overlap of the last 5
bases of `A` with the first 5 bases of `C`. -/
def shortEdgeStream : List Line :=
  [Line.header true,
   Line.vertex (some ⟨"A", "ACGTAACGTA"⟩),
   Line.vertex (some ⟨"C", "ACGTATTTTT"⟩)]

/-- A stream without vertex records: the header record, then the overlap record
of the last 5 bases of `A` with the first 5 bases of `C`. -/
def edgeFirstStream : List Line :=
  [Line.header true, Line.edge (some overlapAC)]

/-- The number of symbols of the runs. -/
def totalOf (runs : List RLUnit) : Nat := (runs.map RLUnit.count).sum

/-- The per-symbol totals of the runs: for each symbol of the alphabet, in
canonical order, the number of its occurrences in the decoded column. -/
def symbolCounts (runs : List RLUnit) : List Nat :=
  DNAAlphabet.DNA_ALL.map fun c => (decodeRuns runs).count c

/-- The runs of a BWT: every run has a count of at least 1 (at most 31 by its
five bits) and the rank of a symbol of the alphabet. -/
def ValidRuns (runs : List RLUnit) : Prop :=
  ∀ u ∈ runs, 1 ≤ u.count ∧ u.rank < DNAAlphabet.ALL_SIZE

/-- The number of markers that `MarkerFill::initialize` allocates for `n`
symbols. -/
def requiredMarkers (n rate : Nat) : Nat :=
  if n % rate = 0 then n / rate + 1 else n / rate + 2

/-- The last run does not cross a sampled position: the number of symbols is a
multiple of the rate, or no multiple of the rate lies after the start of the
last run and at or before its end. -/
def LastRunFits (runs : List RLUnit) (rate : Nat) : Prop :=
  totalOf runs % rate = 0 ∨ totalOf runs.dropLast / rate = totalOf runs / rate

/-- The unit index `u` of the marker of the sampled position `pos`: the first
run boundary at or after `pos`, or the end of the runs when there is none. -/
def IsMarkerUnit (runs : List RLUnit) (pos u : Nat) : Prop :=
  u ≤ runs.length ∧ (pos ≤ totalOf (runs.take u) ∨ u = runs.length) ∧
    ∀ v < u, totalOf (runs.take v) < pos

/-- The value of the large marker `k`: the unit index of the sampled position
`k * 8192` and the per-symbol totals of the runs before it. -/
def LargeMarker.IsAt (runs : List RLUnit) (k : Nat) (m : LargeMarker) : Prop :=
  ∃ u, IsMarkerUnit runs (k * DEFAULT_SAMPLE_RATE_LARGE) u ∧
    m = ⟨u, symbolCounts (runs.take u)⟩

/-- The value of the small marker `k` for the sample rate `rate`: with `u` the
unit index of the sampled position `k * rate` and `uL` the unit index of the
large marker `k * rate / 8192` it refers to, the differences of the unit
indices and of the per-symbol totals, as integers; they are at most 65535. -/
def SmallMarker.IsAt (runs : List RLUnit) (rate k : Nat) (m : SmallMarker) : Prop :=
  ∃ u uL, IsMarkerUnit runs (k * rate) u ∧
    IsMarkerUnit runs (k * rate / DEFAULT_SAMPLE_RATE_LARGE * DEFAULT_SAMPLE_RATE_LARGE) uL ∧
    uL ≤ u ∧ u - uL ≤ 65535 ∧
    (∀ c, (decodeRuns (runs.take uL)).count c ≤ (decodeRuns (runs.take u)).count c ∧
      (decodeRuns (runs.take u)).count c - (decodeRuns (runs.take uL)).count c ≤ 65535) ∧
    m = ⟨u - uL, DNAAlphabet.DNA_ALL.map fun c =>
      (decodeRuns (runs.take u)).count c - (decodeRuns (runs.take uL)).count c⟩

/-- The loop shared by `LargeMarkerFill::fill` and `SmallMarkerFill::fill`
(lines 59-73 and 83-106): `mk` gives the marker to store for the expected
position, or nothing when it reads a large marker out of bounds. -/
def MarkerFill.placeLoop {M : Type} (mk : Nat → Option M) :
    Nat → MarkerFill M → Nat → Bool → Option (MarkerFill M)
  | 0, _, _, _ => none
  | fuel + 1, f, total, lastOne =>
    if f.nextPos ≤ total ∨ lastOne = true then
      if ¬ (f.currIdx * f.sampleRate ≤ total ∨ lastOne = true) then none
      else if ¬ (f.currIdx < f.markers.length) then none
      else
        match mk (f.currIdx * f.sampleRate) with
        | none => none
        | some marker =>
          MarkerFill.placeLoop mk fuel
            { f with markers := f.markers.set f.currIdx marker,
                     currIdx := f.currIdx + 1, nextPos := f.nextPos + f.sampleRate }
            total (lastOne && decide (f.nextPos + f.sampleRate ≤ total))
    else some f

/-- The value of `_currIdx` of a filler of rate `rate` after the first `u`
runs: one more than the number of sampled positions reached; after the last
run, one more again when the last run has crossed no sampled position. -/
def markerIndex (runs : List RLUnit) (rate u : Nat) : Nat :=
  if u < runs.length ∨ runs.length = 0 then totalOf (runs.take u) / rate + 1
  else if totalOf runs.dropLast / rate + 1 ≤ totalOf runs / rate then totalOf runs / rate + 1
  else totalOf runs.dropLast / rate + 2

/-- The small marker that `SmallMarkerFill::fill` stores for the expected
position `pos` (lines 94-102). -/
def SmallMarkerFill.marker (lmarkers : List LargeMarker) (counts : List Nat) (unitIndex : Nat)
    (pos : Nat) : Option SmallMarker :=
  (lmarkers[pos / DEFAULT_SAMPLE_RATE_LARGE]?).map fun lmarker =>
    { unitIndex := u16 (sub64 unitIndex lmarker.unitIndex),
      counts := List.zipWith (fun c l => u16 (sub64 c l)) counts lmarker.counts }

/-- The state of the run loop of `FMIndex::initialize` after the first `u`
runs of `runs`, for a BWT of `totalOf runs` symbols and the small rate `rate`:
the counts and the total are those of the runs read, both fillers have placed
the markers of the sampled positions reached, every marker placed has the
value of its sampled position, and the large marker that a placed small marker
refers to is placed. -/
structure FillState.Inv (runs : List RLUnit) (rate u : Nat) (s : FillState) : Prop where
  counts : s.counts = symbolCounts (runs.take u)
  total : s.total = totalOf (runs.take u)
  rate1 : s.f1.sampleRate = DEFAULT_SAMPLE_RATE_LARGE
  rate2 : s.f2.sampleRate = rate
  len1 : s.f1.markers.length = requiredMarkers (totalOf runs) DEFAULT_SAMPLE_RATE_LARGE
  len2 : s.f2.markers.length = requiredMarkers (totalOf runs) rate
  next1 : s.f1.nextPos = s.f1.currIdx * DEFAULT_SAMPLE_RATE_LARGE
  next2 : s.f2.nextPos = s.f2.currIdx * rate
  idx1 : s.f1.currIdx = markerIndex runs DEFAULT_SAMPLE_RATE_LARGE u
  idx2 : s.f2.currIdx = markerIndex runs rate u
  placed1 : ∀ k < s.f1.currIdx, ∃ m, s.f1.markers[k]? = some m ∧ LargeMarker.IsAt runs k m
  placed2 : ∀ k < s.f2.currIdx, ∃ m, s.f2.markers[k]? = some m ∧ SmallMarker.IsAt runs rate k m
  link : ∀ k < s.f2.currIdx, k * rate / DEFAULT_SAMPLE_RATE_LARGE < s.f1.currIdx

/-- The state of the run loop of `FMIndex::initialize` before the first run
(lines 114-125): zero counts and the two fillers just constructed. -/
def FMIndex.startState (x : FMIndex) : FillState :=
  { counts := List.replicate DNAAlphabet.ALL_SIZE 0, total := 0,
    f1 := MarkerFill.initialize LargeMarker.zero x.lmarkers x.bwt.length
      DEFAULT_SAMPLE_RATE_LARGE,
    f2 := MarkerFill.initialize SmallMarker.zero x.smarkers x.bwt.length x.sampleRate }

/-- A BWT of 8193 symbols whose last run crosses the sampled position 8192:
264 runs `A x 31`, then `C x 7` and `G x 2`. -/
def crossingRuns : List RLUnit := List.replicate 264 ⟨31⟩ ++ [⟨39⟩, ⟨66⟩]

/-! ## The reciprocal edges of `MaximalOverlapVisitor::visit` -/

/-- Whether the edge at `p` and its twin are the two edges of one overlap with
the directions that its flag `isRC` asks for: both carry the orientation of the
overlap (`isRC` is read as `comp == EC_REVERSE`, as `isSenseEdge` reads it), and
they have the same direction exactly when the overlap is reverse-complemented. -/
def Bigraph.twinRule (g : Bigraph) (p : Nat) : Bool :=
  match g.deref p, g.deref (g.twinOf p) with
  | some e, some t =>
    decide (t.comp = e.comp) &&
      (decide (t.dir = e.dir) == decide (e.comp = Comp.EC_REVERSE))
  | _, _ => false

/-- Every stored edge and its twin have the same direction exactly when their
overlap is reverse-complemented. -/
def Bigraph.DirectionRule (g : Bigraph) : Prop :=
  ∀ v ∈ g.vertices, ∀ p ∈ v.edges, g.twinRule p = true

/-- The two coordinates of every overlap match in length: every stored edge
has the overlap length of its twin. -/
def Bigraph.TwinLengths (g : Bigraph) : Prop :=
  ∀ v ∈ g.vertices, ∀ p ∈ v.edges, g.lenOf (g.twinOf p) = g.lenOf p

/-- Whether the edge at `p` is a containment edge: of its coordinate and the
coordinate of its twin, one spans its whole read and the other does not. -/
def Bigraph.isContainmentEdge (g : Bigraph) (p : Nat) : Bool :=
  match g.deref p, g.deref (g.twinOf p) with
  | some e, some t =>
    (e.coord.isFull && !t.coord.isFull) || (t.coord.isFull && !e.coord.isFull)
  | _, _ => false

/-- The graph has no containment edges. -/
def Bigraph.NoContainmentEdges (g : Bigraph) : Prop :=
  ∀ v ∈ g.vertices, ∀ p ∈ v.edges, g.isContainmentEdge p = false

/-- An overlap whose two coordinates differ in length: the last 20 bases of the
read `V` against the first 10 bases of the read `W`, on the same strand. -/
def unevenOverlap : Overlap :=
  { id0 := "V", id1 := "W",
    match_ := { coords0 := ⟨⟨40, 60⟩, 60⟩, coords1 := ⟨⟨0, 10⟩, 60⟩, isRC := false } }

/-- Three reads of 60 bases: the last 30 bases of `V` overlap `U`, and `V` and
`W` have the overlap `unevenOverlap`. -/
def unevenGraph : Bigraph :=
  graphOf [("V", polyA 60), ("U", polyA 60), ("W", polyA 60)]
    [suffixPrefix "V" 60 "U" 60 30, unevenOverlap]

/-! # Theorems -/

/-! ## Lemmas on bytes and streams -/

theorem leBytes_length (k n : Nat) : (leBytes k n).length = k := by
  induction k generalizing n with
  | zero => rfl
  | succ k ih => simp [leBytes, ih]

theorem leValue_leBytes (k n : Nat) : leValue (leBytes k n) = n % 256 ^ k := by
  induction k generalizing n with
  | zero => simp [leBytes, leValue, Nat.mod_one]
  | succ k ih =>
    simp only [leBytes, leValue, ih, Nat.mod_mod]
    rw [pow_succ, mul_comm (256 ^ k) 256, Nat.mod_mul]

theorem OStream.write_at_end (b bs : List Nat) :
    OStream.write ⟨b, b.length, true⟩ bs = ⟨b ++ bs, (b ++ bs).length, true⟩ := by
  simp [OStream.write]

theorem OStream.patch (p z z1 t : List Nat) (n : Nat) (hz : z.length = z1.length) :
    OStream.write (OStream.seekp ⟨p ++ (z ++ t), n, true⟩ p.length) z1
      = ⟨p ++ (z1 ++ t), p.length + z1.length, true⟩ := by
  simp [OStream.write, OStream.seekp, ← hz]

theorem IStream.read_chunk (p a t old : List Nat) :
    IStream.read ⟨p ++ (a ++ t), p.length, true⟩ a.length old
      = (true, a, ⟨p ++ (a ++ t), p.length + a.length, true⟩) := by
  simp [IStream.read]

/-! ## Lemmas on run units -/

theorem RLUnit.ofChar_count (c : Char) : (RLUnit.ofChar c).count = 1 := by
  simp only [RLUnit.ofChar, RLUnit.count]; omega

theorem RLUnit.ofChar_data_lt (c : Char) : (RLUnit.ofChar c).data < 256 := by
  simp only [RLUnit.ofChar]; omega

theorem RLUnit.ofChar_initialized (c : Char) : (RLUnit.ofChar c).initialized = true := by
  simp [RLUnit.initialized, RLUnit.ofChar_count]

theorem RLUnit.ofChar_toChar (c : Char) (h : c ∈ DNAAlphabet.DNA_ALL) :
    (RLUnit.ofChar c).toChar = c := by
  simp only [DNAAlphabet.DNA_ALL, List.mem_cons, List.mem_singleton, List.not_mem_nil,
    or_false] at h
  rcases h with rfl | rfl | rfl | rfl | rfl | rfl <;> decide

theorem RLUnit.incr_spec (u : RLUnit) (h2 : u.full = false) :
    u.incr.count = u.count + 1 ∧ u.incr.rank = u.rank ∧ u.incr.data < 256 := by
  simp only [RLUnit.full, decide_eq_false_iff_not, RLUnit.count] at h2
  simp only [RLUnit.incr, RLUnit.count, RLUnit.rank]
  omega

theorem decodeRuns_append (a b : List RLUnit) :
    decodeRuns (a ++ b) = decodeRuns a ++ decodeRuns b := by
  simp [decodeRuns]

theorem decodeRuns_single (u : RLUnit) :
    decodeRuns [u] = List.replicate u.count u.toChar := by
  simp [decodeRuns]

theorem decodeRuns_length (runs : List RLUnit) :
    (decodeRuns runs).length = (runs.map RLUnit.count).sum := by
  induction runs with
  | nil => rfl
  | cons u rest ih =>
    have h : decodeRuns (u :: rest) = decodeRuns [u] ++ decodeRuns rest :=
      decodeRuns_append [u] rest
    simp [h, decodeRuns_single, ih]

/-! ## The writer keeps a well-formed file -/

theorem BWTWriter.writeHeader_inv (pre : List Nat) (s f : Nat) :
    ∃ w, (BWTWriter.new ⟨pre, pre.length, true⟩).writeHeader s f BWF_NOFMI = some (true, w) ∧
      WriterInv pre s f [] w ∧ w.currRun = RLUnit.empty := by
  have e : (BWTWriter.new ⟨pre, pre.length, true⟩).writeHeader s f BWF_NOFMI =
      some (true,
        { stream := ⟨(pre ++ headPart s f) ++ (leBytes SIZEOF_SIZE_T 0 ++
              (leBytes SIZEOF_FLAG BWF_NOFMI ++ [])),
            ((pre ++ headPart s f) ++ (leBytes SIZEOF_SIZE_T 0 ++
              (leBytes SIZEOF_FLAG BWF_NOFMI ++ []))).length, true⟩,
          posRun := (pre ++ headPart s f).length, numRuns := 0, currRun := RLUnit.empty }) := by
    simp only [BWTWriter.writeHeader, BWTWriter.new, OStream.write_at_end]
    simp [headPart, List.append_assoc]
  refine ⟨_, e, ⟨?_, rfl, rfl, ?_⟩, rfl⟩
  · simp
  · simp [RLUnit.empty]

theorem BWTWriter.writeRun_inv {pre : List Nat} {s f : Nat} {R : List RLUnit} {w : BWTWriter}
    (h : WriterInv pre s f R w) (u : RLUnit) (hu : u.data < 256) :
    ∃ w1, w.writeRun u = (true, w1) ∧ WriterInv pre s f (R ++ [u]) w1 ∧
      w1.currRun = w.currRun := by
  have e : w.writeRun u = (true, { w with
      stream := ⟨(pre ++ headPart s f) ++ (leBytes SIZEOF_SIZE_T 0 ++
          (leBytes SIZEOF_FLAG BWF_NOFMI ++ (R ++ [u]).map RLUnit.data)),
        ((pre ++ headPart s f) ++ (leBytes SIZEOF_SIZE_T 0 ++
          (leBytes SIZEOF_FLAG BWF_NOFMI ++ (R ++ [u]).map RLUnit.data))).length, true⟩,
      numRuns := w.numRuns + 1 }) := by
    simp only [BWTWriter.writeRun, h.stream, OStream.write_at_end]
    simp [Nat.mod_eq_of_lt hu, List.append_assoc]
  refine ⟨_, e, ⟨rfl, h.posRun, ?_, h.curr⟩, rfl⟩
  simp [h.numRuns]

theorem WriterInv.setCurr {pre : List Nat} {s f : Nat} {R : List RLUnit} {w : BWTWriter}
    (h : WriterInv pre s f R w) (u : RLUnit) (hu : u.data < 256) :
    WriterInv pre s f R { w with currRun := u } :=
  ⟨h.stream, h.posRun, h.numRuns, hu⟩

theorem BWTWriter.writeChar_inv {pre : List Nat} {s f : Nat} {R : List RLUnit} {w : BWTWriter}
    (h : WriterInv pre s f R w) (c : Char) :
    ∃ R1 w1, w.writeChar c = (true, w1) ∧ WriterInv pre s f R1 w1 ∧
      w1.currRun.initialized = true ∧
      R1.length + 1 ≤ R.length + (if w.currRun.initialized = true then 1 else 0) + 1 ∧
      (c ∈ DNAAlphabet.DNA_ALL →
        decodeRuns (R1 ++ [w1.currRun]) = decodeRuns (R ++ [w.currRun]) ++ [c]) := by
  by_cases hinit : w.currRun.initialized = true
  · by_cases hc : w.currRun.eqChar c = true ∧ w.currRun.full = false
    · obtain ⟨hcnt, hrank, hlt⟩ := RLUnit.incr_spec w.currRun hc.2
      refine ⟨R, { w with currRun := w.currRun.incr }, ?_, h.setCurr _ hlt, ?_, ?_, ?_⟩
      · simp [BWTWriter.writeChar, hinit, hc]
      · simp [RLUnit.initialized, hcnt]
      · simp [hinit]
      · intro _
        have htc : w.currRun.incr.toChar = c := by
          have := hc.1
          simp only [RLUnit.eqChar, beq_iff_eq, RLUnit.toChar] at this
          simp only [RLUnit.toChar, hrank, this]
        have htc0 : w.currRun.toChar = c := by
          have := hc.1
          simpa only [RLUnit.eqChar, beq_iff_eq] using this
        simp only [decodeRuns_append, decodeRuns_single, hcnt, htc, htc0, List.replicate_succ',
          List.append_assoc]
    · obtain ⟨w1, e, inv, hcurr⟩ := BWTWriter.writeRun_inv h w.currRun h.curr
      refine ⟨R ++ [w.currRun], { w1 with currRun := RLUnit.ofChar c }, ?_,
        inv.setCurr _ (RLUnit.ofChar_data_lt c), RLUnit.ofChar_initialized c, ?_, ?_⟩
      · simp [BWTWriter.writeChar, hinit, hc, e]
      · simp [hinit]
      · intro hmem
        simp only [decodeRuns_append, decodeRuns_single, RLUnit.ofChar_count,
          RLUnit.ofChar_toChar c hmem, List.replicate_one]
  · refine ⟨R, { w with currRun := RLUnit.ofChar c }, ?_,
      h.setCurr _ (RLUnit.ofChar_data_lt c), RLUnit.ofChar_initialized c, ?_, ?_⟩
    · simp [BWTWriter.writeChar, hinit]
    · simp
    · intro hmem
      have h0 : w.currRun.count = 0 := by
        simp only [RLUnit.initialized, decide_eq_true_eq] at hinit
        omega
      simp only [decodeRuns_append, decodeRuns_single, RLUnit.ofChar_count,
        RLUnit.ofChar_toChar c hmem, List.replicate_one, h0, List.replicate_zero,
        List.append_nil]

theorem BWTWriter.writeLoop_inv {pre : List Nat} {s f : Nat} (seqs : List DNASeq) :
    ∀ (elems : List Elem) (R : List RLUnit) (w : BWTWriter) (res : Bool × BWTWriter),
      WriterInv pre s f R w → BWTWriter.writeLoop seqs elems w = some res →
      ∃ R1 cs, res.1 = true ∧ WriterInv pre s f R1 res.2 ∧
        elems.map (BWTWriter.charOf seqs) = cs.map some ∧
        R1.length + (if res.2.currRun.initialized = true then 1 else 0) ≤
          R.length + (if w.currRun.initialized = true then 1 else 0) + elems.length ∧
        ((∀ c ∈ cs, c ∈ DNAAlphabet.DNA_ALL) →
          decodeRuns (R1 ++ [res.2.currRun]) = decodeRuns (R ++ [w.currRun]) ++ cs) := by
  intro elems
  induction elems with
  | nil =>
    intro R w res h e
    simp only [BWTWriter.writeLoop, Option.some.injEq] at e
    subst e
    exact ⟨R, [], rfl, h, rfl, by simp, by simp⟩
  | cons elem rest ih =>
    intro R w res h e
    simp only [BWTWriter.writeLoop] at e
    cases hch : BWTWriter.charOf seqs elem with
    | none => simp [hch] at e
    | some c =>
      obtain ⟨R1, w1, e1, inv1, hi1, hl1, hd1⟩ := BWTWriter.writeChar_inv h c
      simp only [hch, e1] at e
      obtain ⟨R2, cs, hr, inv2, hm, hl2, hd2⟩ := ih R1 w1 res inv1 e
      refine ⟨R2, c :: cs, hr, inv2, ?_, ?_, ?_⟩
      · simp [hch, hm]
      · simp only [hi1, if_true, List.length_cons] at hl2 ⊢
        omega
      · intro hall
        rw [hd2 (fun x hx => hall x (List.mem_cons_of_mem _ hx)),
          hd1 (hall c (List.mem_cons_self _ _))]
        simp

theorem BWTWriter.writeLoop_isSome {pre : List Nat} {s f : Nat} (seqs : List DNASeq) :
    ∀ (elems : List Elem) (R : List RLUnit) (w : BWTWriter),
      WriterInv pre s f R w → (∀ e ∈ elems, BWTWriter.charOf seqs e ≠ none) →
      BWTWriter.writeLoop seqs elems w ≠ none := by
  intro elems
  induction elems with
  | nil => intro R w _ _; simp [BWTWriter.writeLoop]
  | cons elem rest ih =>
    intro R w h hall
    simp only [BWTWriter.writeLoop]
    cases hch : BWTWriter.charOf seqs elem with
    | none => exact absurd hch (hall elem (List.mem_cons_self _ _))
    | some c =>
      obtain ⟨R1, w1, e1, inv1, _⟩ := BWTWriter.writeChar_inv h c
      simp only [e1]
      exact ih R1 w1 inv1 (fun e he => hall e (List.mem_cons_of_mem _ he))

theorem BWTWriter.finalize_tail {pre : List Nat} {s f : Nat} {R : List RLUnit} {w : BWTWriter}
    (h : WriterInv pre s f R w) :
    ((w.stream.seekp w.posRun).write (leBytes SIZEOF_SIZE_T w.numRuns)).seekp ios_base_end
      = ⟨pre ++ bwtFile s f R, ios_base_end, true⟩ := by
  rw [h.stream, h.posRun, h.numRuns, OStream.patch _ _ _ _ _ (by simp [leBytes_length])]
  have h2 : 2 ≤ pre.length +
      (2 + (SIZEOF_SIZE_T + (SIZEOF_SIZE_T + (SIZEOF_SIZE_T + (SIZEOF_FLAG + R.length))))) := by
    omega
  simp [OStream.seekp, bwtFile, headPart, List.append_assoc, leBytes_length, ios_base_end, h2]

theorem BWTWriter.finalize_inv {pre : List Nat} {s f : Nat} {R : List RLUnit} {w : BWTWriter}
    (h : WriterInv pre s f R w) :
    ∃ R1 w1, w.finalize = (true, w1) ∧ w1.stream.bytes = pre ++ bwtFile s f R1 ∧
      w1.numRuns = R1.length ∧ decodeRuns R1 = decodeRuns (R ++ [w.currRun]) ∧
      R1.length = R.length + (if w.currRun.initialized = true then 1 else 0) := by
  by_cases hinit : w.currRun.initialized = true
  · obtain ⟨w1, e, inv, _⟩ := BWTWriter.writeRun_inv h w.currRun h.curr
    refine ⟨R ++ [w.currRun], { w1 with stream := ⟨pre ++ bwtFile s f (R ++ [w.currRun]),
      ios_base_end, true⟩ }, ?_, rfl, inv.numRuns, rfl, by simp [hinit]⟩
    simp only [BWTWriter.finalize, hinit, if_true, e, BWTWriter.finalize_tail inv]
  · refine ⟨R, { w with stream := ⟨pre ++ bwtFile s f R, ios_base_end, true⟩ }, ?_, rfl,
      h.numRuns, ?_, by simp [hinit]⟩
    · have ht := BWTWriter.finalize_tail h
      simp only [BWTWriter.finalize, hinit]
      simp
      exact ⟨by rw [ht], ht⟩
    · have h0 : w.currRun.count = 0 := by
        simp only [RLUnit.initialized, decide_eq_true_eq] at hinit
        omega
      simp [decodeRuns_append, decodeRuns_single, h0]

/-! ## The reader on a well-formed file -/

theorem IStream.read_at (bytes p a t old : List Nat) (pos n : Nat)
    (hb : bytes = p ++ (a ++ t)) (hp : pos = p.length) (hn : n = a.length) :
    IStream.read ⟨bytes, pos, true⟩ n old = (true, a, ⟨bytes, pos + n, true⟩) := by
  subst hb hp hn
  exact IStream.read_chunk p a t old

theorem resize_length {α : Type} (l : List α) (n : Nat) (d : α) : (resize l n d).length = n := by
  simp only [resize, List.length_append, List.length_take, List.length_replicate]
  omega

theorem BWTReader.readHeader_bwtFile (pre : List Nat) (s f : Nat) (R : List RLUnit)
    (n0 magic0 s0 f0 flag0 : Nat) (hs : s < 2 ^ 64) (hf : f < 2 ^ 64) (hR : R.length < 2 ^ 64) :
    (BWTReader.mk ⟨pre ++ bwtFile s f R, pre.length, true⟩ n0).readHeader magic0 s0 f0 flag0 =
      { ok := true,
        reader := ⟨⟨pre ++ bwtFile s f R, pre.length + 2 + 8 + 8 + 8 + 4, true⟩, R.length⟩,
        num_strings := s, num_suffixes := f, flag := BWF_NOFMI } := by
  have r1 : ∀ old, IStream.read ⟨pre ++ bwtFile s f R, pre.length, true⟩ 2 old =
      (true, leBytes 2 BWT_FILE_MAGIC, ⟨pre ++ bwtFile s f R, pre.length + 2, true⟩) :=
    fun old => IStream.read_at _ pre _
      (leBytes 8 s ++ leBytes 8 f ++ leBytes 8 R.length ++ leBytes 4 BWF_NOFMI ++
        R.map RLUnit.data) old _ _
      (by simp [bwtFile, SIZEOF_SIZE_T, SIZEOF_FLAG]) rfl (by simp [leBytes_length])
  have r2 : ∀ old, IStream.read ⟨pre ++ bwtFile s f R, pre.length + 2, true⟩ 8 old =
      (true, leBytes 8 s, ⟨pre ++ bwtFile s f R, pre.length + 2 + 8, true⟩) :=
    fun old => IStream.read_at _ (pre ++ leBytes 2 BWT_FILE_MAGIC) _
      (leBytes 8 f ++ leBytes 8 R.length ++ leBytes 4 BWF_NOFMI ++ R.map RLUnit.data) old _ _
      (by simp [bwtFile, SIZEOF_SIZE_T, SIZEOF_FLAG]) (by simp [leBytes_length])
      (by simp [leBytes_length])
  have r3 : ∀ old, IStream.read ⟨pre ++ bwtFile s f R, pre.length + 2 + 8, true⟩ 8 old =
      (true, leBytes 8 f, ⟨pre ++ bwtFile s f R, pre.length + 2 + 8 + 8, true⟩) :=
    fun old => IStream.read_at _ (pre ++ leBytes 2 BWT_FILE_MAGIC ++ leBytes 8 s) _
      (leBytes 8 R.length ++ leBytes 4 BWF_NOFMI ++ R.map RLUnit.data) old _ _
      (by simp [bwtFile, SIZEOF_SIZE_T, SIZEOF_FLAG]) (by simp [leBytes_length])
      (by simp [leBytes_length])
  have r4 : ∀ old, IStream.read ⟨pre ++ bwtFile s f R, pre.length + 2 + 8 + 8, true⟩ 8 old =
      (true, leBytes 8 R.length, ⟨pre ++ bwtFile s f R, pre.length + 2 + 8 + 8 + 8, true⟩) :=
    fun old => IStream.read_at _
      (pre ++ leBytes 2 BWT_FILE_MAGIC ++ leBytes 8 s ++ leBytes 8 f) _
      (leBytes 4 BWF_NOFMI ++ R.map RLUnit.data) old _ _
      (by simp [bwtFile, SIZEOF_SIZE_T, SIZEOF_FLAG]) (by simp [leBytes_length])
      (by simp [leBytes_length])
  have r5 : ∀ old, IStream.read ⟨pre ++ bwtFile s f R, pre.length + 2 + 8 + 8 + 8, true⟩ 4 old =
      (true, leBytes 4 BWF_NOFMI,
        ⟨pre ++ bwtFile s f R, pre.length + 2 + 8 + 8 + 8 + 4, true⟩) :=
    fun old => IStream.read_at _
      (pre ++ leBytes 2 BWT_FILE_MAGIC ++ leBytes 8 s ++ leBytes 8 f ++ leBytes 8 R.length) _
      (R.map RLUnit.data) old _ _
      (by simp [bwtFile, SIZEOF_SIZE_T, SIZEOF_FLAG]) (by simp [leBytes_length])
      (by simp [leBytes_length])
  have v1 : leValue (leBytes 2 BWT_FILE_MAGIC) = BWT_FILE_MAGIC := by decide
  have v2 : leValue (leBytes 8 s) = s := by
    rw [leValue_leBytes]; exact Nat.mod_eq_of_lt (by norm_num at hs ⊢; exact hs)
  have v3 : leValue (leBytes 8 f) = f := by
    rw [leValue_leBytes]; exact Nat.mod_eq_of_lt (by norm_num at hf ⊢; exact hf)
  have v4 : leValue (leBytes 8 R.length) = R.length := by
    rw [leValue_leBytes]; exact Nat.mod_eq_of_lt (by norm_num at hR ⊢; exact hR)
  have v5 : leValue (leBytes 4 BWF_NOFMI) = BWF_NOFMI := by decide
  simp only [BWTReader.readHeader, SIZEOF_SIZE_T, SIZEOF_FLAG, r1, r2, r3, r4, r5, v1, v2, v3,
    v4, v5]
  simp

theorem BWTReader.read_bwtFile (pre : List Nat) (s f : Nat) (R : List RLUnit)
    (n0 magic0 flag0 : Nat) (bwt0 : BWT)
    (hs : s < 2 ^ 64) (hf : f < 2 ^ 64) (hR : R.length < 2 ^ 64) :
    (BWTReader.mk ⟨pre ++ bwtFile s f R, pre.length, true⟩ n0).read bwt0 magic0 flag0 =
      (true,
        ⟨⟨pre ++ bwtFile s f R, pre.length + 2 + 8 + 8 + 8 + 4 + R.length, true⟩, R.length⟩,
        ⟨s, f, R⟩) := by
  simp only [BWTReader.read, BWTReader.readHeader_bwtFile pre s f R _ _ _ _ _ hs hf hR]
  cases R with
  | nil => simp [BWTReader.readRuns, resize]
  | cons u rest =>
    have hne : (resize bwt0.runs (u :: rest).length RLUnit.empty).isEmpty = false := by
      have hl := resize_length bwt0.runs (u :: rest).length RLUnit.empty
      cases hres : resize bwt0.runs (u :: rest).length RLUnit.empty with
      | nil => rw [hres] at hl; simp at hl
      | cons _ _ => rfl
    have r6 : ∀ old, IStream.read
        ⟨pre ++ bwtFile s f (u :: rest), pre.length + 2 + 8 + 8 + 8 + 4, true⟩
        (u :: rest).length old =
        (true, (u :: rest).map RLUnit.data,
          ⟨pre ++ bwtFile s f (u :: rest),
            pre.length + 2 + 8 + 8 + 8 + 4 + (u :: rest).length, true⟩) :=
      fun old => IStream.read_at _
        (pre ++ leBytes 2 BWT_FILE_MAGIC ++ leBytes 8 s ++ leBytes 8 f ++
          leBytes 8 (u :: rest).length ++ leBytes 4 BWF_NOFMI) _ [] old _ _
        (by simp [bwtFile, SIZEOF_SIZE_T, SIZEOF_FLAG]) (by simp [leBytes_length])
        (by simp)
    have hmk : ∀ l : List RLUnit, List.map (RLUnit.mk ∘ RLUnit.data) l = l := by
      intro l
      induction l with
      | nil => rfl
      | cons a l ih => simp [ih]
    simp only [BWTReader.readRuns, hne, r6]
    simp [hmk]

theorem BWTWriter.charOf_valid (seqs : List DNASeq) (e : Elem) (r : DNASeq)
    (hr : seqs[e.i]? = some r) (hj : e.j ≤ r.seq.length) :
    BWTWriter.charOf seqs e = if e.j = 0 then some '$' else r.seq[e.j - 1]? := by
  simp only [BWTWriter.charOf, hr]
  by_cases h0 : e.j = 0
  · simp [h0]
  · have hlt : e.j - 1 < r.seq.length := by omega
    simp [h0, strAt, hlt]

/-- C2: writer/reader round trip.  When `BWTWriter::write` succeeds on a
stream positioned at its end (after the bytes `pre`), the bytes it leaves after
`pre` are a BWT file: the header with `num_strings`, `num_suffixes` and the
back-patched `num_runs` equal to the number of runs, then the runs in the order
written.  `BWTReader::read` on these bytes returns true and yields the same
`num_strings`, the same `num_suffixes` and exactly these runs; the number of
runs it read is the `num_runs` field. -/
theorem BWTWriter.read_write_roundtrip (pre : List Nat) (sa : SuffixArray)
    (seqs : List DNASeq) (w1 : BWTWriter) (n0 magic0 flag0 : Nat) (bwt0 : BWT)
    (hstr : sa.strings < 2 ^ 64) (hsz : sa.size < 2 ^ 64)
    (hw : (BWTWriter.new ⟨pre, pre.length, true⟩).write sa seqs = some (true, w1)) :
    ∃ runs r1,
      w1.stream.bytes = pre ++ bwtFile sa.strings sa.size runs ∧
      w1.numRuns = runs.length ∧
      (BWTReader.mk ⟨w1.stream.bytes, pre.length, true⟩ n0).read bwt0 magic0 flag0 =
        (true, r1, ⟨sa.strings, sa.size, runs⟩) ∧
      r1.numRuns = runs.length := by
  obtain ⟨w0, e0, inv0, hc0⟩ := BWTWriter.writeHeader_inv pre sa.strings sa.size
  simp only [BWTWriter.write, e0] at hw
  cases hl : BWTWriter.writeLoop seqs sa.elems w0 with
  | none => simp [hl] at hw
  | some res =>
    obtain ⟨R1, cs, hr, inv1, _, hlen, _⟩ := BWTWriter.writeLoop_inv seqs sa.elems [] w0 res inv0 hl
    obtain ⟨b, w2⟩ := res
    simp only at hr inv1 hlen
    subst hr
    obtain ⟨R2, w3, e3, hbytes, hnum, _, hlen2⟩ := BWTWriter.finalize_inv inv1
    simp only [hl, e3, Option.some.injEq, Prod.mk.injEq, true_and] at hw
    subst hw
    have hR : R2.length < 2 ^ 64 := by
      have h0 : w0.currRun.initialized = false := by rw [hc0]; rfl
      simp only [h0, List.length_nil] at hlen
      have : sa.elems.length < 2 ^ 64 := hsz
      simp only [Bool.false_eq_true, if_false] at hlen
      omega
    have hread :=
      BWTReader.read_bwtFile pre sa.strings sa.size R2 n0 magic0 flag0 bwt0 hstr hsz hR
    rw [← hbytes] at hread
    exact ⟨R2, _, hbytes, hnum, hread, rfl⟩

theorem BWTWriter.read_write_roundtrip_witness :
    ∃ runs r1,
      exampleFile = [] ++ bwtFile exampleSA.strings exampleSA.size runs ∧
      3 = runs.length ∧
      (BWTReader.mk ⟨exampleFile, 0, true⟩ 0).read ⟨0, 0, []⟩ 0 0 =
        (true, r1, ⟨exampleSA.strings, exampleSA.size, runs⟩) ∧
      r1.numRuns = runs.length :=
  BWTWriter.read_write_roundtrip [] exampleSA exampleReads
    ⟨⟨exampleFile, 2, true⟩, 18, 3, ⟨1⟩⟩ 0 0 0 ⟨0, 0, []⟩
    (by decide) (by decide) (by decide)

/-- C3: the runs written by `BWTWriter::write` decode to the BWT column.  For a
suffix array whose elements `(i, j)` point into the sequence list (`i` is an
index of the list and `j` is at most the length of sequence `i`) over the DNA
alphabet, `write` succeeds, the bytes written are a BWT file of some run list
`runs`, and the runs expanded in order are the characters `c_k`, where `c_k` is
`$` when `j_k = 0` and `sequences[i_k][j_k - 1]` otherwise; the run counts sum
to `num_suffixes`. -/
theorem BWTWriter.write_runs_decode (pre : List Nat) (sa : SuffixArray) (seqs : List DNASeq)
    (hsa : ∀ e ∈ sa.elems, ∃ r, seqs[e.i]? = some r ∧ e.j ≤ r.seq.length)
    (halpha : ∀ r ∈ seqs, ∀ c ∈ r.seq, c ∈ DNAAlphabet.DNA_ALL) :
    ∃ w1 runs,
      (BWTWriter.new ⟨pre, pre.length, true⟩).write sa seqs = some (true, w1) ∧
      w1.stream.bytes = pre ++ bwtFile sa.strings sa.size runs ∧
      (decodeRuns runs).length = sa.size ∧
      (∀ (k : Nat) (e : Elem), sa.elems[k]? = some e → ∃ r : DNASeq, seqs[e.i]? = some r ∧
        (decodeRuns runs)[k]? = if e.j = 0 then some '$' else r.seq[e.j - 1]?) ∧
      (runs.map RLUnit.count).sum = sa.size := by
  obtain ⟨w0, e0, inv0, hc0⟩ := BWTWriter.writeHeader_inv pre sa.strings sa.size
  have hsome : BWTWriter.writeLoop seqs sa.elems w0 ≠ none := by
    apply BWTWriter.writeLoop_isSome seqs sa.elems [] w0 inv0
    intro e he
    obtain ⟨r, hr, hj⟩ := hsa e he
    rw [BWTWriter.charOf_valid seqs e r hr hj]
    by_cases h0 : e.j = 0
    · simp [h0]
    · have hlt : e.j - 1 < r.seq.length := by omega
      simp [h0, hlt]
  cases hl : BWTWriter.writeLoop seqs sa.elems w0 with
  | none => exact absurd hl hsome
  | some res =>
    obtain ⟨R1, cs, hr, inv1, hmap, _, hdec⟩ :=
      BWTWriter.writeLoop_inv seqs sa.elems [] w0 res inv0 hl
    obtain ⟨b, w2⟩ := res
    simp only at hr inv1 hdec
    subst hr
    obtain ⟨R2, w3, e3, hbytes, _, hdec2, _⟩ := BWTWriter.finalize_inv inv1
    have hchar : ∀ (k : Nat) (e : Elem), sa.elems[k]? = some e → ∃ r : DNASeq, seqs[e.i]? = some r ∧
        cs[k]? = if e.j = 0 then some '$' else r.seq[e.j - 1]? := by
      intro k e hk
      obtain ⟨r, hr, hj⟩ := hsa e (List.getElem?_mem hk)
      refine ⟨r, hr, ?_⟩
      have h1 : (sa.elems.map (BWTWriter.charOf seqs))[k]? = (cs.map some)[k]? := by rw [hmap]
      simp only [List.getElem?_map, hk, Option.map_some'] at h1
      rw [BWTWriter.charOf_valid seqs e r hr hj] at h1
      cases hck : cs[k]? with
      | none => simp [hck] at h1
      | some c =>
        simp only [hck, Option.map_some', Option.some.injEq] at h1
        exact h1.symm
    have hcs : ∀ c ∈ cs, c ∈ DNAAlphabet.DNA_ALL := by
      intro c hc
      obtain ⟨k, hk, hkc⟩ := List.getElem_of_mem hc
      have hk2 : k < sa.elems.length := by
        have := congrArg List.length hmap
        simp only [List.length_map] at this
        omega
      obtain ⟨r, hr, hcr⟩ := hchar k sa.elems[k] (List.getElem?_eq_getElem hk2)
      rw [List.getElem?_eq_getElem hk, hkc] at hcr
      by_cases h0 : sa.elems[k].j = 0
      · simp only [h0, if_true, Option.some.injEq] at hcr
        rw [hcr]; decide
      · simp only [h0, if_false] at hcr
        exact halpha r (List.getElem?_mem hr) c (List.getElem?_mem hcr.symm)
    have hdecode : decodeRuns R2 = cs := by
      rw [hdec2, hdec hcs, hc0]
      simp [decodeRuns, RLUnit.empty, RLUnit.count]
    have hlen : (decodeRuns R2).length = sa.size := by
      rw [hdecode]
      have := congrArg List.length hmap
      simp only [List.length_map] at this
      exact this.symm
    refine ⟨w3, R2, ?_, hbytes, hlen, ?_, ?_⟩
    · simp only [BWTWriter.write, e0, hl, e3]
    · rw [hdecode]; exact hchar
    · rw [← decodeRuns_length, hlen]

theorem BWTWriter.write_runs_decode_witness :
    ∃ w1 runs,
      (BWTWriter.new ⟨[], 0, true⟩).write exampleSA exampleReads = some (true, w1) ∧
      w1.stream.bytes = [] ++ bwtFile exampleSA.strings exampleSA.size runs ∧
      (decodeRuns runs).length = exampleSA.size ∧
      (∀ (k : Nat) (e : Elem), exampleSA.elems[k]? = some e → ∃ r : DNASeq, exampleReads[e.i]? = some r ∧
        (decodeRuns runs)[k]? = if e.j = 0 then some '$' else r.seq[e.j - 1]?) ∧
      (runs.map RLUnit.count).sum = exampleSA.size :=
  BWTWriter.write_runs_decode [] exampleSA exampleReads
    (by
      intro e he
      refine ⟨⟨"read0", ['A', 'C'], []⟩, ?_, ?_⟩
      · simp only [exampleSA, List.mem_cons, List.mem_singleton, List.not_mem_nil,
          or_false] at he
        rcases he with rfl | rfl | rfl <;> rfl
      · simp only [exampleSA, List.mem_cons, List.mem_singleton, List.not_mem_nil,
          or_false] at he
        rcases he with rfl | rfl | rfl <;> decide)
    (by
      intro r hr c hc
      simp only [exampleReads, List.mem_singleton] at hr
      subst hr
      simp only [List.mem_cons, List.mem_singleton, List.not_mem_nil, or_false] at hc
      rcases hc with rfl | rfl <;> decide)

/-! ## Lemmas on the edge store and the vertex table -/

theorem getElem?_append_add {α : Type} (l r : List α) (i : Nat) :
    (l ++ r)[l.length + i]? = r[i]? := by
  induction l with
  | nil => simp
  | cons a l ih =>
    have : (a :: l).length + i = (l.length + i) + 1 := by simp; omega
    rw [this]
    simp [ih]

theorem set_append_add {α : Type} (l r : List α) (i : Nat) (z : α) :
    (l ++ r).set (l.length + i) z = l ++ r.set i z := by
  induction l with
  | nil => simp
  | cons a l ih =>
    have : (a :: l).length + i = (l.length + i) + 1 := by simp; omega
    rw [this]
    simp [ih]

theorem getElem?_append_old {α : Type} (l r : List α) (i : Nat) (x : α)
    (h : l[i]? = some x) : (l ++ r)[i]? = some x := by
  have hi : i < l.length := by
    by_contra hc
    rw [List.getElem?_eq_none (by omega)] at h
    exact Option.noConfusion h
  rw [List.getElem?_append_left hi]
  exact h

theorem Bigraph.find_updateIn (id x : String) (f : Vertex → Vertex)
    (hf : ∀ v, (f v).id = v.id) (vs : List Vertex) :
    (Bigraph.updateIn id f vs).find? (fun v => decide (v.id = x)) =
      (vs.find? (fun v => decide (v.id = x))).map (fun v => if x = id then f v else v) := by
  induction vs with
  | nil => rfl
  | cons v vs ih =>
    by_cases hv : v.id = id
    · by_cases hx : x = id
      · subst hx
        simp [Bigraph.updateIn, hv, hf]
      · have hvx : ¬ v.id = x := fun h => hx (h ▸ hv)
        have hfx : ¬ (f v).id = x := by rw [hf]; exact hvx
        have hix : ¬ id = x := fun h => hx h.symm
        simp only [Bigraph.updateIn, hv, if_true, List.find?_cons, hfx, hvx, decide_False, hx,
          if_false]
        simp [hix]
    · by_cases hvx : v.id = x
      · have hx : ¬ x = id := fun h => hv (hvx ▸ h)
        simp [Bigraph.updateIn, hv, hvx, hx]
      · simp [Bigraph.updateIn, hv, hvx, ih]

theorem Bigraph.find_updateIn_push (id x : String) (n : Nat) (vs : List Vertex) :
    (Bigraph.updateIn id (fun v => { v with edges := v.edges ++ [n] }) vs).find?
        (fun v => decide (v.id = x)) =
      (vs.find? (fun v => decide (v.id = x))).map
        (fun v => if x = id then { v with edges := v.edges ++ [n] } else v) :=
  Bigraph.find_updateIn id x (fun v => { v with edges := v.edges ++ [n] }) (fun _ => rfl) vs

theorem Bigraph.getVertex_updateVertex (g : Bigraph) (id x : String) (f : Vertex → Vertex)
    (hf : ∀ v, (f v).id = v.id) :
    (g.updateVertex id f).getVertex x =
      (g.getVertex x).map (fun v => if x = id then f v else v) :=
  Bigraph.find_updateIn id x f hf g.vertices

theorem Bigraph.getVertex_id (g : Bigraph) (id : String) (v : Vertex)
    (h : g.getVertex id = some v) : v.id = id := by
  have := List.find?_some h
  simpa using this

theorem EdgeCreator.createPair_eq (g : Bigraph) (overlap : Overlap) (comp : Comp)
    (v0 v1 : String) :
    EdgeCreator.createPair g overlap comp v0 v1 = some (pairResult g overlap comp v0 v1) := by
  have g0 := getElem?_append_add g.store
  have g1 := fun r => getElem?_append_add g.store r 0
  have s0 := set_append_add g.store
  have s1 := fun r => set_append_add g.store r 0
  simp only [Nat.add_zero] at g1 s1
  simp [EdgeCreator.createPair, pairResult, Bigraph.newEdge, Bigraph.setTwin, Bigraph.deref,
    Bigraph.addEdge, Bigraph.edgeStart, Bigraph.updateVertex, List.append_assoc, g0, g1, s0, s1]

theorem EdgeCreator.createContainment_eq (g : Bigraph) (overlap : Overlap) (comp : Comp)
    (v0 v1 : String) :
    EdgeCreator.createContainment g overlap comp v0 v1 =
      some (containResult g overlap comp v0 v1) := by
  have g0 := getElem?_append_add g.store
  have g1 := fun r => getElem?_append_add g.store r 0
  have s0 := set_append_add g.store
  have s1 := fun r => set_append_add g.store r 0
  simp only [Nat.add_zero] at g1 s1
  simp [EdgeCreator.createContainment, containResult, Bigraph.newEdge, Bigraph.setTwin,
    Bigraph.deref, Bigraph.addEdge, Bigraph.edgeStart, Bigraph.updateVertex, List.append_assoc,
    g0, g1, s0, s1]

theorem Bigraph.deref_append_old (g : Bigraph) (r : List (Option Edge)) (p : Nat) (e : Edge)
    (h : g.deref p = some e) :
    Bigraph.deref { g with store := g.store ++ r } p = some e := by
  simp only [Bigraph.deref] at h ⊢
  cases hp : g.store[p]? with
  | none => simp [hp] at h
  | some x => rw [getElem?_append_old g.store r p x hp]; rw [hp] at h; exact h

theorem Bigraph.deref_fresh (g : Bigraph) (p : Nat) (h : g.store.length ≤ p) :
    g.deref p = none := by
  simp [Bigraph.deref, List.getElem?_eq_none h]

theorem Bigraph.deref_append_other (g : Bigraph) (r : List (Option Edge)) (p : Nat)
    (h : p < g.store.length ∨ g.store.length + r.length ≤ p) :
    Bigraph.deref { g with store := g.store ++ r } p = g.deref p := by
  simp only [Bigraph.deref]
  rcases h with h | h
  · rw [List.getElem?_append_left h]
  · rw [List.getElem?_eq_none (by simp; omega), List.getElem?_eq_none (by omega)]

theorem join_getElem?_append_other {α : Type} (l r : List (Option α)) (p : Nat)
    (h : p < l.length ∨ l.length + r.length ≤ p) :
    ((l ++ r)[p]?).join = (l[p]?).join := by
  rcases h with h | h
  · rw [List.getElem?_append_left h]
  · rw [List.getElem?_eq_none (by simp; omega), List.getElem?_eq_none (by omega)]

theorem EdgeCreator.create_eq_of_checks (c : EdgeCreator) (g : Bigraph) (o : Overlap)
    (v0 v1 : Vertex)
    (h0 : g.getVertex o.id0 = some v0) (h1 : g.getVertex o.id1 = some v1)
    (hx0 : o.match_.coords0.isExtreme = true) (hx1 : o.match_.coords1.isExtreme = true)
    (hd0 : v0.degrees ≤ c.maxEdges) (hd1 : v1.degrees ≤ c.maxEdges) :
    c.create g o = some (true,
      if o.match_.isContainment = false then
        pairResult g o (if o.match_.isRC = true then Comp.EC_REVERSE else Comp.EC_SAME)
          o.id0 o.id1
      else
        containResult g o (if o.match_.isRC = true then Comp.EC_REVERSE else Comp.EC_SAME)
          o.id0 o.id1) := by
  have hid0 := Bigraph.getVertex_id g _ _ h0
  have hid1 := Bigraph.getVertex_id g _ _ h1
  have hdeg : ¬ (c.maxEdges < v0.degrees ∨ c.maxEdges < v1.degrees) := by omega
  by_cases hc : o.match_.isContainment = false
  · simp [EdgeCreator.create, h0, h1, hx0, hx1, hdeg, hc, EdgeCreator.createPair_eq, hid0, hid1]
  · simp [EdgeCreator.create, h0, h1, hx0, hx1, hdeg, hc, EdgeCreator.createContainment_eq,
      hid0, hid1]

/-- C4: a non-containment overlap that passes the checks of `create` (both
vertices exist, both coords are extreme, both endpoints are within the degree
cap) makes `create` return true and adds exactly two edge objects, at two new
addresses `p0` and `p1`: edge `i` is appended to the edge list of vertex `i`,
points to vertex `1 - i`, carries coord `i`, has direction ANTISENSE when coord
`i` is left-extreme and SENSE otherwise, has `comp` REVERSE when `isRC` and SAME
otherwise, and the two are each other's twin.  No other edge list, no other
field of a vertex and no other edge object changes. -/
theorem EdgeCreator.create_noncontainment (c : EdgeCreator) (g : Bigraph) (o : Overlap)
    (v0 v1 : Vertex)
    (hcont : o.match_.isContainment = false)
    (h0 : g.getVertex o.id0 = some v0) (h1 : g.getVertex o.id1 = some v1)
    (hx0 : o.match_.coords0.isExtreme = true) (hx1 : o.match_.coords1.isExtreme = true)
    (hd0 : v0.degrees ≤ c.maxEdges) (hd1 : v1.degrees ≤ c.maxEdges) :
    ∃ (g1 : Bigraph) (p0 p1 : Nat) (e0 e1 : Edge),
      c.create g o = some (true, g1) ∧
      p0 ≠ p1 ∧ g.deref p0 = none ∧ g.deref p1 = none ∧
      g1.deref p0 = some e0 ∧ g1.deref p1 = some e1 ∧
      e0.end_ = o.id1 ∧ e1.end_ = o.id0 ∧
      e0.coord = o.match_.coords0 ∧ e1.coord = o.match_.coords1 ∧
      e0.dir = (if o.match_.coords0.isLeftExtreme = true then Dir.ED_ANTISENSE
                else Dir.ED_SENSE) ∧
      e1.dir = (if o.match_.coords1.isLeftExtreme = true then Dir.ED_ANTISENSE
                else Dir.ED_SENSE) ∧
      e0.comp = (if o.match_.isRC = true then Comp.EC_REVERSE else Comp.EC_SAME) ∧
      e1.comp = (if o.match_.isRC = true then Comp.EC_REVERSE else Comp.EC_SAME) ∧
      e0.twin = some p1 ∧ e1.twin = some p0 ∧
      (∀ x : String, g1.getVertex x = (g.getVertex x).map (fun v =>
        { v with edges := v.edges ++ (if x = o.id0 then [p0] else []) ++
            (if x = o.id1 then [p1] else []) })) ∧
      (∀ p : Nat, p ≠ p0 → p ≠ p1 → g1.deref p = g.deref p) ∧
      g1.containment = g.containment := by
  have hc := EdgeCreator.create_eq_of_checks c g o v0 v1 h0 h1 hx0 hx1 hd0 hd1
  simp only [hcont, if_true] at hc
  refine ⟨_, g.store.length, g.store.length + 1,
    { end_ := o.id1,
      dir := if o.match_.coords0.isLeftExtreme = true then Dir.ED_ANTISENSE else Dir.ED_SENSE,
      comp := if o.match_.isRC = true then Comp.EC_REVERSE else Comp.EC_SAME,
      coord := o.match_.coords0, twin := some (g.store.length + 1),
      color := GraphColor.GC_WHITE },
    { end_ := o.id0,
      dir := if o.match_.coords1.isLeftExtreme = true then Dir.ED_ANTISENSE else Dir.ED_SENSE,
      comp := if o.match_.isRC = true then Comp.EC_REVERSE else Comp.EC_SAME,
      coord := o.match_.coords1, twin := some g.store.length,
      color := GraphColor.GC_WHITE }, hc, by omega,
    Bigraph.deref_fresh g _ (by omega), Bigraph.deref_fresh g _ (by omega), ?_, ?_,
    rfl, rfl, rfl, rfl, rfl, rfl, rfl, rfl, rfl, rfl, ?_, ?_, rfl⟩
  · have := getElem?_append_add g.store
    simp only [Bigraph.deref, pairResult]
    rw [← Nat.add_zero g.store.length, this]
    rfl
  · have := getElem?_append_add g.store
    simp only [Bigraph.deref, pairResult]
    rw [this]
    rfl
  · intro x
    simp only [Bigraph.getVertex, pairResult, Bigraph.find_updateIn_push]
    cases g.vertices.find? (fun v => decide (v.id = x)) with
    | none => rfl
    | some v =>
      by_cases hx0 : x = o.id0
      · by_cases h01 : o.id0 = o.id1
        · simp [hx0, h01]
        · simp [hx0, h01]
      · by_cases hx1 : x = o.id1
        · have h10 : ¬ o.id1 = o.id0 := fun h => hx0 (hx1.trans h)
          simp [hx1, h10]
        · simp [hx0, hx1]
  · intro p hp0 hp1
    simp only [Bigraph.deref, pairResult]
    exact join_getElem?_append_other _ _ p (by simp; omega)

/-- C5: a containment overlap that passes the checks of `create` makes it
return true and adds exactly four edge objects at new addresses, two on each
endpoint: `p0` (on vertex 0) and `p1` (on vertex 1) are twins and both SENSE;
`p2` (on vertex 0) and `p3` (on vertex 1) are twins and both ANTISENSE.  Each of
the four points to the other endpoint, carries the coord of its own side and
has `comp` REVERSE when `isRC` and SAME otherwise.  Nothing else changes. -/
theorem EdgeCreator.create_containment (c : EdgeCreator) (g : Bigraph) (o : Overlap)
    (v0 v1 : Vertex)
    (hcont : o.match_.isContainment = true)
    (h0 : g.getVertex o.id0 = some v0) (h1 : g.getVertex o.id1 = some v1)
    (hx0 : o.match_.coords0.isExtreme = true) (hx1 : o.match_.coords1.isExtreme = true)
    (hd0 : v0.degrees ≤ c.maxEdges) (hd1 : v1.degrees ≤ c.maxEdges) :
    ∃ (g1 : Bigraph) (p0 p1 p2 p3 : Nat) (e0 e1 e2 e3 : Edge),
      c.create g o = some (true, g1) ∧
      [p0, p1, p2, p3].Nodup ∧
      g.deref p0 = none ∧ g.deref p1 = none ∧ g.deref p2 = none ∧ g.deref p3 = none ∧
      g1.deref p0 = some e0 ∧ g1.deref p1 = some e1 ∧
      g1.deref p2 = some e2 ∧ g1.deref p3 = some e3 ∧
      e0.twin = some p1 ∧ e1.twin = some p0 ∧ e2.twin = some p3 ∧ e3.twin = some p2 ∧
      e0.dir = Dir.ED_SENSE ∧ e1.dir = Dir.ED_SENSE ∧
      e2.dir = Dir.ED_ANTISENSE ∧ e3.dir = Dir.ED_ANTISENSE ∧
      e0.end_ = o.id1 ∧ e2.end_ = o.id1 ∧ e1.end_ = o.id0 ∧ e3.end_ = o.id0 ∧
      e0.coord = o.match_.coords0 ∧ e2.coord = o.match_.coords0 ∧
      e1.coord = o.match_.coords1 ∧ e3.coord = o.match_.coords1 ∧
      (∀ e ∈ [e0, e1, e2, e3],
        e.comp = (if o.match_.isRC = true then Comp.EC_REVERSE else Comp.EC_SAME)) ∧
      (∀ x : String, g1.getVertex x = (g.getVertex x).map (fun v =>
        { v with edges := v.edges ++ (if x = o.id0 then [p0] else []) ++
            (if x = o.id1 then [p1] else []) ++ (if x = o.id0 then [p2] else []) ++
            (if x = o.id1 then [p3] else []) })) ∧
      (∀ p : Nat, p ∉ [p0, p1, p2, p3] → g1.deref p = g.deref p) ∧
      g1.containment = g.containment := by
  have hc := EdgeCreator.create_eq_of_checks c g o v0 v1 h0 h1 hx0 hx1 hd0 hd1
  simp only [hcont, Bool.true_eq_false, if_false] at hc
  have hget := getElem?_append_add g.store
  refine ⟨_, g.store.length, g.store.length + 2, g.store.length + 1, g.store.length + 3,
    { end_ := o.id1, dir := Dir.ED_SENSE,
      comp := if o.match_.isRC = true then Comp.EC_REVERSE else Comp.EC_SAME,
      coord := o.match_.coords0, twin := some (g.store.length + 2),
      color := GraphColor.GC_WHITE },
    { end_ := o.id0, dir := Dir.ED_SENSE,
      comp := if o.match_.isRC = true then Comp.EC_REVERSE else Comp.EC_SAME,
      coord := o.match_.coords1, twin := some g.store.length,
      color := GraphColor.GC_WHITE },
    { end_ := o.id1, dir := Dir.ED_ANTISENSE,
      comp := if o.match_.isRC = true then Comp.EC_REVERSE else Comp.EC_SAME,
      coord := o.match_.coords0, twin := some (g.store.length + 3),
      color := GraphColor.GC_WHITE },
    { end_ := o.id0, dir := Dir.ED_ANTISENSE,
      comp := if o.match_.isRC = true then Comp.EC_REVERSE else Comp.EC_SAME,
      coord := o.match_.coords1, twin := some (g.store.length + 1),
      color := GraphColor.GC_WHITE },
    hc, by simp, Bigraph.deref_fresh g _ (by omega), Bigraph.deref_fresh g _ (by omega),
    Bigraph.deref_fresh g _ (by omega), Bigraph.deref_fresh g _ (by omega), ?_, ?_, ?_, ?_,
    rfl, rfl, rfl, rfl, rfl, rfl, rfl, rfl, rfl, rfl, rfl, rfl, rfl, rfl, rfl, rfl, ?_, ?_,
    ?_, rfl⟩
  · simp only [Bigraph.deref, containResult]
    rw [← Nat.add_zero g.store.length, hget]
    rfl
  · simp only [Bigraph.deref, containResult]
    rw [hget]
    rfl
  · simp only [Bigraph.deref, containResult]
    rw [hget]
    rfl
  · simp only [Bigraph.deref, containResult]
    rw [hget]
    rfl
  · intro e he
    simp only [List.mem_cons, List.mem_singleton, List.not_mem_nil, or_false] at he
    rcases he with rfl | rfl | rfl | rfl <;> rfl
  · intro x
    simp only [Bigraph.getVertex, containResult]
    simp only [Bigraph.find_updateIn_push]
    cases g.vertices.find? (fun v => decide (v.id = x)) with
    | none => rfl
    | some v =>
      by_cases hx0 : x = o.id0
      · by_cases h01 : o.id0 = o.id1
        · simp [hx0, h01]
        · simp [hx0, h01]
      · by_cases hx1 : x = o.id1
        · have h10 : ¬ o.id1 = o.id0 := fun h => hx0 (hx1.trans h)
          simp [hx1, h10]
        · simp [hx0, hx1]
  · intro p hp
    simp only [List.mem_cons, List.mem_singleton, List.not_mem_nil, or_false, not_or] at hp
    simp only [Bigraph.deref, containResult]
    exact join_getElem?_append_other _ _ p (by simp; omega)

/-- C9: `create` returns false and leaves the graph as it is whenever a coord
of the overlap is not extreme, for every graph and every overlap. -/
theorem EdgeCreator.create_not_extreme (c : EdgeCreator) (g : Bigraph) (o : Overlap)
    (h : o.match_.coords0.isExtreme = false ∨ o.match_.coords1.isExtreme = false) :
    c.create g o = some (false, g) := by
  simp only [EdgeCreator.create]
  cases g.getVertex o.id0 with
  | none => rfl
  | some v0 =>
    cases g.getVertex o.id1 with
    | none => rfl
    | some v1 =>
      rcases h with h | h
      · simp [h]
      · by_cases h0 : o.match_.coords0.isExtreme = false
        · simp [h0]
        · simp [h0, h]

/-- C10: `create` returns true exactly when both ids name vertices of the
graph, both coords are extreme and both endpoints have at most `maxEdges` edges
before the call.  When an endpoint has more than `maxEdges` edges it returns
false, and whenever it returns false the graph is as before. -/
theorem EdgeCreator.create_true_iff (c : EdgeCreator) (g : Bigraph) (o : Overlap) :
    ∃ (b : Bool) (g1 : Bigraph), c.create g o = some (b, g1) ∧
      (b = true ↔ ∃ v0 v1 : Vertex,
        g.getVertex o.id0 = some v0 ∧ g.getVertex o.id1 = some v1 ∧
        o.match_.coords0.isExtreme = true ∧ o.match_.coords1.isExtreme = true ∧
        v0.degrees ≤ c.maxEdges ∧ v1.degrees ≤ c.maxEdges) ∧
      (∀ v0 v1 : Vertex, g.getVertex o.id0 = some v0 → g.getVertex o.id1 = some v1 →
        (c.maxEdges < v0.degrees ∨ c.maxEdges < v1.degrees) → b = false) ∧
      (b = false → g1 = g) := by
  by_cases hall : ∃ v0 v1 : Vertex,
      g.getVertex o.id0 = some v0 ∧ g.getVertex o.id1 = some v1 ∧
      o.match_.coords0.isExtreme = true ∧ o.match_.coords1.isExtreme = true ∧
      v0.degrees ≤ c.maxEdges ∧ v1.degrees ≤ c.maxEdges
  · obtain ⟨v0, v1, h0, h1, hx0, hx1, hd0, hd1⟩ := hall
    refine ⟨true, _, EdgeCreator.create_eq_of_checks c g o v0 v1 h0 h1 hx0 hx1 hd0 hd1,
      ⟨fun _ => ⟨v0, v1, h0, h1, hx0, hx1, hd0, hd1⟩, fun _ => rfl⟩, ?_, ?_⟩
    · intro w0 w1 hw0 hw1 hdeg
      rw [h0] at hw0
      rw [h1] at hw1
      cases hw0
      cases hw1
      omega
    · intro hb
      cases hb
  · refine ⟨false, g, ?_, ⟨fun hb => Bool.noConfusion hb, fun h => absurd h hall⟩, fun _ _ _ _ _ => rfl,
      fun _ => rfl⟩
    simp only [EdgeCreator.create]
    cases h0 : g.getVertex o.id0 with
    | none => rfl
    | some v0 =>
      cases h1 : g.getVertex o.id1 with
      | none => rfl
      | some v1 =>
        by_cases hx0 : o.match_.coords0.isExtreme = false
        · simp [hx0]
        · by_cases hx1 : o.match_.coords1.isExtreme = false
          · simp [hx0, hx1]
          · by_cases hdeg : c.maxEdges < v0.degrees ∨ c.maxEdges < v1.degrees
            · simp [hx0, hx1, hdeg]
            · exfalso
              apply hall
              refine ⟨v0, v1, h0, h1, by simpa using hx0, by simpa using hx1, ?_, ?_⟩ <;> omega

/-! ## The loader -/

theorem EdgeCreator.create_isSome (c : EdgeCreator) (g : Bigraph) (o : Overlap) :
    ∃ (b : Bool) (g1 : Bigraph), c.create g o = some (b, g1) := by
  simp only [EdgeCreator.create, EdgeCreator.createPair_eq, EdgeCreator.createContainment_eq]
  cases g.getVertex o.id0 with
  | none => exact ⟨_, _, rfl⟩
  | some v0 =>
    cases g.getVertex o.id1 with
    | none => exact ⟨_, _, rfl⟩
    | some v1 =>
      simp only
      split
      · exact ⟨_, _, rfl⟩
      · split
        · exact ⟨_, _, rfl⟩
        · split
          · exact ⟨_, _, rfl⟩
          · split <;> exact ⟨_, _, rfl⟩

theorem loadASQG.step_isSome (cfg : LoadConfig) (s : Stage) (g : Bigraph) (line : Line) :
    ∃ r, loadASQG.step cfg s g line = some r := by
  cases line with
  | header parsed =>
    cases s <;> cases parsed <;> exact ⟨_, rfl⟩
  | vertex record =>
    cases record with
    | none => cases s <;> exact ⟨_, rfl⟩
    | some r =>
      cases hadd : g.addVertex (Vertex.new r.id r.seq) with
      | mk b g1 =>
        cases s <;> cases b <;> simp [loadASQG.step, hadd]
  | edge overlap =>
    cases overlap with
    | none => cases s <;> exact ⟨_, rfl⟩
    | some ovr =>
      obtain ⟨b, g1, h⟩ := EdgeCreator.create_isSome ⟨cfg.allowContainments, cfg.maxEdges⟩ g ovr
      by_cases hlen : cfg.minOverlap ≤ ovr.match_.length
      · cases s <;> cases b <;> simp [loadASQG.step, hlen, h]
      · cases s <;> simp [loadASQG.step, hlen]
  | unknown => exact ⟨_, rfl⟩

theorem loadASQG.loop_isSome (cfg : LoadConfig) :
    ∀ (lines : List Line) (s : Stage) (g : Bigraph), ∃ r, loadASQG.loop cfg lines s g = some r := by
  intro lines
  induction lines with
  | nil => intro s g; exact ⟨_, rfl⟩
  | cons line rest ih =>
    intro s g
    obtain ⟨r, hr⟩ := loadASQG.step_isSome cfg s g line
    simp only [loadASQG.loop, hr]
    cases r with
    | next s1 g1 => exact ih s1 g1
    | fail g1 => exact ⟨_, rfl⟩

theorem loadASQG.step_next (cfg : LoadConfig) (s s1 : Stage) (g g1 : Bigraph) (line : Line)
    (h : loadASQG.step cfg s g line = some (Step.next s1 g1)) :
    s.toNat ≤ s1.toNat ∧ (line.isHeader = true → s1 = Stage.STAGE_HEAD) ∧
      (line.isVertex = true → s1 = Stage.STAGE_VERTEX) ∧
      (line.isEdge = true → s1 = Stage.STAGE_EDGE) ∧ line ≠ Line.unknown := by
  cases line with
  | header parsed =>
    cases s <;> cases parsed <;> simp [loadASQG.step] at h
    obtain ⟨rfl, _⟩ := h
    simp [Line.isHeader, Line.isVertex, Line.isEdge]
  | vertex record =>
    cases record with
    | none => cases s <;> simp [loadASQG.step] at h
    | some r =>
      cases hadd : g.addVertex (Vertex.new r.id r.seq) with
      | mk b g2 =>
        cases s <;> cases b <;> simp [loadASQG.step, hadd] at h <;>
          (obtain ⟨rfl, _⟩ := h
           simp [Line.isHeader, Line.isVertex, Line.isEdge, Stage.toNat])
  | edge overlap =>
    cases overlap with
    | none => cases s <;> simp [loadASQG.step] at h
    | some ovr =>
      obtain ⟨b, g2, hc⟩ := EdgeCreator.create_isSome ⟨cfg.allowContainments, cfg.maxEdges⟩ g ovr
      by_cases hlen : cfg.minOverlap ≤ ovr.match_.length
      · cases s <;> cases b <;> simp [loadASQG.step, hlen, hc] at h <;>
          (obtain ⟨rfl, _⟩ := h
           simp [Line.isHeader, Line.isVertex, Line.isEdge, Stage.toNat])
      · cases s <;> simp [loadASQG.step, hlen] at h <;>
          (obtain ⟨rfl, _⟩ := h
           simp [Line.isHeader, Line.isVertex, Line.isEdge, Stage.toNat])
  | unknown => simp [loadASQG.step] at h

theorem loadASQG.loop_append (cfg : LoadConfig) (rest : List Line) :
    ∀ (pre : List Line) (s : Stage) (g : Bigraph),
      loadASQG.loop cfg (pre ++ rest) s g =
        match loadASQG.loop cfg pre s g with
        | some (true, s1, g1) => loadASQG.loop cfg rest s1 g1
        | r => r := by
  intro pre
  induction pre with
  | nil => intro s g; rfl
  | cons line pre ih =>
    intro s g
    simp only [List.cons_append, loadASQG.loop]
    cases loadASQG.step cfg s g line with
    | none => rfl
    | some r =>
      cases r with
      | next s1 g1 => exact ih s1 g1
      | fail g1 => rfl

theorem loadASQG.loop_stage (cfg : LoadConfig) :
    ∀ (pre : List Line) (s s1 : Stage) (g g1 : Bigraph),
      loadASQG.loop cfg pre s g = some (true, s1, g1) →
      s.toNat ≤ s1.toNat ∧
      ((∃ l ∈ pre, l.isVertex = true ∨ l.isEdge = true) → 1 ≤ s1.toNat) ∧
      ((∃ l ∈ pre, l.isEdge = true) → s1 = Stage.STAGE_EDGE) := by
  intro pre
  induction pre with
  | nil =>
    intro s s1 g g1 h
    simp only [loadASQG.loop, Option.some.injEq, Prod.mk.injEq, true_and] at h
    obtain ⟨rfl, _⟩ := h
    simp
  | cons line pre ih =>
    intro s s1 g g1 h
    simp only [loadASQG.loop] at h
    cases hst : loadASQG.step cfg s g line with
    | none => simp [hst] at h
    | some r =>
      cases r with
      | fail g2 => simp [hst] at h
      | next s2 g2 =>
        simp only [hst] at h
        obtain ⟨hle, hv, he⟩ := ih s2 s1 g2 g1 h
        obtain ⟨hle2, _, hsv, hse, _⟩ := loadASQG.step_next cfg s s2 g g2 line hst
        refine ⟨le_trans hle2 hle, ?_, ?_⟩
        · rintro ⟨l, hl, hlv⟩
          rcases List.mem_cons.mp hl with rfl | hl
          · rcases hlv with hlv | hlv
            · have := hsv hlv
              subst this
              exact hle
            · have := hse hlv
              subst this
              exact le_trans (by decide) hle
          · exact hv ⟨l, hl, hlv⟩
        · rintro ⟨l, hl, hle3⟩
          rcases List.mem_cons.mp hl with rfl | hl
          · have := hse hle3
            subst this
            cases s1 <;> simp [Stage.toNat] at hle ⊢
          · exact he ⟨l, hl, hle3⟩

theorem loadASQG.step_outOfOrder (cfg : LoadConfig) (s : Stage) (g : Bigraph) (line : Line)
    (h : (line.isHeader = true ∧ 1 ≤ s.toNat) ∨
      (line.isVertex = true ∧ s = Stage.STAGE_EDGE) ∨ line = Line.unknown) :
    loadASQG.step cfg s g line = some (Step.fail g) := by
  rcases h with ⟨hl, hs⟩ | ⟨hl, hs⟩ | rfl
  · cases line <;> simp [Line.isHeader] at hl
    cases s <;> simp [Stage.toNat] at hs <;> simp [loadASQG.step]
  · cases line <;> simp [Line.isVertex] at hl
    subst hs
    simp [loadASQG.step]
  · rfl

/-- C8: stage order of the loader.  One round of the loop never moves the
stage backwards (HEAD, then VERTEX, then EDGE).  For a stream `pre ++ line ::
suf` whose line `line` is out of order (a header record after a vertex or edge
record, a vertex record after an edge record, or a line of unknown record
type), `loadASQG` returns false, and the graph it leaves is the one the lines
`pre` alone leave: neither the offending line nor any line after it adds
anything. -/
theorem loadASQG_stage_order (cfg : LoadConfig) (g : Bigraph) (pre suf : List Line)
    (line : Line) (h : OutOfOrder pre line) :
    (∀ (s s1 : Stage) (g0 g1 : Bigraph) (l : Line),
      loadASQG.step cfg s g0 l = some (Step.next s1 g1) → s.toNat ≤ s1.toNat) ∧
    ∃ (b : Bool) (gp : Bigraph), loadASQG pre cfg g = some (b, gp) ∧
      loadASQG (pre ++ line :: suf) cfg g = some (false, gp) := by
  refine ⟨fun s s1 g0 g1 l hl => (loadASQG.step_next cfg s s1 g0 g1 l hl).1, ?_⟩
  obtain ⟨⟨b, s1, gp⟩, hpre⟩ := loadASQG.loop_isSome cfg pre Stage.STAGE_HEAD g
  refine ⟨b, gp, by simp [loadASQG, hpre], ?_⟩
  simp only [loadASQG, loadASQG.loop_append, hpre]
  cases b with
  | false => rfl
  | true =>
    obtain ⟨_, hv, he⟩ := loadASQG.loop_stage cfg pre _ s1 g gp hpre
    have hstep : loadASQG.step cfg s1 gp line = some (Step.fail gp) := by
      apply loadASQG.step_outOfOrder
      rcases h with ⟨hl, hex⟩ | ⟨hl, hex⟩ | hu
      · exact Or.inl ⟨hl, hv hex⟩
      · exact Or.inr (Or.inl ⟨hl, he hex⟩)
      · exact Or.inr (Or.inr hu)
    simp [loadASQG.loop, hstep]

/-! ## Twin consistency under `create` and `loadASQG` -/

theorem TwinConsistent.extend (g g1 : Bigraph) (added : String → List Nat)
    (hold : ∀ (p : Nat) (e : Edge), g.deref p = some e → g1.deref p = some e)
    (hvert : ∀ x : String, g1.getVertex x =
      (g.getVertex x).map (fun v => { v with edges := v.edges ++ added x }))
    (hnew : ∀ (x : String) (v : Vertex), g.getVertex x = some v → ∀ p ∈ added x,
      ∃ (e : Edge) (q : Nat) (t : Edge) (w : Vertex),
        g1.deref p = some e ∧ e.twin = some q ∧ g1.deref q = some t ∧ t.twin = some p ∧
        t.end_ = x ∧ g1.getVertex e.end_ = some w ∧ q ∈ w.edges)
    (h : TwinConsistent g) : TwinConsistent g1 := by
  intro x v1 hv1 p hp
  rw [hvert x] at hv1
  cases hv : g.getVertex x with
  | none => simp [hv] at hv1
  | some v =>
    simp only [hv, Option.map_some', Option.some.injEq] at hv1
    subst hv1
    rcases List.mem_append.mp hp with hp | hp
    · obtain ⟨e, q, t, w, h1, h2, h3, h4, h5, h6, h7⟩ := h x v hv p hp
      refine ⟨e, q, t, { w with edges := w.edges ++ added e.end_ }, hold p e h1, h2,
        hold q t h3, h4, h5, ?_, List.mem_append_left _ h7⟩
      rw [hvert e.end_, h6]
      rfl
    · exact hnew x v hv p hp

theorem pairResult_deref_old (g : Bigraph) (o : Overlap) (comp : Comp) (v0 v1 : String)
    (p : Nat) (e : Edge) (h : g.deref p = some e) :
    (pairResult g o comp v0 v1).deref p = some e := by
  simp only [Bigraph.deref, pairResult] at h ⊢
  cases hp : g.store[p]? with
  | none => simp [hp] at h
  | some x => rw [getElem?_append_old g.store _ p x hp]; rw [hp] at h; exact h

theorem pairResult_getVertex (g : Bigraph) (o : Overlap) (comp : Comp) (v0 v1 x : String) :
    (pairResult g o comp v0 v1).getVertex x = (g.getVertex x).map (fun v =>
      { v with edges := v.edges ++ ((if x = v0 then [g.store.length] else []) ++
          (if x = v1 then [g.store.length + 1] else [])) }) := by
  simp only [Bigraph.getVertex, pairResult, Bigraph.find_updateIn_push]
  cases g.vertices.find? (fun v => decide (v.id = x)) with
  | none => rfl
  | some v =>
    by_cases hx0 : x = v0
    · by_cases h01 : v0 = v1
      · simp [hx0, h01]
      · simp [hx0, h01]
    · by_cases hx1 : x = v1
      · have h10 : ¬ v1 = v0 := fun h => hx0 (hx1.trans h)
        simp [hx1, h10]
      · simp [hx0, hx1]

theorem pairResult_deref0 (g : Bigraph) (o : Overlap) (comp : Comp) (v0 v1 : String) :
    (pairResult g o comp v0 v1).deref g.store.length =
      some { end_ := v1,
             dir := if o.match_.coords0.isLeftExtreme = true then Dir.ED_ANTISENSE
                    else Dir.ED_SENSE,
             comp := comp, coord := o.match_.coords0,
             twin := some (g.store.length + 1), color := GraphColor.GC_WHITE } := by
  have := getElem?_append_add g.store
  simp only [Bigraph.deref, pairResult]
  rw [← Nat.add_zero g.store.length, this]
  rfl

theorem pairResult_deref1 (g : Bigraph) (o : Overlap) (comp : Comp) (v0 v1 : String) :
    (pairResult g o comp v0 v1).deref (g.store.length + 1) =
      some { end_ := v0,
             dir := if o.match_.coords1.isLeftExtreme = true then Dir.ED_ANTISENSE
                    else Dir.ED_SENSE,
             comp := comp, coord := o.match_.coords1,
             twin := some g.store.length, color := GraphColor.GC_WHITE } := by
  have := getElem?_append_add g.store
  simp only [Bigraph.deref, pairResult]
  rw [this]
  rfl

theorem pairResult_twinConsistent (g : Bigraph) (o : Overlap) (comp : Comp) (v0 v1 : String)
    (w0 w1 : Vertex) (h0 : g.getVertex v0 = some w0) (h1 : g.getVertex v1 = some w1)
    (h : TwinConsistent g) : TwinConsistent (pairResult g o comp v0 v1) := by
  apply TwinConsistent.extend g _ _ (pairResult_deref_old g o comp v0 v1)
    (pairResult_getVertex g o comp v0 v1) _ h
  intro x v hv p hp
  rcases List.mem_append.mp hp with hp | hp
  · by_cases hx : x = v0
    · subst hx
      simp only [if_true, List.mem_singleton] at hp
      subst hp
      refine ⟨_, _, _,
        { w1 with edges := w1.edges ++ ((if v1 = x then [g.store.length] else []) ++
            (if v1 = v1 then [g.store.length + 1] else [])) },
        pairResult_deref0 g o comp x v1, rfl, pairResult_deref1 g o comp x v1, rfl, rfl,
        ?_, ?_⟩
      · rw [pairResult_getVertex]
        simp only [h1]
        rfl
      · simp
    · simp [hx] at hp
  · by_cases hx : x = v1
    · subst hx
      simp only [if_true, List.mem_singleton] at hp
      subst hp
      refine ⟨_, _, _,
        { w0 with edges := w0.edges ++ ((if v0 = v0 then [g.store.length] else []) ++
            (if v0 = x then [g.store.length + 1] else [])) },
        pairResult_deref1 g o comp v0 x, rfl, pairResult_deref0 g o comp v0 x, rfl, rfl,
        ?_, ?_⟩
      · rw [pairResult_getVertex]
        simp only [h0]
        rfl
      · simp
    · simp [hx] at hp

theorem containResult_deref_old (g : Bigraph) (o : Overlap) (comp : Comp) (v0 v1 : String)
    (p : Nat) (e : Edge) (h : g.deref p = some e) :
    (containResult g o comp v0 v1).deref p = some e := by
  simp only [Bigraph.deref, containResult] at h ⊢
  cases hp : g.store[p]? with
  | none => simp [hp] at h
  | some x => rw [getElem?_append_old g.store _ p x hp]; rw [hp] at h; exact h

theorem containResult_getVertex (g : Bigraph) (o : Overlap) (comp : Comp)
    (v0 v1 x : String) :
    (containResult g o comp v0 v1).getVertex x = (g.getVertex x).map (fun v =>
      { v with edges := v.edges ++ ((if x = v0 then [g.store.length] else []) ++
          ((if x = v1 then [g.store.length + 2] else []) ++
          ((if x = v0 then [g.store.length + 1] else []) ++
          (if x = v1 then [g.store.length + 3] else [])))) }) := by
  simp only [Bigraph.getVertex, containResult, Bigraph.find_updateIn_push]
  cases g.vertices.find? (fun v => decide (v.id = x)) with
  | none => rfl
  | some v =>
    by_cases hx0 : x = v0
    · by_cases h01 : v0 = v1
      · simp [hx0, h01]
      · simp [hx0, h01]
    · by_cases hx1 : x = v1
      · have h10 : ¬ v1 = v0 := fun h => hx0 (hx1.trans h)
        simp [hx1, h10]
      · simp [hx0, hx1]

theorem containResult_deref0 (g : Bigraph) (o : Overlap) (comp : Comp) (v0 v1 : String) :
    (containResult g o comp v0 v1).deref g.store.length =
      some { end_ := v1, dir := Dir.ED_SENSE, comp := comp, coord := o.match_.coords0,
             twin := some (g.store.length + 2), color := GraphColor.GC_WHITE } := by
  have := getElem?_append_add g.store
  simp only [Bigraph.deref, containResult]
  rw [← Nat.add_zero g.store.length, this]
  rfl

theorem containResult_deref1 (g : Bigraph) (o : Overlap) (comp : Comp) (v0 v1 : String) :
    (containResult g o comp v0 v1).deref (g.store.length + 1) =
      some { end_ := v1, dir := Dir.ED_ANTISENSE, comp := comp, coord := o.match_.coords0,
             twin := some (g.store.length + 3), color := GraphColor.GC_WHITE } := by
  have := getElem?_append_add g.store
  simp only [Bigraph.deref, containResult]
  rw [this]
  rfl

theorem containResult_deref2 (g : Bigraph) (o : Overlap) (comp : Comp) (v0 v1 : String) :
    (containResult g o comp v0 v1).deref (g.store.length + 2) =
      some { end_ := v0, dir := Dir.ED_SENSE, comp := comp, coord := o.match_.coords1,
             twin := some g.store.length, color := GraphColor.GC_WHITE } := by
  have := getElem?_append_add g.store
  simp only [Bigraph.deref, containResult]
  rw [this]
  rfl

theorem containResult_deref3 (g : Bigraph) (o : Overlap) (comp : Comp) (v0 v1 : String) :
    (containResult g o comp v0 v1).deref (g.store.length + 3) =
      some { end_ := v0, dir := Dir.ED_ANTISENSE, comp := comp, coord := o.match_.coords1,
             twin := some (g.store.length + 1), color := GraphColor.GC_WHITE } := by
  have := getElem?_append_add g.store
  simp only [Bigraph.deref, containResult]
  rw [this]
  rfl

theorem containResult_twinConsistent (g : Bigraph) (o : Overlap) (comp : Comp)
    (v0 v1 : String) (w0 w1 : Vertex)
    (h0 : g.getVertex v0 = some w0) (h1 : g.getVertex v1 = some w1)
    (h : TwinConsistent g) : TwinConsistent (containResult g o comp v0 v1) := by
  apply TwinConsistent.extend g _ _ (containResult_deref_old g o comp v0 v1)
    (containResult_getVertex g o comp v0 v1) _ h
  intro x v hv p hp
  have hw0 : ∃ w, (containResult g o comp v0 v1).getVertex v0 = some w ∧
      g.store.length ∈ w.edges ∧ g.store.length + 1 ∈ w.edges := by
    rw [containResult_getVertex]
    simp only [h0]
    exact ⟨_, rfl, by simp, by simp⟩
  have hw1 : ∃ w, (containResult g o comp v0 v1).getVertex v1 = some w ∧
      g.store.length + 2 ∈ w.edges ∧ g.store.length + 3 ∈ w.edges := by
    rw [containResult_getVertex]
    simp only [h1]
    exact ⟨_, rfl, by simp, by simp⟩
  obtain ⟨u0, hu0, hu0a, hu0b⟩ := hw0
  obtain ⟨u1, hu1, hu1a, hu1b⟩ := hw1
  simp only [List.mem_append] at hp
  rcases hp with hp | hp | hp | hp
  · by_cases hx : x = v0
    · subst hx
      simp only [if_true, List.mem_singleton] at hp
      subst hp
      exact ⟨_, _, _, u1, containResult_deref0 g o comp x v1, rfl,
        containResult_deref2 g o comp x v1, rfl, rfl, hu1, hu1a⟩
    · simp [hx] at hp
  · by_cases hx : x = v1
    · subst hx
      simp only [if_true, List.mem_singleton] at hp
      subst hp
      exact ⟨_, _, _, u0, containResult_deref2 g o comp v0 x, rfl,
        containResult_deref0 g o comp v0 x, rfl, rfl, hu0, hu0a⟩
    · simp [hx] at hp
  · by_cases hx : x = v0
    · subst hx
      simp only [if_true, List.mem_singleton] at hp
      subst hp
      exact ⟨_, _, _, u1, containResult_deref1 g o comp x v1, rfl,
        containResult_deref3 g o comp x v1, rfl, rfl, hu1, hu1b⟩
    · simp [hx] at hp
  · by_cases hx : x = v1
    · subst hx
      simp only [if_true, List.mem_singleton] at hp
      subst hp
      exact ⟨_, _, _, u0, containResult_deref3 g o comp v0 x, rfl,
        containResult_deref1 g o comp v0 x, rfl, rfl, hu0, hu0b⟩
    · simp [hx] at hp

theorem EdgeCreator.create_twinConsistent (c : EdgeCreator) (g g1 : Bigraph) (o : Overlap)
    (b : Bool) (h : TwinConsistent g) (hc : c.create g o = some (b, g1)) :
    TwinConsistent g1 := by
  by_cases hall : ∃ v0 v1 : Vertex,
      g.getVertex o.id0 = some v0 ∧ g.getVertex o.id1 = some v1 ∧
      o.match_.coords0.isExtreme = true ∧ o.match_.coords1.isExtreme = true ∧
      v0.degrees ≤ c.maxEdges ∧ v1.degrees ≤ c.maxEdges
  · obtain ⟨v0, v1, h0, h1, hx0, hx1, hd0, hd1⟩ := hall
    rw [EdgeCreator.create_eq_of_checks c g o v0 v1 h0 h1 hx0 hx1 hd0 hd1] at hc
    simp only [Option.some.injEq, Prod.mk.injEq] at hc
    rw [← hc.2]
    split
    · exact pairResult_twinConsistent g o _ _ _ v0 v1 h0 h1 h
    · exact containResult_twinConsistent g o _ _ _ v0 v1 h0 h1 h
  · have hfalse : c.create g o = some (false, g) := by
      simp only [EdgeCreator.create]
      cases h0 : g.getVertex o.id0 with
      | none => rfl
      | some v0 =>
        cases h1 : g.getVertex o.id1 with
        | none => rfl
        | some v1 =>
          by_cases hx0 : o.match_.coords0.isExtreme = false
          · simp [hx0]
          · by_cases hx1 : o.match_.coords1.isExtreme = false
            · simp [hx0, hx1]
            · by_cases hdeg : c.maxEdges < v0.degrees ∨ c.maxEdges < v1.degrees
              · simp [hx0, hx1, hdeg]
              · exfalso
                apply hall
                refine ⟨v0, v1, h0, h1, by simpa using hx0, by simpa using hx1, ?_, ?_⟩ <;>
                  omega
    rw [hfalse] at hc
    simp only [Option.some.injEq, Prod.mk.injEq] at hc
    rw [← hc.2]
    exact h

theorem Bigraph.addVertex_twinConsistent (g g1 : Bigraph) (vertex : Vertex) (b : Bool)
    (hv : vertex.edges = []) (h : TwinConsistent g) (ha : g.addVertex vertex = (b, g1)) :
    TwinConsistent g1 := by
  simp only [Bigraph.addVertex] at ha
  cases hg : g.getVertex vertex.id with
  | some u =>
    simp only [hg, Prod.mk.injEq] at ha
    rw [← ha.2]
    exact h
  | none =>
    simp only [hg, Prod.mk.injEq] at ha
    rw [← ha.2]
    have hkeep : ∀ (x : String) (w : Vertex), g.getVertex x = some w →
        Bigraph.getVertex { g with vertices := g.vertices ++ [vertex] } x = some w := by
      intro x w hw
      simp only [Bigraph.getVertex, List.find?_append] at hw ⊢
      rw [hw]
      rfl
    intro x v1 hv1 p hp
    cases hx : g.getVertex x with
    | some w =>
      have := hkeep x w hx
      rw [this] at hv1
      have hwv : w = v1 := Option.some.inj hv1
      subst hwv
      obtain ⟨e, q, t, u, h1, h2, h3, h4, h5, h6, h7⟩ := h x w hx p hp
      exact ⟨e, q, t, u, h1, h2, h3, h4, h5, hkeep _ u h6, h7⟩
    | none =>
      simp only [Bigraph.getVertex, List.find?_append] at hx hv1
      rw [hx] at hv1
      simp only [Option.none_or, List.find?_cons, List.find?_nil] at hv1
      split at hv1
      · cases hv1
        rw [hv] at hp
        cases hp
      · cases hv1

theorem loadASQG.step_twinConsistent (cfg : LoadConfig) (s s1 : Stage) (g g1 : Bigraph)
    (line : Line) (h : TwinConsistent g) :
    (loadASQG.step cfg s g line = some (Step.next s1 g1) → TwinConsistent g1) ∧
    (loadASQG.step cfg s g line = some (Step.fail g1) → TwinConsistent g1) := by
  cases line with
  | header parsed =>
    constructor <;> intro hs <;> cases s <;> cases parsed <;> simp [loadASQG.step] at hs <;>
      (first | (rw [← hs]; exact h) | (rw [← hs.2]; exact h))
  | vertex record =>
    cases record with
    | none =>
      constructor <;> intro hs <;> cases s <;> simp [loadASQG.step] at hs <;>
        (rw [← hs]; exact h)
    | some r =>
      cases hadd : g.addVertex (Vertex.new r.id r.seq) with
      | mk b g2 =>
        have htc := Bigraph.addVertex_twinConsistent g g2 _ b rfl h hadd
        constructor <;> intro hs <;> cases s <;> cases b <;>
          simp [loadASQG.step, hadd] at hs <;>
          first
          | (rw [← hs]; first | exact htc | exact h)
          | (rw [← hs.2]; exact htc)
  | edge overlap =>
    cases overlap with
    | none =>
      constructor <;> intro hs <;> cases s <;> simp [loadASQG.step] at hs <;>
        (rw [← hs]; exact h)
    | some ovr =>
      obtain ⟨b, g2, hc⟩ := EdgeCreator.create_isSome ⟨cfg.allowContainments, cfg.maxEdges⟩ g ovr
      have htc := EdgeCreator.create_twinConsistent _ g g2 ovr b h hc
      by_cases hlen : cfg.minOverlap ≤ ovr.match_.length
      · constructor <;> intro hs <;> cases s <;> cases b <;>
          simp [loadASQG.step, hlen, hc] at hs <;>
          first
          | (rw [← hs]; first | exact htc | exact h)
          | (rw [← hs.2]; exact htc)
      · constructor <;> intro hs <;> cases s <;> simp [loadASQG.step, hlen] at hs <;>
          first
          | (rw [← hs]; exact h)
          | (rw [← hs.2]; exact h)
  | unknown =>
    constructor <;> intro hs <;> simp [loadASQG.step] at hs
    rw [← hs]; exact h

theorem loadASQG.loop_twinConsistent (cfg : LoadConfig) :
    ∀ (lines : List Line) (s : Stage) (g : Bigraph) (r : Bool × Stage × Bigraph),
      TwinConsistent g → loadASQG.loop cfg lines s g = some r → TwinConsistent r.2.2 := by
  intro lines
  induction lines with
  | nil =>
    intro s g r h hr
    simp only [loadASQG.loop, Option.some.injEq] at hr
    rw [← hr]
    exact h
  | cons line rest ih =>
    intro s g r h hr
    simp only [loadASQG.loop] at hr
    cases hst : loadASQG.step cfg s g line with
    | none => simp [hst] at hr
    | some st =>
      cases st with
      | next s1 g1 =>
        simp only [hst] at hr
        exact ih s1 g1 r ((loadASQG.step_twinConsistent cfg s s1 g g1 line h).1 hst) hr
      | fail g1 =>
        simp only [hst, Option.some.injEq] at hr
        rw [← hr]
        exact (loadASQG.step_twinConsistent cfg s s g g1 line h).2 hst

theorem Bigraph.empty_twinConsistent : TwinConsistent Bigraph.empty := by
  intro x v hv
  simp [Bigraph.getVertex, Bigraph.empty] at hv

theorem loadASQG_twinConsistent (stream : List Line) (cfg : LoadConfig) (b : Bool)
    (g : Bigraph) (h : loadASQG stream cfg Bigraph.empty = some (b, g)) :
    TwinConsistent g := by
  simp only [loadASQG] at h
  cases hl : loadASQG.loop cfg stream Stage.STAGE_HEAD Bigraph.empty with
  | none => simp [hl] at h
  | some r =>
    simp only [hl, Option.map_some', Option.some.injEq, Prod.mk.injEq] at h
    rw [← h.2]
    exact loadASQG.loop_twinConsistent cfg stream _ _ r Bigraph.empty_twinConsistent hl

/-- C1 (fails on the code): on the BWT `AAACCC` (runs `A x 3, C x 3`) with
small sample rate 2, `initialize` succeeds and `getOcc('A', 0)` returns 3, while
the symbol `A` occurs once among the first symbol of the column.  The nearest
marker of position 1 is the one placed after the first run (position 3, unit
index 1); the backward walk then reads the run at the unit index of the marker,
which is the run after the marker, instead of the run before it. -/
theorem FMIndex.getOcc_backward_walk_wrong :
    decodeRuns exampleRuns = ['A', 'A', 'A', 'C', 'C', 'C'] ∧
    ∃ x : FMIndex, FMIndex.initialize (FMIndex.ofRuns exampleRuns 2) = some x ∧
      x.getOcc 'A' 0 = some 3 ∧ naiveOcc exampleRuns 'A' 0 = 1 := by
  refine ⟨by decide, _, rfl, ?_, ?_⟩
  · decide
  · decide

/-- C6 (fails on the code): `EdgeCreator::create` keeps a twin consistent graph
twin consistent, whatever the overlap and the result, and every graph that
`loadASQG` builds from the empty graph is twin consistent; but
`ContainRemoveVisitor::visit` does not keep the invariant on every vertex.  The
graph that `loadASQG` builds from a read and its overlap with itself is twin
consistent, also once the read is flagged as contained, and on it `visit` does
not reach a result: the first round of its loop deletes the self edge and its
twin, which is the second element of the copied edge list, and the second round
reads that deleted edge. -/
theorem ContainRemoveVisitor.visit_self_edge_use_after_delete :
    (∀ (c : EdgeCreator) (g g1 : Bigraph) (o : Overlap) (b : Bool),
      TwinConsistent g → c.create g o = some (b, g1) → TwinConsistent g1) ∧
    (∀ (stream : List Line) (cfg : LoadConfig) (b : Bool) (g : Bigraph),
      loadASQG stream cfg Bigraph.empty = some (b, g) → TwinConsistent g) ∧
    loadASQG selfLoopStream ⟨0, true, 10⟩ Bigraph.empty = some (true, selfLoopLoaded) ∧
    TwinConsistent selfLoopGraph ∧
    ContainRemoveVisitor.visit ⟨0⟩ selfLoopGraph "A" = none := by
  refine ⟨fun c g g1 o b h hc => EdgeCreator.create_twinConsistent c g g1 o b h hc,
    fun stream cfg b g h => loadASQG_twinConsistent stream cfg b g h, by decide, ?_,
    by decide⟩
  intro id v hv p hp
  by_cases hid : id = "A"
  · subst hid
    have hv2 : selfLoopGraph.getVertex "A" =
        some { id := "A", seq := "ACGTAACGTA", edges := [0, 1],
               color := GraphColor.GC_WHITE, contained := true } := by decide
    rw [hv2] at hv
    cases hv
    simp only [List.mem_cons, List.mem_singleton, List.not_mem_nil, or_false] at hp
    rcases hp with rfl | rfl
    · exact ⟨_, 1, _, _, rfl, rfl, rfl, rfl, rfl, hv2, by simp⟩
    · exact ⟨_, 0, _, _, rfl, rfl, rfl, rfl, rfl, hv2, by simp⟩
  · have hne : ¬ "A" = id := fun h => hid h.symm
    simp [Bigraph.getVertex, selfLoopGraph, selfLoopLoaded, Bigraph.updateVertex,
      Bigraph.updateIn, hne] at hv

/-- C7 (fails on the code): on a stream in HEAD, VERTEX, EDGE order with unique
vertex ids whose first edge record names a read that is not a vertex,
`loadASQG` returns false at that record and the edge record after it is not
processed (the graph has the two vertices and no edge).  Without the first edge
record the same stream loads and the second edge record adds its two edges. -/
theorem loadASQG_unknown_vertex_is_fatal :
    loadASQG softSkipStream ⟨0, true, 10⟩ Bigraph.empty =
      some (false, { vertices := [Vertex.new "A" "ACGTAACGTA", Vertex.new "C" "ACGTATTTTT"],
                     store := [], containment := false }) ∧
    ∃ g : Bigraph, loadASQG (softSkipStream.eraseIdx 3) ⟨0, true, 10⟩ Bigraph.empty =
      some (true, g) ∧ g.store.length = 2 := by
  refine ⟨by decide, _, rfl, by decide⟩

theorem EdgeCreator.create_noncontainment_witness :
    exampleOverlap.match_.isContainment = false ∧
    ∃ g1 : Bigraph,
      EdgeCreator.create ⟨true, 10⟩ exampleGraph exampleOverlap = some (true, g1) := by
  obtain ⟨g1, _, _, _, _, h, _⟩ :=
    EdgeCreator.create_noncontainment ⟨true, 10⟩ exampleGraph exampleOverlap
      (Vertex.new "A" "ACGTAACGTA") (Vertex.new "B" "ACGTATTTTTTT")
      (by decide) (by decide) (by decide) (by decide) (by decide) (by decide) (by decide)
  exact ⟨by decide, g1, h⟩

theorem EdgeCreator.create_containment_witness :
    exampleContainment.match_.isContainment = true ∧
    ∃ g1 : Bigraph,
      EdgeCreator.create ⟨true, 10⟩ exampleGraph exampleContainment = some (true, g1) := by
  obtain ⟨g1, _, _, _, _, _, _, _, _, h, _⟩ :=
    EdgeCreator.create_containment ⟨true, 10⟩ exampleGraph exampleContainment
      (Vertex.new "A" "ACGTAACGTA") (Vertex.new "B" "ACGTATTTTTTT")
      (by decide) (by decide) (by decide) (by decide) (by decide) (by decide) (by decide)
  exact ⟨by decide, g1, h⟩

theorem EdgeCreator.create_not_extreme_witness :
    exampleNonExtreme.match_.coords0.isExtreme = false ∧
    EdgeCreator.create ⟨true, 10⟩ exampleGraph exampleNonExtreme = some (false, exampleGraph) :=
  ⟨by decide,
    EdgeCreator.create_not_extreme ⟨true, 10⟩ exampleGraph exampleNonExtreme
      (Or.inl (by decide))⟩

theorem loadASQG_stage_order_witness :
    ∃ (b : Bool) (gp : Bigraph),
      loadASQG [Line.header true, Line.vertex (some ⟨"A", "ACGTAACGTA"⟩)] ⟨0, true, 10⟩
        Bigraph.empty = some (b, gp) ∧
      loadASQG ([Line.header true, Line.vertex (some ⟨"A", "ACGTAACGTA"⟩)] ++
        Line.header true :: [Line.vertex (some ⟨"C", "ACGTATTTTT"⟩)]) ⟨0, true, 10⟩
        Bigraph.empty = some (false, gp) :=
  (loadASQG_stage_order ⟨0, true, 10⟩ Bigraph.empty
    [Line.header true, Line.vertex (some ⟨"A", "ACGTAACGTA"⟩)]
    [Line.vertex (some ⟨"C", "ACGTATTTTT"⟩)] (Line.header true)
    (Or.inl ⟨rfl, Line.vertex (some ⟨"A", "ACGTAACGTA"⟩), by simp, Or.inl rfl⟩)).2

/-! ## The vertex table -/

theorem Bigraph.getVertex_append_new (g : Bigraph) (v : Vertex) (x : String)
    (h : g.getVertex v.id = none) :
    Bigraph.getVertex { g with vertices := g.vertices ++ [v] } x =
      if x = v.id then some v else g.getVertex x := by
  simp only [Bigraph.getVertex, List.find?_append] at h ⊢
  by_cases hx : x = v.id
  · subst hx
    rw [h]
    simp
  · have hvx : ¬ v.id = x := fun e => hx e.symm
    simp [hx, hvx]

theorem Bigraph.addAll_getVertex_none (vs : List Vertex) :
    ∀ (g : Bigraph) (x : String),
      (Bigraph.addAll vs g).getVertex x = none ↔
        g.getVertex x = none ∧ ∀ v ∈ vs, v.id ≠ x := by
  induction vs with
  | nil => intro g x; simp [Bigraph.addAll]
  | cons v vs ih =>
    intro g x
    simp only [Bigraph.addAll, ih, List.mem_cons, forall_eq_or_imp]
    cases hg : g.getVertex v.id with
    | some u =>
      simp only [Bigraph.addVertex, hg]
      constructor
      · rintro ⟨h1, h2⟩
        refine ⟨h1, ?_, h2⟩
        intro hvx
        rw [hvx, h1] at hg
        cases hg
      · rintro ⟨h1, _, h2⟩
        exact ⟨h1, h2⟩
    | none =>
      simp only [Bigraph.addVertex, hg, Bigraph.getVertex_append_new g v x hg]
      by_cases hx : x = v.id
      · simp [hx]
      · have hvx : v.id ≠ x := fun e => hx e.symm
        simp [hx, hvx]

/-- C11: `addVertex(v)` returns false exactly when a vertex of id `v.id` is in
the table, and then the graph is unchanged; otherwise it returns true,
`getVertex(v.id)` is `v` afterwards and `getVertex` of every other id is as
before.  After any sequence of `addVertex` calls on the empty graph,
`getVertex` is null exactly for the ids that were never inserted.  In
`loadASQG` a vertex record whose id is already in the table is fatal. -/
theorem Bigraph.addVertex_spec (g : Bigraph) (v : Vertex) :
    ((g.addVertex v).1 = false ↔ ∃ u, g.getVertex v.id = some u) ∧
    ((g.addVertex v).1 = false → (g.addVertex v).2 = g) ∧
    ((g.addVertex v).1 = true →
      (g.addVertex v).2.getVertex v.id = some v ∧
      ∀ x : String, x ≠ v.id → (g.addVertex v).2.getVertex x = g.getVertex x) ∧
    (∀ (vs : List Vertex) (x : String),
      (Bigraph.addAll vs Bigraph.empty).getVertex x = none ↔ ∀ u ∈ vs, u.id ≠ x) ∧
    (∀ (cfg : LoadConfig) (s : Stage) (r : VertexRecord) (u : Vertex),
      g.getVertex r.id = some u → s ≠ Stage.STAGE_EDGE →
      loadASQG.step cfg s g (Line.vertex (some r)) = some (Step.fail g)) := by
  refine ⟨?_, ?_, ?_, ?_, ?_⟩
  · cases hg : g.getVertex v.id with
    | some u => simp [Bigraph.addVertex, hg]
    | none => simp [Bigraph.addVertex, hg]
  · cases hg : g.getVertex v.id with
    | some u => simp [Bigraph.addVertex, hg]
    | none => simp [Bigraph.addVertex, hg]
  · cases hg : g.getVertex v.id with
    | some u => simp [Bigraph.addVertex, hg]
    | none =>
      intro _
      simp only [Bigraph.addVertex, hg]
      constructor
      · rw [Bigraph.getVertex_append_new g v v.id hg]
        simp
      · intro x hx
        rw [Bigraph.getVertex_append_new g v x hg]
        simp [hx]
  · intro vs x
    rw [Bigraph.addAll_getVertex_none]
    simp [Bigraph.getVertex, Bigraph.empty]
  · intro cfg s r u hu hs
    have hadd : g.addVertex (Vertex.new r.id r.seq) = (false, g) := by
      simp [Bigraph.addVertex, Vertex.new, hu]
    cases s <;> simp [loadASQG.step, hadd] at hs ⊢

/-! ## Edge lists by direction -/

theorem Bigraph.filterDir_isSome (g : Bigraph) (dir : Dir) :
    ∀ ps : List Nat, (∀ p ∈ ps, ∃ e, g.deref p = some e) →
      ∃ r, g.filterDir dir ps = some r := by
  intro ps
  induction ps with
  | nil => intro _; exact ⟨[], rfl⟩
  | cons p ps ih =>
    intro h
    obtain ⟨e, he⟩ := h p (List.mem_cons_self _ _)
    obtain ⟨r, hr⟩ := ih (fun q hq => h q (List.mem_cons_of_mem _ hq))
    simp only [Bigraph.filterDir, he, hr, Option.map_some']
    exact ⟨_, rfl⟩

theorem Bigraph.filterDir_live (g : Bigraph) (dir : Dir) :
    ∀ (ps r : List Nat), g.filterDir dir ps = some r → ∀ p ∈ ps, ∃ e, g.deref p = some e := by
  intro ps
  induction ps with
  | nil => intro r _ p hp; cases hp
  | cons q ps ih =>
    intro r h p hp
    simp only [Bigraph.filterDir] at h
    cases hq : g.deref q with
    | none => simp [hq] at h
    | some e =>
      simp only [hq] at h
      cases hr : g.filterDir dir ps with
      | none => simp [hr] at h
      | some r1 =>
        rcases List.mem_cons.mp hp with rfl | hp
        · exact ⟨e, hq⟩
        · exact ih r1 hr p hp

theorem Bigraph.filterDir_mem (g : Bigraph) (dir : Dir) :
    ∀ (ps r : List Nat), g.filterDir dir ps = some r →
      ∀ p : Nat, p ∈ r ↔ p ∈ ps ∧ ∃ e, g.deref p = some e ∧ e.dir = dir := by
  intro ps
  induction ps with
  | nil =>
    intro r h p
    simp only [Bigraph.filterDir, Option.some.injEq] at h
    subst h
    simp
  | cons q ps ih =>
    intro r h p
    simp only [Bigraph.filterDir] at h
    cases hq : g.deref q with
    | none => simp [hq] at h
    | some e =>
      simp only [hq] at h
      cases hr : g.filterDir dir ps with
      | none => simp [hr] at h
      | some r1 =>
        simp only [hr, Option.map_some', Option.some.injEq] at h
        have ih1 := ih r1 hr p
        by_cases hd : e.dir = dir
        · simp only [hd, if_true] at h
          subst h
          simp only [List.mem_cons, ih1]
          constructor
          · rintro (rfl | ⟨h1, h2⟩)
            · exact ⟨Or.inl rfl, e, hq, hd⟩
            · exact ⟨Or.inr h1, h2⟩
          · rintro ⟨rfl | h1, h2⟩
            · exact Or.inl rfl
            · exact Or.inr ⟨h1, h2⟩
        · simp only [hd, if_false] at h
          subst h
          simp only [List.mem_cons, ih1]
          constructor
          · rintro ⟨h1, h2⟩
            exact ⟨Or.inr h1, h2⟩
          · rintro ⟨rfl | h1, e2, h2, h3⟩
            · rw [hq] at h2
              cases h2
              exact absurd h3 hd
            · exact ⟨h1, e2, h2, h3⟩

theorem Bigraph.filterDir_length_add (g : Bigraph) :
    ∀ (ps a b : List Nat), g.filterDir Dir.ED_SENSE ps = some a →
      g.filterDir Dir.ED_ANTISENSE ps = some b → a.length + b.length = ps.length := by
  intro ps
  induction ps with
  | nil =>
    intro a b ha hb
    simp only [Bigraph.filterDir, Option.some.injEq] at ha hb
    subst ha hb
    rfl
  | cons q ps ih =>
    intro a b ha hb
    simp only [Bigraph.filterDir] at ha hb
    cases hq : g.deref q with
    | none => simp [hq] at ha
    | some e =>
      simp only [hq] at ha hb
      cases hra : g.filterDir Dir.ED_SENSE ps with
      | none => simp [hra] at ha
      | some a1 =>
        cases hrb : g.filterDir Dir.ED_ANTISENSE ps with
        | none => simp [hrb] at hb
        | some b1 =>
          simp only [hra, hrb, Option.map_some', Option.some.injEq] at ha hb
          have := ih a1 b1 hra hrb
          subst ha hb
          cases hd : e.dir <;> simp <;> omega

theorem Bigraph.getVertex_colorVertex (g : Bigraph) (vertex x : String) (c : GraphColor) :
    (g.updateVertex vertex (fun v => { v with color := c })).getVertex x =
      (g.getVertex x).map (fun v => if x = vertex then { v with color := c } else v) :=
  Bigraph.getVertex_updateVertex g vertex x (fun v => { v with color := c }) (fun _ => rfl)

/-- C18: on a vertex whose edge pointers are live, `TrimVisitor::visit` colours
the vertex BLACK and returns true exactly when the sequence is shorter than
`minLength` and the vertex has no edge in at least one direction (islands
included); otherwise it returns false and changes nothing.  A marked vertex
increments one counter: the island counter when its total degree is 0, the
dead-end counter otherwise. -/
theorem TrimVisitor.visit_trims (s : TrimVisitor) (g : Bigraph) (vertex : String) (v : Vertex)
    (hv : g.getVertex vertex = some v) (hlive : ∀ p ∈ v.edges, ∃ e, g.deref p = some e) :
    ∃ (b : Bool) (s1 : TrimVisitor) (g1 : Bigraph) (d0 d1 : Nat),
      g.degreesDir v Dir.ED_SENSE = some d0 ∧ g.degreesDir v Dir.ED_ANTISENSE = some d1 ∧
      s.visit g vertex = some (b, s1, g1) ∧
      (b = true ↔ v.seq.length < s.minLength ∧ (d0 = 0 ∨ d1 = 0)) ∧
      (b = true →
        g1 = g.updateVertex vertex (fun v => { v with color := GraphColor.GC_BLACK }) ∧
        g1.getVertex vertex = some { v with color := GraphColor.GC_BLACK } ∧
        s1 = (if v.degrees = 0 then { s with island := s.island + 1 }
              else { s with terminal := s.terminal + 1 })) ∧
      (b = false → g1 = g ∧ s1 = s) := by
  obtain ⟨a0, ha0⟩ := Bigraph.filterDir_isSome g Dir.ED_SENSE v.edges hlive
  obtain ⟨a1, ha1⟩ := Bigraph.filterDir_isSome g Dir.ED_ANTISENSE v.edges hlive
  have hsum := Bigraph.filterDir_length_add g v.edges a0 a1 ha0 ha1
  have hd0 : g.degreesDir v Dir.ED_SENSE = some a0.length := by
    simp [Bigraph.degreesDir, Bigraph.edgesDir, ha0]
  have hd1 : g.degreesDir v Dir.ED_ANTISENSE = some a1.length := by
    simp [Bigraph.degreesDir, Bigraph.edgesDir, ha1]
  have hcol : (g.updateVertex vertex (fun v => { v with color := GraphColor.GC_BLACK })).getVertex
      vertex = some { v with color := GraphColor.GC_BLACK } := by
    rw [Bigraph.getVertex_colorVertex, hv]
    simp
  by_cases hdeg : v.degrees = 0
  · have h0 : a0.length = 0 := by simp only [Vertex.degrees] at hdeg; omega
    by_cases hshort : v.seq.length < s.minLength
    · refine ⟨true, { s with island := s.island + 1 },
        g.updateVertex vertex (fun v => { v with color := GraphColor.GC_BLACK }),
        a0.length, a1.length, hd0, hd1, ?_, ?_, ?_, ?_⟩
      · simp [TrimVisitor.visit, hv, hdeg, hshort]
      · simp [hshort, h0]
      · intro _
        exact ⟨rfl, hcol, by simp [hdeg]⟩
      · intro hb; cases hb
    · refine ⟨false, s, g, a0.length, a1.length, hd0, hd1, ?_, ?_, ?_, ?_⟩
      · simp [TrimVisitor.visit, hv, hdeg, hshort]
      · simp [hshort]
      · intro hb; cases hb
      · intro _; exact ⟨rfl, rfl⟩
  · by_cases hshort : v.seq.length < s.minLength
    · by_cases hz0 : a0.length = 0
      · refine ⟨true, { s with terminal := s.terminal + 1 },
        g.updateVertex vertex (fun v => { v with color := GraphColor.GC_BLACK }),
        a0.length, a1.length, hd0, hd1, ?_, ?_, ?_, ?_⟩
        · simp [TrimVisitor.visit, hv, hdeg, hshort, hd0, hz0]
        · simp [hshort, hz0]
        · intro _
          exact ⟨rfl, hcol, by simp [hdeg]⟩
        · intro hb; cases hb
      · by_cases hz1 : a1.length = 0
        · refine ⟨true, { s with terminal := s.terminal + 1 },
        g.updateVertex vertex (fun v => { v with color := GraphColor.GC_BLACK }),
        a0.length, a1.length, hd0, hd1, ?_, ?_, ?_, ?_⟩
          · simp [TrimVisitor.visit, hv, hdeg, hshort, hd0, hd1, hz0, hz1]
          · simp [hshort, hz1]
          · intro _
            exact ⟨rfl, hcol, by simp [hdeg]⟩
          · intro hb; cases hb
        · refine ⟨false, s, g, a0.length, a1.length, hd0, hd1, ?_, ?_, ?_, ?_⟩
          · simp [TrimVisitor.visit, hv, hdeg, hshort, hd0, hd1, hz0, hz1]
          · simp [hz0, hz1]
          · intro hb; cases hb
          · intro _; exact ⟨rfl, rfl⟩
    · refine ⟨false, s, g, a0.length, a1.length, hd0, hd1, ?_, ?_, ?_, ?_⟩
      · simp [TrimVisitor.visit, hv, hdeg, hshort, hd0, hd1]
      · simp [hshort]
      · intro hb; cases hb
      · intro _; exact ⟨rfl, rfl⟩

/-! ## Statistics -/

theorem TwinConsistent.live {g : Bigraph} (h : TwinConsistent g) (id : String) (v : Vertex)
    (hv : g.getVertex id = some v) : ∀ p ∈ v.edges, ∃ e, g.deref p = some e := by
  intro p hp
  obtain ⟨e, _, _, _, he, _⟩ := h id v hv p hp
  exact ⟨e, he⟩

theorem Bigraph.getVertex_of_mem (g : Bigraph) (hn : (g.vertices.map Vertex.id).Nodup)
    (v : Vertex) (hv : v ∈ g.vertices) : g.getVertex v.id = some v := by
  simp only [Bigraph.getVertex]
  generalize g.vertices = vs at hn hv
  induction vs with
  | nil => cases hv
  | cons u vs ih =>
    simp only [List.map_cons, List.nodup_cons, List.mem_map, not_exists, not_and] at hn
    rcases List.mem_cons.mp hv with rfl | hv
    · simp
    · have hne : ¬ u.id = v.id := fun e => hn.1 v hv e.symm
      simp only [List.find?_cons, hne, decide_False]
      exact ih hn.2 hv

theorem StatisticsVisitor.visit_counts (s : StatisticsVisitor) (g : Bigraph) (vertex : String)
    (v : Vertex) (hv : g.getVertex vertex = some v)
    (hlive : ∀ p ∈ v.edges, ∃ e, g.deref p = some e) :
    ∃ s1 : StatisticsVisitor, s.visit g vertex = some (false, s1, g) ∧
      s1.edges = s.edges + g.bothDegrees v ∧ g.bothDegrees v = v.edges.length ∧
      s1.vertics = s.vertics + 1 := by
  obtain ⟨a0, ha0⟩ := Bigraph.filterDir_isSome g Dir.ED_SENSE v.edges hlive
  obtain ⟨a1, ha1⟩ := Bigraph.filterDir_isSome g Dir.ED_ANTISENSE v.edges hlive
  have hsum := Bigraph.filterDir_length_add g v.edges a0 a1 ha0 ha1
  have hd0 : g.degreesDir v Dir.ED_SENSE = some a0.length := by
    simp [Bigraph.degreesDir, Bigraph.edgesDir, ha0]
  have hd1 : g.degreesDir v Dir.ED_ANTISENSE = some a1.length := by
    simp [Bigraph.degreesDir, Bigraph.edgesDir, ha1]
  have hb : g.bothDegrees v = a0.length + a1.length := by
    simp [Bigraph.bothDegrees, hd0, hd1]
  simp only [StatisticsVisitor.visit, hv, hd0, hd1]
  refine ⟨_, rfl, ?_, by rw [hb, hsum], ?_⟩
  · rw [hb]
    split_ifs <;> rfl
  · split_ifs <;> rfl

theorem StatisticsVisitor.visitAll_counts (g : Bigraph) (hn : (g.vertices.map Vertex.id).Nodup)
    (htc : TwinConsistent g) :
    ∀ (vs : List Vertex) (s : StatisticsVisitor), (∀ v ∈ vs, v ∈ g.vertices) →
      ∃ s1 : StatisticsVisitor,
        StatisticsVisitor.visitAll (vs.map Vertex.id) s g = some (s1, g) ∧
        s1.edges = s.edges + (vs.map g.bothDegrees).sum ∧
        s1.vertics = s.vertics + vs.length := by
  intro vs
  induction vs with
  | nil => intro s _; exact ⟨s, rfl, by simp, by simp⟩
  | cons v vs ih =>
    intro s hmem
    have hv := Bigraph.getVertex_of_mem g hn v (hmem v (List.mem_cons_self _ _))
    obtain ⟨s1, e1, he1, _, hv1⟩ :=
      StatisticsVisitor.visit_counts s g v.id v hv (htc.live v.id v hv)
    obtain ⟨s2, e2, he2, hv2⟩ := ih s1 (fun u hu => hmem u (List.mem_cons_of_mem _ hu))
    refine ⟨s2, ?_, ?_, ?_⟩
    · simp only [List.map_cons, StatisticsVisitor.visitAll, e1, e2]
    · rw [he2, he1]; simp; omega
    · rw [hv2, hv1]; simp; omega

theorem Bigraph.storedEdges_length (g : Bigraph) :
    g.storedEdges.length = (g.vertices.map fun v => v.edges.length).sum := by
  simp only [Bigraph.storedEdges]
  generalize g.vertices = vs
  induction vs with
  | nil => rfl
  | cons v vs ih => simp [List.flatMap_cons, ih]

theorem TwinConsistent.of_check (g : Bigraph) (h : g.checkTwins = true) : TwinConsistent g := by
  intro id v hv p hp
  have hmem : v ∈ g.vertices := List.mem_of_find?_eq_some hv
  have hid := Bigraph.getVertex_id g id v hv
  simp only [Bigraph.checkTwins, List.all_eq_true] at h
  have hvv := h v hmem
  rw [hid] at hvv
  simp only [hv, decide_True, Bool.not_true, Bool.false_or, List.all_eq_true] at hvv
  have hpp := hvv p hp
  cases he : g.deref p with
  | none => simp [he] at hpp
  | some e =>
    simp only [he] at hpp
    cases hq : e.twin with
    | none => simp [hq] at hpp
    | some q =>
      simp only [hq] at hpp
      cases ht : g.deref q with
      | none => simp [ht] at hpp
      | some t =>
        cases hw : g.getVertex e.end_ with
        | none => simp [ht, hw] at hpp
        | some w =>
          simp only [ht, hw, Bool.and_eq_true, decide_eq_true_eq] at hpp
          exact ⟨e, q, t, w, rfl, hq, ht, hpp.1.1, hpp.1.2, hw, hpp.2⟩

theorem involution_count (L : List Nat) (τ : Nat → Nat) (hn : L.Nodup)
    (hτ : ∀ p ∈ L, τ p ∈ L ∧ τ (τ p) = p ∧ τ p ≠ p) :
    L.length = 2 * (L.filter fun p => decide (p < τ p)).length := by
  have hA : (L.filter fun p => decide (p < τ p)).length =
      (L.toFinset.filter fun p => p < τ p).card := by
    rw [← List.toFinset_card_of_nodup (hn.filter _), List.toFinset_filter]
    congr 1
    ext x
    simp
  have hS : L.length = L.toFinset.card := (List.toFinset_card_of_nodup hn).symm
  have hB : (L.toFinset.filter fun p => ¬ p < τ p).card =
      (L.toFinset.filter fun p => p < τ p).card := by
    apply Finset.card_bij (fun p _ => τ p)
    · intro a ha
      simp only [Finset.mem_filter, List.mem_toFinset] at ha ⊢
      obtain ⟨h1, h2, h3⟩ := hτ a ha.1
      refine ⟨h1, ?_⟩
      rw [h2]
      omega
    · intro a ha b hb hab
      simp only [Finset.mem_filter, List.mem_toFinset] at ha hb
      rw [← (hτ a ha.1).2.1, ← (hτ b hb.1).2.1, hab]
    · intro b hb
      simp only [Finset.mem_filter, List.mem_toFinset] at hb
      obtain ⟨h1, h2, h3⟩ := hτ b hb.1
      refine ⟨τ b, ?_, h2⟩
      simp only [Finset.mem_filter, List.mem_toFinset]
      refine ⟨h1, ?_⟩
      rw [h2]
      omega
  have hsplit : (L.toFinset.filter fun p => p < τ p).card +
      (L.toFinset.filter fun p => ¬ p < τ p).card = L.toFinset.card :=
    Finset.filter_card_add_filter_neg_card_eq_card _
  rw [hS, hA]
  omega

theorem Bigraph.AtRest.twin_stored {g : Bigraph} (h : g.AtRest) :
    ∀ p ∈ g.storedEdges,
      g.twinOf p ∈ g.storedEdges ∧ g.twinOf (g.twinOf p) = p ∧ g.twinOf p ≠ p := by
  intro p hp
  simp only [Bigraph.storedEdges, List.mem_flatMap] at hp
  obtain ⟨v, hv, hpv⟩ := hp
  have hget := Bigraph.getVertex_of_mem g h.ids v hv
  obtain ⟨e, q, t, w, h1, h2, h3, h4, _, h6, h7⟩ := h.twins v.id v hget p hpv
  have hq : g.twinOf p = q := by simp [Bigraph.twinOf, h1, h2]
  have hqq : g.twinOf q = p := by simp [Bigraph.twinOf, h3, h4]
  have hpmem : p ∈ g.storedEdges := by
    simp only [Bigraph.storedEdges, List.mem_flatMap]
    exact ⟨v, hv, hpv⟩
  refine ⟨?_, by rw [hq, hqq], h.pair p hpmem⟩
  rw [hq]
  simp only [Bigraph.storedEdges, List.mem_flatMap]
  exact ⟨w, List.mem_of_find?_eq_some h6, h7⟩

/-- C20: statistics identity.  On a graph at rest (unique ids, twin consistent,
each edge stored once, no edge its own twin), `previsit` followed by `visit` on
every vertex once, in any order, leaves the graph unchanged; the edge counter
is the sum over the vertices of `degrees(SENSE) + degrees(ANTISENSE)`, which is
the number of stored directed edges and twice the number of twin pairs; the
vertex counter is the number of vertices. -/
theorem StatisticsVisitor.edges_identity (s0 : StatisticsVisitor) (g : Bigraph)
    (order : List Vertex) (h : g.AtRest) (hperm : order.Perm g.vertices) :
    ∃ s1 : StatisticsVisitor,
      StatisticsVisitor.visitAll (order.map Vertex.id) (s0.previsit g).1 (s0.previsit g).2 =
        some (s1, g) ∧
      s1.edges = (g.vertices.map g.bothDegrees).sum ∧
      s1.edges = g.storedEdges.length ∧
      s1.edges = 2 * g.twinPairs ∧
      s1.vertics = g.vertices.length := by
  obtain ⟨s1, e1, he, hv⟩ := StatisticsVisitor.visitAll_counts g h.ids h.twins order
    (s0.previsit g).1 (fun v hv => hperm.subset hv)
  have hsum : (order.map g.bothDegrees).sum = (g.vertices.map g.bothDegrees).sum :=
    (hperm.map _).sum_eq
  have hdeg : (g.vertices.map g.bothDegrees).sum = g.storedEdges.length := by
    rw [Bigraph.storedEdges_length]
    congr 1
    apply List.map_congr_left
    intro v hv
    have hget := Bigraph.getVertex_of_mem g h.ids v hv
    obtain ⟨_, _, _, hb, _⟩ :=
      StatisticsVisitor.visit_counts s0 g v.id v hget (h.twins.live v.id v hget)
    exact hb
  have hedges : s1.edges = (g.vertices.map g.bothDegrees).sum := by
    rw [he, hsum]
    simp [StatisticsVisitor.previsit]
  refine ⟨s1, e1, hedges, by rw [hedges, hdeg], ?_, ?_⟩
  · rw [hedges, hdeg]
    exact involution_count g.storedEdges g.twinOf h.once h.twin_stored
  · rw [hv, hperm.length_eq]
    simp [StatisticsVisitor.previsit]

/-! ## The chimeric visitor -/

theorem Bigraph.Valid.edgesDir_isSome {g : Bigraph} (h : g.Valid) (id : String) (v : Vertex)
    (hv : g.getVertex id = some v) (dir : Dir) : ∃ r, g.edgesDir v dir = some r :=
  Bigraph.filterDir_isSome g dir v.edges (fun p hp => by
    obtain ⟨e, _, _, _, he, _⟩ := h id v hv p hp
    exact ⟨e, he⟩)

theorem ChimericVisitor.hasLonger_iff (g : Bigraph) (delta ref : Nat) (edges : List Nat) :
    ChimericVisitor.hasLonger g delta ref edges = true ↔
      ∃ k ∈ edges, g.lenOf ref < g.lenOf k ∧ delta ≤ g.lenOf k - g.lenOf ref := by
  simp [ChimericVisitor.hasLonger, List.any_eq_true]

theorem ChimericVisitor.visit_false_frame (s : ChimericVisitor) (g : Bigraph) (vertex : String)
    (v : Vertex) (hn : ¬ s.IsChimeric g v)
    (he : s.visit g vertex = some (false, s, g)) :
    ∃ (b : Bool) (s1 : ChimericVisitor) (g1 : Bigraph),
      s.visit g vertex = some (b, s1, g1) ∧ (b = true ↔ s.IsChimeric g v) ∧
      (b = true →
        g1 = g.updateVertex vertex (fun v => { v with color := GraphColor.GC_BLACK }) ∧
        g1.getVertex vertex = some { v with color := GraphColor.GC_BLACK } ∧
        s1 = { s with chimeric := s.chimeric + 1 }) ∧
      (b = false → g1 = g ∧ s1 = s) ∧
      g1.store = g.store ∧
      (∀ x : String, (g1.getVertex x).map Vertex.edges = (g.getVertex x).map Vertex.edges ∧
        (g1.getVertex x).map Vertex.seq = (g.getVertex x).map Vertex.seq) :=
  ⟨false, s, g, he, ⟨fun hb => Bool.noConfusion hb, fun hc => absurd hc hn⟩,
    fun hb => Bool.noConfusion hb, fun _ => ⟨rfl, rfl⟩, rfl, fun _ => ⟨rfl, rfl⟩⟩

/-- C17: on a graph whose pointers are live, `ChimericVisitor::visit` colours
the vertex BLACK, counts it and returns true exactly when the vertex is
chimeric in the sense of `IsChimeric`; otherwise it returns false and changes
nothing.  In both cases every edge list, every sequence and every edge object
is as before. -/
theorem ChimericVisitor.visit_chimeric (s : ChimericVisitor) (g : Bigraph) (vertex : String)
    (v : Vertex) (hvalid : g.Valid) (hv : g.getVertex vertex = some v) :
    ∃ (b : Bool) (s1 : ChimericVisitor) (g1 : Bigraph),
      s.visit g vertex = some (b, s1, g1) ∧ (b = true ↔ s.IsChimeric g v) ∧
      (b = true →
        g1 = g.updateVertex vertex (fun v => { v with color := GraphColor.GC_BLACK }) ∧
        g1.getVertex vertex = some { v with color := GraphColor.GC_BLACK } ∧
        s1 = { s with chimeric := s.chimeric + 1 }) ∧
      (b = false → g1 = g ∧ s1 = s) ∧
      g1.store = g.store ∧
      (∀ x : String, (g1.getVertex x).map Vertex.edges = (g.getVertex x).map Vertex.edges ∧
        (g1.getVertex x).map Vertex.seq = (g.getVertex x).map Vertex.seq) := by
  obtain ⟨sl, hsl⟩ := hvalid.edgesDir_isSome vertex v hv Dir.ED_SENSE
  obtain ⟨al, hal⟩ := hvalid.edgesDir_isSome vertex v hv Dir.ED_ANTISENSE
  rcases sl with _ | ⟨nextEdge, _ | ⟨x, rest⟩⟩
  · apply ChimericVisitor.visit_false_frame s g vertex v
    · rintro ⟨_, _, _, _, _, _, _, _, h1, _⟩
      rw [hsl] at h1
      cases h1
    · simp [ChimericVisitor.visit, hv, hsl]
  swap
  · apply ChimericVisitor.visit_false_frame s g vertex v
    · rintro ⟨_, _, _, _, _, _, _, _, h1, _⟩
      rw [hsl] at h1
      cases h1
    · simp [ChimericVisitor.visit, hv, hsl]
  rcases al with _ | ⟨prevEdge, _ | ⟨x, rest⟩⟩
  · apply ChimericVisitor.visit_false_frame s g vertex v
    · rintro ⟨_, _, _, _, _, _, _, _, _, h1, _⟩
      rw [hal] at h1
      cases h1
    · simp [ChimericVisitor.visit, hv, hsl, hal]
  swap
  · apply ChimericVisitor.visit_false_frame s g vertex v
    · rintro ⟨_, _, _, _, _, _, _, _, _, h1, _⟩
      rw [hal] at h1
      cases h1
    · simp [ChimericVisitor.visit, hv, hsl, hal]
  by_cases hshort : v.seq.length < s.minLength
  swap
  · apply ChimericVisitor.visit_false_frame s g vertex v
    · rintro ⟨_, _, _, _, _, _, _, _, _, _, h1, _⟩
      exact hshort h1
    · simp [ChimericVisitor.visit, hv, hsl, hal, hshort]
  have hpmem : prevEdge ∈ v.edges :=
    ((Bigraph.filterDir_mem g _ v.edges _ hal prevEdge).mp (List.mem_singleton.mpr rfl)).1
  have hnmem : nextEdge ∈ v.edges :=
    ((Bigraph.filterDir_mem g _ v.edges _ hsl nextEdge).mp (List.mem_singleton.mpr rfl)).1
  obtain ⟨pe, _, _, prevVert, hpe, _, _, hpv⟩ := hvalid vertex v hv prevEdge hpmem
  obtain ⟨ne, _, _, nextVert, hne, _, _, hnv⟩ := hvalid vertex v hv nextEdge hnmem
  obtain ⟨pedges, hpedges⟩ := hvalid.edgesDir_isSome _ prevVert hpv Dir.ED_SENSE
  obtain ⟨nedges, hnedges⟩ := hvalid.edgesDir_isSome _ nextVert hnv Dir.ED_ANTISENSE
  have hunpack : s.IsChimeric g v ↔ 2 ≤ pedges.length ∧ 2 ≤ nedges.length ∧
      ((∃ k ∈ pedges, g.lenOf prevEdge < g.lenOf k ∧
          s.delta ≤ g.lenOf k - g.lenOf prevEdge) ∨
       (∃ k ∈ nedges, g.lenOf nextEdge < g.lenOf k ∧
          s.delta ≤ g.lenOf k - g.lenOf nextEdge)) := by
    constructor
    · rintro ⟨p1, n1, pe1, ne1, pv1, nv1, ps1, ns1, h1, h2, _, h4, h5, h6, h7, h8, h9, h10,
        h11, h12⟩
      rw [hsl] at h1
      rw [hal] at h2
      simp only [Option.some.injEq, List.cons.injEq, and_true] at h1 h2
      subst h1 h2
      rw [hpe] at h4
      rw [hne] at h5
      cases h4
      cases h5
      rw [hpv] at h6
      rw [hnv] at h7
      cases h6
      cases h7
      rw [hpedges] at h8
      rw [hnedges] at h9
      cases h8
      cases h9
      exact ⟨h10, h11, h12⟩
    · rintro ⟨h10, h11, h12⟩
      exact ⟨prevEdge, nextEdge, pe, ne, prevVert, nextVert, pedges, nedges, hsl, hal, hshort,
        hpe, hne, hpv, hnv, hpedges, hnedges, h10, h11, h12⟩
  by_cases hp2 : pedges.length < 2
  · apply ChimericVisitor.visit_false_frame s g vertex v
    · rw [hunpack]
      omega
    · simp [ChimericVisitor.visit, hv, hsl, hal, hshort, hpe, hne, hpv, hpedges, hp2]
  by_cases hn2 : nedges.length < 2
  · apply ChimericVisitor.visit_false_frame s g vertex v
    · rw [hunpack]
      omega
    · simp [ChimericVisitor.visit, hv, hsl, hal, hshort, hpe, hne, hpv, hpedges, hp2, hnv,
        hnedges, hn2]
  by_cases hlong : (ChimericVisitor.hasLonger g s.delta prevEdge pedges ||
      ChimericVisitor.hasLonger g s.delta nextEdge nedges) = true
  · have hl2 := hlong
    simp only [Bool.or_eq_true, ChimericVisitor.hasLonger_iff] at hl2
    refine ⟨true, { s with chimeric := s.chimeric + 1 },
      g.updateVertex vertex (fun v => { v with color := GraphColor.GC_BLACK }), ?_,
      ⟨fun _ => hunpack.mpr ⟨by omega, by omega, hl2⟩, fun _ => rfl⟩, ?_,
      fun hb => Bool.noConfusion hb, rfl, ?_⟩
    · simp only [ChimericVisitor.visit, hv, hsl, hal, hshort, hpe, hne, hpv, hpedges, hp2, hnv,
        hnedges, hn2, hlong, if_true, if_false]
    · intro _
      refine ⟨rfl, ?_, rfl⟩
      rw [Bigraph.getVertex_colorVertex, hv]
      simp
    · intro x
      rw [Bigraph.getVertex_colorVertex]
      cases g.getVertex x with
      | none => exact ⟨rfl, rfl⟩
      | some u => by_cases hx : x = vertex <;> simp [hx]
  · apply ChimericVisitor.visit_false_frame s g vertex v
    · rw [hunpack]
      rintro ⟨_, _, h12⟩
      apply hlong
      simp only [Bool.or_eq_true, ChimericVisitor.hasLonger_iff]
      exact h12
    · simp [ChimericVisitor.visit, hv, hsl, hal, hshort, hpe, hne, hpv, hpedges, hp2, hnv,
        hnedges, hn2, hlong]

theorem TwinConsistent.valid {g : Bigraph} (h : TwinConsistent g) : g.Valid := by
  intro id v hv p hp
  obtain ⟨e, q, t, w, h1, h2, h3, _, _, h6, _⟩ := h id v hv p hp
  exact ⟨e, q, t, w, h1, h2, h3, h6⟩

theorem Bigraph.getVertex_isSome_of_mem (g : Bigraph) (v : Vertex) (hv : v ∈ g.vertices) :
    ∃ u, g.getVertex v.id = some u ∧ u ∈ g.vertices := by
  cases h : g.getVertex v.id with
  | some u => exact ⟨u, rfl, List.mem_of_find?_eq_some h⟩
  | none =>
    simp only [Bigraph.getVertex, List.find?_eq_none] at h
    exact absurd (by simp) (h v hv)

theorem Bigraph.merge_eq (g : Bigraph) (start : String) (edge : Nat) (g1 : Bigraph)
    (h : g.merge start edge = some g1) : g1 = g := by
  simp only [Bigraph.merge, Bigraph.vertexMerge] at h
  split at h
  · cases h
  · split at h
    · exact (Option.some.inj h).symm
    · cases h

theorem Bigraph.simplifyVertex_eq (g : Bigraph) (dir : Dir) (vertex : String) (b : Bool)
    (g1 : Bigraph) (h : g.simplifyVertex dir vertex = some (b, g1)) : g1 = g := by
  simp only [Bigraph.simplifyVertex] at h
  split at h
  · cases h
  · split at h
    · cases h
    · split at h
      · cases h
      · simp only [Option.some.injEq, Prod.mk.injEq] at h
        exact h.2.symm
      · split at h
        · cases h
        · split at h
          · cases h
          · split at h
            · split at h
              · cases h
              · split at h
                · cases hm : g.merge vertex _ with
                  | none => rw [hm] at h; cases h
                  | some g2 =>
                    rw [hm] at h
                    simp only [Option.map_some', Option.some.injEq, Prod.mk.injEq] at h
                    rw [← h.2]
                    exact Bigraph.merge_eq g _ _ g2 hm
                · simp only [Option.some.injEq, Prod.mk.injEq] at h
                  exact h.2.symm
            · cases h
    · simp only [Option.some.injEq, Prod.mk.injEq] at h
      exact h.2.symm

theorem Bigraph.simplifyPass_eq (dir : Dir) :
    ∀ (ids : List String) (c : Bool) (g : Bigraph) (c1 : Bool) (g1 : Bigraph),
      Bigraph.simplifyPass dir ids c g = some (c1, g1) → g1 = g := by
  intro ids
  induction ids with
  | nil =>
    intro c g c1 g1 h
    simp only [Bigraph.simplifyPass, Option.some.injEq, Prod.mk.injEq] at h
    exact h.2.symm
  | cons x xs ih =>
    intro c g c1 g1 h
    simp only [Bigraph.simplifyPass] at h
    cases hx : g.simplifyVertex dir x with
    | none => rw [hx] at h; cases h
    | some r =>
      obtain ⟨m, g2⟩ := r
      rw [hx] at h
      have h2 := Bigraph.simplifyVertex_eq g dir x m g2 hx
      subst h2
      exact ih _ _ _ _ h

theorem Bigraph.simplifyDir_diverges (dir : Dir) (g : Bigraph) (g1 : Bigraph)
    (h : Bigraph.simplifyPass dir (g.vertices.map Vertex.id) false g = some (true, g1)) :
    ∀ fuel, Bigraph.simplifyDir dir fuel g = none := by
  have hg := Bigraph.simplifyPass_eq dir _ _ _ _ _ h
  subst hg
  intro fuel
  induction fuel with
  | zero => rfl
  | succ n ih => simp only [Bigraph.simplifyDir, h, ih]

theorem chainGraph_merge_reads :
    ((chainGraph.merge "A" 0).bind fun g => g.getVertex "A").map Vertex.seq = some "ACGT" ∧
    ((chainGraph.merge "A" 0).bind fun g => g.getVertex "A").map Vertex.edges = some [0] ∧
    ((chainGraph.merge "A" 0).bind fun g => g.getVertex "B").map Vertex.edges = some [1, 2] ∧
    ((chainGraph.merge "A" 0).bind fun g => g.getVertex "B").map Vertex.color =
      some GraphColor.GC_WHITE := by
  decide

/-- Claim C12 (does not hold of the code): `Bigraph::merge` changes nothing.
On the chain of the reads `A`, `B`, `C` the edge at address 0 is stored on `A`,
is a SENSE edge to `B` and has the label `AC`; after `merge(A, e)` the graph is
the same graph, so the sequence of `A` is still `ACGT` and not `ACGTAC`, the
edge is still stored on `A`, its twin is still stored on `B` and `B` is still
white.  For every graph, a call of `merge` that returns gives back the graph it
was called on. -/
theorem Bigraph.merge_leaves_graph_unchanged :
    chainGraph.getVertex "A" =
      some { id := "A", seq := "ACGT", edges := [0], color := GraphColor.GC_WHITE,
             contained := false } ∧
    (chainGraph.deref 0).map (fun e => (e.end_, e.dir, e.twin)) =
      some ("B", Dir.ED_SENSE, some 1) ∧
    chainGraph.label 0 = some ['A', 'C'] ∧
    chainGraph.merge "A" 0 = some chainGraph ∧
    (((chainGraph.merge "A" 0).bind fun g => g.getVertex "A").map Vertex.seq = some "ACGT" ∧
     ((chainGraph.merge "A" 0).bind fun g => g.getVertex "A").map Vertex.edges = some [0] ∧
     ((chainGraph.merge "A" 0).bind fun g => g.getVertex "B").map Vertex.edges = some [1, 2] ∧
     ((chainGraph.merge "A" 0).bind fun g => g.getVertex "B").map Vertex.color =
       some GraphColor.GC_WHITE) ∧
    (∀ (g : Bigraph) (start : String) (edge : Nat) (g1 : Bigraph),
      g.merge start edge = some g1 → g1 = g) :=
  ⟨by decide, by decide, by decide, by decide, chainGraph_merge_reads, Bigraph.merge_eq⟩

/-- Claim C13 (does not hold of the code): on the chain `A = ACGT`, `B = GTAC`,
`C = ACCC` with the twinned edges `A -> B` and `B -> C` of overlap 2, one pass
of `simplify(SENSE)` calls `merge`, reports a change and leaves the graph as it
was, with its three vertices and four edges; the loop of `simplify(SENSE)`
therefore gives no result whatever the number of passes allowed, and neither
does `simplify()`. -/
theorem Bigraph.simplify_chain_never_returns :
    chainGraph.vertices.map (fun v => (v.id, v.seq, v.edges)) =
      [("A", "ACGT", [0]), ("B", "GTAC", [1, 2]), ("C", "ACCC", [3])] ∧
    chainGraph.store.map (Option.map fun e => (e.end_, e.dir, e.comp, e.coord.length, e.twin)) =
      [some ("B", Dir.ED_SENSE, Comp.EC_SAME, 2, some 1),
       some ("A", Dir.ED_ANTISENSE, Comp.EC_SAME, 2, some 0),
       some ("C", Dir.ED_SENSE, Comp.EC_SAME, 2, some 3),
       some ("B", Dir.ED_ANTISENSE, Comp.EC_SAME, 2, some 2)] ∧
    Bigraph.simplifyPass Dir.ED_SENSE (chainGraph.vertices.map Vertex.id) false chainGraph =
      some (true, chainGraph) ∧
    (∀ fuel, Bigraph.simplifyDir Dir.ED_SENSE fuel chainGraph = none) ∧
    (∀ fuel, Bigraph.simplify fuel chainGraph = none) := by
  have hpass : Bigraph.simplifyPass Dir.ED_SENSE (chainGraph.vertices.map Vertex.id) false
      chainGraph = some (true, chainGraph) := by decide
  refine ⟨by decide, by rfl, hpass, Bigraph.simplifyDir_diverges _ _ _ hpass, ?_⟩
  intro fuel
  simp only [Bigraph.simplify, Bigraph.simplifyDir_diverges _ _ _ hpass fuel, Option.none_bind]

/-- Claim C14 (does not hold of the code): a call of `merge` reduces neither
the number of vertices nor the number of edges, since it gives back the graph
it was called on; on every graph, a pass of `simplify(dir)` that reports a
change leaves the graph as it was, so that the loop gives no result whatever
the number of passes allowed.  The chain of the reads `A`, `B`, `C` is twin
consistent and is such a graph. -/
theorem Bigraph.simplify_loops_after_merge :
    TwinConsistent chainGraph ∧
    (∀ fuel, Bigraph.simplifyDir Dir.ED_SENSE fuel chainGraph = none) ∧
    (∀ (g : Bigraph) (start : String) (edge : Nat) (g1 : Bigraph),
      g.merge start edge = some g1 →
        g1.vertices.length = g.vertices.length ∧ g1.storedEdges.length = g.storedEdges.length) ∧
    (∀ (g : Bigraph) (dir : Dir) (g1 : Bigraph),
      Bigraph.simplifyPass dir (g.vertices.map Vertex.id) false g = some (true, g1) →
        g1 = g ∧ ∀ fuel, Bigraph.simplifyDir dir fuel g = none) := by
  refine ⟨TwinConsistent.of_check _ (by decide),
    Bigraph.simplifyDir_diverges _ _ chainGraph (by decide), ?_, ?_⟩
  · intro g start edge g1 h
    rw [Bigraph.merge_eq g start edge g1 h]
    exact ⟨rfl, rfl⟩
  · intro g dir g1 h
    exact ⟨Bigraph.simplifyPass_eq dir _ _ _ _ _ h, Bigraph.simplifyDir_diverges dir g g1 h⟩

theorem Bigraph.simplifyVertex_merge_only (g : Bigraph) (htc : TwinConsistent g) (dir : Dir)
    (vertex : String) (g1 : Bigraph) (h : g.simplifyVertex dir vertex = some (true, g1)) :
    ∃ v, g.getVertex vertex = some v ∧ g.Mergeable dir v := by
  simp only [Bigraph.simplifyVertex] at h
  cases hv : g.getVertex vertex with
  | none => rw [hv] at h; cases h
  | some v =>
    refine ⟨v, rfl, ?_⟩
    rw [hv] at h
    simp only at h
    cases hl : g.edgesDir v dir with
    | none => rw [hl] at h; cases h
    | some l =>
      rw [hl] at h
      match l, hl, h with
      | [], _, h => simp at h
      | _ :: _ :: _, _, h => simp at h
      | [p], hl, h =>
        simp only at h
        have hp : p ∈ v.edges :=
          ((Bigraph.filterDir_mem g dir v.edges [p] hl p).mp (List.mem_singleton_self p)).1
        obtain ⟨e, q, t, w, h1, h2, h3, _, h5, h6, _⟩ := htc vertex v hv p hp
        have hself : g.isSelf p = some (decide (t.end_ = e.end_)) := by
          simp [Bigraph.isSelf, Bigraph.edgeStart, h1, h2, h3]
        rw [hself] at h
        by_cases hse : t.end_ = e.end_
        · simp [hse] at h
        · simp only [hse, decide_False, h1, h2, h3, h6] at h
          cases hd : g.degreesDir w t.dir with
          | none => rw [hd] at h; cases h
          | some d =>
            rw [hd] at h
            simp only at h
            by_cases hd1 : d = 1
            · subst hd1
              refine ⟨p, e, q, t, w, hl, h1, ?_, h2, h3, h6, hd⟩
              rw [Bigraph.getVertex_id g vertex v hv, ← h5]
              exact fun hh => hse hh.symm
            · simp [hd1] at h

theorem Bigraph.simplifyVertex_no_merge (g : Bigraph) (htc : TwinConsistent g) (dir : Dir)
    (vertex : String) (v : Vertex) (hv : g.getVertex vertex = some v)
    (hno : ¬ g.Mergeable dir v) : g.simplifyVertex dir vertex = some (false, g) := by
  obtain ⟨l, hl⟩ := (TwinConsistent.valid htc).edgesDir_isSome vertex v hv dir
  simp only [Bigraph.simplifyVertex, hv, hl]
  match l, hl with
  | [], _ => rfl
  | _ :: _ :: _, _ => rfl
  | [p], hl =>
    simp only
    have hp : p ∈ v.edges :=
      ((Bigraph.filterDir_mem g dir v.edges [p] hl p).mp (List.mem_singleton_self p)).1
    obtain ⟨e, q, t, w, h1, h2, h3, _, h5, h6, _⟩ := htc vertex v hv p hp
    have hself : g.isSelf p = some (decide (t.end_ = e.end_)) := by
      simp [Bigraph.isSelf, Bigraph.edgeStart, h1, h2, h3]
    rw [hself]
    by_cases hse : t.end_ = e.end_
    · simp [hse]
    · simp only [hse, decide_False, h1, h2, h3, h6]
      obtain ⟨r, hr⟩ := (TwinConsistent.valid htc).edgesDir_isSome e.end_ w h6 t.dir
      have hd : g.degreesDir w t.dir = some r.length := by
        simp [Bigraph.degreesDir, hr]
      rw [hd]
      simp only
      by_cases hd1 : r.length = 1
      · exfalso
        apply hno
        refine ⟨p, e, q, t, w, hl, h1, ?_, h2, h3, h6, by rw [hd, hd1]⟩
        rw [Bigraph.getVertex_id g vertex v hv, ← h5]
        exact fun hh => hse hh.symm
      · simp [hd1]

theorem Bigraph.simplifyPass_no_merge (g : Bigraph) (htc : TwinConsistent g) (dir : Dir)
    (hno : ∀ v ∈ g.vertices, ¬ g.Mergeable dir v) :
    ∀ vs : List Vertex, (∀ v ∈ vs, v ∈ g.vertices) →
      Bigraph.simplifyPass dir (vs.map Vertex.id) false g = some (false, g) := by
  intro vs
  induction vs with
  | nil => intro _; rfl
  | cons v vs ih =>
    intro hsub
    obtain ⟨u, hu, hmem⟩ := Bigraph.getVertex_isSome_of_mem g v (hsub v (List.mem_cons_self _ _))
    simp only [List.map_cons, Bigraph.simplifyPass,
      Bigraph.simplifyVertex_no_merge g htc dir v.id u hu (hno u hmem), Bool.or_false]
    exact ih (fun x hx => hsub x (List.mem_cons_of_mem _ hx))

/-- Claim C15: in a twin-consistent graph, `simplify(dir)` calls `merge` at a
vertex only when the vertex has a single edge in direction `dir`, that edge
does not end at the vertex itself, and the end of the edge has exactly one edge
in the direction of the twin.  When no vertex of the graph satisfies this
condition in either direction, one pass per direction reports no change, so
`simplify()` returns after one pass per direction, and the graph it returns is
the graph it was given: every sequence and every edge list is unchanged. -/
theorem Bigraph.simplify_merges_only_mergeable (g : Bigraph) (htc : TwinConsistent g) :
    (∀ (dir : Dir) (vertex : String) (g1 : Bigraph),
      g.simplifyVertex dir vertex = some (true, g1) →
        ∃ v, g.getVertex vertex = some v ∧ g.Mergeable dir v) ∧
    ((∀ v ∈ g.vertices, ∀ dir, ¬ g.Mergeable dir v) →
      (∀ dir, Bigraph.simplifyPass dir (g.vertices.map Vertex.id) false g = some (false, g)) ∧
      (∀ dir, Bigraph.simplifyDir dir 1 g = some g) ∧
      Bigraph.simplify 1 g = some g ∧
      ∀ fuel, Bigraph.simplify (fuel + 1) g = some g) := by
  refine ⟨fun dir vertex g1 h => Bigraph.simplifyVertex_merge_only g htc dir vertex g1 h, ?_⟩
  intro hno
  have hpass : ∀ dir,
      Bigraph.simplifyPass dir (g.vertices.map Vertex.id) false g = some (false, g) :=
    fun dir => Bigraph.simplifyPass_no_merge g htc dir (fun v hv => hno v hv dir) g.vertices
      (fun _ h => h)
  have hdir : ∀ dir fuel, Bigraph.simplifyDir dir (fuel + 1) g = some g := by
    intro dir fuel
    simp only [Bigraph.simplifyDir, hpass dir]
  refine ⟨hpass, fun dir => hdir dir 0, ?_, ?_⟩
  · simp only [Bigraph.simplify, hdir _ 0, Option.some_bind]
  · intro fuel
    simp only [Bigraph.simplify, hdir _ fuel, Option.some_bind]

theorem selfLoopLoaded_not_mergeable :
    ∀ v ∈ selfLoopLoaded.vertices, ∀ dir, ¬ selfLoopLoaded.Mergeable dir v := by
  intro v hv dir
  have hv1 : v = (⟨"A", "ACGTAACGTA", [0, 1], GraphColor.GC_WHITE, false⟩ : Vertex) := by
    simpa [selfLoopLoaded] using hv
  subst hv1
  rintro ⟨p, e, q, t, w, hl, h1, hne, _⟩
  cases dir with
  | ED_SENSE =>
    have h0 : selfLoopLoaded.edgesDir
        (⟨"A", "ACGTAACGTA", [0, 1], GraphColor.GC_WHITE, false⟩ : Vertex) Dir.ED_SENSE =
        some [0] := by decide
    rw [h0] at hl
    simp only [Option.some.injEq, List.cons.injEq, and_true] at hl
    subst hl
    have h2 : (selfLoopLoaded.deref 0).map Edge.end_ = some "A" := by decide
    rw [h1] at h2
    exact hne (Option.some.inj h2)
  | ED_ANTISENSE =>
    have h0 : selfLoopLoaded.edgesDir
        (⟨"A", "ACGTAACGTA", [0, 1], GraphColor.GC_WHITE, false⟩ : Vertex) Dir.ED_ANTISENSE =
        some [1] := by decide
    rw [h0] at hl
    simp only [Option.some.injEq, List.cons.injEq, and_true] at hl
    subst hl
    have h2 : (selfLoopLoaded.deref 1).map Edge.end_ = some "A" := by decide
    rw [h1] at h2
    exact hne (Option.some.inj h2)

/-- The theorem of claim C15 at the graph of one read whose only edges are a
pair of twinned self edges: the graph is twin consistent, no vertex can be
merged, and `simplify()` returns the graph after one pass per direction. -/
theorem Bigraph.simplify_merges_only_mergeable_witness :
    TwinConsistent selfLoopLoaded ∧
    (∀ v ∈ selfLoopLoaded.vertices, ∀ dir, ¬ selfLoopLoaded.Mergeable dir v) ∧
    Bigraph.simplify 1 selfLoopLoaded = some selfLoopLoaded :=
  ⟨TwinConsistent.of_check _ (by decide), selfLoopLoaded_not_mergeable,
    ((Bigraph.simplify_merges_only_mergeable selfLoopLoaded
      (TwinConsistent.of_check _ (by decide))).2 selfLoopLoaded_not_mergeable).2.2.1⟩

theorem Bigraph.Recolored.refl (g : Bigraph) : g.Recolored g :=
  ⟨rfl, rfl, fun _ => Or.inl rfl⟩

theorem Bigraph.Recolored.trans {g g1 g2 : Bigraph} (h1 : g.Recolored g1)
    (h2 : g1.Recolored g2) : g.Recolored g2 := by
  refine ⟨h2.vertices.trans h1.vertices, h2.containment.trans h1.containment, ?_⟩
  intro p
  rcases h2.edges p with h | ⟨e, he, he2⟩
  · rw [h]
    exact h1.edges p
  · rcases h1.edges p with h | ⟨e0, he0, he1⟩
    · exact Or.inr ⟨e, h ▸ he, he2⟩
    · refine Or.inr ⟨e0, he0, ?_⟩
      rw [he2]
      rw [he1] at he
      cases he
      rfl

theorem Bigraph.Recolored.deref {g g1 : Bigraph} (h : g.Recolored g1) (p : Nat) (e : Edge)
    (he : g.deref p = some e) :
    ∃ e1, g1.deref p = some e1 ∧ e1.end_ = e.end_ ∧ e1.dir = e.dir ∧ e1.comp = e.comp ∧
      e1.coord = e.coord ∧ e1.twin = e.twin ∧
      (e1.color = e.color ∨ e1.color = GraphColor.GC_BLACK) := by
  rcases h.edges p with h1 | ⟨e0, he0, he1⟩
  · exact ⟨e, h1.trans he, rfl, rfl, rfl, rfl, rfl, Or.inl rfl⟩
  · rw [he] at he0
    cases he0
    exact ⟨_, he1, rfl, rfl, rfl, rfl, rfl, Or.inr rfl⟩

theorem Bigraph.Recolored.deref_none {g g1 : Bigraph} (h : g.Recolored g1) (p : Nat)
    (he : g.deref p = none) : g1.deref p = none := by
  rcases h.edges p with h1 | ⟨e0, he0, _⟩
  · exact h1.trans he
  · rw [he] at he0
    cases he0

theorem Bigraph.Recolored.lenOf {g g1 : Bigraph} (h : g.Recolored g1) : g1.lenOf = g.lenOf := by
  funext p
  simp only [Bigraph.lenOf]
  cases he : g.deref p with
  | none => rw [h.deref_none p he]
  | some e =>
    obtain ⟨e1, h1, _, _, _, hc, _⟩ := h.deref p e he
    rw [h1]
    simp only [hc]

theorem Bigraph.Recolored.twinOf {g g1 : Bigraph} (h : g.Recolored g1) :
    g1.twinOf = g.twinOf := by
  funext p
  simp only [Bigraph.twinOf]
  cases he : g.deref p with
  | none => rw [h.deref_none p he]
  | some e =>
    obtain ⟨e1, h1, _, _, _, _, ht, _⟩ := h.deref p e he
    rw [h1]
    simp only [ht]

theorem Bigraph.Recolored.getVertex {g g1 : Bigraph} (h : g.Recolored g1) (id : String) :
    g1.getVertex id = g.getVertex id := by
  simp only [Bigraph.getVertex, h.vertices]

theorem Bigraph.Recolored.filterDir {g g1 : Bigraph} (h : g.Recolored g1) (dir : Dir) :
    ∀ ps : List Nat, g1.filterDir dir ps = g.filterDir dir ps := by
  intro ps
  induction ps with
  | nil => rfl
  | cons p ps ih =>
    simp only [Bigraph.filterDir, ih]
    cases he : g.deref p with
    | none => rw [h.deref_none p he]
    | some e =>
      obtain ⟨e1, h1, _, hd, _⟩ := h.deref p e he
      rw [h1]
      simp only [hd]

theorem Bigraph.Recolored.edgesDir {g g1 : Bigraph} (h : g.Recolored g1) (v : Vertex)
    (dir : Dir) : g1.edgesDir v dir = g.edgesDir v dir :=
  h.filterDir dir v.edges

theorem MaximalOverlapVisitor.predicateEdge_congr (dir : Dir) (e e1 : Edge)
    (hd : e1.dir = e.dir) (hc : e1.comp = e.comp) :
    MaximalOverlapVisitor.predicateEdge dir e1 = MaximalOverlapVisitor.predicateEdge dir e := by
  cases dir <;>
    simp only [MaximalOverlapVisitor.predicateEdge, MaximalOverlapVisitor.isAntiSenseEdge,
      MaximalOverlapVisitor.isSenseEdge, hd, hc]

theorem Bigraph.Recolored.removeIf {g g1 : Bigraph} (h : g.Recolored g1) (dir : Dir) :
    ∀ ps : List Nat, g1.removeIf (MaximalOverlapVisitor.predicateEdge dir) ps =
      g.removeIf (MaximalOverlapVisitor.predicateEdge dir) ps := by
  intro ps
  induction ps with
  | nil => rfl
  | cons p ps ih =>
    simp only [Bigraph.removeIf, ih]
    cases he : g.deref p with
    | none => rw [h.deref_none p he]
    | some e =>
      obtain ⟨e1, h1, _, hd, hc, _⟩ := h.deref p e he
      rw [h1]
      simp only [MaximalOverlapVisitor.predicateEdge_congr dir e e1 hd hc]

theorem Bigraph.minElementFrom_congr {g g1 : Bigraph} (h : g1.lenOf = g.lenOf) :
    ∀ (l : List Nat) (m : Nat), g1.minElementFrom m l = g.minElementFrom m l := by
  intro l
  induction l with
  | nil => intro m; rfl
  | cons y ys ih =>
    intro m
    simp only [Bigraph.minElementFrom, h, ih]

theorem Bigraph.Recolored.minElement {g g1 : Bigraph} (h : g.Recolored g1) (l : List Nat) :
    g1.minElement l = g.minElement l := by
  cases l with
  | nil => rfl
  | cons x xs => simp only [Bigraph.minElement, Bigraph.minElementFrom_congr h.lenOf]

theorem Bigraph.Recolored.sortByOverlap {g g1 : Bigraph} (h : g.Recolored g1) (l : List Nat) :
    g1.sortByOverlap l = g.sortByOverlap l := by
  simp only [Bigraph.sortByOverlap, h.lenOf]

theorem Bigraph.Recolored.dropsEdge {g g1 : Bigraph} (h : g.Recolored g1)
    (delta : Nat) (dir : Dir) (first edge : Nat) :
    MaximalOverlapVisitor.dropsEdge delta g1 dir first edge =
      MaximalOverlapVisitor.dropsEdge delta g dir first edge := by
  simp only [MaximalOverlapVisitor.dropsEdge, h.lenOf, h.getVertex, h.removeIf, h.minElement]
  cases he : g.deref edge with
  | none => rw [h.deref_none edge he]
  | some e =>
    obtain ⟨e1, h1, hend, _, _, hc, _⟩ := h.deref edge e he
    rw [h1]
    simp only [hend, hc]

theorem Bigraph.deref_setEdgeColor (g g1 : Bigraph) (p : Nat) (c : GraphColor)
    (h : g.setEdgeColor p c = some g1) :
    ∃ e, g.deref p = some e ∧ g1.vertices = g.vertices ∧ g1.containment = g.containment ∧
      g1.deref p = some { e with color := c } ∧ ∀ x, x ≠ p → g1.deref x = g.deref x := by
  simp only [Bigraph.setEdgeColor] at h
  cases he : g.deref p with
  | none => rw [he] at h; cases h
  | some e =>
    rw [he] at h
    simp only [Option.some.injEq] at h
    subst h
    have hlt : p < g.store.length := by
      by_contra hge
      simp only [Bigraph.deref, List.getElem?_eq_none (not_lt.mp hge), Option.join] at he
      cases he
    refine ⟨e, rfl, rfl, rfl, ?_, ?_⟩
    · simp [Bigraph.deref, List.getElem?_set, hlt]
    · intro x hx
      have hx2 : ¬ p = x := fun hh => hx hh.symm
      simp [Bigraph.deref, List.getElem?_set, hx2]

theorem Bigraph.setEdgeColor_isSome (g : Bigraph) (p : Nat) (c : GraphColor) (e : Edge)
    (h : g.deref p = some e) : ∃ g1, g.setEdgeColor p c = some g1 := by
  simp only [Bigraph.setEdgeColor, h]
  exact ⟨_, rfl⟩

theorem Bigraph.setEdgeColor_recolored (g g1 : Bigraph) (p : Nat)
    (h : g.setEdgeColor p GraphColor.GC_BLACK = some g1) :
    g.Recolored g1 ∧ ∀ x, g1.isBlack x = true ↔ (g.isBlack x = true ∨ x = p) := by
  obtain ⟨e, he, hv, hc, hp, hx⟩ := Bigraph.deref_setEdgeColor g g1 p _ h
  refine ⟨⟨hv, hc, ?_⟩, ?_⟩
  · intro x
    by_cases hxp : x = p
    · subst hxp
      exact Or.inr ⟨e, he, hp⟩
    · exact Or.inl (hx x hxp)
  · intro x
    by_cases hxp : x = p
    · subst hxp
      simp [Bigraph.isBlack, hp]
    · simp [Bigraph.isBlack, hx x hxp, hxp]

theorem Bigraph.isBlack_of_deref (g : Bigraph) (p : Nat) (e : Edge) (h : g.deref p = some e) :
    g.isBlack p = decide (e.color = GraphColor.GC_BLACK) := by
  simp only [Bigraph.isBlack, h]

theorem Bigraph.twinOf_of_deref (g : Bigraph) (p q : Nat) (e : Edge) (h : g.deref p = some e)
    (ht : e.twin = some q) : g.twinOf p = q := by
  simp only [Bigraph.twinOf, h, ht, Option.getD_some]

theorem MaximalOverlapVisitor.visitEdges_spec (δ : Nat) (dir : Dir) (first : Nat)
    (g0 : Bigraph) :
    ∀ (rest : List Nat) (m : Bool) (s : MaximalOverlapVisitor) (g : Bigraph),
      s.delta = δ → g0.Recolored g →
      (∀ j ∈ rest, ∃ (e : Edge) (q : Nat) (t : Edge) (b : Bool),
        g0.deref j = some e ∧ e.twin = some q ∧ g0.deref q = some t ∧ t.twin = some j ∧
        MaximalOverlapVisitor.dropsEdge δ g0 dir first j = some b) →
      ∃ (m1 : Bool) (s1 : MaximalOverlapVisitor) (g1 : Bigraph),
        MaximalOverlapVisitor.visitEdges dir first rest m s g = some (m1, s1, g1) ∧
        s1.delta = δ ∧ g0.Recolored g1 ∧
        (∀ p, g1.isBlack p = true ↔ (g.isBlack p = true ∨ ∃ j ∈ rest,
          MaximalOverlapVisitor.dropsEdge δ g0 dir first j = some true ∧
          g.isBlack j = false ∧ (p = j ∨ p = g0.twinOf j))) ∧
        (m1 = true ↔ (m = true ∨ ∃ j ∈ rest,
          MaximalOverlapVisitor.dropsEdge δ g0 dir first j = some true ∧
          g.isBlack j = false)) := by
  intro rest
  induction rest with
  | nil =>
    intro m s g hs hrec _
    exact ⟨m, s, g, rfl, hs, hrec, by simp, by simp⟩
  | cons j rest ih =>
    intro m s g hs hrec hready
    obtain ⟨e, q, t, b, he, hq, ht, htq, hb⟩ := hready j (List.mem_cons_self _ _)
    have hrest : ∀ j ∈ rest, ∃ (e : Edge) (q : Nat) (t : Edge) (b : Bool),
        g0.deref j = some e ∧ e.twin = some q ∧ g0.deref q = some t ∧ t.twin = some j ∧
        MaximalOverlapVisitor.dropsEdge δ g0 dir first j = some b :=
      fun x hx => hready x (List.mem_cons_of_mem _ hx)
    obtain ⟨e1, he1, _, _, _, _, htw, _⟩ := hrec.deref j e he
    have hblack := Bigraph.isBlack_of_deref g j e1 he1
    -- the rounds that change nothing
    have hskip : (g.isBlack j = true ∨
          MaximalOverlapVisitor.dropsEdge δ g0 dir first j = some false) →
        MaximalOverlapVisitor.visitEdges dir first rest m s g =
          MaximalOverlapVisitor.visitEdges dir first (j :: rest) m s g →
        ∃ (m1 : Bool) (s1 : MaximalOverlapVisitor) (g1 : Bigraph),
        MaximalOverlapVisitor.visitEdges dir first (j :: rest) m s g = some (m1, s1, g1) ∧
        s1.delta = δ ∧ g0.Recolored g1 ∧
        (∀ p, g1.isBlack p = true ↔ (g.isBlack p = true ∨ ∃ x ∈ j :: rest,
          MaximalOverlapVisitor.dropsEdge δ g0 dir first x = some true ∧
          g.isBlack x = false ∧ (p = x ∨ p = g0.twinOf x))) ∧
        (m1 = true ↔ (m = true ∨ ∃ x ∈ j :: rest,
          MaximalOverlapVisitor.dropsEdge δ g0 dir first x = some true ∧
          g.isBlack x = false)) := by
      intro hno heq
      obtain ⟨m1, s1, g1, h1, h2, h3, h4, h5⟩ := ih m s g hs hrec hrest
      have hhead : ¬ (MaximalOverlapVisitor.dropsEdge δ g0 dir first j = some true ∧
          g.isBlack j = false) := by
        rintro ⟨hd, hnb⟩
        rcases hno with hbl | hd2
        · rw [hbl] at hnb; cases hnb
        · rw [hd2] at hd; cases hd
      refine ⟨m1, s1, g1, heq ▸ h1, h2, h3, ?_, ?_⟩
      · intro p
        rw [h4 p]
        constructor
        · rintro (hp | ⟨x, hx, hd, hnb, hpx⟩)
          · exact Or.inl hp
          · exact Or.inr ⟨x, List.mem_cons_of_mem _ hx, hd, hnb, hpx⟩
        · rintro (hp | ⟨x, hx, hd, hnb, hpx⟩)
          · exact Or.inl hp
          · rcases List.mem_cons.mp hx with rfl | hx
            · exact absurd ⟨hd, hnb⟩ hhead
            · exact Or.inr ⟨x, hx, hd, hnb, hpx⟩
      · rw [h5]
        constructor
        · rintro (hp | ⟨x, hx, hd, hnb⟩)
          · exact Or.inl hp
          · exact Or.inr ⟨x, List.mem_cons_of_mem _ hx, hd, hnb⟩
        · rintro (hp | ⟨x, hx, hd, hnb⟩)
          · exact Or.inl hp
          · rcases List.mem_cons.mp hx with rfl | hx
            · exact absurd ⟨hd, hnb⟩ hhead
            · exact Or.inr ⟨x, hx, hd, hnb⟩
    by_cases hcol : e1.color = GraphColor.GC_BLACK
    · apply hskip (Or.inl (by rw [hblack]; simp [hcol]))
      simp only [MaximalOverlapVisitor.visitEdges, he1, hcol, if_true]
    · have hnb : g.isBlack j = false := by rw [hblack]; simp [hcol]
      have hdg : MaximalOverlapVisitor.dropsEdge s.delta g dir first j = some b := by
        rw [hs, hrec.dropsEdge, hb]
      cases b with
      | false =>
        apply hskip (Or.inr hb)
        simp only [MaximalOverlapVisitor.visitEdges, he1, hcol, if_false, hdg]
      | true =>
        obtain ⟨ga, hga⟩ := Bigraph.setEdgeColor_isSome g j GraphColor.GC_BLACK e1 he1
        obtain ⟨hra, hba⟩ := Bigraph.setEdgeColor_recolored g ga j hga
        obtain ⟨t1, ht1, _⟩ := (hrec.trans hra).deref q t ht
        obtain ⟨gb, hgb⟩ := Bigraph.setEdgeColor_isSome ga q GraphColor.GC_BLACK t1 ht1
        obtain ⟨hrb, hbb⟩ := Bigraph.setEdgeColor_recolored ga gb q hgb
        have hrecb : g0.Recolored gb := (hrec.trans hra).trans hrb
        obtain ⟨m1, s1, g1, h1, h2, h3, h4, h5⟩ :=
          ih true { s with dummys := s.dummys + 1 } gb hs hrecb hrest
        have hτj : g0.twinOf j = q := Bigraph.twinOf_of_deref g0 j q e he hq
        have hτq : g0.twinOf q = j := Bigraph.twinOf_of_deref g0 q j t ht htq
        have hgbp : ∀ p, gb.isBlack p = true ↔ (g.isBlack p = true ∨ p = j ∨ p = q) := by
          intro p
          rw [hbb p, hba p, or_assoc]
        refine ⟨m1, s1, g1, ?_, h2, h3, ?_, ?_⟩
        · simp only [MaximalOverlapVisitor.visitEdges, he1, hcol, if_false, hdg, htw, hq, hga,
            hgb]
          exact h1
        · intro p
          rw [h4 p]
          constructor
          · rintro (hp | ⟨x, hx, hd, hxb, hpx⟩)
            · rcases (hgbp p).mp hp with hp | hp | hp
              · exact Or.inl hp
              · exact Or.inr ⟨j, List.mem_cons_self _ _, hb, hnb, Or.inl hp⟩
              · exact Or.inr ⟨j, List.mem_cons_self _ _, hb, hnb, Or.inr (hp.trans hτj.symm)⟩
            · refine Or.inr ⟨x, List.mem_cons_of_mem _ hx, hd, ?_, hpx⟩
              cases hgx : g.isBlack x with
              | false => rfl
              | true =>
                rw [(hgbp x).mpr (Or.inl hgx)] at hxb
                cases hxb
          · rintro (hp | ⟨x, hx, hd, hxb, hpx⟩)
            · exact Or.inl ((hgbp p).mpr (Or.inl hp))
            · rcases List.mem_cons.mp hx with rfl | hx
              · rcases hpx with hp | hp
                · exact Or.inl ((hgbp p).mpr (Or.inr (Or.inl hp)))
                · exact Or.inl ((hgbp p).mpr (Or.inr (Or.inr (hp.trans hτj))))
              · cases hgx : gb.isBlack x with
                | false => exact Or.inr ⟨x, hx, hd, hgx, hpx⟩
                | true =>
                  left
                  rcases (hgbp x).mp hgx with h | h | h
                  · rw [h] at hxb; cases hxb
                  · subst h
                    rcases hpx with hp | hp
                    · exact (hgbp p).mpr (Or.inr (Or.inl hp))
                    · exact (hgbp p).mpr (Or.inr (Or.inr (hp.trans hτj)))
                  · subst h
                    rcases hpx with hp | hp
                    · exact (hgbp p).mpr (Or.inr (Or.inr hp))
                    · exact (hgbp p).mpr (Or.inr (Or.inl (hp.trans hτq)))
        · rw [h5]
          constructor
          · intro _
            exact Or.inr ⟨j, List.mem_cons_self _ _, hb, hnb⟩
          · intro _
            exact Or.inl rfl

theorem Bigraph.le_maxLen (g : Bigraph) : ∀ (l : List Nat) (y : Nat), y ∈ l →
    g.lenOf y ≤ g.maxLen l := by
  intro l
  induction l with
  | nil => intro y hy; cases hy
  | cons x xs ih =>
    intro y hy
    simp only [Bigraph.maxLen, List.foldr_cons]
    rcases List.mem_cons.mp hy with rfl | hy
    · exact le_max_left _ _
    · exact le_trans (ih y hy) (le_max_right _ _)

theorem Bigraph.maxLen_le (g : Bigraph) (b : Nat) : ∀ (l : List Nat),
    (∀ y ∈ l, g.lenOf y ≤ b) → g.maxLen l ≤ b := by
  intro l
  induction l with
  | nil => intro _; exact Nat.zero_le _
  | cons x xs ih =>
    intro h
    simp only [Bigraph.maxLen, List.foldr_cons]
    exact max_le (h x (List.mem_cons_self _ _)) (ih fun y hy => h y (List.mem_cons_of_mem _ hy))

theorem Bigraph.maxLen_eq (g : Bigraph) (l : List Nat) (m : Nat) (hm : m ∈ l)
    (h : ∀ y ∈ l, g.lenOf y ≤ g.lenOf m) : g.maxLen l = g.lenOf m :=
  le_antisymm (g.maxLen_le _ l h) (g.le_maxLen l m hm)

theorem Bigraph.minElementFrom_spec (g : Bigraph) : ∀ (l : List Nat) (m : Nat),
    g.minElementFrom m l ∈ m :: l ∧
      ∀ y ∈ m :: l, g.lenOf y ≤ g.lenOf (g.minElementFrom m l) := by
  intro l
  induction l with
  | nil =>
    intro m
    simp [Bigraph.minElementFrom]
  | cons x xs ih =>
    intro m
    simp only [Bigraph.minElementFrom]
    obtain ⟨h1, h2⟩ := ih (if g.lenOf m < g.lenOf x then x else m)
    constructor
    · rcases List.mem_cons.mp h1 with h | h
      · rw [h]
        split_ifs
        · exact List.mem_cons_of_mem _ (List.mem_cons_self _ _)
        · exact List.mem_cons_self _ _
      · exact List.mem_cons_of_mem _ (List.mem_cons_of_mem _ h)
    · intro y hy
      have hc := h2 _ (List.mem_cons_self _ _)
      rcases List.mem_cons.mp hy with rfl | hy
      · refine le_trans ?_ hc
        split_ifs with hlt
        · exact le_of_lt hlt
        · exact le_refl _
      · rcases List.mem_cons.mp hy with rfl | hy
        · refine le_trans ?_ hc
          split_ifs with hlt
          · exact le_refl _
          · exact not_lt.mp hlt
        · exact h2 y (List.mem_cons_of_mem _ hy)

theorem Bigraph.minElement_maxLen (g : Bigraph) (l : List Nat) (m : Nat)
    (h : g.minElement l = some m) : g.lenOf m = g.maxLen l := by
  cases l with
  | nil => cases h
  | cons x xs =>
    simp only [Bigraph.minElement, Option.some.injEq] at h
    subst h
    obtain ⟨h1, h2⟩ := g.minElementFrom_spec xs x
    exact (g.maxLen_eq _ _ h1 h2).symm

theorem Bigraph.minElement_isSome (g : Bigraph) (l : List Nat) (x : Nat) (hx : x ∈ l) :
    ∃ m, g.minElement l = some m := by
  cases l with
  | nil => cases hx
  | cons y ys => exact ⟨_, rfl⟩

theorem Bigraph.removeIf_isSome (g : Bigraph) (pred : Edge → Bool) :
    ∀ ps : List Nat, (∀ p ∈ ps, ∃ e, g.deref p = some e) →
      ∃ r, g.removeIf pred ps = some r := by
  intro ps
  induction ps with
  | nil => intro _; exact ⟨[], rfl⟩
  | cons p ps ih =>
    intro h
    obtain ⟨e, he⟩ := h p (List.mem_cons_self _ _)
    obtain ⟨r, hr⟩ := ih (fun x hx => h x (List.mem_cons_of_mem _ hx))
    simp only [Bigraph.removeIf, he, hr, Option.map_some']
    exact ⟨_, rfl⟩

theorem Bigraph.removeIf_mem (g : Bigraph) (pred : Edge → Bool) :
    ∀ (ps r : List Nat), g.removeIf pred ps = some r →
      ∀ (p : Nat) (e : Edge), p ∈ ps → g.deref p = some e → pred e = false → p ∈ r := by
  intro ps
  induction ps with
  | nil => intro r _ p e hp; cases hp
  | cons x xs ih =>
    intro r h p e hp he hpe
    simp only [Bigraph.removeIf] at h
    cases hx : g.deref x with
    | none => rw [hx] at h; cases h
    | some ex =>
      rw [hx] at h
      cases hr : g.removeIf pred xs with
      | none => rw [hr] at h; cases h
      | some r1 =>
        rw [hr] at h
        simp only [Option.map_some', Option.some.injEq] at h
        subst h
        rcases List.mem_cons.mp hp with rfl | hp
        · rw [hx] at he
          cases he
          simp [hpe]
        · have := ih r1 hr p e hp he hpe
          split_ifs
          · exact this
          · exact List.mem_cons_of_mem _ this

theorem sub64_self (x : Nat) : sub64 x x = 0 := by
  simp [sub64]

theorem Bigraph.sortByOverlap_perm (g : Bigraph) (l : List Nat) :
    (g.sortByOverlap l).Perm l :=
  List.perm_insertionSort _ l

theorem Bigraph.sortByOverlap_head (g : Bigraph) (l : List Nat) (first : Nat)
    (rest : List Nat) (h : g.sortByOverlap l = first :: rest) :
    ∀ y ∈ l, g.lenOf y ≤ g.lenOf first := by
  haveI : IsTotal Nat (fun x y => g.lenOf y ≤ g.lenOf x) := ⟨fun a b => le_total _ _⟩
  haveI : IsTrans Nat (fun x y => g.lenOf y ≤ g.lenOf x) :=
    ⟨fun a b c h1 h2 => le_trans h2 h1⟩
  have hs : List.Sorted (fun x y => g.lenOf y ≤ g.lenOf x) (g.sortByOverlap l) :=
    List.sorted_insertionSort _ l
  rw [h] at hs
  intro y hy
  have hy2 : y ∈ first :: rest := by
    rw [← h]
    exact (g.sortByOverlap_perm l).mem_iff.mpr hy
  rcases List.mem_cons.mp hy2 with rfl | hy3
  · exact le_refl _
  · exact List.rel_of_sorted_cons hs y hy3

theorem Bigraph.lenOf_of_deref (g : Bigraph) (p : Nat) (e : Edge) (h : g.deref p = some e) :
    g.lenOf p = e.coord.length := by
  simp only [Bigraph.lenOf, h]

/-- The tests of the loop in terms of the greatest lengths. -/
theorem MaximalOverlapVisitor.dropsEdge_true_iff (δ : Nat) (g : Bigraph) (dir : Dir)
    (first j : Nat) (b : Bool) (hb : MaximalOverlapVisitor.dropsEdge δ g dir first j = some b) :
    b = true ↔ ∃ (e : Edge) (w : Vertex) (redges : List Nat),
      g.deref j = some e ∧ δ < sub64 (g.lenOf first) e.coord.length ∧
      g.getVertex e.end_ = some w ∧
      g.removeIf (MaximalOverlapVisitor.predicateEdge dir) w.edges = some redges ∧
      δ < sub64 (g.maxLen redges) e.coord.length := by
  simp only [MaximalOverlapVisitor.dropsEdge] at hb
  cases he : g.deref j with
  | none => rw [he] at hb; cases hb
  | some e =>
    rw [he] at hb
    simp only at hb
    by_cases h1 : sub64 (g.lenOf first) e.coord.length ≤ δ
    · simp only [h1, if_true, Option.some.injEq] at hb
      subst hb
      constructor
      · intro h; cases h
      · rintro ⟨e2, w, redges, he2, hlt, _⟩
        cases he2
        omega
    · simp only [h1, if_false] at hb
      cases hw : g.getVertex e.end_ with
      | none => rw [hw] at hb; cases hb
      | some w =>
        rw [hw] at hb
        simp only at hb
        cases hr : g.removeIf (MaximalOverlapVisitor.predicateEdge dir) w.edges with
        | none => rw [hr] at hb; cases hb
        | some redges =>
          rw [hr] at hb
          simp only at hb
          cases hm : g.minElement redges with
          | none => rw [hm] at hb; cases hb
          | some largest =>
            rw [hm] at hb
            simp only at hb
            rw [g.minElement_maxLen redges largest hm] at hb
            by_cases h2 : sub64 (g.maxLen redges) e.coord.length ≤ δ
            · simp only [h2, if_true, Option.some.injEq] at hb
              subst hb
              constructor
              · intro h; cases h
              · rintro ⟨e2, w2, r2, he2, _, hw2, hr2, hlt⟩
                cases he2
                rw [hw] at hw2
                cases hw2
                rw [hr] at hr2
                cases hr2
                omega
            · simp only [h2, if_false, Option.some.injEq] at hb
              subst hb
              simp only [true_iff]
              exact ⟨e, w, redges, rfl, by omega, hw, hr, by omega⟩

theorem MaximalOverlapVisitor.ready (g0 : Bigraph) (htc : TwinConsistent g0)
    (hor : g0.Oriented) (vertex : String) (v : Vertex) (hv : g0.getVertex vertex = some v)
    (dir : Dir) (edges : List Nat) (hedges : g0.edgesDir v dir = some edges) (δ first : Nat)
    (j : Nat) (hj : j ∈ edges) :
    ∃ (e : Edge) (q : Nat) (t : Edge) (b : Bool),
      g0.deref j = some e ∧ e.twin = some q ∧ g0.deref q = some t ∧ t.twin = some j ∧
      MaximalOverlapVisitor.dropsEdge δ g0 dir first j = some b := by
  obtain ⟨hjv, e0, he0, hdir⟩ := (Bigraph.filterDir_mem g0 dir v.edges edges hedges j).mp hj
  obtain ⟨e, q, t, w, h1, h2, h3, h4, _, h6, h7⟩ := htc vertex v hv j hjv
  have hee : e0 = e := Option.some.inj (he0.symm.trans h1)
  rw [hee] at hdir
  have hvm : v ∈ g0.vertices := List.mem_of_find?_eq_some hv
  have hrt := hor v hvm j hjv
  simp only [Bigraph.reciprocalTwin, h1, Bigraph.twinOf_of_deref g0 j q e h1 h2, h3, hdir,
    Bool.not_eq_true'] at hrt
  obtain ⟨redges, hr⟩ := g0.removeIf_isSome (MaximalOverlapVisitor.predicateEdge dir) w.edges
    (TwinConsistent.live htc e.end_ w h6)
  have hq := g0.removeIf_mem _ w.edges redges hr q t h7 h3 hrt
  obtain ⟨largest, hm⟩ := g0.minElement_isSome redges q hq
  have hd : ∃ b, MaximalOverlapVisitor.dropsEdge δ g0 dir first j = some b := by
    simp only [MaximalOverlapVisitor.dropsEdge, h1, h6, hr, hm]
    split_ifs
    · exact ⟨false, rfl⟩
    · exact ⟨false, rfl⟩
    · exact ⟨true, rfl⟩
  obtain ⟨b, hb⟩ := hd
  exact ⟨e, q, t, b, h1, h2, h3, h4, hb⟩

theorem MaximalOverlapVisitor.marksIn_iff (g0 : Bigraph) (htc : TwinConsistent g0)
    (hor : g0.Oriented) (vertex : String) (v : Vertex) (hv : g0.getVertex vertex = some v)
    (dir : Dir) (edges : List Nat) (hedges : g0.edgesDir v dir = some edges) (δ first : Nat)
    (rest : List Nat) (hsort : g0.sortByOverlap edges = first :: rest) (j : Nat) :
    (j ∈ rest ∧ MaximalOverlapVisitor.dropsEdge δ g0 dir first j = some true) ↔
      MaximalOverlapVisitor.MarksIn δ g0 v dir j := by
  have hperm := g0.sortByOverlap_perm edges
  rw [hsort] at hperm
  have hfirst : first ∈ edges := hperm.mem_iff.mp (List.mem_cons_self _ _)
  have hmax : g0.maxLen edges = g0.lenOf first :=
    g0.maxLen_eq edges first hfirst (g0.sortByOverlap_head edges first rest hsort)
  constructor
  · rintro ⟨hj, hd⟩
    obtain ⟨e, w, redges, h1, h2, h3, h4, h5⟩ :=
      (MaximalOverlapVisitor.dropsEdge_true_iff δ g0 dir first j true hd).mp rfl
    exact ⟨edges, e, w, redges, hedges, hperm.mem_iff.mp (List.mem_cons_of_mem _ hj), h1,
      hmax ▸ h2, h3, h4, h5⟩
  · rintro ⟨edges2, e, w, redges, h0, hj, h1, h2, h3, h4, h5⟩
    rw [hedges] at h0
    cases h0
    rw [hmax] at h2
    have hjr : j ∈ rest := by
      rcases List.mem_cons.mp (hperm.mem_iff.mpr hj) with rfl | h
      · rw [g0.lenOf_of_deref j e h1, sub64_self] at h2
        omega
      · exact h
    refine ⟨hjr, ?_⟩
    obtain ⟨e2, q, t, b, _, _, _, _, hb⟩ :=
      MaximalOverlapVisitor.ready g0 htc hor vertex v hv dir edges hedges δ first j hj
    rw [hb]
    rw [(MaximalOverlapVisitor.dropsEdge_true_iff δ g0 dir first j b hb).mpr
      ⟨e, w, redges, h1, h2, h3, h4, h5⟩]

theorem MaximalOverlapVisitor.visitDir_spec (g0 : Bigraph) (htc : TwinConsistent g0)
    (hor : g0.Oriented) (vertex : String) (v : Vertex) (hv : g0.getVertex vertex = some v)
    (dir : Dir) (m : Bool) (s : MaximalOverlapVisitor) (g : Bigraph) (hrec : g0.Recolored g) :
    ∃ (m1 : Bool) (s1 : MaximalOverlapVisitor) (g1 : Bigraph),
      MaximalOverlapVisitor.visitDir dir m s g vertex = some (m1, s1, g1) ∧
      s1.delta = s.delta ∧ g0.Recolored g1 ∧
      (∀ p, g1.isBlack p = true ↔ (g.isBlack p = true ∨ ∃ j,
        MaximalOverlapVisitor.MarksIn s.delta g0 v dir j ∧
        g.isBlack j = false ∧ (p = j ∨ p = g0.twinOf j))) ∧
      (m1 = true ↔ (m = true ∨ ∃ j,
        MaximalOverlapVisitor.MarksIn s.delta g0 v dir j ∧ g.isBlack j = false)) := by
  obtain ⟨edges, hedges⟩ := (TwinConsistent.valid htc).edgesDir_isSome vertex v hv dir
  cases hsort : g0.sortByOverlap edges with
  | nil =>
    have hperm := g0.sortByOverlap_perm edges
    rw [hsort] at hperm
    have hnil : edges = [] := List.Perm.eq_nil hperm.symm
    subst hnil
    have hno : ∀ j, ¬ MaximalOverlapVisitor.MarksIn s.delta g0 v dir j := by
      rintro j ⟨edges2, _, _, _, h0, hj, _⟩
      rw [hedges] at h0
      cases h0
      cases hj
    refine ⟨m, s, g, ?_, rfl, hrec, ?_, ?_⟩
    · simp only [MaximalOverlapVisitor.visitDir, hrec.getVertex, hv, hrec.edgesDir, hedges,
        hrec.sortByOverlap, hsort]
    · intro p
      constructor
      · exact fun h => Or.inl h
      · rintro (h | ⟨j, hj, _⟩)
        · exact h
        · exact absurd hj (hno j)
    · constructor
      · exact fun h => Or.inl h
      · rintro (h | ⟨j, hj, _⟩)
        · exact h
        · exact absurd hj (hno j)
  | cons first rest =>
    have hperm := g0.sortByOverlap_perm edges
    rw [hsort] at hperm
    obtain ⟨m1, s1, g1, h1, h2, h3, h4, h5⟩ :=
      MaximalOverlapVisitor.visitEdges_spec s.delta dir first g0 rest m s g rfl hrec
        (fun j hj => MaximalOverlapVisitor.ready g0 htc hor vertex v hv dir edges hedges
          s.delta first j (hperm.mem_iff.mp (List.mem_cons_of_mem _ hj)))
    have hiff := MaximalOverlapVisitor.marksIn_iff g0 htc hor vertex v hv dir edges hedges
      s.delta first rest hsort
    refine ⟨m1, s1, g1, ?_, h2, h3, ?_, ?_⟩
    · simp only [MaximalOverlapVisitor.visitDir, hrec.getVertex, hv, hrec.edgesDir, hedges,
        hrec.sortByOverlap, hsort]
      exact h1
    · intro p
      rw [h4 p]
      constructor
      · rintro (h | ⟨j, hj, hd, hrest⟩)
        · exact Or.inl h
        · exact Or.inr ⟨j, (hiff j).mp ⟨hj, hd⟩, hrest⟩
      · rintro (h | ⟨j, hj, hrest⟩)
        · exact Or.inl h
        · exact Or.inr ⟨j, ((hiff j).mpr hj).1, ((hiff j).mpr hj).2, hrest⟩
    · rw [h5]
      constructor
      · rintro (h | ⟨j, hj, hd, hrest⟩)
        · exact Or.inl h
        · exact Or.inr ⟨j, (hiff j).mp ⟨hj, hd⟩, hrest⟩
      · rintro (h | ⟨j, hj, hrest⟩)
        · exact Or.inl h
        · exact Or.inr ⟨j, ((hiff j).mpr hj).1, ((hiff j).mpr hj).2, hrest⟩

theorem TwinConsistent.twinOf_twinOf {g : Bigraph} (h : TwinConsistent g) (id : String)
    (v : Vertex) (hv : g.getVertex id = some v) (p : Nat) (hp : p ∈ v.edges) :
    g.twinOf (g.twinOf p) = p := by
  obtain ⟨e, q, t, w, h1, h2, h3, h4, _⟩ := h id v hv p hp
  rw [Bigraph.twinOf_of_deref g p q e h1 h2, Bigraph.twinOf_of_deref g q p t h3 h4]

theorem MaximalOverlapVisitor.MarksIn.mem {δ : Nat} {g : Bigraph} {v : Vertex} {dir : Dir}
    {j : Nat} (h : MaximalOverlapVisitor.MarksIn δ g v dir j) : j ∈ v.edges := by
  obtain ⟨edges, _, _, _, h0, hj, _⟩ := h
  exact ((Bigraph.filterDir_mem g dir v.edges edges h0 j).mp hj).1

theorem MaximalOverlapVisitor.MarksIn.dir_eq {δ : Nat} {g : Bigraph} {v : Vertex} {dir : Dir}
    {j : Nat} (h : MaximalOverlapVisitor.MarksIn δ g v dir j) :
    ∃ e, g.deref j = some e ∧ e.dir = dir := by
  obtain ⟨edges, _, _, _, h0, hj, _⟩ := h
  exact ((Bigraph.filterDir_mem g dir v.edges edges h0 j).mp hj).2

/-- Claim C16, as the code has it: on a vertex of a twin-consistent graph whose
twins are of the reciprocal sense, `MaximalOverlapVisitor::visit` returns, and
the graph afterwards is the graph before with some edges coloured BLACK.  An
edge is BLACK afterwards exactly when it was BLACK before or it is an edge `j`
of the vertex that the visitor marks, or the twin of such an edge; `j` is marked
when it is not BLACK, the greatest length among the edges of the vertex in its
direction exceeds the length of `j` by more than `delta`, and the greatest
length among the edges of the reciprocal sense on the end of `j` exceeds the
length of `j` by more than `delta`.  Every other edge keeps its colour, and the
result is `true` exactly when some edge is marked. -/
theorem MaximalOverlapVisitor.visit_marks (s : MaximalOverlapVisitor) (g : Bigraph)
    (vertex : String) (v : Vertex) (htc : TwinConsistent g) (hor : g.Oriented)
    (hv : g.getVertex vertex = some v) :
    ∃ (b : Bool) (s1 : MaximalOverlapVisitor) (g1 : Bigraph),
      s.visit g vertex = some (b, s1, g1) ∧ g.Recolored g1 ∧
      (∀ p, g1.isBlack p = true ↔
        (g.isBlack p = true ∨ ∃ j, s.Marks g v j ∧ (p = j ∨ p = g.twinOf j))) ∧
      (∀ p, g1.isBlack p = false → g1.deref p = g.deref p) ∧
      (b = true ↔ ∃ j, s.Marks g v j) := by
  obtain ⟨m1, s1, g1, h1, h2, h3, h4, h5⟩ :=
    MaximalOverlapVisitor.visitDir_spec g htc hor vertex v hv Dir.ED_SENSE false s g
      (Bigraph.Recolored.refl g)
  obtain ⟨m2, s2, g2, k1, _, k3, k4, k5⟩ :=
    MaximalOverlapVisitor.visitDir_spec g htc hor vertex v hv Dir.ED_ANTISENSE m1 s1 g1 h3
  rw [h2] at k4 k5
  have hmono : ∀ x, g1.isBlack x = false → g.isBlack x = false := by
    intro x hx
    cases hgx : g.isBlack x with
    | false => rfl
    | true =>
      rw [(h4 x).mpr (Or.inl hgx)] at hx
      cases hx
  refine ⟨m2, s2, g2, ?_, k3, ?_, ?_, ?_⟩
  · simp only [MaximalOverlapVisitor.visit, h1]
    exact k1
  · intro p
    rw [k4 p, h4 p]
    constructor
    · rintro ((hp | ⟨j, hj, hb, hpj⟩) | ⟨j, hj, hb, hpj⟩)
      · exact Or.inl hp
      · exact Or.inr ⟨j, ⟨hb, Dir.ED_SENSE, hj⟩, hpj⟩
      · exact Or.inr ⟨j, ⟨hmono j hb, Dir.ED_ANTISENSE, hj⟩, hpj⟩
    · rintro (hp | ⟨j, ⟨hb, dir, hj⟩, hpj⟩)
      · exact Or.inl (Or.inl hp)
      · cases dir with
        | ED_SENSE => exact Or.inl (Or.inr ⟨j, hj, hb, hpj⟩)
        | ED_ANTISENSE =>
          cases hg1 : g1.isBlack j with
          | false => exact Or.inr ⟨j, hj, hg1, hpj⟩
          | true =>
            left
            rcases (h4 j).mp hg1 with h | ⟨i, hi, hib, hji⟩
            · rw [h] at hb
              cases hb
            · right
              refine ⟨i, hi, hib, ?_⟩
              have hinv := TwinConsistent.twinOf_twinOf htc vertex v hv i hi.mem
              rcases hji with rfl | rfl
              · exact hpj
              · rcases hpj with hp | hp
                · exact Or.inr hp
                · exact Or.inl (hp.trans hinv)
  · intro p hp
    rcases k3.edges p with h | ⟨e, _, he1⟩
    · exact h
    · simp [Bigraph.isBlack, he1] at hp
  · rw [k5, h5]
    constructor
    · rintro ((hp | ⟨j, hj, hb⟩) | ⟨j, hj, hb⟩)
      · cases hp
      · exact ⟨j, hb, Dir.ED_SENSE, hj⟩
      · exact ⟨j, hmono j hb, Dir.ED_ANTISENSE, hj⟩
    · rintro ⟨j, hb, dir, hj⟩
      cases dir with
      | ED_SENSE => exact Or.inl (Or.inr ⟨j, hj, hb⟩)
      | ED_ANTISENSE =>
        cases hg1 : g1.isBlack j with
        | false => exact Or.inr ⟨j, hj, hg1⟩
        | true =>
          left
          rcases (h4 j).mp hg1 with h | ⟨i, hi, hib, _⟩
          · rw [h] at hb
            cases hb
          · exact Or.inr ⟨i, hi, hib⟩

/-- The theorem of claim C16 at the vertex `V` of the graph of four reads, with
`delta = 5`. -/
theorem MaximalOverlapVisitor.visit_marks_witness :
    TwinConsistent overlapGraph ∧ overlapGraph.Oriented ∧
    overlapGraph.getVertex "V" = some overlapV ∧
    ∃ (b : Bool) (s1 : MaximalOverlapVisitor) (g1 : Bigraph),
      MaximalOverlapVisitor.visit ⟨5, 0⟩ overlapGraph "V" = some (b, s1, g1) ∧
      overlapGraph.Recolored g1 ∧
      (∀ p, g1.isBlack p = true ↔
        (overlapGraph.isBlack p = true ∨ ∃ j,
          MaximalOverlapVisitor.Marks ⟨5, 0⟩ overlapGraph overlapV j ∧
          (p = j ∨ p = overlapGraph.twinOf j))) ∧
      (∀ p, g1.isBlack p = false → g1.deref p = overlapGraph.deref p) ∧
      (b = true ↔ ∃ j, MaximalOverlapVisitor.Marks ⟨5, 0⟩ overlapGraph overlapV j) :=
  ⟨TwinConsistent.of_check _ (by decide), by unfold Bigraph.Oriented; decide, by decide,
    MaximalOverlapVisitor.visit_marks ⟨5, 0⟩ overlapGraph "V" overlapV
      (TwinConsistent.of_check _ (by decide)) (by unfold Bigraph.Oriented; decide)
      (by decide)⟩

/-- Claim C16, as stated, fails on the code: the visitor compares the edge with
the greatest length among the reciprocal edges on its end, not with the
smallest.  In the graph of four reads the vertex `V` has the SENSE edges 0 (of
length 30) and 2 (of length 10, to `W`); the reciprocal edges on `W` are the
twin 3 of the edge 2 (length 10) and the edge 5 (length 50).  With `delta = 5`
the smallest of them exceeds the length of the edge 2 by 0, yet `visit` colours
the edge 2 and its twin BLACK and returns `true`. -/
theorem MaximalOverlapVisitor.visit_not_smallest_reciprocal :
    overlapGraph.edgesDir overlapV Dir.ED_SENSE = some [0, 2] ∧
    overlapGraph.sortByOverlap [0, 2] = [0, 2] ∧
    overlapGraph.lenOf 0 = 30 ∧ overlapGraph.lenOf 2 = 10 ∧
    (overlapGraph.deref 2).map (fun e => (e.end_, e.twin)) = some ("W", some 3) ∧
    ((overlapGraph.getVertex "W").bind fun w =>
      overlapGraph.removeIf (MaximalOverlapVisitor.predicateEdge Dir.ED_SENSE) w.edges) =
      some [3, 5] ∧
    overlapGraph.minLen [3, 5] = 10 ∧ overlapGraph.maxLen [3, 5] = 50 ∧
    5 < overlapGraph.lenOf 0 - overlapGraph.lenOf 2 ∧
    ¬ 5 < overlapGraph.minLen [3, 5] - overlapGraph.lenOf 2 ∧
    overlapGraph.isBlack 2 = false ∧ overlapGraph.isBlack 3 = false ∧
    (MaximalOverlapVisitor.visit ⟨5, 0⟩ overlapGraph "V").map
      (fun r => (r.1, r.2.1.dummys, r.2.2.isBlack 2, r.2.2.isBlack 3)) =
      some (true, 1, true, true) := by
  decide

theorem Bigraph.AtRest.edges_nodup {g : Bigraph} (h : g.AtRest) (id : String) (u : Vertex)
    (hu : g.getVertex id = some u) : u.edges.Nodup :=
  (List.nodup_flatMap.mp h.once).1 u (List.mem_of_find?_eq_some hu)

theorem Bigraph.AtRest.edges_disjoint {g : Bigraph} (h : g.AtRest) (a b : String)
    (u w : Vertex) (hu : g.getVertex a = some u) (hw : g.getVertex b = some w) (hab : a ≠ b) :
    ∀ x, x ∈ u.edges → x ∉ w.edges := by
  have hp := (List.nodup_flatMap.mp h.once).2
  have hsym : Symmetric fun a b : Vertex => List.Disjoint a.edges b.edges :=
    fun _ _ hd => hd.symm
  have hne : u ≠ w := by
    intro huw
    apply hab
    rw [← Bigraph.getVertex_id g a u hu, ← Bigraph.getVertex_id g b w hw, huw]
  have hd := hp.forall hsym (List.mem_of_find?_eq_some hu) (List.mem_of_find?_eq_some hw) hne
  intro x hx hx2
  exact hd hx hx2

theorem Bigraph.deref_updateVertex (g : Bigraph) (id : String) (f : Vertex → Vertex) (x : Nat) :
    (g.updateVertex id f).deref x = g.deref x := rfl

theorem Bigraph.delete_spec (g : Bigraph) (p : Nat) (e : Edge) (h : g.deref p = some e) :
    ∃ g1, g.delete p = some g1 ∧ g1.vertices = g.vertices ∧
      ∀ x, g1.deref x = if x = p then none else g.deref x := by
  have hlt : p < g.store.length := by
    by_contra hge
    simp only [Bigraph.deref, List.getElem?_eq_none (not_lt.mp hge), Option.join] at h
    cases h
  refine ⟨{ g with store := g.store.set p none }, by simp only [Bigraph.delete, h], rfl, ?_⟩
  intro x
  by_cases hx : x = p
  · subst hx
    simp only [Bigraph.deref, List.getElem?_set, hlt, if_true, Option.join]
    rfl
  · have hx2 : ¬ p = x := fun hh => hx hh.symm
    simp [Bigraph.deref, List.getElem?_set, hx, hx2]

theorem Bigraph.getVertex_removeEdge (g : Bigraph) (id x : String) (p : Nat) :
    (g.updateVertex id (fun v => v.removeEdge p)).getVertex x =
      (g.getVertex x).map (fun v => if x = id then v.removeEdge p else v) :=
  Bigraph.getVertex_updateVertex g id x (fun v => v.removeEdge p) (fun _ => rfl)

theorem Bigraph.getVertex_congr (g g1 : Bigraph) (h : g1.vertices = g.vertices) (id : String) :
    g1.getVertex id = g.getVertex id := by
  simp only [Bigraph.getVertex, h]

theorem ContainRemoveVisitor.removeLoop_step (g0 : Bigraph) (h : g0.AtRest) (vertex : String)
    (v : Vertex) (hv : g0.getVertex vertex = some v)
    (hns : ∀ p ∈ v.edges, ∀ e, g0.deref p = some e → e.end_ ≠ vertex)
    (P : List Nat) (p : Nat) (rest : List Nat) (hP : P ++ p :: rest = v.edges) (g : Bigraph)
    (hinv : ContainRemoveVisitor.Removed g0 g P) :
    ∃ g1, ContainRemoveVisitor.removeLoop vertex (p :: rest) g =
        ContainRemoveVisitor.removeLoop vertex rest g1 ∧
      ContainRemoveVisitor.Removed g0 g1 (P ++ [p]) := by
  have hnd : v.edges.Nodup := h.edges_nodup vertex v hv
  have hsub : ∀ x ∈ P, x ∈ v.edges := fun x hx => hP ▸ List.mem_append_left _ hx
  have hpv : p ∈ v.edges := hP ▸ List.mem_append_right _ (List.mem_cons_self _ _)
  have hpP : p ∉ P := by
    rw [← hP] at hnd
    intro hp
    exact (List.nodup_append.mp hnd).2.2 hp (List.mem_cons_self _ _)
  -- the facts of twin consistency for an edge of the vertex
  have htwin : ∀ x ∈ v.edges, ∃ (e : Edge) (t : Edge) (w : Vertex),
      g0.deref x = some e ∧ e.twin = some (g0.twinOf x) ∧ g0.deref (g0.twinOf x) = some t ∧
      g0.twinOf (g0.twinOf x) = x ∧ g0.getVertex e.end_ = some w ∧ g0.twinOf x ∈ w.edges ∧
      e.end_ ≠ vertex ∧ g0.twinOf x ∉ v.edges ∧ g0.twinOf x ≠ x := by
    intro x hx
    obtain ⟨e, q, t, w, h1, h2, h3, h4, _, h6, h7⟩ := h.twins vertex v hv x hx
    have hq : g0.twinOf x = q := Bigraph.twinOf_of_deref g0 x q e h1 h2
    have hqq : g0.twinOf q = x := Bigraph.twinOf_of_deref g0 q x t h3 h4
    have hend := hns x hx e h1
    refine ⟨e, t, w, h1, hq ▸ h2, hq ▸ h3, by rw [hq, hqq], h6, hq ▸ h7, hend, ?_, ?_⟩
    · rw [hq]
      exact h.edges_disjoint e.end_ vertex w v h6 hv hend q h7
    · exact h.pair x (List.mem_flatMap.mpr ⟨v, List.mem_of_find?_eq_some hv, hx⟩)
  obtain ⟨e, t, w, h1, h2, h3, h4, h6, h7, hend, hqv, hqp⟩ := htwin p hpv
  have hqP : g0.twinOf p ∉ P := fun hq => hqv (hsub _ hq)
  have hpτ : p ∉ P.map g0.twinOf := by
    intro hp
    obtain ⟨x, hx, hxp⟩ := List.mem_map.mp hp
    obtain ⟨_, _, _, _, _, _, _, _, _, _, hxv, _⟩ := htwin x (hsub x hx)
    rw [hxp] at hxv
    exact hxv hpv
  have hqτ : g0.twinOf p ∉ P.map g0.twinOf := by
    intro hq
    obtain ⟨x, hx, hxp⟩ := List.mem_map.mp hq
    obtain ⟨_, _, _, _, _, _, hxx, _⟩ := htwin x (hsub x hx)
    rw [hxp, h4] at hxx
    exact hpP (hxx ▸ hx)
  have hgp : g.deref p = some e := by
    rw [hinv.store p, if_neg (not_or.mpr ⟨hpP, hpτ⟩), h1]
  have hgq : g.deref (g0.twinOf p) = some t := by
    rw [hinv.store _, if_neg (not_or.mpr ⟨hqP, hqτ⟩), h3]
  obtain ⟨wk, hwk, _⟩ := hinv.vertex e.end_ w h6
  -- the two updates of the edge lists and the two deletions
  obtain ⟨ga, hga, hva, hda⟩ := Bigraph.delete_spec
    ((g.updateVertex e.end_ (fun v => v.removeEdge (g0.twinOf p))).updateVertex vertex
      (fun v => v.removeEdge p)) (g0.twinOf p) t hgq
  have hgap : ga.deref p = some e := by
    rw [hda p, if_neg (fun hh => hqp hh.symm)]
    exact hgp
  obtain ⟨gb, hgb, hvb, hdb⟩ := Bigraph.delete_spec ga p e hgap
  refine ⟨gb, ?_, ?_, ?_, ?_⟩
  · simp only [ContainRemoveVisitor.removeLoop, hgp, hwk, h2, hga, hgb, Option.some_bind]
  · intro id u0 hu0
    obtain ⟨u, hu, hid, hseq, hcol, hcon, hund, hmem⟩ := hinv.vertex id u0 hu0
    have hget : gb.getVertex id = some
        (if id = vertex then
          (if id = e.end_ then u.removeEdge (g0.twinOf p) else u).removeEdge p
         else (if id = e.end_ then u.removeEdge (g0.twinOf p) else u)) := by
      rw [Bigraph.getVertex_congr ga gb hvb, Bigraph.getVertex_congr _ ga hva,
        Bigraph.getVertex_removeEdge, Bigraph.getVertex_removeEdge, hu]
      rfl
    refine ⟨_, hget, ?_, ?_, ?_, ?_, ?_, ?_⟩
    · split_ifs <;> exact hid
    · split_ifs <;> exact hseq
    · split_ifs <;> exact hcol
    · split_ifs <;> exact hcon
    · split_ifs
      · exact (hund.erase _).erase _
      · exact hund.erase _
      · exact hund.erase _
      · exact hund
    · intro x
      have hxp : x ∈ u0.edges → x = p → id = vertex := by
        intro hx hxp
        by_contra hne
        exact h.edges_disjoint id vertex u0 v hu0 hv hne x hx (hxp ▸ hpv)
      have hxq : x ∈ u0.edges → x = g0.twinOf p → id = e.end_ := by
        intro hx hxq
        by_contra hne
        exact h.edges_disjoint id e.end_ u0 w hu0 h6 hne x hx (hxq ▸ h7)
      simp only [List.mem_append, List.mem_singleton, List.map_append, List.map_cons,
        List.map_nil, not_or]
      by_cases hv1 : id = vertex <;> by_cases hv2 : id = e.end_
      · exact absurd (hv2.symm.trans hv1) hend
      · rw [if_pos hv1, if_neg hv2]
        simp only [Vertex.removeEdge, hund.mem_erase_iff, hmem x]
        constructor
        · rintro ⟨hne, hx, hxP, hxτ⟩
          exact ⟨hx, ⟨hxP, hne⟩, hxτ, fun hh => hv2 (hxq hx hh)⟩
        · rintro ⟨hx, ⟨hxP, hne⟩, hxτ, _⟩
          exact ⟨hne, hx, hxP, hxτ⟩
      · rw [if_neg hv1, if_pos hv2]
        simp only [Vertex.removeEdge, hund.mem_erase_iff, hmem x]
        constructor
        · rintro ⟨hne, hx, hxP, hxτ⟩
          exact ⟨hx, ⟨hxP, fun hh => hv1 (hxp hx hh)⟩, hxτ, hne⟩
        · rintro ⟨hx, ⟨hxP, _⟩, hxτ, hne⟩
          exact ⟨hne, hx, hxP, hxτ⟩
      · rw [if_neg hv1, if_neg hv2]
        simp only [hmem x]
        constructor
        · rintro ⟨hx, hxP, hxτ⟩
          exact ⟨hx, ⟨hxP, fun hh => hv1 (hxp hx hh)⟩, hxτ, fun hh => hv2 (hxq hx hh)⟩
        · rintro ⟨hx, ⟨hxP, _⟩, hxτ, _⟩
          exact ⟨hx, hxP, hxτ⟩
  · intro id hid
    rw [Bigraph.getVertex_congr ga gb hvb, Bigraph.getVertex_congr _ ga hva,
      Bigraph.getVertex_removeEdge, Bigraph.getVertex_removeEdge, hinv.absent id hid]
    rfl
  · intro x
    rw [hdb x, hda x, Bigraph.deref_updateVertex, Bigraph.deref_updateVertex, hinv.store x]
    simp only [List.mem_append, List.mem_singleton, List.map_append, List.map_cons,
      List.map_nil]
    by_cases hxp : x = p
    · simp [hxp]
    · by_cases hxq : x = g0.twinOf p
      · simp [hxq]
      · simp only [hxp, hxq, if_false, or_false]

theorem ContainRemoveVisitor.removeLoop_removed (g0 : Bigraph) (h : g0.AtRest)
    (vertex : String) (v : Vertex) (hv : g0.getVertex vertex = some v)
    (hns : ∀ p ∈ v.edges, ∀ e, g0.deref p = some e → e.end_ ≠ vertex) :
    ∀ (rest P : List Nat) (g : Bigraph), P ++ rest = v.edges →
      ContainRemoveVisitor.Removed g0 g P →
      ∃ g1, ContainRemoveVisitor.removeLoop vertex rest g = some g1 ∧
        ContainRemoveVisitor.Removed g0 g1 v.edges := by
  intro rest
  induction rest with
  | nil =>
    intro P g hP hinv
    rw [List.append_nil] at hP
    subst hP
    exact ⟨g, rfl, hinv⟩
  | cons p rest ih =>
    intro P g hP hinv
    obtain ⟨g1, hstep, hinv1⟩ :=
      ContainRemoveVisitor.removeLoop_step g0 h vertex v hv hns P p rest hP g hinv
    obtain ⟨g2, hg2, hinv2⟩ := ih (P ++ [p]) g1 (by rw [List.append_assoc]; exact hP) hinv1
    exact ⟨g2, hstep.trans hg2, hinv2⟩

theorem ContainRemoveVisitor.removed_start (g0 : Bigraph) (h : g0.AtRest) :
    ContainRemoveVisitor.Removed g0 g0 [] := by
  refine ⟨?_, fun _ hid => hid, fun x => by simp⟩
  intro id u0 hu0
  exact ⟨u0, hu0, rfl, rfl, rfl, rfl, h.edges_nodup id u0 hu0, fun x => by simp⟩

theorem ContainRemoveVisitor.visit_removes (s : ContainRemoveVisitor) (g : Bigraph)
    (h : g.AtRest) (vertex : String) (v : Vertex) (hv : g.getVertex vertex = some v)
    (hc : v.contained = true)
    (hns : ∀ p ∈ v.edges, ∀ e, g.deref p = some e → e.end_ ≠ vertex) :
    ∃ g1, s.visit g vertex = some (true, { contained := s.contained + 1 }, g1) ∧
      g1.getVertex vertex = some { v with edges := [], color := GraphColor.GC_BLACK } ∧
      (∀ (id : String) (u : Vertex), g1.getVertex id = some u → ∀ p ∈ u.edges,
        ∀ e, g1.deref p = some e → e.end_ ≠ vertex) ∧
      (∀ (id : String) (u : Vertex), id ≠ vertex → g.getVertex id = some u →
        ∃ u1, g1.getVertex id = some u1 ∧ u1.seq = u.seq ∧ u1.color = u.color ∧
          (∀ p ∈ u1.edges, p ∈ u.edges) ∧
          ∀ p ∈ u.edges, ∀ e, g.deref p = some e → e.end_ ≠ vertex →
            p ∈ u1.edges ∧ g1.deref p = some e) := by
  obtain ⟨g2, hloop, hinv⟩ := ContainRemoveVisitor.removeLoop_removed g h vertex v hv hns
    v.edges [] g rfl (ContainRemoveVisitor.removed_start g h)
  have hderef : ∀ x, (g2.updateVertex vertex
      (fun v => { v with color := GraphColor.GC_BLACK })).deref x = g2.deref x := fun _ => rfl
  refine ⟨g2.updateVertex vertex (fun v => { v with color := GraphColor.GC_BLACK }), ?_, ?_,
    ?_, ?_⟩
  · simp only [ContainRemoveVisitor.visit, hv, hc, if_true, hloop, Option.map_some']
  · obtain ⟨u, hu, hid, hseq, hcol, hcon, _, hmem⟩ := hinv.vertex vertex v hv
    have hnil : u.edges = [] := by
      apply List.eq_nil_iff_forall_not_mem.mpr
      intro x hx
      exact ((hmem x).mp hx).2.1 ((hmem x).mp hx).1
    rw [Bigraph.getVertex_colorVertex, hu]
    cases u
    cases v
    simp only at hid hseq hcon hnil
    simp [hid, hseq, hcon, hnil]
  · intro id u hu p hp e he hend
    rw [hderef] at he
    rw [Bigraph.getVertex_colorVertex] at hu
    cases hu0 : g.getVertex id with
    | none =>
      rw [hinv.absent id hu0] at hu
      cases hu
    | some u0 =>
      obtain ⟨u2, hu2, _, _, _, _, _, hmem⟩ := hinv.vertex id u0 hu0
      rw [hu2] at hu
      simp only [Option.map_some', Option.some.injEq] at hu
      have hpu : p ∈ u2.edges := by
        rw [← hu] at hp
        split_ifs at hp
        · exact hp
        · exact hp
      obtain ⟨hp0, hpP, hpτ⟩ := (hmem p).mp hpu
      have hstore := hinv.store p
      rw [if_neg (not_or.mpr ⟨hpP, hpτ⟩), he] at hstore
      obtain ⟨e1, q, t, w, h1, h2, h3, h4, _, h6, h7⟩ := h.twins id u0 hu0 p hp0
      rw [← hstore] at h1
      cases h1
      rw [hend, hv] at h6
      cases h6
      apply hpτ
      exact List.mem_map.mpr ⟨q, h7, Bigraph.twinOf_of_deref g q p t h3 h4⟩
  · intro id u hne hu
    obtain ⟨u1, hu1, _, hseq, hcol, _, _, hmem⟩ := hinv.vertex id u hu
    refine ⟨u1, ?_, hseq, hcol, fun p hp => ((hmem p).mp hp).1, ?_⟩
    · rw [Bigraph.getVertex_colorVertex, hu1]
      simp [hne]
    · intro p hp e he hend
      have hpP : p ∉ v.edges := h.edges_disjoint id vertex u v hu hv hne p hp
      have hpτ : p ∉ v.edges.map g.twinOf := by
        intro hmap
        obtain ⟨x, hx, hxp⟩ := List.mem_map.mp hmap
        obtain ⟨ex, q, t, w, h1, h2, h3, _, h5, _⟩ := h.twins vertex v hv x hx
        rw [Bigraph.twinOf_of_deref g x q ex h1 h2] at hxp
        rw [hxp, he] at h3
        cases h3
        exact hend h5
      refine ⟨(hmem p).mpr ⟨hp, hpP, hpτ⟩, ?_⟩
      rw [hderef, hinv.store p, if_neg (not_or.mpr ⟨hpP, hpτ⟩), he]

/-- The theorem of claim C17 at the short read `X` of the chimeric scenario,
with `minLength = 50` and `delta = 10`: the visitor marks `X`. -/
theorem ChimericVisitor.visit_chimeric_witness :
    chimericGraph.Valid ∧ chimericGraph.getVertex "X" = some chimericX ∧
    ChimericVisitor.visit ⟨50, 10, 0⟩ chimericGraph "X" =
      some (true, ⟨50, 10, 1⟩,
        chimericGraph.updateVertex "X" (fun v => { v with color := GraphColor.GC_BLACK })) ∧
    ∃ (b : Bool) (s1 : ChimericVisitor) (g1 : Bigraph),
      ChimericVisitor.visit ⟨50, 10, 0⟩ chimericGraph "X" = some (b, s1, g1) ∧
      (b = true ↔ ChimericVisitor.IsChimeric ⟨50, 10, 0⟩ chimericGraph chimericX) ∧
      (b = true →
        g1 = chimericGraph.updateVertex "X"
          (fun v => { v with color := GraphColor.GC_BLACK }) ∧
        g1.getVertex "X" = some { chimericX with color := GraphColor.GC_BLACK } ∧
        s1 = { (⟨50, 10, 0⟩ : ChimericVisitor) with chimeric := 0 + 1 }) ∧
      (b = false → g1 = chimericGraph ∧ s1 = ⟨50, 10, 0⟩) ∧
      g1.store = chimericGraph.store ∧
      (∀ x : String,
        (g1.getVertex x).map Vertex.edges = (chimericGraph.getVertex x).map Vertex.edges ∧
        (g1.getVertex x).map Vertex.seq = (chimericGraph.getVertex x).map Vertex.seq) :=
  ⟨TwinConsistent.valid (TwinConsistent.of_check _ (by decide)), by decide, by decide,
    ChimericVisitor.visit_chimeric ⟨50, 10, 0⟩ chimericGraph "X" chimericX
      (TwinConsistent.valid (TwinConsistent.of_check _ (by decide))) (by decide)⟩

/-- The theorem of claim C18 at the pendant read `T` of 20 bases, with
`minLength = 50`: the visitor marks `T` as a dead end. -/
theorem TrimVisitor.visit_trims_witness :
    trimGraph.getVertex "T" = some trimT ∧
    (∀ p ∈ trimT.edges, ∃ e, trimGraph.deref p = some e) ∧
    TrimVisitor.visit ⟨50, 0, 0⟩ trimGraph "T" =
      some (true, ⟨50, 0, 1⟩,
        trimGraph.updateVertex "T" (fun v => { v with color := GraphColor.GC_BLACK })) ∧
    ∃ (b : Bool) (s1 : TrimVisitor) (g1 : Bigraph) (d0 d1 : Nat),
      trimGraph.degreesDir trimT Dir.ED_SENSE = some d0 ∧
      trimGraph.degreesDir trimT Dir.ED_ANTISENSE = some d1 ∧
      TrimVisitor.visit ⟨50, 0, 0⟩ trimGraph "T" = some (b, s1, g1) ∧
      (b = true ↔ trimT.seq.length < 50 ∧ (d0 = 0 ∨ d1 = 0)) ∧
      (b = true →
        g1 = trimGraph.updateVertex "T" (fun v => { v with color := GraphColor.GC_BLACK }) ∧
        g1.getVertex "T" = some { trimT with color := GraphColor.GC_BLACK } ∧
        s1 = (if trimT.degrees = 0 then { (⟨50, 0, 0⟩ : TrimVisitor) with island := 0 + 1 }
              else { (⟨50, 0, 0⟩ : TrimVisitor) with terminal := 0 + 1 })) ∧
      (b = false → g1 = trimGraph ∧ s1 = ⟨50, 0, 0⟩) :=
  ⟨by decide,
    TwinConsistent.live (TwinConsistent.of_check _ (by decide)) "T" trimT (by decide),
    by decide,
    TrimVisitor.visit_trims ⟨50, 0, 0⟩ trimGraph "T" trimT (by decide)
      (TwinConsistent.live (TwinConsistent.of_check _ (by decide)) "T" trimT (by decide))⟩

theorem chainGraph_atRest : chainGraph.AtRest :=
  ⟨by decide, TwinConsistent.of_check _ (by decide), by decide, by decide⟩

/-- The theorem of claim C20 at the chain of the reads `A`, `B`, `C`: four
stored edges in two twin pairs, three vertices. -/
theorem StatisticsVisitor.edges_identity_witness :
    chainGraph.AtRest ∧ chainGraph.vertices.Perm chainGraph.vertices ∧
    ∃ s1 : StatisticsVisitor,
      StatisticsVisitor.visitAll (chainGraph.vertices.map Vertex.id)
        ((⟨0, 0, 0, 0, 0, 0, 0⟩ : StatisticsVisitor).previsit chainGraph).1
        ((⟨0, 0, 0, 0, 0, 0, 0⟩ : StatisticsVisitor).previsit chainGraph).2 =
        some (s1, chainGraph) ∧
      s1.edges = (chainGraph.vertices.map chainGraph.bothDegrees).sum ∧
      s1.edges = chainGraph.storedEdges.length ∧
      s1.edges = 2 * chainGraph.twinPairs ∧
      s1.vertics = chainGraph.vertices.length :=
  ⟨chainGraph_atRest, List.Perm.refl _,
    StatisticsVisitor.edges_identity ⟨0, 0, 0, 0, 0, 0, 0⟩ chainGraph chainGraph.vertices
      chainGraph_atRest (List.Perm.refl _)⟩

/-- Claim C19 (does not hold of the code): `previsit` sets `containment` to
false and `visit` on a vertex that is not contained returns false and changes
nothing.  On a contained vertex without self edges of a graph at rest `visit`
returns true, leaves the vertex BLACK and without edges, leaves no edge that
ends at the vertex on any vertex, and keeps, with their edge objects, the edges
of the other vertices that do not end at the vertex.  But on the twin-consistent
graph of one contained read with a pair of twinned self edges `visit` reaches no
result: the first round of its loop deletes the self edge and its twin, and the
twin is the next pointer of the copied edge list. -/
theorem ContainRemoveVisitor.visit_contained_self_edge_fails :
    (∀ (s : ContainRemoveVisitor) (g : Bigraph), (s.previsit g).2.containment = false) ∧
    (∀ (s : ContainRemoveVisitor) (g : Bigraph) (vertex : String) (v : Vertex),
      g.getVertex vertex = some v → v.contained = false →
        s.visit g vertex = some (false, s, g)) ∧
    (∀ (s : ContainRemoveVisitor) (g : Bigraph) (vertex : String) (v : Vertex),
      g.AtRest → g.getVertex vertex = some v → v.contained = true →
      (∀ p ∈ v.edges, ∀ e, g.deref p = some e → e.end_ ≠ vertex) →
      ∃ g1, s.visit g vertex = some (true, { contained := s.contained + 1 }, g1) ∧
        g1.getVertex vertex = some { v with edges := [], color := GraphColor.GC_BLACK } ∧
        (∀ (id : String) (u : Vertex), g1.getVertex id = some u → ∀ p ∈ u.edges,
          ∀ e, g1.deref p = some e → e.end_ ≠ vertex) ∧
        (∀ (id : String) (u : Vertex), id ≠ vertex → g.getVertex id = some u →
          ∃ u1, g1.getVertex id = some u1 ∧ u1.seq = u.seq ∧ u1.color = u.color ∧
            (∀ p ∈ u1.edges, p ∈ u.edges) ∧
            ∀ p ∈ u.edges, ∀ e, g.deref p = some e → e.end_ ≠ vertex →
              p ∈ u1.edges ∧ g1.deref p = some e)) ∧
    (ContainRemoveVisitor.visit ⟨0⟩ chainContained "B").map
      (fun r => (r.1, r.2.1.contained,
        r.2.2.vertices.map (fun v => (v.id, v.edges, v.color)), r.2.2.store)) =
      some (true, 1,
        [("A", [], GraphColor.GC_WHITE), ("B", [], GraphColor.GC_BLACK),
         ("C", [], GraphColor.GC_WHITE)], [none, none, none, none]) ∧
    TwinConsistent selfLoopGraph ∧
    (selfLoopGraph.getVertex "A").map (fun v => (v.contained, v.edges)) =
      some (true, [0, 1]) ∧
    ContainRemoveVisitor.visit ⟨0⟩ selfLoopGraph "A" = none := by
  refine ⟨fun _ _ => rfl, ?_,
    fun s g vertex v h hv hc hns => ContainRemoveVisitor.visit_removes s g h vertex v hv hc hns,
    by rfl, TwinConsistent.of_check _ (by decide), by decide, by decide⟩
  intro s g vertex v hv hc
  simp [ContainRemoveVisitor.visit, hv, hc]

/-- Claim C28: `make_reverse` puts the bases of a sequence in reverse order and
`make_complement` replaces every base by its complement (A with T, C with G) at
its place; both keep the length, the name and the quality.  On `ACGTGAC` the
reverse is `CAGTGCA` and its complement `GTCACGT`, and the two steps together
are the reverse complement that `Edge::label` uses. -/
theorem DNASeq.transforms_reverse_complement (s : DNASeq) :
    s.make_reverse.seq = s.seq.reverse ∧
    s.make_reverse.seq.length = s.seq.length ∧
    (∀ k : Nat, k < s.seq.length →
      s.make_reverse.seq[k]? = s.seq[s.seq.length - 1 - k]?) ∧
    s.make_reverse.name = s.name ∧ s.make_reverse.quality = s.quality ∧
    s.make_complement.seq.length = s.seq.length ∧
    (∀ k : Nat, s.make_complement.seq[k]? = (s.seq[k]?).map complementBase) ∧
    s.make_complement.name = s.name ∧ s.make_complement.quality = s.quality ∧
    (complementBase 'A' = 'T' ∧ complementBase 'T' = 'A' ∧ complementBase 'C' = 'G' ∧
      complementBase 'G' = 'C') ∧
    exampleSeq.make_reverse.seq = ['C', 'A', 'G', 'T', 'G', 'C', 'A'] ∧
    exampleSeq.make_reverse.make_complement.seq = ['G', 'T', 'C', 'A', 'C', 'G', 'T'] ∧
    make_reverse_complement_dna s.seq = s.make_reverse.make_complement.seq := by
  refine ⟨rfl, by simp [DNASeq.make_reverse], ?_, rfl, rfl, by simp [DNASeq.make_complement],
    ?_, rfl, rfl, by decide, by decide, by decide, rfl⟩
  · intro k hk
    simp only [DNASeq.make_reverse]
    exact List.getElem?_reverse hk
  · intro k
    simp [DNASeq.make_complement]

/-- Claim C27, amended: let the lines `pre` of a stream load without failure.
When they hold no vertex record (the loader is still in the head stage), an
edge record that follows them is out of order: the round fails whatever the
length of its overlap, and `loadASQG` returns false.  When they hold a vertex
record (the loader is in the vertex or edge stage), an edge record whose overlap
is shorter than `minOverlap` leaves the graph as it is and the loader goes on
with the next line; an edge record whose overlap has length at least
`minOverlap` is passed to `EdgeCreator::create` with the `allowContainments` and
`maxEdges` of the loader, and the round does what the result of `create`
says. -/
theorem loadASQG_minOverlap_filter (cfg : LoadConfig) (pre suf : List Line) (ovr : Overlap)
    (g g1 : Bigraph) (s1 : Stage)
    (hpre : loadASQG.loop cfg pre Stage.STAGE_HEAD g = some (true, s1, g1)) :
    (s1 = Stage.STAGE_HEAD →
      loadASQG.step cfg s1 g1 (Line.edge (some ovr)) = some (Step.fail g1) ∧
      loadASQG (pre ++ Line.edge (some ovr) :: suf) cfg g = some (false, g1)) ∧
    (s1 ≠ Stage.STAGE_HEAD → ovr.match_.length < cfg.minOverlap →
      loadASQG.step cfg s1 g1 (Line.edge (some ovr)) = some (Step.next Stage.STAGE_EDGE g1) ∧
      loadASQG (pre ++ [Line.edge (some ovr)]) cfg g = some (true, g1) ∧
      loadASQG.loop cfg (pre ++ Line.edge (some ovr) :: suf) Stage.STAGE_HEAD g =
        loadASQG.loop cfg suf Stage.STAGE_EDGE g1) ∧
    (s1 ≠ Stage.STAGE_HEAD → cfg.minOverlap ≤ ovr.match_.length →
      (EdgeCreator.create ⟨cfg.allowContainments, cfg.maxEdges⟩ g1 ovr = none →
        loadASQG.step cfg s1 g1 (Line.edge (some ovr)) = none) ∧
      (∀ g2, EdgeCreator.create ⟨cfg.allowContainments, cfg.maxEdges⟩ g1 ovr =
          some (false, g2) →
        loadASQG.step cfg s1 g1 (Line.edge (some ovr)) = some (Step.fail g2)) ∧
      (∀ g2, EdgeCreator.create ⟨cfg.allowContainments, cfg.maxEdges⟩ g1 ovr =
          some (true, g2) →
        loadASQG.step cfg s1 g1 (Line.edge (some ovr)) =
          some (Step.next Stage.STAGE_EDGE g2))) := by
  have hst : s1 ≠ Stage.STAGE_HEAD →
      (if s1 = Stage.STAGE_VERTEX then Stage.STAGE_EDGE else s1) = Stage.STAGE_EDGE := by
    intro hstage
    cases s1
    · exact absurd rfl hstage
    · rfl
    · rfl
  refine ⟨?_, ?_, ?_⟩
  · intro hs
    subst hs
    have hstep : loadASQG.step cfg Stage.STAGE_HEAD g1 (Line.edge (some ovr)) =
        some (Step.fail g1) := by
      simp [loadASQG.step]
    refine ⟨hstep, ?_⟩
    simp only [loadASQG, loadASQG.loop_append, hpre, loadASQG.loop, hstep]
    rfl
  · intro hstage hlt
    have hstep : loadASQG.step cfg s1 g1 (Line.edge (some ovr)) =
        some (Step.next Stage.STAGE_EDGE g1) := by
      simp only [loadASQG.step, hst hstage]
      simp [Nat.not_le.mpr hlt]
    refine ⟨hstep, ?_, ?_⟩
    · simp only [loadASQG, loadASQG.loop_append, hpre, loadASQG.loop, hstep]
      rfl
    · simp only [loadASQG.loop_append, hpre, loadASQG.loop, hstep]
  · intro hstage hle
    refine ⟨?_, ?_, ?_⟩
    · intro hc
      simp only [loadASQG.step, hst hstage, ne_eq, not_true_eq_false, if_false, hle, if_true,
        hc]
    · intro g2 hc
      simp only [loadASQG.step, hst hstage, ne_eq, not_true_eq_false, if_false, hle, if_true,
        hc]
    · intro g2 hc
      simp only [loadASQG.step, hst hstage, ne_eq, not_true_eq_false, if_false, hle, if_true,
        hc]

/-- The theorem of claim C27 at a stream of two reads followed by an overlap of
length 5, loaded once with `minOverlap = 10` and once with `minOverlap = 5`. -/
theorem loadASQG_minOverlap_filter_witness :
    loadASQG.loop ⟨10, true, 10⟩ shortEdgeStream Stage.STAGE_HEAD Bigraph.empty =
      some (true, Stage.STAGE_VERTEX,
        Bigraph.addAll [Vertex.new "A" "ACGTAACGTA", Vertex.new "C" "ACGTATTTTT"]
          Bigraph.empty) ∧
    overlapAC.match_.length = 5 ∧
    loadASQG (shortEdgeStream ++ [Line.edge (some overlapAC)]) ⟨10, true, 10⟩ Bigraph.empty =
      some (true, (Bigraph.addAll [Vertex.new "A" "ACGTAACGTA", Vertex.new "C" "ACGTATTTTT"]
        Bigraph.empty)) ∧
    (EdgeCreator.create ⟨true, 10⟩
        (Bigraph.addAll [Vertex.new "A" "ACGTAACGTA", Vertex.new "C" "ACGTATTTTT"]
          Bigraph.empty) overlapAC).map Prod.fst = some true ∧
    ∀ g2, EdgeCreator.create ⟨true, 10⟩
        (Bigraph.addAll [Vertex.new "A" "ACGTAACGTA", Vertex.new "C" "ACGTATTTTT"]
          Bigraph.empty) overlapAC = some (true, g2) →
      loadASQG.step ⟨5, true, 10⟩ Stage.STAGE_VERTEX
        (Bigraph.addAll [Vertex.new "A" "ACGTAACGTA", Vertex.new "C" "ACGTATTTTT"]
          Bigraph.empty) (Line.edge (some overlapAC)) =
        some (Step.next Stage.STAGE_EDGE g2) :=
  ⟨by decide, by decide,
   ((loadASQG_minOverlap_filter ⟨10, true, 10⟩ shortEdgeStream [] overlapAC Bigraph.empty
      (Bigraph.addAll [Vertex.new "A" "ACGTAACGTA", Vertex.new "C" "ACGTATTTTT"]
        Bigraph.empty) Stage.STAGE_VERTEX (by decide)).2.1 (by decide) (by decide)).2.1,
   by decide,
   ((loadASQG_minOverlap_filter ⟨5, true, 10⟩ shortEdgeStream [] overlapAC Bigraph.empty
      (Bigraph.addAll [Vertex.new "A" "ACGTAACGTA", Vertex.new "C" "ACGTATTTTT"]
        Bigraph.empty) Stage.STAGE_VERTEX (by decide)).2.2 (by decide) (by decide)).2.2⟩

/-- Claim C27 as stated does not hold for every stream: in the stream of a
header record followed by an edge record, with no vertex record between them,
the overlap of the edge record has length 5, less than `minOverlap = 10`, yet
the edge record makes `loadASQG` return false, because it is read in the head
stage; the stream without the edge record loads. -/
theorem loadASQG_edge_before_vertex_fails :
    overlapAC.match_.length = 5 ∧
    loadASQG [Line.header true] ⟨10, true, 10⟩ Bigraph.empty = some (true, Bigraph.empty) ∧
    loadASQG.loop ⟨10, true, 10⟩ [Line.header true] Stage.STAGE_HEAD Bigraph.empty =
      some (true, Stage.STAGE_HEAD, Bigraph.empty) ∧
    loadASQG.step ⟨10, true, 10⟩ Stage.STAGE_HEAD Bigraph.empty (Line.edge (some overlapAC)) =
      some (Step.fail Bigraph.empty) ∧
    loadASQG edgeFirstStream ⟨10, true, 10⟩ Bigraph.empty = some (false, Bigraph.empty) := by
  decide

theorem make_reverse_complement_dna_length (s : List Char) :
    (make_reverse_complement_dna s).length = s.length := by
  simp [make_reverse_complement_dna]

/-- Claim C26: for an edge whose twin coord is extreme and lies within the
sequence of the end vertex, `Edge::label` is the substring of the sequence of
the end vertex at the complement of the twin coord, reverse-complemented exactly
when the edge is of orientation `EC_REVERSE`; the length of the label and the
length of the twin coord add up to the length of that sequence. -/
theorem Bigraph.label_is_complement_substring (g : Bigraph) (p q : Nat) (e t : Edge)
    (endv : Vertex) (hp : g.deref p = some e) (hq : e.twin = some q)
    (ht : g.deref q = some t) (hend : g.getVertex e.end_ = some endv)
    (hext : t.coord.isExtreme = true) (hlen : t.coord.seqlen = endv.seq.length)
    (hord : t.coord.interval.start ≤ t.coord.interval.end_ ∧
      t.coord.interval.end_ ≤ t.coord.seqlen) :
    ∃ (unmatched : SeqCoord) (raw : List Char),
      t.coord.complement = some unmatched ∧
      raw = (endv.seq.data.drop unmatched.interval.start).take unmatched.length ∧
      g.label p =
        some (if e.comp = Comp.EC_REVERSE then make_reverse_complement_dna raw else raw) ∧
      raw.length + t.coord.length = endv.seq.length ∧
      ∀ l, g.label p = some l → l.length + t.coord.length = endv.seq.length := by
  have hL : endv.seq.length = endv.seq.data.length := rfl
  have key : ∀ (unmatched : SeqCoord), t.coord.complement = some unmatched →
      unmatched.interval.start ≤ endv.seq.data.length →
      ((endv.seq.data.drop unmatched.interval.start).take unmatched.length).length +
        t.coord.length = endv.seq.length →
      ∃ (unmatched : SeqCoord) (raw : List Char),
        t.coord.complement = some unmatched ∧
        raw = (endv.seq.data.drop unmatched.interval.start).take unmatched.length ∧
        g.label p =
          some (if e.comp = Comp.EC_REVERSE then make_reverse_complement_dna raw else raw) ∧
        raw.length + t.coord.length = endv.seq.length ∧
        ∀ l, g.label p = some l → l.length + t.coord.length = endv.seq.length := by
    intro unmatched hc hstart hsum
    have hlabel : g.label p = some (if e.comp = Comp.EC_REVERSE then
        make_reverse_complement_dna
          ((endv.seq.data.drop unmatched.interval.start).take unmatched.length)
        else (endv.seq.data.drop unmatched.interval.start).take unmatched.length) := by
      simp only [Bigraph.label, hp, hq, ht, hc, hend, substr, Nat.not_lt.mpr hstart, if_false]
      split_ifs <;> rfl
    refine ⟨unmatched, _, hc, rfl, hlabel, hsum, ?_⟩
    intro l hl
    rw [hlabel] at hl
    simp only [Option.some.injEq] at hl
    rw [← hl]
    split_ifs
    · rw [make_reverse_complement_dna_length]
      exact hsum
    · exact hsum
  by_cases hleft : t.coord.isLeftExtreme = true
  · have h0 : t.coord.interval.start = 0 := by
      simpa [SeqCoord.isLeftExtreme] using hleft
    apply key ⟨⟨t.coord.interval.end_, t.coord.seqlen⟩, t.coord.seqlen⟩
    · simp [SeqCoord.complement, hleft]
    · simp only
      omega
    · simp only [SeqCoord.length, List.length_take, List.length_drop]
      omega
  · have hright : t.coord.isRightExtreme = true := by
      simpa [SeqCoord.isExtreme, hleft] using hext
    have hE : t.coord.interval.end_ = t.coord.seqlen := by
      simpa [SeqCoord.isRightExtreme] using hright
    apply key ⟨⟨0, t.coord.interval.start⟩, t.coord.seqlen⟩
    · simp [SeqCoord.complement, hleft, hright]
    · simp
    · simp only [SeqCoord.length, List.length_take, List.length_drop]
      omega

/-- The theorem of claim C26 at the edge from `A` to `B` of the chain `A`, `B`,
`C`: the label is `AC`, the last two bases of `GTAC`. -/
theorem Bigraph.label_is_complement_substring_witness :
    chainGraph.label 0 = some ['A', 'C'] ∧
    ∃ (unmatched : SeqCoord) (raw : List Char),
      (⟨⟨0, 2⟩, 4⟩ : SeqCoord).complement = some unmatched ∧
      raw = (("GTAC" : String).data.drop unmatched.interval.start).take unmatched.length ∧
      chainGraph.label 0 =
        some (if Comp.EC_SAME = Comp.EC_REVERSE then make_reverse_complement_dna raw
              else raw) ∧
      raw.length + (⟨⟨0, 2⟩, 4⟩ : SeqCoord).length = ("GTAC" : String).length ∧
      ∀ l, chainGraph.label 0 = some l →
        l.length + (⟨⟨0, 2⟩, 4⟩ : SeqCoord).length = ("GTAC" : String).length :=
  ⟨by decide,
    Bigraph.label_is_complement_substring chainGraph 0 1
      ⟨"B", Dir.ED_SENSE, Comp.EC_SAME, ⟨⟨2, 4⟩, 4⟩, some 1, GraphColor.GC_WHITE⟩
      ⟨"A", Dir.ED_ANTISENSE, Comp.EC_SAME, ⟨⟨0, 2⟩, 4⟩, some 0, GraphColor.GC_WHITE⟩
      ⟨"B", "GTAC", [1, 2], GraphColor.GC_WHITE, false⟩
      (by decide) rfl (by decide) (by decide) (by decide) (by decide) (by decide)⟩

theorem IStream.read_good (bytes : List Nat) (pos n : Nat) (old : List Nat)
    (h : pos + n ≤ bytes.length) :
    IStream.read ⟨bytes, pos, true⟩ n old =
      (true, (bytes.drop pos).take n, ⟨bytes, pos + n, true⟩) := by
  simp [IStream.read, h]

theorem IStream.read_short (bytes : List Nat) (pos n : Nat) (old : List Nat)
    (h : ¬ pos + n ≤ bytes.length) :
    IStream.read ⟨bytes, pos, true⟩ n old =
      (false, bytes.drop pos ++ old.drop (bytes.drop pos).length,
        ⟨bytes, bytes.length, false⟩) := by
  simp [IStream.read, h]

theorem BWTReader.readHeader_good (bytes : List Nat) (pos n0 magic0 s0 f0 flag0 : Nat)
    (h : pos + 30 ≤ bytes.length)
    (hm : leValue ((bytes.drop pos).take 2) = BWT_FILE_MAGIC) :
    (BWTReader.mk ⟨bytes, pos, true⟩ n0).readHeader magic0 s0 f0 flag0 =
      { ok := true,
        reader := ⟨⟨bytes, pos + 30, true⟩, leValue ((bytes.drop (pos + 18)).take 8)⟩,
        num_strings := leValue ((bytes.drop (pos + 2)).take 8),
        num_suffixes := leValue ((bytes.drop (pos + 10)).take 8),
        flag := leValue ((bytes.drop (pos + 26)).take 4) } := by
  simp only [BWTReader.readHeader, SIZEOF_SIZE_T, SIZEOF_FLAG]
  rw [IStream.read_good bytes pos 2 _ (by omega)]
  simp only [hm, ne_eq, not_true_eq_false, or_false, Bool.true_eq_false, if_false]
  rw [IStream.read_good bytes (pos + 2) 8 _ (by omega)]
  simp only [Bool.true_eq_false, if_false]
  rw [IStream.read_good bytes (pos + 2 + 8) 8 _ (by omega)]
  simp only [Bool.true_eq_false, if_false]
  rw [IStream.read_good bytes (pos + 2 + 8 + 8) 8 _ (by omega)]
  simp only [Bool.true_eq_false, if_false]
  rw [IStream.read_good bytes (pos + 2 + 8 + 8 + 8) 4 _ (by omega)]

theorem BWTReader.readHeader_bad (bytes : List Nat) (pos n0 magic0 s0 f0 flag0 : Nat)
    (h : ¬ pos + 30 ≤ bytes.length ∨ leValue ((bytes.drop pos).take 2) ≠ BWT_FILE_MAGIC) :
    ((BWTReader.mk ⟨bytes, pos, true⟩ n0).readHeader magic0 s0 f0 flag0).ok = false := by
  simp only [BWTReader.readHeader, SIZEOF_SIZE_T, SIZEOF_FLAG]
  by_cases h2 : pos + 2 ≤ bytes.length
  · rw [IStream.read_good bytes pos 2 _ h2]
    by_cases hm : leValue ((bytes.drop pos).take 2) = BWT_FILE_MAGIC
    · simp only [hm, ne_eq, not_true_eq_false, or_false, Bool.true_eq_false, if_false]
      by_cases h10 : pos + 2 + 8 ≤ bytes.length
      · rw [IStream.read_good bytes (pos + 2) 8 _ h10]
        simp only [Bool.true_eq_false, if_false]
        by_cases h18 : pos + 2 + 8 + 8 ≤ bytes.length
        · rw [IStream.read_good bytes (pos + 2 + 8) 8 _ h18]
          simp only [Bool.true_eq_false, if_false]
          by_cases h26 : pos + 2 + 8 + 8 + 8 ≤ bytes.length
          · rw [IStream.read_good bytes (pos + 2 + 8 + 8) 8 _ h26]
            simp only [Bool.true_eq_false, if_false]
            have h30 : ¬ pos + 2 + 8 + 8 + 8 + 4 ≤ bytes.length := by
              rcases h with h | h
              · omega
              · exact absurd hm h
            rw [IStream.read_short bytes (pos + 2 + 8 + 8 + 8) 4 _ h30]
          · rw [IStream.read_short bytes (pos + 2 + 8 + 8) 8 _ h26]
            simp
        · rw [IStream.read_short bytes (pos + 2 + 8) 8 _ h18]
          simp
      · rw [IStream.read_short bytes (pos + 2) 8 _ h10]
        simp
    · simp [hm]
  · rw [IStream.read_short bytes pos 2 _ h2]
    simp

/-- On a good stream and for a field `num_runs` that `resize` accepts,
`BWTReader::read` returns false exactly when fewer than two bytes are left, the first two bytes are not the magic `0xCACA`,
or the stream ends before the 30 bytes of the header and the `num_runs` run
bytes that follow it; otherwise it returns true, the header fields are those of
the stream, the runs are the first `num_runs` bytes after the header and the
stream stands behind them. -/
theorem BWTReader.read_false_iff_short_or_magic (bytes : List Nat) (pos n0 : Nat) (bwt0 : BWT)
    (magic0 flag0 : Nat) :
    ((((BWTReader.mk ⟨bytes, pos, true⟩ n0).read bwt0 magic0 flag0).1 = false) ↔
      ((bytes.drop pos).length < 2 ∨
       leValue ((bytes.drop pos).take 2) ≠ BWT_FILE_MAGIC ∨
       (bytes.drop pos).length < 30 + leValue (((bytes.drop pos).drop 18).take 8))) ∧
    ((((BWTReader.mk ⟨bytes, pos, true⟩ n0).read bwt0 magic0 flag0).1 = true) →
      ((BWTReader.mk ⟨bytes, pos, true⟩ n0).read bwt0 magic0 flag0).2.2 =
        ⟨leValue (((bytes.drop pos).drop 2).take 8),
         leValue (((bytes.drop pos).drop 10).take 8),
         (((bytes.drop pos).drop 30).take
            (leValue (((bytes.drop pos).drop 18).take 8))).map RLUnit.mk⟩ ∧
      ((BWTReader.mk ⟨bytes, pos, true⟩ n0).read bwt0 magic0 flag0).2.1 =
        ⟨⟨bytes, pos + 30 + leValue (((bytes.drop pos).drop 18).take 8), true⟩,
          leValue (((bytes.drop pos).drop 18).take 8)⟩) := by
  have hdd : ∀ k, (bytes.drop pos).drop k = bytes.drop (pos + k) := by
    intro k
    rw [List.drop_drop, Nat.add_comm]
  have hlen : (bytes.drop pos).length = bytes.length - pos := List.length_drop _ _
  simp only [hdd, hlen]
  by_cases hgood : pos + 30 ≤ bytes.length ∧
      leValue ((bytes.drop pos).take 2) = BWT_FILE_MAGIC
  · obtain ⟨h30, hm⟩ := hgood
    have hh := BWTReader.readHeader_good bytes pos n0 magic0 bwt0.strings bwt0.suffixes
      flag0 h30 hm
    simp only [BWTReader.read, hh, Bool.true_eq_false, if_false, BWTReader.readRuns]
    generalize hn : leValue ((bytes.drop (pos + 18)).take 8) = n
    by_cases hz : n = 0
    · subst hz
      simp [resize, hm]
      omega
    · have hne : (resize bwt0.runs n RLUnit.empty).isEmpty = false := by
        cases hr : resize bwt0.runs n RLUnit.empty with
        | nil =>
          have := resize_length bwt0.runs n RLUnit.empty
          rw [hr] at this
          exact absurd this.symm hz
        | cons a l => rfl
      simp only [hne, Bool.false_eq_true, if_false]
      by_cases hr : pos + 30 + n ≤ bytes.length
      · rw [IStream.read_good bytes (pos + 30) n _ hr]
        simp [hm]
        omega
      · rw [IStream.read_short bytes (pos + 30) n _ hr]
        simp [hm]
        omega
  · have hbad : ¬ pos + 30 ≤ bytes.length ∨
        leValue ((bytes.drop pos).take 2) ≠ BWT_FILE_MAGIC := by
      by_cases h30 : pos + 30 ≤ bytes.length
      · exact Or.inr (fun hm => hgood ⟨h30, hm⟩)
      · exact Or.inl h30
    have hh := BWTReader.readHeader_bad bytes pos n0 magic0 bwt0.strings bwt0.suffixes
      flag0 hbad
    simp only [BWTReader.read, hh, if_true]
    simp only [true_iff, Bool.false_eq_true, false_implies, and_true]
    rcases hbad with h | h
    · by_cases h2 : bytes.length - pos < 2
      · exact Or.inl h2
      · right
        right
        omega
    · exact Or.inr (Or.inl h)

theorem BWTReader.readOrThrow_eq (r : BWTReader) (bwt : BWT) (magic0 flag0 : Nat) :
    r.readOrThrow bwt magic0 flag0 =
      if (r.readHeader magic0 bwt.strings bwt.suffixes flag0).ok = true ∧
          RLLIST_MAX_SIZE <
            (r.readHeader magic0 bwt.strings bwt.suffixes flag0).reader.numRuns
      then none else some (r.read bwt magic0 flag0) := by
  simp only [BWTReader.readOrThrow, BWTReader.read, BWTReader.readRunsOrThrow]
  cases hok : (r.readHeader magic0 bwt.strings bwt.suffixes flag0).ok with
  | false => simp
  | true =>
    by_cases hmax : RLLIST_MAX_SIZE <
        (r.readHeader magic0 bwt.strings bwt.suffixes flag0).reader.numRuns
    · simp [hmax]
    · simp [hmax]

/-- Claim C21 (does not hold of the code): `BWTReader::read` on a good stream
does not return when the stream holds the 30 bytes of a header with the magic
whose field `num_runs` exceeds the largest size of a run list:
`runs.resize(numRuns)` throws, before a run byte is read, whatever follows the
header.  In every other case `read` returns; it returns false exactly when
fewer than two bytes are left, the first two bytes are not the magic `0xCACA`,
or the stream ends before the header and the `num_runs` run bytes, and
otherwise true with the header fields, the first `num_runs` bytes after the
header as runs, and the stream behind them.  The header with
`num_runs = 2 ^ 64 - 1` and no run byte is a stream that ends before the runs
have been read, and `read` throws on it instead of returning false; on the same
header with `num_runs = 5` it returns false, and on the file of three runs it
returns true with these runs. -/
theorem BWTReader.read_throws_on_huge_num_runs :
    (∀ (bytes : List Nat) (pos n0 : Nat) (bwt0 : BWT) (magic0 flag0 : Nat),
      ((BWTReader.mk ⟨bytes, pos, true⟩ n0).readOrThrow bwt0 magic0 flag0 = none ↔
        (30 ≤ (bytes.drop pos).length ∧
          leValue ((bytes.drop pos).take 2) = BWT_FILE_MAGIC ∧
          RLLIST_MAX_SIZE < leValue (((bytes.drop pos).drop 18).take 8))) ∧
      ∀ (ok : Bool) (r1 : BWTReader) (bwt : BWT),
        (BWTReader.mk ⟨bytes, pos, true⟩ n0).readOrThrow bwt0 magic0 flag0 =
          some (ok, r1, bwt) →
        (ok = false ↔
          ((bytes.drop pos).length < 2 ∨
           leValue ((bytes.drop pos).take 2) ≠ BWT_FILE_MAGIC ∨
           (bytes.drop pos).length < 30 + leValue (((bytes.drop pos).drop 18).take 8))) ∧
        (ok = true →
          bwt = ⟨leValue (((bytes.drop pos).drop 2).take 8),
                 leValue (((bytes.drop pos).drop 10).take 8),
                 (((bytes.drop pos).drop 30).take
                    (leValue (((bytes.drop pos).drop 18).take 8))).map RLUnit.mk⟩ ∧
          r1 = ⟨⟨bytes, pos + 30 + leValue (((bytes.drop pos).drop 18).take 8), true⟩,
                leValue (((bytes.drop pos).drop 18).take 8)⟩)) ∧
    (headerOnly (2 ^ 64 - 1)).length = 30 ∧
    leValue ((headerOnly (2 ^ 64 - 1)).take 2) = BWT_FILE_MAGIC ∧
    leValue (((headerOnly (2 ^ 64 - 1)).drop 18).take 8) = 2 ^ 64 - 1 ∧
    (BWTReader.mk ⟨headerOnly (2 ^ 64 - 1), 0, true⟩ 0).readOrThrow ⟨0, 0, []⟩ 0 0 = none ∧
    ((BWTReader.mk ⟨headerOnly 5, 0, true⟩ 0).readOrThrow ⟨0, 0, []⟩ 0 0).map
      (fun r => (r.1, r.2.2.strings, r.2.2.suffixes)) = some (false, 1, 3) ∧
    ((BWTReader.mk ⟨exampleFile, 0, true⟩ 0).readOrThrow ⟨0, 0, []⟩ 0 0).map
      (fun r => (r.1, r.2.1.stream.pos, r.2.1.numRuns, r.2.2)) =
      some (true, 33, 3, ⟨1, 3, [RLUnit.ofChar 'C', RLUnit.ofChar '$', RLUnit.ofChar 'A']⟩) := by
  refine ⟨?_, by decide, by decide, by decide, by decide, by decide, by decide⟩
  intro bytes pos n0 bwt0 magic0 flag0
  have hdd : ∀ k, (bytes.drop pos).drop k = bytes.drop (pos + k) := by
    intro k
    rw [List.drop_drop, Nat.add_comm]
  have hlen : (bytes.drop pos).length = bytes.length - pos := List.length_drop _ _
  have hold := BWTReader.read_false_iff_short_or_magic bytes pos n0 bwt0 magic0 flag0
  rw [BWTReader.readOrThrow_eq]
  by_cases hgood : pos + 30 ≤ bytes.length ∧
      leValue ((bytes.drop pos).take 2) = BWT_FILE_MAGIC
  · obtain ⟨h30, hm⟩ := hgood
    have hh := BWTReader.readHeader_good bytes pos n0 magic0 bwt0.strings bwt0.suffixes
      flag0 h30 hm
    rw [hh]
    simp only [true_and, hdd, hlen]
    by_cases hmax : RLLIST_MAX_SIZE < leValue ((bytes.drop (pos + 18)).take 8)
    · rw [if_pos hmax]
      refine ⟨⟨fun _ => ⟨(by omega), hm, hmax⟩, fun _ => rfl⟩, ?_⟩
      intro ok r1 bwt h
      cases h
    · rw [if_neg hmax]
      refine ⟨⟨fun h => (by cases h), fun h => absurd h.2.2 hmax⟩, ?_⟩
      intro ok r1 bwt h
      have he := Option.some.inj h
      simp only [hdd, hlen] at hold
      have h1 : ((BWTReader.mk ⟨bytes, pos, true⟩ n0).read bwt0 magic0 flag0).1 = ok := by
        rw [he]
      have h2 : ((BWTReader.mk ⟨bytes, pos, true⟩ n0).read bwt0 magic0 flag0).2.2 = bwt := by
        rw [he]
      have h3 : ((BWTReader.mk ⟨bytes, pos, true⟩ n0).read bwt0 magic0 flag0).2.1 = r1 := by
        rw [he]
      rw [h1, h2, h3] at hold
      exact ⟨hold.1, fun hok => ⟨(hold.2 hok).1, (hold.2 hok).2⟩⟩
  · have hbad : ¬ pos + 30 ≤ bytes.length ∨
        leValue ((bytes.drop pos).take 2) ≠ BWT_FILE_MAGIC := by
      by_cases h30 : pos + 30 ≤ bytes.length
      · exact Or.inr (fun hm => hgood ⟨h30, hm⟩)
      · exact Or.inl h30
    have hh := BWTReader.readHeader_bad bytes pos n0 magic0 bwt0.strings bwt0.suffixes
      flag0 hbad
    rw [hh]
    simp only [Bool.false_eq_true, false_and, if_false]
    refine ⟨⟨fun h => (by cases h), fun h => ?_⟩, ?_⟩
    · rcases hbad with hb | hb
      · rw [hlen] at h
        omega
      · exact absurd h.2.1 hb
    · intro ok r1 bwt h
      have he := Option.some.inj h
      have h1 : ((BWTReader.mk ⟨bytes, pos, true⟩ n0).read bwt0 magic0 flag0).1 = ok := by
        rw [he]
      have h2 : ((BWTReader.mk ⟨bytes, pos, true⟩ n0).read bwt0 magic0 flag0).2.2 = bwt := by
        rw [he]
      have h3 : ((BWTReader.mk ⟨bytes, pos, true⟩ n0).read bwt0 magic0 flag0).2.1 = r1 := by
        rw [he]
      rw [h1, h2, h3] at hold
      exact ⟨hold.1, fun hok => ⟨(hold.2 hok).1, (hold.2 hok).2⟩⟩

/-! ## Totals and counts of run prefixes -/

theorem totalOf_append (a b : List RLUnit) : totalOf (a ++ b) = totalOf a + totalOf b := by
  simp [totalOf]

theorem totalOf_eq_length (runs : List RLUnit) : totalOf runs = (decodeRuns runs).length :=
  (decodeRuns_length runs).symm

theorem totalOf_take_le (runs : List RLUnit) (a b : Nat) (h : a ≤ b) :
    totalOf (runs.take a) ≤ totalOf (runs.take b) := by
  have : runs.take b = runs.take a ++ (runs.drop a).take (b - a) := by
    rw [← List.take_add]
    congr 1
    omega
  rw [this, totalOf_append]
  exact Nat.le_add_right _ _

theorem totalOf_take_le_total (runs : List RLUnit) (a : Nat) :
    totalOf (runs.take a) ≤ totalOf runs := by
  conv_rhs => rw [← List.take_append_drop a runs]
  rw [totalOf_append]
  exact Nat.le_add_right _ _

theorem totalOf_take_length (runs : List RLUnit) : totalOf (runs.take runs.length) = totalOf runs := by
  rw [List.take_length]

theorem take_succ_of_getElem? (runs : List RLUnit) (u : Nat) (run : RLUnit)
    (h : runs[u]? = some run) : runs.take (u + 1) = runs.take u ++ [run] := by
  rw [List.take_succ, h]
  rfl

theorem ValidRuns.length_le {runs : List RLUnit} (h : ValidRuns runs) :
    runs.length ≤ totalOf runs := by
  induction runs with
  | nil => exact Nat.le_refl _
  | cons a l ih =>
    have ha := (h a (List.mem_cons_self _ _)).1
    have hl := ih (fun u hu => h u (List.mem_cons_of_mem _ hu))
    simp only [totalOf, List.map_cons, List.sum_cons, List.length_cons] at hl ⊢
    omega

theorem ValidRuns.take {runs : List RLUnit} (h : ValidRuns runs) (n : Nat) :
    ValidRuns (runs.take n) :=
  fun u hu => h u (List.mem_of_mem_take hu)

theorem ValidRuns.drop {runs : List RLUnit} (h : ValidRuns runs) (n : Nat) :
    ValidRuns (runs.drop n) :=
  fun u hu => h u (List.mem_of_mem_drop hu)

/-- Between two run boundaries the unit index grows by at most the number of
symbols. -/
theorem ValidRuns.index_diff_le {runs : List RLUnit} (h : ValidRuns runs) (a b : Nat)
    (hab : a ≤ b) (hb : b ≤ runs.length) :
    b - a ≤ totalOf (runs.take b) - totalOf (runs.take a) := by
  have hsplit : runs.take b = runs.take a ++ (runs.drop a).take (b - a) := by
    rw [← List.take_add]
    congr 1
    omega
  have hlen : ((runs.drop a).take (b - a)).length = b - a := by
    rw [List.length_take, List.length_drop]
    omega
  have hv := ((h.drop a).take (b - a)).length_le
  rw [hsplit, totalOf_append, hlen] at *
  omega

theorem count_take_le (runs : List RLUnit) (a b : Nat) (hab : a ≤ b) (c : Char) :
    (decodeRuns (runs.take a)).count c ≤ (decodeRuns (runs.take b)).count c ∧
    (decodeRuns (runs.take b)).count c - (decodeRuns (runs.take a)).count c ≤
      totalOf (runs.take b) - totalOf (runs.take a) := by
  have hsplit : runs.take b = runs.take a ++ (runs.drop a).take (b - a) := by
    rw [← List.take_add]
    congr 1
    omega
  rw [hsplit, decodeRuns_append, List.count_append, totalOf_append]
  have := List.count_le_length c (decodeRuns ((runs.drop a).take (b - a)))
  rw [← totalOf_eq_length] at this
  omega

theorem count_le_total (runs : List RLUnit) (c : Char) :
    (decodeRuns runs).count c ≤ totalOf runs := by
  rw [totalOf_eq_length]
  exact List.count_le_length c _

theorem totalOf_dropLast (runs : List RLUnit) :
    totalOf runs.dropLast = totalOf (runs.take (runs.length - 1)) := by
  rw [List.dropLast_eq_take]

/-! ## The unit index of a sampled position -/

theorem IsMarkerUnit.unique {runs : List RLUnit} {pos u u' : Nat}
    (h : IsMarkerUnit runs pos u) (h' : IsMarkerUnit runs pos u') : u = u' := by
  rcases Nat.lt_trichotomy u u' with hlt | heq | hgt
  · have h1 := h'.2.2 u hlt
    rcases h.2.1 with h2 | h2
    · omega
    · have := h'.1
      omega
  · exact heq
  · have h1 := h.2.2 u' hgt
    rcases h'.2.1 with h2 | h2
    · omega
    · have := h.1
      omega

theorem IsMarkerUnit.mono {runs : List RLUnit} {p1 p2 u1 u2 : Nat}
    (h1 : IsMarkerUnit runs p1 u1) (h2 : IsMarkerUnit runs p2 u2) (hp : p1 ≤ p2) : u1 ≤ u2 := by
  by_contra hlt
  have hlt : u2 < u1 := Nat.lt_of_not_le hlt
  have ha := h1.2.2 u2 hlt
  rcases h2.2.1 with hb | hb
  · omega
  · have := h1.1
    omega

theorem IsMarkerUnit.zero (runs : List RLUnit) : IsMarkerUnit runs 0 0 :=
  ⟨Nat.zero_le _, Or.inl (Nat.zero_le _), fun v hv => absurd hv (Nat.not_lt_zero v)⟩

theorem symbolCounts_nil : symbolCounts [] = List.replicate DNAAlphabet.ALL_SIZE 0 := by
  decide

theorem LargeMarker.isAt_zero_large (runs : List RLUnit) : LargeMarker.IsAt runs 0 LargeMarker.zero := by
  refine ⟨0, ?_, ?_⟩
  · rw [Nat.zero_mul]
    exact IsMarkerUnit.zero runs
  · simp only [List.take_zero, symbolCounts_nil]
    rfl

theorem SmallMarker.isAt_zero_small (runs : List RLUnit) (rate : Nat) :
    SmallMarker.IsAt runs rate 0 SmallMarker.zero := by
  refine ⟨0, 0, ?_, ?_, Nat.le_refl _, Nat.zero_le _, ?_, ?_⟩
  · rw [Nat.zero_mul]
    exact IsMarkerUnit.zero runs
  · simp only [Nat.zero_mul, Nat.zero_div]
    exact IsMarkerUnit.zero runs
  · intro c
    simp
  · simp only [Nat.sub_self, List.take_zero]
    decide

/-! ## The fill loops -/

theorem LargeMarkerFill.fillLoop_eq_placeLoop (counts : List Nat) (total unitIndex : Nat) :
    ∀ (fuel : Nat) (f : MarkerFill LargeMarker) (lastOne : Bool),
      LargeMarkerFill.fillLoop fuel f counts total unitIndex lastOne =
        MarkerFill.placeLoop (fun _ => some ⟨unitIndex, counts⟩) fuel f total lastOne := by
  intro fuel
  induction fuel with
  | zero => intro f lastOne; rfl
  | succ n ih =>
    intro f lastOne
    simp only [LargeMarkerFill.fillLoop, MarkerFill.placeLoop, ih]

theorem SmallMarkerFill.fillLoop_placeLoop (lmarkers : List LargeMarker) (counts : List Nat)
    (total unitIndex : Nat) :
    ∀ (fuel : Nat) (f : MarkerFill SmallMarker) (lastOne : Bool),
      SmallMarkerFill.fillLoop lmarkers fuel f counts total unitIndex lastOne =
        MarkerFill.placeLoop (SmallMarkerFill.marker lmarkers counts unitIndex) fuel f total
          lastOne := by
  intro fuel
  induction fuel with
  | zero => intro f lastOne; rfl
  | succ n ih =>
    intro f lastOne
    simp only [SmallMarkerFill.fillLoop, MarkerFill.placeLoop, ih, SmallMarkerFill.marker]
    cases lmarkers[f.currIdx * f.sampleRate / DEFAULT_SAMPLE_RATE_LARGE]? <;> rfl

/-- The index that a call of `fill` reaches from the index `c`. -/
theorem MarkerFill.placeLoop_spec {M : Type} (mk : Nat → Option M) (val : Nat → M)
    (total rate : Nat) (hrate : 0 < rate) :
    ∀ (n fuel : Nat) (f : MarkerFill M) (lastOne : Bool) (c1 : Nat),
      f.sampleRate = rate → f.nextPos = f.currIdx * rate →
      c1 = (if f.currIdx * rate ≤ total then total / rate + 1
            else if lastOne = true then f.currIdx + 1 else f.currIdx) →
      c1 = f.currIdx + n → n < fuel → c1 ≤ f.markers.length →
      (∀ k, f.currIdx ≤ k → k < c1 → mk (k * rate) = some (val k)) →
      ∃ f1, MarkerFill.placeLoop mk fuel f total lastOne = some f1 ∧
        f1.sampleRate = rate ∧ f1.currIdx = c1 ∧ f1.nextPos = c1 * rate ∧
        f1.markers.length = f.markers.length ∧
        (∀ k, k < f.currIdx → f1.markers[k]? = f.markers[k]?) ∧
        (∀ k, f.currIdx ≤ k → k < c1 → f1.markers[k]? = some (val k)) := by
  intro n
  induction n with
  | zero =>
    intro fuel f lastOne c1 hr hnext hc1 hn hfuel _ _
    obtain ⟨fuel, rfl⟩ : ∃ m, fuel = m + 1 := ⟨fuel - 1, by omega⟩
    have hc : c1 = f.currIdx := by omega
    have hcond : ¬ (f.nextPos ≤ total ∨ lastOne = true) := by
      rw [hnext]
      intro hor
      rcases hor with h | h
      · rw [if_pos h] at hc1
        have := (Nat.le_div_iff_mul_le hrate).mpr h
        omega
      · by_cases hle : f.currIdx * rate ≤ total
        · rw [if_pos hle] at hc1
          have := (Nat.le_div_iff_mul_le hrate).mpr hle
          omega
        · rw [if_neg hle, if_pos h] at hc1
          omega
    refine ⟨f, ?_, hr, hc.symm, by rw [hnext, hc], rfl, fun _ _ => rfl, ?_⟩
    · simp only [MarkerFill.placeLoop, hcond, if_false]
    · intro k h1 h2
      omega
  | succ n ih =>
    intro fuel f lastOne c1 hr hnext hc1 hn hfuel hlen hmk
    obtain ⟨fuel, rfl⟩ : ∃ m, fuel = m + 1 := ⟨fuel - 1, by omega⟩
    have hcond : f.nextPos ≤ total ∨ lastOne = true := by
      rw [hnext]
      by_cases hle : f.currIdx * rate ≤ total
      · exact Or.inl hle
      · rw [if_neg hle] at hc1
        by_cases hl : lastOne = true
        · exact Or.inr hl
        · rw [if_neg hl] at hc1
          omega
    have hcond2 : f.currIdx * f.sampleRate ≤ total ∨ lastOne = true := by
      rw [hr, ← hnext]
      exact hcond
    have hlt : f.currIdx < f.markers.length := by omega
    have hval := hmk f.currIdx (Nat.le_refl _) (by omega)
    -- the state after one round
    have hc1' : c1 = (if (f.currIdx + 1) * rate ≤ total then total / rate + 1
        else if (lastOne && decide (f.nextPos + f.sampleRate ≤ total)) = true
          then f.currIdx + 1 + 1 else f.currIdx + 1) := by
      have hnp : f.nextPos + f.sampleRate = (f.currIdx + 1) * rate := by
        rw [hnext, hr, Nat.add_mul, Nat.one_mul]
      rw [hnp]
      by_cases hle1 : (f.currIdx + 1) * rate ≤ total
      · have hle : f.currIdx * rate ≤ total := by
          have : f.currIdx * rate ≤ (f.currIdx + 1) * rate :=
            Nat.mul_le_mul_right _ (Nat.le_succ _)
          omega
        rw [if_pos hle1]
        rw [if_pos hle] at hc1
        exact hc1
      · rw [if_neg hle1]
        have hd : (lastOne && decide ((f.currIdx + 1) * rate ≤ total)) = false := by
          simp [hle1]
        rw [hd]
        simp only [Bool.false_eq_true, if_false]
        by_cases hle : f.currIdx * rate ≤ total
        · rw [if_pos hle] at hc1
          have h1 := (Nat.le_div_iff_mul_le hrate).mpr hle
          have h2 : total / rate < f.currIdx + 1 := by
            rw [Nat.div_lt_iff_lt_mul hrate]
            omega
          omega
        · rw [if_neg hle] at hc1
          by_cases hl : lastOne = true
          · rw [if_pos hl] at hc1
            exact hc1
          · rw [if_neg hl] at hc1
            omega
    obtain ⟨f1, h1, h2, h3, h4, h5, h6, h7⟩ := ih fuel
      { f with markers := f.markers.set f.currIdx (val f.currIdx),
               currIdx := f.currIdx + 1, nextPos := f.nextPos + f.sampleRate }
      (lastOne && decide (f.nextPos + f.sampleRate ≤ total)) c1 hr
      (by simp only; rw [hnext, hr, Nat.add_mul, Nat.one_mul]) hc1' (by simp only; omega)
      (by omega) (by simp only [List.length_set]; exact hlen)
      (fun k hk1 hk2 => hmk k (by simp only at hk1; omega) hk2)
    refine ⟨f1, ?_, h2, h3, h4, ?_, ?_, ?_⟩
    · simp only [MarkerFill.placeLoop, hcond, if_true, hcond2, not_true_eq_false, if_false,
        hlt, hr, hval]
      rw [hr] at h1 hcond2
      rw [if_neg (not_not.mpr hcond2)]
      exact h1
    · rw [h5, List.length_set]
    · intro k hk
      rw [h6 k (by simp only; omega)]
      simp only
      rw [List.getElem?_set_ne (by omega)]
    · intro k hk1 hk2
      by_cases hk : k = f.currIdx
      · subst hk
        rw [h6 _ (by simp only; omega)]
        simp only
        rw [List.getElem?_set_self hlt]
      · exact h7 k (by simp only; omega) hk2

theorem sub64_eq (a b : Nat) (hb : b ≤ a) (ha : a < 2 ^ 64) : sub64 a b = a - b := by
  simp only [sub64]
  omega

theorem u16_eq (a : Nat) (h : a ≤ 65535) : u16 a = a := by
  simp only [u16]
  omega

/-! ## Counts after one more run -/

theorem DNAAlphabet.torank_tochar (r : Nat) (h : r < DNAAlphabet.ALL_SIZE) :
    DNAAlphabet.torank (DNAAlphabet.tochar r) = r := by
  simp only [DNAAlphabet.ALL_SIZE] at h
  interval_cases r <;> decide

theorem symbolCounts_length (runs : List RLUnit) :
    (symbolCounts runs).length = DNAAlphabet.ALL_SIZE := by
  simp [symbolCounts, DNAAlphabet.DNA_ALL, DNAAlphabet.ALL_SIZE]

theorem symbolCounts_snoc (pre : List RLUnit) (run : RLUnit)
    (h : run.rank < DNAAlphabet.ALL_SIZE) :
    ∃ old, (symbolCounts pre)[DNAAlphabet.torank run.toChar]? = some old ∧
      (symbolCounts pre).set (DNAAlphabet.torank run.toChar) (old + run.count) =
        symbolCounts (pre ++ [run]) := by
  simp only [RLUnit.toChar, DNAAlphabet.torank_tochar run.rank h]
  simp only [symbolCounts, decodeRuns_append, decodeRuns_single, List.count_append,
    List.count_replicate, RLUnit.toChar, DNAAlphabet.DNA_ALL]
  simp only [DNAAlphabet.ALL_SIZE] at h
  generalize run.rank = r at h
  interval_cases r <;> exact ⟨_, rfl, by simp [DNAAlphabet.tochar, DNAAlphabet.DNA_ALL]⟩

/-! ## The marker index along the run loop -/

theorem lt_succ_div_mul (a r : Nat) (hr : 0 < r) : a < (a / r + 1) * r :=
  (Nat.div_lt_iff_lt_mul hr).mp (Nat.lt_succ_self _)

theorem ValidRuns.dropLast_lt {runs : List RLUnit} (h : ValidRuns runs) (hne : runs ≠ []) :
    totalOf runs.dropLast < totalOf runs := by
  have hsplit := List.dropLast_append_getLast hne
  have hc := (h (runs.getLast hne) (List.getLast_mem hne)).1
  conv_rhs => rw [← hsplit]
  rw [totalOf_append]
  simp only [totalOf, List.map_cons, List.map_nil, List.sum_cons, List.sum_nil]
  omega

theorem totalOf_take_succ (runs : List RLUnit) (u : Nat) (run : RLUnit)
    (h : runs[u]? = some run) :
    totalOf (runs.take (u + 1)) = totalOf (runs.take u) + run.count := by
  rw [take_succ_of_getElem? runs u run h, totalOf_append]
  simp [totalOf]

theorem markerIndex_succ (runs : List RLUnit) (rate u : Nat) (hrate : 0 < rate)
    (hu : u < runs.length) :
    markerIndex runs rate (u + 1) =
      (if (totalOf (runs.take u) / rate + 1) * rate ≤ totalOf (runs.take (u + 1))
       then totalOf (runs.take (u + 1)) / rate + 1
       else if decide (u + 1 = runs.length) = true then totalOf (runs.take u) / rate + 1 + 1
       else totalOf (runs.take u) / rate + 1) := by
  have hmono := totalOf_take_le runs u (u + 1) (Nat.le_succ u)
  have hdiv := Nat.div_le_div_right (c := rate) hmono
  by_cases hlast : u + 1 = runs.length
  · have hcond : ¬ (u + 1 < runs.length ∨ runs.length = 0) := by omega
    have hdl : totalOf runs.dropLast = totalOf (runs.take u) := by
      rw [totalOf_dropLast]
      congr 2
      omega
    have htl : totalOf (runs.take (u + 1)) = totalOf runs := by
      rw [hlast, List.take_length]
    have hmi : markerIndex runs rate (u + 1) =
        if totalOf (runs.take u) / rate + 1 ≤ totalOf runs / rate then totalOf runs / rate + 1
        else totalOf (runs.take u) / rate + 2 := by
      simp only [markerIndex, hcond, if_false, hdl]
    have hd : decide (u + 1 = runs.length) = true := by simp [hlast]
    rw [hmi, htl, hd]
    by_cases hle : (totalOf (List.take u runs) / rate + 1) * rate ≤ totalOf runs
    · rw [if_pos hle, if_pos ((Nat.le_div_iff_mul_le hrate).mpr hle)]
    · rw [if_neg hle, if_neg (fun h => hle ((Nat.le_div_iff_mul_le hrate).mp h))]
      rfl
  · have hcond : u + 1 < runs.length ∨ runs.length = 0 := by omega
    simp only [markerIndex, hcond, if_true, hlast, decide_False, Bool.false_eq_true, if_false]
    by_cases hle : (totalOf (List.take u runs) / rate + 1) * rate ≤ totalOf (runs.take (u + 1))
    · rw [if_pos hle]
    · rw [if_neg hle]
      have : totalOf (runs.take (u + 1)) / rate < totalOf (runs.take u) / rate + 1 :=
        (Nat.div_lt_iff_lt_mul hrate).mpr (Nat.lt_of_not_le hle)
      omega

theorem markerIndex_of_lt (runs : List RLUnit) (rate u : Nat) (hu : u < runs.length) :
    markerIndex runs rate u = totalOf (runs.take u) / rate + 1 := by
  simp only [markerIndex, hu, true_or, if_true]

theorem markerIndex_gt (runs : List RLUnit) (rate u : Nat) (hu : u ≤ runs.length) :
    totalOf (runs.take u) / rate < markerIndex runs rate u := by
  by_cases hlt : u < runs.length ∨ runs.length = 0
  · simp only [markerIndex, hlt, if_true]
    omega
  · have hR : u = runs.length := by omega
    subst hR
    simp only [markerIndex, hlt, if_false, List.take_length]
    split_ifs <;> omega

theorem markerIndex_le_required {runs : List RLUnit} (h : ValidRuns runs) (rate u : Nat) :
    markerIndex runs rate u ≤ requiredMarkers (totalOf runs) rate := by
  have hle := Nat.div_le_div_right (c := rate) (totalOf_take_le_total runs u)
  by_cases hlt : u < runs.length ∨ runs.length = 0
  · simp only [markerIndex, hlt, if_true, requiredMarkers]
    split_ifs <;> omega
  · have hne : runs ≠ [] := by
      intro he
      apply hlt
      right
      rw [he]
      rfl
    have hdl := h.dropLast_lt hne
    have hdiv := Nat.div_le_div_right (c := rate) (Nat.le_of_lt hdl)
    simp only [markerIndex, hlt, if_false, requiredMarkers]
    by_cases hb : totalOf runs.dropLast / rate + 1 ≤ totalOf runs / rate
    · rw [if_pos hb]
      split_ifs <;> omega
    · rw [if_neg hb]
      by_cases hm : totalOf runs % rate = 0
      · exfalso
        have h1 : totalOf runs.dropLast / rate = totalOf runs / rate := by omega
        have h2 := Nat.div_mul_le_self (totalOf runs.dropLast) rate
        have h3 : totalOf runs / rate * rate = totalOf runs := Nat.div_mul_cancel
          (Nat.dvd_of_mod_eq_zero hm)
        rw [h1, h3] at h2
        omega
      · rw [if_neg hm]
        omega

theorem markerIndex_final_iff {runs : List RLUnit} (h : ValidRuns runs) (rate : Nat)
    (hrate : 0 < rate) :
    markerIndex runs rate runs.length = requiredMarkers (totalOf runs) rate ↔
      LastRunFits runs rate := by
  by_cases hR : runs.length = 0
  · have he : runs = [] := List.length_eq_zero.mp hR
    subst he
    simp [markerIndex, requiredMarkers, LastRunFits, totalOf]
  · have hne : runs ≠ [] := fun he => hR (by rw [he]; rfl)
    have hdl := h.dropLast_lt hne
    have hdiv := Nat.div_le_div_right (c := rate) (Nat.le_of_lt hdl)
    have hcond : ¬ (runs.length < runs.length ∨ runs.length = 0) := by omega
    simp only [markerIndex, hcond, if_false, requiredMarkers, LastRunFits]
    by_cases hm : totalOf runs % rate = 0
    · have h3 : totalOf runs / rate * rate = totalOf runs := Nat.div_mul_cancel
        (Nat.dvd_of_mod_eq_zero hm)
      have h2 := lt_succ_div_mul (totalOf runs.dropLast) rate hrate
      have hb : totalOf runs.dropLast / rate + 1 ≤ totalOf runs / rate := by
        by_contra hnb
        have h1 : totalOf runs.dropLast / rate = totalOf runs / rate := by omega
        have h4 := Nat.div_mul_le_self (totalOf runs.dropLast) rate
        rw [h1, h3] at h4
        omega
      simp only [hm, if_true, hb, true_or]
    · simp only [hm, if_false, false_or]
      by_cases hb : totalOf runs.dropLast / rate + 1 ≤ totalOf runs / rate
      · rw [if_pos hb]
        constructor
        · intro h1
          omega
        · intro h1
          omega
      · rw [if_neg hb]
        constructor
        · intro _
          omega
        · intro h1
          omega

/-- The unit index of the markers that the round of the run `u` places. -/
theorem IsMarkerUnit.of_placed (runs : List RLUnit) (rate u k : Nat) (hrate : 0 < rate)
    (hu : u < runs.length) (hk1 : totalOf (runs.take u) / rate + 1 ≤ k)
    (hk2 : k < markerIndex runs rate (u + 1)) :
    IsMarkerUnit runs (k * rate) (u + 1) := by
  have hlt := lt_succ_div_mul (totalOf (runs.take u)) rate hrate
  have hkr : (totalOf (runs.take u) / rate + 1) * rate ≤ k * rate :=
    Nat.mul_le_mul_right _ hk1
  refine ⟨hu, ?_, ?_⟩
  · rw [markerIndex_succ runs rate u hrate hu] at hk2
    by_cases hle : (totalOf (runs.take u) / rate + 1) * rate ≤ totalOf (runs.take (u + 1))
    · rw [if_pos hle] at hk2
      left
      exact (Nat.le_div_iff_mul_le hrate).mp (by omega)
    · rw [if_neg hle] at hk2
      by_cases hl : u + 1 = runs.length
      · exact Or.inr hl
      · simp only [hl, decide_False, Bool.false_eq_true, if_false] at hk2
        omega
  · intro v hv
    have := totalOf_take_le runs v u (by omega)
    omega

theorem RLUnit.count_le (u : RLUnit) : u.count ≤ 31 := by
  simp only [RLUnit.count]
  omega

/-- A call of `fill` in the round of the run `u`, for a filler that stands at
the marker index of `u`. -/
theorem MarkerFill.placeLoop_round {M : Type} (runs : List RLUnit) (hv : ValidRuns runs)
    (rate : Nat) (hrate : 0 < rate) (u : Nat) (hu : u < runs.length)
    (mk : Nat → Option M) (val : Nat → M) (f : MarkerFill M)
    (hr : f.sampleRate = rate) (hnext : f.nextPos = f.currIdx * rate)
    (hidx : f.currIdx = markerIndex runs rate u)
    (hlen : f.markers.length = requiredMarkers (totalOf runs) rate)
    (hmk : ∀ k, f.currIdx ≤ k → k < markerIndex runs rate (u + 1) →
      mk (k * rate) = some (val k)) :
    ∃ f1, MarkerFill.placeLoop mk (totalOf (runs.take (u + 1)) + 2) f
        (totalOf (runs.take (u + 1))) (decide (u + 1 = runs.length)) = some f1 ∧
      f1.sampleRate = rate ∧ f1.currIdx = markerIndex runs rate (u + 1) ∧
      f1.nextPos = f1.currIdx * rate ∧
      f1.markers.length = requiredMarkers (totalOf runs) rate ∧
      (∀ k, k < f.currIdx → f1.markers[k]? = f.markers[k]?) ∧
      (∀ k, f.currIdx ≤ k → k < markerIndex runs rate (u + 1) →
        f1.markers[k]? = some (val k)) := by
  have hc : f.currIdx = totalOf (runs.take u) / rate + 1 := by
    rw [hidx, markerIndex_of_lt runs rate u hu]
  have hsucc := markerIndex_succ runs rate u hrate hu
  have hc1 : markerIndex runs rate (u + 1) =
      (if f.currIdx * rate ≤ totalOf (runs.take (u + 1))
       then totalOf (runs.take (u + 1)) / rate + 1
       else if decide (u + 1 = runs.length) = true then f.currIdx + 1 else f.currIdx) := by
    rw [hsucc, hc]
  have hge : f.currIdx ≤ markerIndex runs rate (u + 1) := by
    rw [hc1]
    by_cases hle : f.currIdx * rate ≤ totalOf (runs.take (u + 1))
    · rw [if_pos hle]
      have := (Nat.le_div_iff_mul_le hrate).mpr hle
      omega
    · rw [if_neg hle]
      split_ifs <;> omega
  have hup : markerIndex runs rate (u + 1) ≤ f.currIdx + (totalOf (runs.take (u + 1)) + 1) := by
    rw [hc1]
    have hdl := Nat.div_le_self (totalOf (runs.take (u + 1))) rate
    split_ifs <;> omega
  obtain ⟨f1, h1, h2, h3, h4, h5, h6, h7⟩ :=
    MarkerFill.placeLoop_spec mk val (totalOf (runs.take (u + 1))) rate hrate
      (markerIndex runs rate (u + 1) - f.currIdx) (totalOf (runs.take (u + 1)) + 2) f
      (decide (u + 1 = runs.length)) (markerIndex runs rate (u + 1)) hr hnext hc1
      (by omega) (by omega)
      (by rw [hlen]; exact markerIndex_le_required hv rate (u + 1)) hmk
  exact ⟨f1, h1, h2, h3, by rw [h4, h3], by rw [h5, hlen], h6, h7⟩

theorem zipWith_map_map {α β : Type} (g : β → β → β) (f1 f2 : α → β) (l : List α) :
    List.zipWith g (l.map f1) (l.map f2) = l.map (fun a => g (f1 a) (f2 a)) := by
  induction l with
  | nil => rfl
  | cons a l ih => simp [ih]

theorem mul_div_le_succ (a s q : Nat) (hs : 0 < s) (hq : 0 < q) :
    (a / s + 1) * s / (s * q) ≤ a / (s * q) + 1 := by
  rw [Nat.mul_comm (a / s + 1) s, Nat.mul_div_mul_left _ _ hs, ← Nat.div_div_eq_div_mul]
  have h1 := lt_succ_div_mul (a / s) q hq
  have h2 : (a / s + 1) / q < a / s / q + 2 := by
    rw [Nat.div_lt_iff_lt_mul hq]
    have : (a / s / q + 2) * q = (a / s / q + 1) * q + q := by ring
    omega
  omega

/-- The large marker that a small marker of the round of the run `u` refers to
has been placed. -/
theorem markerIndex_large_placed (runs : List RLUnit) (rate q u k : Nat) (hrate : 0 < rate)
    (hq : DEFAULT_SAMPLE_RATE_LARGE = rate * q) (hu : u < runs.length)
    (hk1 : totalOf (runs.take u) / rate + 1 ≤ k)
    (hk2 : k < markerIndex runs rate (u + 1)) :
    k * rate / DEFAULT_SAMPLE_RATE_LARGE < markerIndex runs DEFAULT_SAMPLE_RATE_LARGE (u + 1) := by
  have hq0 : 0 < q := by
    rcases Nat.eq_zero_or_pos q with h | h
    · rw [h, Nat.mul_zero] at hq
      exact absurd hq (by decide)
    · exact h
  by_cases hle : k * rate ≤ totalOf (runs.take (u + 1))
  · have h1 := Nat.div_le_div_right (c := DEFAULT_SAMPLE_RATE_LARGE) hle
    have h2 := markerIndex_gt runs DEFAULT_SAMPLE_RATE_LARGE (u + 1) hu
    omega
  · -- the marker is the final one: the last run crosses no sampled position
    have hsucc := markerIndex_succ runs rate u hrate hu
    have hnle : ¬ (totalOf (runs.take u) / rate + 1) * rate ≤ totalOf (runs.take (u + 1)) := by
      intro h
      rw [hsucc, if_pos h] at hk2
      exact hle ((Nat.le_div_iff_mul_le hrate).mp (by omega))
    rw [hsucc, if_neg hnle] at hk2
    by_cases hl : u + 1 = runs.length
    · simp only [hl, decide_True, if_true] at hk2
      have hk : k = totalOf (runs.take u) / rate + 1 := by omega
      have htl : totalOf (runs.take (u + 1)) = totalOf runs := by rw [hl, List.take_length]
      have hdl : totalOf runs.dropLast = totalOf (runs.take u) := by
        rw [totalOf_dropLast]
        congr 2
        omega
      have hmono := totalOf_take_le runs u (u + 1) (Nat.le_succ u)
      rw [htl] at hnle hmono
      have hdS : totalOf (runs.take u) / rate = totalOf runs / rate := by
        have h1 := Nat.div_le_div_right (c := rate) hmono
        have h2 : totalOf runs / rate < totalOf (runs.take u) / rate + 1 :=
          (Nat.div_lt_iff_lt_mul hrate).mpr (Nat.lt_of_not_le hnle)
        omega
      have hdL : totalOf (runs.take u) / DEFAULT_SAMPLE_RATE_LARGE =
          totalOf runs / DEFAULT_SAMPLE_RATE_LARGE := by
        rw [hq, ← Nat.div_div_eq_div_mul, ← Nat.div_div_eq_div_mul, hdS]
      have hcond : ¬ (u + 1 < runs.length ∨ runs.length = 0) := by omega
      have hmi : markerIndex runs DEFAULT_SAMPLE_RATE_LARGE (u + 1) =
          totalOf runs / DEFAULT_SAMPLE_RATE_LARGE + 2 := by
        simp only [markerIndex, hcond, if_false, hdl, hdL]
        rw [if_neg (by omega)]
      rw [hmi, hk, hdS, hq]
      have := mul_div_le_succ (totalOf runs) rate q hrate hq0
      omega
    · simp only [hl, decide_False, Bool.false_eq_true, if_false] at hk2
      omega

/-- The small marker stored in the round of the run `u` for the index `k` is
the exact difference to the large marker it refers to. -/
theorem SmallMarkerFill.marker_isAt (runs : List RLUnit) (hv : ValidRuns runs)
    (hN : totalOf runs < 2 ^ 64) (rate q : Nat) (hrate : 0 < rate)
    (hq : DEFAULT_SAMPLE_RATE_LARGE = rate * q) (u : Nat) (run : RLUnit)
    (hrun : runs[u]? = some run) (lmarkers : List LargeMarker)
    (hlm : ∀ j < markerIndex runs DEFAULT_SAMPLE_RATE_LARGE (u + 1),
      ∃ m, lmarkers[j]? = some m ∧ LargeMarker.IsAt runs j m)
    (k : Nat) (hk1 : totalOf (runs.take u) / rate + 1 ≤ k)
    (hk2 : k < markerIndex runs rate (u + 1)) :
    ∃ m, SmallMarkerFill.marker lmarkers (symbolCounts (runs.take (u + 1))) (u + 1)
        (k * rate) = some m ∧ SmallMarker.IsAt runs rate k m := by
  have hu : u < runs.length := by
    by_contra hge
    rw [List.getElem?_eq_none (Nat.le_of_not_lt hge)] at hrun
    cases hrun
  have hunit := IsMarkerUnit.of_placed runs rate u k hrate hu hk1 hk2
  obtain ⟨l, hl, uL, huL, hlv⟩ := hlm _
    (markerIndex_large_placed runs rate q u k hrate hq hu hk1 hk2)
  have hpos : k * rate / DEFAULT_SAMPLE_RATE_LARGE * DEFAULT_SAMPLE_RATE_LARGE ≤ k * rate :=
    Nat.div_mul_le_self _ _
  have hle : uL ≤ u + 1 := IsMarkerUnit.mono huL hunit hpos
  have hRN : runs.length ≤ totalOf runs := hv.length_le
  -- the symbols between the two markers
  have hd : totalOf (runs.take (u + 1)) - totalOf (runs.take uL) ≤ 65535 := by
    rcases huL.2.1 with h1 | h1
    · have h2 := lt_succ_div_mul (totalOf (runs.take u)) rate hrate
      have h3 : (totalOf (runs.take u) / rate + 1) * rate ≤ k * rate :=
        Nat.mul_le_mul_right _ hk1
      have h4 := totalOf_take_succ runs u run hrun
      have h5 := run.count_le
      have h6 := lt_succ_div_mul (k * rate) DEFAULT_SAMPLE_RATE_LARGE (by decide)
      have h7 : (k * rate / DEFAULT_SAMPLE_RATE_LARGE + 1) * DEFAULT_SAMPLE_RATE_LARGE =
          k * rate / DEFAULT_SAMPLE_RATE_LARGE * DEFAULT_SAMPLE_RATE_LARGE + 8192 := by
        rw [Nat.add_mul, Nat.one_mul]
        rfl
      omega
    · have : uL = u + 1 := by omega
      rw [this]
      omega
  have hidx := hv.index_diff_le uL (u + 1) hle hu
  have hcount : ∀ c, (decodeRuns (runs.take uL)).count c ≤
        (decodeRuns (runs.take (u + 1))).count c ∧
      (decodeRuns (runs.take (u + 1))).count c - (decodeRuns (runs.take uL)).count c ≤ 65535 := by
    intro c
    have := count_take_le runs uL (u + 1) hle c
    exact ⟨this.1, by omega⟩
  refine ⟨⟨u + 1 - uL, DNAAlphabet.DNA_ALL.map fun c =>
    (decodeRuns (runs.take (u + 1))).count c - (decodeRuns (runs.take uL)).count c⟩, ?_,
    u + 1, uL, hunit, huL, hle, by omega, hcount, rfl⟩
  simp only [SmallMarkerFill.marker, hl, Option.map_some', hlv, Option.some.injEq,
    SmallMarker.mk.injEq]
  constructor
  · rw [sub64_eq _ _ hle (by omega), u16_eq _ (by omega)]
  · simp only [symbolCounts]
    rw [zipWith_map_map]
    apply List.map_congr_left
    intro c _
    have h1 := (hcount c).1
    have h2 := (hcount c).2
    have h3 := count_le_total (runs.take (u + 1)) c
    have h4 := totalOf_take_le_total runs (u + 1)
    rw [sub64_eq _ _ h1 (by omega), u16_eq _ h2]

/-! ## The run loop of `FMIndex::initialize` -/

theorem markerIndex_mono_succ (runs : List RLUnit) (rate u : Nat) (hrate : 0 < rate)
    (hu : u < runs.length) : markerIndex runs rate u ≤ markerIndex runs rate (u + 1) := by
  rw [markerIndex_succ runs rate u hrate hu, markerIndex_of_lt runs rate u hu]
  by_cases hle : (totalOf (runs.take u) / rate + 1) * rate ≤ totalOf (runs.take (u + 1))
  · rw [if_pos hle]
    have := (Nat.le_div_iff_mul_le hrate).mpr hle
    omega
  · rw [if_neg hle]
    split_ifs <;> omega

/-- One round of the run loop keeps the invariant. -/
theorem FillState.Inv.step {runs : List RLUnit} (hv : ValidRuns runs)
    (hN : totalOf runs < 2 ^ 64) {rate q : Nat} (hrate : 0 < rate)
    (hq : DEFAULT_SAMPLE_RATE_LARGE = rate * q) (u : Nat) (run : RLUnit) (rest : List RLUnit)
    (s : FillState) (hrun : runs[u]? = some run) (hinv : FillState.Inv runs rate u s) :
    ∃ s1, FMIndex.runLoop runs.length (run :: rest) u s =
        FMIndex.runLoop runs.length rest (u + 1) s1 ∧
      FillState.Inv runs rate (u + 1) s1 := by
  have hu : u < runs.length := by
    by_contra hge
    rw [List.getElem?_eq_none (Nat.le_of_not_lt hge)] at hrun
    cases hrun
  have hmem : run ∈ runs := List.getElem?_mem hrun
  obtain ⟨hcnt, hrank⟩ := hv run hmem
  obtain ⟨old, hold, hset⟩ := symbolCounts_snoc (runs.take u) run hrank
  rw [← take_succ_of_getElem? runs u run hrun] at hset
  have htot := totalOf_take_succ runs u run hrun
  have hR64 : runs.length < 2 ^ 64 := lt_of_le_of_lt hv.length_le hN
  have hlast : decide (u = sub64 runs.length 1) = decide (u + 1 = runs.length) := by
    rw [sub64_eq _ _ (by omega) hR64]
    exact decide_eq_decide.mpr (by omega)
  have hi1u := markerIndex_of_lt runs DEFAULT_SAMPLE_RATE_LARGE u hu
  have hi2u := markerIndex_of_lt runs rate u hu
  -- the large markers of the round
  obtain ⟨f1, hf1, hr1, hi1, hn1, hl1, hold1, hnew1⟩ :=
    MarkerFill.placeLoop_round runs hv DEFAULT_SAMPLE_RATE_LARGE (by decide) u hu
      (fun _ => some ⟨u + 1, symbolCounts (runs.take (u + 1))⟩)
      (fun _ => ⟨u + 1, symbolCounts (runs.take (u + 1))⟩) s.f1 hinv.rate1 hinv.next1
      hinv.idx1 hinv.len1 (fun _ _ _ => rfl)
  have hplaced1 : ∀ k < f1.currIdx,
      ∃ m, f1.markers[k]? = some m ∧ LargeMarker.IsAt runs k m := by
    intro k hk
    by_cases hlt : k < s.f1.currIdx
    · obtain ⟨m, hm, hat⟩ := hinv.placed1 k hlt
      exact ⟨m, by rw [hold1 k hlt]; exact hm, hat⟩
    · refine ⟨_, hnew1 k (by omega) (by rw [← hi1]; exact hk), u + 1, ?_, rfl⟩
      apply IsMarkerUnit.of_placed runs _ u k (by decide) hu
      · rw [← hi1u, ← hinv.idx1]
        omega
      · rw [← hi1]
        exact hk
  -- the small markers of the round
  have hmk : ∀ k, s.f2.currIdx ≤ k → k < markerIndex runs rate (u + 1) →
      ∃ m, SmallMarkerFill.marker f1.markers (symbolCounts (runs.take (u + 1))) (u + 1)
        (k * rate) = some m ∧ SmallMarker.IsAt runs rate k m := by
    intro k h1 h2
    apply SmallMarkerFill.marker_isAt runs hv hN rate q hrate hq u run hrun f1.markers
      (by rw [← hi1]; exact hplaced1) k _ h2
    rw [← hi2u, ← hinv.idx2]
    exact h1
  obtain ⟨f2, hf2, hr2, hi2, hn2, hl2, hold2, hnew2⟩ :=
    MarkerFill.placeLoop_round runs hv rate hrate u hu
      (SmallMarkerFill.marker f1.markers (symbolCounts (runs.take (u + 1))) (u + 1))
      (fun k => (SmallMarkerFill.marker f1.markers (symbolCounts (runs.take (u + 1))) (u + 1)
        (k * rate)).getD SmallMarker.zero) s.f2 hinv.rate2 hinv.next2 hinv.idx2 hinv.len2
      (fun k h1 h2 => by
        obtain ⟨m, hm, _⟩ := hmk k h1 h2
        simp only [hm, Option.getD_some])
  refine ⟨⟨symbolCounts (runs.take (u + 1)), totalOf (runs.take (u + 1)), f1, f2⟩, ?_, ?_⟩
  · rw [FMIndex.runLoop]
    simp only [hinv.counts, hold, hset, hinv.total, ← htot, hlast, LargeMarkerFill.fill,
      LargeMarkerFill.fillLoop_eq_placeLoop, hf1, SmallMarkerFill.fill, SmallMarkerFill.fillLoop_placeLoop, hf2]
  · refine ⟨rfl, rfl, hr1, hr2, hl1, hl2, hn1, hn2, hi1, hi2, hplaced1, ?_, ?_⟩
    · intro k hk
      by_cases hlt : k < s.f2.currIdx
      · obtain ⟨m, hm, hat⟩ := hinv.placed2 k hlt
        exact ⟨m, by rw [hold2 k hlt]; exact hm, hat⟩
      · have h1 : s.f2.currIdx ≤ k := Nat.le_of_not_lt hlt
        have h2 : k < markerIndex runs rate (u + 1) := by rw [← hi2]; exact hk
        obtain ⟨m, hm, hat⟩ := hmk k h1 h2
        refine ⟨m, ?_, hat⟩
        rw [hnew2 k h1 h2]
        simp only [hm, Option.getD_some]
    · intro k hk
      by_cases hlt : k < s.f2.currIdx
      · have h1 := hinv.link k hlt
        have h2 := markerIndex_mono_succ runs DEFAULT_SAMPLE_RATE_LARGE u (by decide) hu
        rw [← hinv.idx1, ← hi1] at h2
        exact lt_of_lt_of_le h1 h2
      · have h1 : s.f2.currIdx ≤ k := Nat.le_of_not_lt hlt
        rw [hi1]
        apply markerIndex_large_placed runs rate q u k hrate hq hu
        · rw [← hi2u, ← hinv.idx2]
          exact h1
        · rw [← hi2]
          exact hk

/-- The run loop returns, and the invariant holds of its result. -/
theorem FMIndex.runLoop_inv {runs : List RLUnit} (hv : ValidRuns runs)
    (hN : totalOf runs < 2 ^ 64) {rate q : Nat} (hrate : 0 < rate)
    (hq : DEFAULT_SAMPLE_RATE_LARGE = rate * q) :
    ∀ (rest : List RLUnit) (u : Nat) (s : FillState), runs.drop u = rest → u ≤ runs.length →
      FillState.Inv runs rate u s →
      ∃ s1, FMIndex.runLoop runs.length rest u s = some s1 ∧
        FillState.Inv runs rate runs.length s1 := by
  intro rest
  induction rest with
  | nil =>
    intro u s hd hu hinv
    have hge : runs.length ≤ u := List.drop_eq_nil_iff.mp hd
    have he : u = runs.length := Nat.le_antisymm hu hge
    subst he
    exact ⟨s, rfl, hinv⟩
  | cons run rest ih =>
    intro u s hd hu hinv
    have hrun : runs[u]? = some run := by
      have h0 : (runs.drop u)[0]? = some run := by rw [hd]; simp
      rw [List.getElem?_drop] at h0
      exact h0
    have hlt : u < runs.length := by
      by_contra hge
      rw [List.getElem?_eq_none (Nat.le_of_not_lt hge)] at hrun
      cases hrun
    have hd1 : runs.drop (u + 1) = rest := by
      have h1 : (runs.drop u).drop 1 = rest := by rw [hd]; rfl
      rw [List.drop_drop] at h1
      rw [← h1]
    obtain ⟨s1, hs1, hinv1⟩ := FillState.Inv.step hv hN hrate hq u run rest s hrun hinv
    obtain ⟨s2, hs2, hinv2⟩ := ih (u + 1) s1 hd1 hlt hinv1
    exact ⟨s2, by rw [hs1, hs2], hinv2⟩

theorem requiredMarkers_pos (n rate : Nat) : 0 < requiredMarkers n rate := by
  simp only [requiredMarkers]
  split_ifs <;> exact Nat.succ_pos _

theorem MarkerFill.initialize_spec {M : Type} (zero : M) (markers : List M) (n rate : Nat) :
    ( MarkerFill.initialize zero markers n rate).sampleRate = rate ∧
    ( MarkerFill.initialize zero markers n rate).currIdx = 1 ∧
    ( MarkerFill.initialize zero markers n rate).nextPos = rate ∧
    ( MarkerFill.initialize zero markers n rate).markers.length = requiredMarkers n rate ∧
    ( MarkerFill.initialize zero markers n rate).markers[0]? = some zero := by
  have hpos := requiredMarkers_pos n rate
  have hlen := resize_length markers (requiredMarkers n rate) zero
  have hne : (resize markers (requiredMarkers n rate) zero).isEmpty = false := by
    cases h : resize markers (requiredMarkers n rate) zero with
    | nil => rw [h] at hlen; simp at hlen; omega
    | cons a l => rfl
  have hm : ( MarkerFill.initialize zero markers n rate).markers =
      (resize markers (requiredMarkers n rate) zero).set 0 zero := by
    have h1 : ( MarkerFill.initialize zero markers n rate).markers =
        (if (resize markers (requiredMarkers n rate) zero).isEmpty = true
         then resize markers (requiredMarkers n rate) zero
         else (resize markers (requiredMarkers n rate) zero).set 0 zero) := rfl
    rw [h1, hne]
    rfl
  refine ⟨rfl, rfl, rfl, ?_, ?_⟩
  · rw [hm, List.length_set, hlen]
  · rw [hm, List.getElem?_set_self (by rw [hlen]; exact hpos)]

/-- The invariant holds of the state before the first run. -/
theorem FillState.Inv.init (runs : List RLUnit) (rate : Nat) (lm : List LargeMarker)
    (sm : List SmallMarker) :
    FillState.Inv runs rate 0
      { counts := List.replicate DNAAlphabet.ALL_SIZE 0, total := 0,
        f1 := MarkerFill.initialize LargeMarker.zero lm (totalOf runs) DEFAULT_SAMPLE_RATE_LARGE,
        f2 := MarkerFill.initialize SmallMarker.zero sm (totalOf runs) rate } := by
  obtain ⟨a1, a2, a3, a4, a5⟩ := MarkerFill.initialize_spec LargeMarker.zero lm (totalOf runs)
    DEFAULT_SAMPLE_RATE_LARGE
  obtain ⟨b1, b2, b3, b4, b5⟩ := MarkerFill.initialize_spec SmallMarker.zero sm (totalOf runs)
    rate
  have hmi : ∀ r, markerIndex runs r 0 = 1 := by
    intro r
    have hc : 0 < runs.length ∨ runs.length = 0 := by omega
    simp only [markerIndex, hc, if_true, List.take_zero]
    simp [totalOf]
  refine ⟨?_, ?_, a1, b1, a4, b4, ?_, ?_, ?_, ?_, ?_, ?_, ?_⟩
  · simp only [List.take_zero, symbolCounts_nil]
  · simp [totalOf]
  · show _ = _ * _
    rw [a3, a2, Nat.one_mul]
  · show _ = _ * _
    rw [b3, b2, Nat.one_mul]
  · show _ = _
    rw [a2, hmi]
  · show _ = _
    rw [b2, hmi]
  · intro k hk
    have hk0 : k = 0 := by
      have : k < 1 := by rw [← a2]; exact hk
      omega
    subst hk0
    exact ⟨_, a5, LargeMarker.isAt_zero_large runs⟩
  · intro k hk
    have hk0 : k = 0 := by
      have : k < 1 := by rw [← b2]; exact hk
      omega
    subst hk0
    exact ⟨_, b5, SmallMarker.isAt_zero_small runs rate⟩
  · intro k hk
    have hk0 : k = 0 := by
      have : k < 1 := by rw [← b2]; exact hk
      omega
    subst hk0
    show _ < ( MarkerFill.initialize LargeMarker.zero lm (totalOf runs)
      DEFAULT_SAMPLE_RATE_LARGE).currIdx
    rw [a2]
    simp

/-! ## `FMIndex::initialize` -/

theorem IS_POWER_OF_2_pow (e : Nat) (he : e ≤ 13) : IS_POWER_OF_2 (2 ^ e) = true := by
  interval_cases e <;> decide

theorem large_rate_multiple (e : Nat) (he : e ≤ 13) :
    DEFAULT_SAMPLE_RATE_LARGE = 2 ^ e * 2 ^ (13 - e) := by
  rw [← pow_add]
  have : e + (13 - e) = 13 := by omega
  rw [this]
  rfl

/-- The predecessor table loop on the per-symbol totals of the runs: the
stores are at the character codes of the alphabet, and the value looked up at
the code of the symbol of rank `k` is the sum of the totals of the symbols of
smaller rank. -/
theorem FMIndex.predLoop_symbolCounts (runs : List RLUnit) :
    ∃ pred, FMIndex.predLoop (symbolCounts runs) DNAAlphabet.DNA_ALL.tail 'A'
        [('A'.toNat, 0)] = some pred ∧
      pred.map Prod.fst = (DNAAlphabet.DNA_ALL.map Char.toNat).reverse ∧
      ∀ k, k < DNAAlphabet.ALL_SIZE →
        pred.lookup (DNAAlphabet.tochar k).toNat = some ((symbolCounts runs).take k).sum := by
  refine ⟨(List.range DNAAlphabet.ALL_SIZE).reverse.map fun k =>
    ((DNAAlphabet.tochar k).toNat, ((symbolCounts runs).take k).sum), ?_, ?_, ?_⟩
  · simp only [symbolCounts, DNAAlphabet.DNA_ALL, List.map, List.tail, FMIndex.predLoop]
    simp [DNAAlphabet.torank, DNAAlphabet.DNA_ALL, List.lookup, DNAAlphabet.ALL_SIZE,
      DNAAlphabet.tochar, List.range, List.range.loop, FMIndex.predHasEntry]
    refine ⟨?_, ?_, ?_⟩ <;> ring
  · simp [DNAAlphabet.DNA_ALL, DNAAlphabet.ALL_SIZE, DNAAlphabet.tochar, List.range,
      List.range.loop]
  · intro k hk
    simp only [DNAAlphabet.ALL_SIZE] at hk
    interval_cases k <;>
      simp [DNAAlphabet.tochar, DNAAlphabet.DNA_ALL, symbolCounts, List.lookup,
        DNAAlphabet.ALL_SIZE, List.range, List.range.loop]

theorem FMIndex.initialize_inv (x : FMIndex) (e : Nat) (he : e ≤ 13)
    (hS : x.sampleRate = 2 ^ e) (hv : ValidRuns x.bwt.runs)
    (hlen : x.bwt.length = totalOf x.bwt.runs) (hN : totalOf x.bwt.runs < 2 ^ 64) :
    ∃ s pred, FMIndex.runLoop x.bwt.runs.length x.bwt.runs 0 x.startState = some s ∧
      FillState.Inv x.bwt.runs (2 ^ e) x.bwt.runs.length s ∧
      FMIndex.predLoop s.counts DNAAlphabet.DNA_ALL.tail 'A' [('A'.toNat, 0)] = some pred ∧
      pred.map Prod.fst = (DNAAlphabet.DNA_ALL.map Char.toNat).reverse ∧
      (∀ k, k < DNAAlphabet.ALL_SIZE →
        pred.lookup (DNAAlphabet.tochar k).toNat =
          some ((symbolCounts x.bwt.runs).take k).sum) ∧
      FMIndex.initialize x =
        if s.f2.currIdx ≠ s.f2.markers.length then none
        else if s.f1.currIdx ≠ s.f1.markers.length then none
        else some { x with lmarkers := s.f1.markers, smarkers := s.f2.markers, pred := pred } := by
  have hinit := FillState.Inv.init x.bwt.runs (2 ^ e) x.lmarkers x.smarkers
  obtain ⟨s, hs, hinv⟩ := FMIndex.runLoop_inv hv hN (Nat.two_pow_pos e)
    (large_rate_multiple e he) x.bwt.runs 0 _ rfl (Nat.zero_le _) hinit
  have hstart : x.startState = ⟨List.replicate DNAAlphabet.ALL_SIZE 0, 0,
      MarkerFill.initialize LargeMarker.zero x.lmarkers (totalOf x.bwt.runs)
        DEFAULT_SAMPLE_RATE_LARGE,
      MarkerFill.initialize SmallMarker.zero x.smarkers (totalOf x.bwt.runs) (2 ^ e)⟩ := by
    simp only [FMIndex.startState, hlen, hS]
  have hs0 : FMIndex.runLoop x.bwt.runs.length x.bwt.runs 0 x.startState = some s := by
    rw [hstart]
    exact hs
  have hc : s.counts = symbolCounts x.bwt.runs := by
    rw [hinv.counts, List.take_length]
  obtain ⟨pred, hp, hp1, hp2⟩ := FMIndex.predLoop_symbolCounts x.bwt.runs
  refine ⟨s, pred, hs0, hinv, by rw [hc]; exact hp, hp1, hp2, ?_⟩
  have hpow : IS_POWER_OF_2 x.sampleRate = true := by rw [hS]; exact IS_POWER_OF_2_pow e he
  have hs1 : FMIndex.runLoop x.bwt.runs.length x.bwt.runs 0
      ⟨List.replicate DNAAlphabet.ALL_SIZE 0, 0,
        MarkerFill.initialize LargeMarker.zero x.lmarkers x.bwt.length DEFAULT_SAMPLE_RATE_LARGE,
        MarkerFill.initialize SmallMarker.zero x.smarkers x.bwt.length x.sampleRate⟩ =
      some s := hs0
  have hp3 : FMIndex.predLoop s.counts ['C', 'G', 'T', 'N', '$'] 'A' [('A'.toNat, 0)] =
      some pred := by
    rw [hc]
    exact hp
  have hA : FMIndex.predHasEntry 'A' = true := by decide
  simp only [ FMIndex.initialize, hpow, Bool.true_eq_false, if_false, hs1, DNAAlphabet.DNA_ALL,
    hA, hp3]

theorem markerIndex_final_ge (runs : List RLUnit) (rate : Nat) :
    totalOf runs / rate + 1 ≤ markerIndex runs rate runs.length := by
  have h := markerIndex_gt runs rate runs.length (Nat.le_refl _)
  rw [List.take_length] at h
  omega

theorem ValidRuns.take_lt {runs : List RLUnit} (h : ValidRuns runs) (u : Nat)
    (hu : u < runs.length) : totalOf (runs.take u) < totalOf runs := by
  have h1 := h.index_diff_le u runs.length (Nat.le_of_lt hu) (Nat.le_refl _)
  rw [List.take_length] at h1
  omega

theorem decodeRuns_take (runs : List RLUnit) (u : Nat) :
    decodeRuns (runs.take u) = (decodeRuns runs).take (totalOf (runs.take u)) := by
  have h : decodeRuns runs = decodeRuns (runs.take u) ++ decodeRuns (runs.drop u) := by
    rw [← decodeRuns_append, List.take_append_drop]
  rw [h, totalOf_eq_length, List.take_left' rfl]

/-- A large marker of a sampled position inside the BWT, once the loop is over. -/
theorem FillState.Inv.large_marker {runs : List RLUnit} {rate : Nat} {s : FillState}
    (hinv : FillState.Inv runs rate runs.length s) (k : Nat)
    (hk : k * DEFAULT_SAMPLE_RATE_LARGE ≤ totalOf runs) :
    ∃ u, s.f1.markers[k]? = some ⟨u, symbolCounts (runs.take u)⟩ ∧
      u ≤ runs.length ∧
      k * DEFAULT_SAMPLE_RATE_LARGE ≤ totalOf (runs.take u) ∧
      ∀ v < u, totalOf (runs.take v) < k * DEFAULT_SAMPLE_RATE_LARGE := by
  have h1 := markerIndex_final_ge runs DEFAULT_SAMPLE_RATE_LARGE
  have h2 : k ≤ totalOf runs / DEFAULT_SAMPLE_RATE_LARGE :=
    (Nat.le_div_iff_mul_le (by decide)).mpr hk
  obtain ⟨m, hm, u, hu, hmu⟩ := hinv.placed1 k (by rw [hinv.idx1]; omega)
  refine ⟨u, by rw [hm, hmu], hu.1, ?_, hu.2.2⟩
  rcases hu.2.1 with h | h
  · exact h
  · rw [h, List.take_length]
    exact hk

/-- The last large marker, when the large filler has placed all its markers. -/
theorem FillState.Inv.last_large {runs : List RLUnit} (hv : ValidRuns runs) {rate : Nat}
    {s : FillState} (hinv : FillState.Inv runs rate runs.length s)
    (hall : s.f1.currIdx = s.f1.markers.length) :
    s.f1.markers.getLast? = some ⟨runs.length, symbolCounts runs⟩ := by
  have hpos := requiredMarkers_pos (totalOf runs) DEFAULT_SAMPLE_RATE_LARGE
  have hlen := hinv.len1
  obtain ⟨m, hm, u, hu, hmu⟩ := hinv.placed1 (s.f1.markers.length - 1) (by omega)
  have huR : u = runs.length := by
    rcases hu.2.1 with h | h
    · by_contra hne
      have hlt : u < runs.length := by
        have := hu.1
        omega
      have h3 := hv.take_lt u hlt
      have h4 := lt_succ_div_mul (totalOf runs) DEFAULT_SAMPLE_RATE_LARGE (by decide)
      have h5 := Nat.div_add_mod (totalOf runs) DEFAULT_SAMPLE_RATE_LARGE
      rw [hlen] at h
      simp only [requiredMarkers] at h
      split_ifs at h with h6
      · rw [Nat.add_sub_cancel, Nat.div_mul_cancel (Nat.dvd_of_mod_eq_zero h6)] at h
        omega
      · have h7 : totalOf runs / DEFAULT_SAMPLE_RATE_LARGE + 2 - 1 =
            totalOf runs / DEFAULT_SAMPLE_RATE_LARGE + 1 := rfl
        rw [h7] at h
        omega
    · exact h
  rw [List.getLast?_eq_getElem?, hm, hmu, huR, List.take_length]

/-- The marker that `MarkerFind::interpolated` rebuilds from a small marker
placed by the run loop. -/
theorem FillState.Inv.interpolated {runs : List RLUnit} {rate : Nat} {s : FillState}
    (hinv : FillState.Inv runs rate runs.length s) (rs : List RLUnit) (k : Nat)
    (hk : k < s.f2.currIdx) :
    ∃ u, MarkerFind.interpolated ⟨rs, s.f1.markers, s.f2.markers, rate⟩ k =
        some ⟨u, symbolCounts (runs.take u)⟩ ∧ IsMarkerUnit runs (k * rate) u := by
  obtain ⟨m, hm, u, uL, hu, huL, hle, _, hcnt, hmv⟩ := hinv.placed2 k hk
  obtain ⟨l, hl, uL1, huL1, hlv⟩ := hinv.placed1 _ (hinv.link k hk)
  have he : uL1 = uL := huL1.unique huL
  subst he
  refine ⟨u, ?_, hu⟩
  simp only [MarkerFind.interpolated, hl, hm, hlv, hmv, symbolCounts, zipWith_map_map,
    Option.some.injEq, LargeMarker.mk.injEq]
  constructor
  · omega
  · apply List.map_congr_left
    intro c _
    have := (hcnt c).1
    omega

theorem markerIndex_final_of_not_fits (runs : List RLUnit) (rate : Nat)
    (h : ¬ LastRunFits runs rate) :
    markerIndex runs rate runs.length + 1 = requiredMarkers (totalOf runs) rate := by
  simp only [LastRunFits, not_or] at h
  obtain ⟨h1, h2⟩ := h
  have hne : runs.length ≠ 0 := by
    intro h0
    have he : runs = [] := List.length_eq_zero.mp h0
    rw [he] at h1
    exact h1 (by simp [totalOf])
  have hle : totalOf runs.dropLast ≤ totalOf runs := by
    rw [totalOf_dropLast]
    exact totalOf_take_le_total runs _
  have hd := Nat.div_le_div_right (c := rate) hle
  have hc : ¬ (runs.length < runs.length ∨ runs.length = 0) := by omega
  simp only [markerIndex, hc, if_false, requiredMarkers, h1]
  rw [if_pos (by omega)]

theorem symbolCounts_take_eq (runs : List RLUnit) (u : Nat) :
    symbolCounts (runs.take u) =
      DNAAlphabet.DNA_ALL.map fun c =>
        ((decodeRuns runs).take (totalOf (runs.take u))).count c := by
  simp only [symbolCounts, decodeRuns_take runs u]

theorem crossingRuns_valid : ValidRuns crossingRuns := by
  intro u hu
  simp only [crossingRuns, List.mem_append, List.mem_replicate, List.mem_cons,
    List.mem_singleton, List.not_mem_nil, or_false] at hu
  rcases hu with ⟨_, rfl⟩ | rfl | rfl <;> decide

theorem totalOf_replicate (n : Nat) (a : RLUnit) :
    totalOf (List.replicate n a) = n * a.count := by
  induction n with
  | zero => simp [totalOf]
  | succ n ih =>
    rw [List.replicate_succ, show a :: List.replicate n a = [a] ++ List.replicate n a from rfl,
      totalOf_append, ih]
    simp only [totalOf, List.map, List.sum_cons, List.sum_nil]
    ring

theorem crossingRuns_total :
    totalOf crossingRuns = 8193 ∧ crossingRuns.length = 266 ∧
      totalOf crossingRuns.dropLast = 8191 := by
  refine ⟨?_, ?_, ?_⟩
  · rw [crossingRuns, totalOf_append, totalOf_replicate]
    rfl
  · rw [crossingRuns, List.length_append, List.length_replicate]
    rfl
  · rw [crossingRuns, List.dropLast_append_cons, totalOf_append, totalOf_replicate]
    rfl

theorem crossingRuns_not_fits : ¬ LastRunFits crossingRuns DEFAULT_SAMPLE_RATE_LARGE := by
  simp only [LastRunFits, crossingRuns_total.1, crossingRuns_total.2.2]
  decide

theorem exampleRuns_valid : ValidRuns exampleRuns := by
  intro u hu
  simp only [exampleRuns, List.mem_cons, List.mem_singleton, List.not_mem_nil, or_false] at hu
  rcases hu with rfl | rfl <;> decide

theorem exampleRuns_fits (rate : Nat) (h : 6 % rate = 0 ∨ 3 / rate = 6 / rate) :
    LastRunFits exampleRuns rate := h

/-! ## The marker tables and the predecessor table of `FMIndex::initialize` -/

/-- Claim C22 (does not hold of the code): for every BWT of fewer than `2 ^ 64`
symbols whose runs have a count of at least 1 and a symbol of the alphabet, and
every sample rate `2 ^ e` with `e ≤ 13`, the run loop of `FMIndex::initialize`
returns; large marker 0 has unit index 0 and six zero counts; every large marker
`k ≥ 1` with `k * 8192 ≤ N` has as unit index the least `u` such that the runs
before `u` hold at least `k * 8192` symbols, and the per-symbol totals of these
runs as counts.  But the large filler has filled every slot exactly when the
last run fits (the number of symbols is a multiple of 8192, or the last run
crosses no multiple of 8192): then the last large marker has unit index `R` and
the totals of the whole BWT; otherwise one slot is left, the assertion of the
destructor fails and `initialize` has no result.  Such a BWT is the one of 8193
symbols with the runs `A x 31` (264 times), `C x 7`, `G x 2`: 3 slots are
allocated and the filler stops at index 2. -/
theorem FMIndex.initialize_last_marker_unfilled :
    (∀ (x : FMIndex) (e : Nat), e ≤ 13 → x.sampleRate = 2 ^ e → ValidRuns x.bwt.runs →
      x.bwt.length = totalOf x.bwt.runs → totalOf x.bwt.runs < 2 ^ 64 →
      ∃ s, FMIndex.runLoop x.bwt.runs.length x.bwt.runs 0 x.startState = some s ∧
        s.f1.markers.length =
          requiredMarkers (totalOf x.bwt.runs) DEFAULT_SAMPLE_RATE_LARGE ∧
        s.f1.markers[0]? = some ⟨0, List.replicate DNAAlphabet.ALL_SIZE 0⟩ ∧
        (∀ k, 1 ≤ k → k * DEFAULT_SAMPLE_RATE_LARGE ≤ totalOf x.bwt.runs →
          ∃ u, s.f1.markers[k]? = some ⟨u, symbolCounts (x.bwt.runs.take u)⟩ ∧
            u ≤ x.bwt.runs.length ∧
            k * DEFAULT_SAMPLE_RATE_LARGE ≤ totalOf (x.bwt.runs.take u) ∧
            ∀ v < u, totalOf (x.bwt.runs.take v) < k * DEFAULT_SAMPLE_RATE_LARGE) ∧
        (s.f1.currIdx = s.f1.markers.length ↔
          LastRunFits x.bwt.runs DEFAULT_SAMPLE_RATE_LARGE) ∧
        (s.f1.currIdx = s.f1.markers.length →
          s.f1.markers.getLast? = some ⟨x.bwt.runs.length, symbolCounts x.bwt.runs⟩) ∧
        (¬ LastRunFits x.bwt.runs DEFAULT_SAMPLE_RATE_LARGE →
          s.f1.currIdx + 1 = s.f1.markers.length ∧ FMIndex.initialize x = none) ∧
        (LastRunFits x.bwt.runs DEFAULT_SAMPLE_RATE_LARGE ∧ LastRunFits x.bwt.runs (2 ^ e) →
          ∃ y, FMIndex.initialize x = some y ∧ y.lmarkers = s.f1.markers)) ∧
    ValidRuns crossingRuns ∧ totalOf crossingRuns = 8193 ∧ crossingRuns.length = 266 ∧
    totalOf crossingRuns.dropLast = 8191 ∧
    (∃ s, FMIndex.runLoop crossingRuns.length crossingRuns 0
        (FMIndex.ofRuns crossingRuns 8192).startState = some s ∧
      s.f1.markers.length = 3 ∧ s.f1.currIdx = 2) ∧
    FMIndex.initialize (FMIndex.ofRuns crossingRuns 8192) = none := by
  have hgen : ∀ (x : FMIndex) (e : Nat), e ≤ 13 → x.sampleRate = 2 ^ e →
      ValidRuns x.bwt.runs → x.bwt.length = totalOf x.bwt.runs →
      totalOf x.bwt.runs < 2 ^ 64 →
      ∃ s, FMIndex.runLoop x.bwt.runs.length x.bwt.runs 0 x.startState = some s ∧
        s.f1.markers.length =
          requiredMarkers (totalOf x.bwt.runs) DEFAULT_SAMPLE_RATE_LARGE ∧
        s.f1.markers[0]? = some ⟨0, List.replicate DNAAlphabet.ALL_SIZE 0⟩ ∧
        (∀ k, 1 ≤ k → k * DEFAULT_SAMPLE_RATE_LARGE ≤ totalOf x.bwt.runs →
          ∃ u, s.f1.markers[k]? = some ⟨u, symbolCounts (x.bwt.runs.take u)⟩ ∧
            u ≤ x.bwt.runs.length ∧
            k * DEFAULT_SAMPLE_RATE_LARGE ≤ totalOf (x.bwt.runs.take u) ∧
            ∀ v < u, totalOf (x.bwt.runs.take v) < k * DEFAULT_SAMPLE_RATE_LARGE) ∧
        (s.f1.currIdx = s.f1.markers.length ↔
          LastRunFits x.bwt.runs DEFAULT_SAMPLE_RATE_LARGE) ∧
        (s.f1.currIdx = s.f1.markers.length →
          s.f1.markers.getLast? = some ⟨x.bwt.runs.length, symbolCounts x.bwt.runs⟩) ∧
        (¬ LastRunFits x.bwt.runs DEFAULT_SAMPLE_RATE_LARGE →
          s.f1.currIdx + 1 = s.f1.markers.length ∧ FMIndex.initialize x = none) ∧
        (LastRunFits x.bwt.runs DEFAULT_SAMPLE_RATE_LARGE ∧ LastRunFits x.bwt.runs (2 ^ e) →
          ∃ y, FMIndex.initialize x = some y ∧ y.lmarkers = s.f1.markers) := by
    intro x e he hS hv hlen hN
    obtain ⟨s, pred, hs, hinv, _, _, _, hinit⟩ := FMIndex.initialize_inv x e he hS hv hlen hN
    have hiff1 : s.f1.currIdx = s.f1.markers.length ↔
        LastRunFits x.bwt.runs DEFAULT_SAMPLE_RATE_LARGE := by
      rw [hinv.idx1, hinv.len1]
      exact markerIndex_final_iff hv _ (by decide)
    have hiff2 : s.f2.currIdx = s.f2.markers.length ↔ LastRunFits x.bwt.runs (2 ^ e) := by
      rw [hinv.idx2, hinv.len2]
      exact markerIndex_final_iff hv _ (Nat.two_pow_pos e)
    refine ⟨s, hs, hinv.len1, ?_, ?_, hiff1, hinv.last_large hv, ?_, ?_⟩
    · obtain ⟨u, hu, _, _, hlt⟩ := hinv.large_marker 0 (Nat.zero_le _)
      have hu0 : u = 0 := by
        rcases Nat.eq_zero_or_pos u with h | h
        · exact h
        · exact absurd (hlt 0 h) (by simp)
      rw [hu, hu0, List.take_zero, symbolCounts_nil]
    · intro k _ hk
      exact hinv.large_marker k hk
    · intro hnot
      have h1 := markerIndex_final_of_not_fits x.bwt.runs DEFAULT_SAMPLE_RATE_LARGE hnot
      rw [← hinv.idx1, ← hinv.len1] at h1
      refine ⟨h1, ?_⟩
      rw [hinit]
      by_cases h2 : s.f2.currIdx ≠ s.f2.markers.length
      · rw [if_pos h2]
      · rw [if_neg h2, if_pos (by omega)]
    · intro hfit
      rw [hinit, if_neg (not_not.mpr (hiff2.mpr hfit.2)), if_neg (not_not.mpr (hiff1.mpr hfit.1))]
      exact ⟨_, rfl, rfl⟩
  refine ⟨hgen, crossingRuns_valid, crossingRuns_total.1, crossingRuns_total.2.1,
    crossingRuns_total.2.2, ?_, ?_⟩
  · obtain ⟨s, hs, hl, _, _, _, _, hno, _⟩ := hgen (FMIndex.ofRuns crossingRuns 8192) 13
      (Nat.le_refl _) rfl crossingRuns_valid rfl
      (by rw [show (FMIndex.ofRuns crossingRuns 8192).bwt.runs = crossingRuns from rfl,
        crossingRuns_total.1]; decide)
    have hl3 : s.f1.markers.length = 3 := by
      rw [hl, show (FMIndex.ofRuns crossingRuns 8192).bwt.runs = crossingRuns from rfl,
        crossingRuns_total.1]
      rfl
    have h2 := (hno crossingRuns_not_fits).1
    exact ⟨s, hs, hl3, by omega⟩
  · obtain ⟨s, _, _, _, _, _, _, hno, _⟩ := hgen (FMIndex.ofRuns crossingRuns 8192) 13
      (Nat.le_refl _) rfl crossingRuns_valid rfl
      (by rw [show (FMIndex.ofRuns crossingRuns 8192).bwt.runs = crossingRuns from rfl,
        crossingRuns_total.1]; decide)
    exact (hno crossingRuns_not_fits).2

/-- Claim C23, amended: for every BWT of `N < 2 ^ 64` symbols whose runs have a
count of at least 1 and a symbol of the alphabet, and every small sample rate
`S = 2 ^ e` with `S ≤ 8192`, the run loop of `FMIndex::initialize` returns, its
marker lists are those of the index when `initialize` returns, and for every
small marker index `k` with `p = k * S ≤ N`, adding the deltas of small marker
`k` to large marker `p / 8192` gives the marker of the first run boundary at or
after `p`: its unit index `u` is the least with at least `p` symbols in the runs
before `u`, and its counts are, for each of the six symbols, the number of its
occurrences among the first `totalOf (runs.take u)` decoded symbols (the prefix
that ends with the run that reaches `p`, which is the prefix of length `p` only
when a run ends at `p`). -/
theorem MarkerFind.interpolated_counts_at_run_end (x : FMIndex) (e : Nat)
    (he2 : e ≤ 13) (hS : x.sampleRate = 2 ^ e) (hv : ValidRuns x.bwt.runs)
    (hlen : x.bwt.length = totalOf x.bwt.runs) (hN : totalOf x.bwt.runs < 2 ^ 64) :
    ∃ s, FMIndex.runLoop x.bwt.runs.length x.bwt.runs 0 x.startState = some s ∧
      (∀ y, FMIndex.initialize x = some y →
        y.bwt = x.bwt ∧ y.sampleRate = x.sampleRate ∧ y.lmarkers = s.f1.markers ∧
        y.smarkers = s.f2.markers) ∧
      ∀ k, k * 2 ^ e ≤ totalOf x.bwt.runs →
        ∃ u, MarkerFind.interpolated ⟨x.bwt.runs, s.f1.markers, s.f2.markers, x.sampleRate⟩ k =
            some ⟨u, DNAAlphabet.DNA_ALL.map fun c =>
              ((decodeRuns x.bwt.runs).take (totalOf (x.bwt.runs.take u))).count c⟩ ∧
          u ≤ x.bwt.runs.length ∧ k * 2 ^ e ≤ totalOf (x.bwt.runs.take u) ∧
          (∀ v < u, totalOf (x.bwt.runs.take v) < k * 2 ^ e) ∧
          (totalOf (x.bwt.runs.take u) = k * 2 ^ e ∨
            ∃ run, x.bwt.runs[u - 1]? = some run ∧
              totalOf (x.bwt.runs.take u) < k * 2 ^ e + run.count) := by
  obtain ⟨s, pred, hs, hinv, _, _, _, hinit⟩ := FMIndex.initialize_inv x e he2 hS hv hlen hN
  refine ⟨s, hs, ?_, ?_⟩
  · intro y hy
    rw [hinit] at hy
    by_cases h2 : s.f2.currIdx ≠ s.f2.markers.length
    · rw [if_pos h2] at hy
      cases hy
    · rw [if_neg h2] at hy
      by_cases h1 : s.f1.currIdx ≠ s.f1.markers.length
      · rw [if_pos h1] at hy
        cases hy
      · rw [if_neg h1] at hy
        rw [← Option.some.inj hy]
        exact ⟨rfl, rfl, rfl, rfl⟩
  · intro k hk
    have hge := markerIndex_final_ge x.bwt.runs (2 ^ e)
    have hkd : k ≤ totalOf x.bwt.runs / 2 ^ e :=
      (Nat.le_div_iff_mul_le (Nat.two_pow_pos e)).mpr hk
    obtain ⟨u, hu, hunit⟩ := hinv.interpolated x.bwt.runs k (by rw [hinv.idx2]; omega)
    have hreach : k * 2 ^ e ≤ totalOf (x.bwt.runs.take u) := by
      rcases hunit.2.1 with h | h
      · exact h
      · rw [h, List.take_length]
        exact hk
    refine ⟨u, ?_, hunit.1, hreach, hunit.2.2, ?_⟩
    · rw [hS, ← symbolCounts_take_eq]
      exact hu
    · rcases Nat.eq_zero_or_pos u with h0 | hpos
      · left
        rw [h0, List.take_zero] at hreach ⊢
        have : totalOf ([] : List RLUnit) = 0 := rfl
        omega
      · right
        have hlt : u - 1 < x.bwt.runs.length := by
          have := hunit.1
          omega
        refine ⟨x.bwt.runs[u - 1], List.getElem?_eq_getElem hlt, ?_⟩
        have h3 := totalOf_take_succ x.bwt.runs (u - 1) _ (List.getElem?_eq_getElem hlt)
        have h4 := hunit.2.2 (u - 1) (by omega)
        have h5 : u - 1 + 1 = u := by omega
        rw [h5] at h3
        omega

/-- The theorem of claim C23 at the runs `A x 3, C x 3` with sample rate 2, on
which `initialize` returns. -/
theorem MarkerFind.interpolated_counts_at_run_end_witness :
    ValidRuns exampleRuns ∧
    (∃ y, FMIndex.initialize (FMIndex.ofRuns exampleRuns 2) = some y) ∧
    ∃ s, FMIndex.runLoop exampleRuns.length exampleRuns 0
        (FMIndex.ofRuns exampleRuns 2).startState = some s ∧
      (∀ y, FMIndex.initialize (FMIndex.ofRuns exampleRuns 2) = some y →
        y.bwt = (FMIndex.ofRuns exampleRuns 2).bwt ∧ y.sampleRate = 2 ∧
        y.lmarkers = s.f1.markers ∧ y.smarkers = s.f2.markers) ∧
      ∀ k, k * 2 ^ 1 ≤ totalOf exampleRuns →
        ∃ u, MarkerFind.interpolated ⟨exampleRuns, s.f1.markers, s.f2.markers, 2⟩ k =
            some ⟨u, DNAAlphabet.DNA_ALL.map fun c =>
              ((decodeRuns exampleRuns).take (totalOf (exampleRuns.take u))).count c⟩ ∧
          u ≤ exampleRuns.length ∧ k * 2 ^ 1 ≤ totalOf (exampleRuns.take u) ∧
          (∀ v < u, totalOf (exampleRuns.take v) < k * 2 ^ 1) ∧
          (totalOf (exampleRuns.take u) = k * 2 ^ 1 ∨
            ∃ run, exampleRuns[u - 1]? = some run ∧
              totalOf (exampleRuns.take u) < k * 2 ^ 1 + run.count) :=
  ⟨exampleRuns_valid, ⟨_, rfl⟩,
    MarkerFind.interpolated_counts_at_run_end (FMIndex.ofRuns exampleRuns 2) 1 (by decide)
      rfl exampleRuns_valid rfl (by decide)⟩

/-- Claim C23 as stated does not hold: on the runs `A x 3, C x 3` with sample
rate 2, `initialize` succeeds and small marker 1, of the sampled position 2,
added to large marker 0 gives 3 for `A`, the total of the first run, while `A`
occurs twice among the first 2 decoded symbols. -/
theorem MarkerFind.interpolated_not_prefix_counts :
    ∃ y, FMIndex.initialize (FMIndex.ofRuns exampleRuns 2) = some y ∧
      1 * 2 ≤ totalOf exampleRuns ∧
      MarkerFind.interpolated ⟨y.bwt.runs, y.lmarkers, y.smarkers, y.sampleRate⟩ 1 =
        some ⟨1, [3, 0, 0, 0, 0, 0]⟩ ∧
      (DNAAlphabet.DNA_ALL.map fun c => ((decodeRuns exampleRuns).take (1 * 2)).count c) =
        [2, 0, 0, 0, 0, 0] := by
  refine ⟨_, rfl, ?_, ?_, ?_⟩
  · decide
  · decide
  · decide

/-- Claim C24: for every BWT of `N < 2 ^ 64` symbols whose runs have a count of
at least 1 (at most 31 by the five bits of the count) and a symbol of the
alphabet, and every small sample rate `S = 2 ^ e` with `2 ≤ S ≤ 8192`, the run
loop of `FMIndex::initialize` returns (no `fill` reads a large marker outside
the list or trips an assertion of the loop), every sampled position `k * S ≤ N`
has its small marker placed, and for every small marker `k` placed the large
marker `k * S / 8192` it refers to is already placed, with a unit index `uL` and
the totals of the runs before `uL`; the unit index `u` and the counts that
`fill` was called with are the first run boundary at or after `k * S` and the
totals of the runs before it; `uL ≤ u`, every count of the large marker is at
most the count of `fill`, every difference is at most 65535, and the small
marker stored holds these differences, which the 16-bit conversion of the
64-bit subtraction leaves unchanged. -/
theorem SmallMarkerFill.fill_deltas_fit (x : FMIndex) (e : Nat) (he1 : 1 ≤ e) (he2 : e ≤ 13)
    (hS : x.sampleRate = 2 ^ e) (hv : ValidRuns x.bwt.runs)
    (hlen : x.bwt.length = totalOf x.bwt.runs) (hN : totalOf x.bwt.runs < 2 ^ 64) :
    2 ≤ x.sampleRate ∧ x.sampleRate ≤ DEFAULT_SAMPLE_RATE_LARGE ∧
    (∀ r ∈ x.bwt.runs, 1 ≤ r.count ∧ r.count ≤ 31) ∧
    ∃ s, FMIndex.runLoop x.bwt.runs.length x.bwt.runs 0 x.startState = some s ∧
      (∀ k, k * 2 ^ e ≤ totalOf x.bwt.runs → k < s.f2.currIdx) ∧
      ∀ k, k < s.f2.currIdx → ∃ u uL,
        k * 2 ^ e / DEFAULT_SAMPLE_RATE_LARGE < s.f1.currIdx ∧
        s.f1.markers[k * 2 ^ e / DEFAULT_SAMPLE_RATE_LARGE]? =
          some ⟨uL, symbolCounts (x.bwt.runs.take uL)⟩ ∧
        IsMarkerUnit x.bwt.runs (k * 2 ^ e) u ∧
        uL ≤ u ∧ u - uL ≤ 65535 ∧ u16 (sub64 u uL) = u - uL ∧
        (∀ c, (decodeRuns (x.bwt.runs.take uL)).count c ≤
            (decodeRuns (x.bwt.runs.take u)).count c ∧
          (decodeRuns (x.bwt.runs.take u)).count c -
            (decodeRuns (x.bwt.runs.take uL)).count c ≤ 65535 ∧
          u16 (sub64 ((decodeRuns (x.bwt.runs.take u)).count c)
              ((decodeRuns (x.bwt.runs.take uL)).count c)) =
            (decodeRuns (x.bwt.runs.take u)).count c -
              (decodeRuns (x.bwt.runs.take uL)).count c) ∧
        s.f2.markers[k]? = some ⟨u - uL, DNAAlphabet.DNA_ALL.map fun c =>
          (decodeRuns (x.bwt.runs.take u)).count c -
            (decodeRuns (x.bwt.runs.take uL)).count c⟩ ∧
        SmallMarkerFill.marker s.f1.markers (symbolCounts (x.bwt.runs.take u)) u (k * 2 ^ e) =
          s.f2.markers[k]? := by
  obtain ⟨s, pred, hs, hinv, _, _, _, _⟩ := FMIndex.initialize_inv x e he2 hS hv hlen hN
  have hRN : x.bwt.runs.length ≤ totalOf x.bwt.runs := hv.length_le
  refine ⟨?_, ?_, fun r hr => ⟨(hv r hr).1, r.count_le⟩, s, hs, ?_, ?_⟩
  · rw [hS]
    calc 2 = 2 ^ 1 := rfl
      _ ≤ 2 ^ e := Nat.pow_le_pow_right (by decide) he1
  · rw [hS]
    calc 2 ^ e ≤ 2 ^ 13 := Nat.pow_le_pow_right (by decide) he2
      _ = DEFAULT_SAMPLE_RATE_LARGE := rfl
  · intro k hk
    have hge := markerIndex_final_ge x.bwt.runs (2 ^ e)
    have hkd : k ≤ totalOf x.bwt.runs / 2 ^ e :=
      (Nat.le_div_iff_mul_le (Nat.two_pow_pos e)).mpr hk
    rw [hinv.idx2]
    omega
  · intro k hk
    obtain ⟨m, hm, u, uL, hu, huL, hle, hd, hcnt, hmv⟩ := hinv.placed2 k hk
    obtain ⟨l, hl, uL1, huL1, hlv⟩ := hinv.placed1 _ (hinv.link k hk)
    have he : uL1 = uL := huL1.unique huL
    subst he
    have hu64 : u < 2 ^ 64 := by
      have := hu.1
      omega
    have hsub : u16 (sub64 u uL1) = u - uL1 := by
      rw [sub64_eq _ _ hle hu64, u16_eq _ hd]
    have hcs : ∀ c, u16 (sub64 ((decodeRuns (x.bwt.runs.take u)).count c)
          ((decodeRuns (x.bwt.runs.take uL1)).count c)) =
        (decodeRuns (x.bwt.runs.take u)).count c -
          (decodeRuns (x.bwt.runs.take uL1)).count c := by
      intro c
      have h3 := count_le_total (x.bwt.runs.take u) c
      have h4 := totalOf_take_le_total x.bwt.runs u
      rw [sub64_eq _ _ (hcnt c).1 (by omega), u16_eq _ (hcnt c).2]
    refine ⟨u, uL1, hinv.link k hk, by rw [hl, hlv], hu, hle, hd, hsub,
      fun c => ⟨(hcnt c).1, (hcnt c).2, hcs c⟩, by rw [hm, hmv], ?_⟩
    rw [hm, hmv]
    simp only [SmallMarkerFill.marker, hl, hlv, Option.map_some', symbolCounts,
      zipWith_map_map, hsub, hcs]

/-- The theorem of claim C24 at the runs `A x 3, C x 3` with sample rate 2. -/
theorem SmallMarkerFill.fill_deltas_fit_witness :
    ValidRuns exampleRuns ∧ totalOf exampleRuns < 2 ^ 64 ∧
    2 ≤ (FMIndex.ofRuns exampleRuns 2).sampleRate ∧
    (FMIndex.ofRuns exampleRuns 2).sampleRate ≤ DEFAULT_SAMPLE_RATE_LARGE ∧
    (∀ r ∈ exampleRuns, 1 ≤ r.count ∧ r.count ≤ 31) ∧
    ∃ s, FMIndex.runLoop exampleRuns.length exampleRuns 0
        (FMIndex.ofRuns exampleRuns 2).startState = some s ∧
      (∀ k, k * 2 ^ 1 ≤ totalOf exampleRuns → k < s.f2.currIdx) ∧
      ∀ k, k < s.f2.currIdx → ∃ u uL,
        k * 2 ^ 1 / DEFAULT_SAMPLE_RATE_LARGE < s.f1.currIdx ∧
        s.f1.markers[k * 2 ^ 1 / DEFAULT_SAMPLE_RATE_LARGE]? =
          some ⟨uL, symbolCounts (exampleRuns.take uL)⟩ ∧
        IsMarkerUnit exampleRuns (k * 2 ^ 1) u ∧
        uL ≤ u ∧ u - uL ≤ 65535 ∧ u16 (sub64 u uL) = u - uL ∧
        (∀ c, (decodeRuns (exampleRuns.take uL)).count c ≤
            (decodeRuns (exampleRuns.take u)).count c ∧
          (decodeRuns (exampleRuns.take u)).count c -
            (decodeRuns (exampleRuns.take uL)).count c ≤ 65535 ∧
          u16 (sub64 ((decodeRuns (exampleRuns.take u)).count c)
              ((decodeRuns (exampleRuns.take uL)).count c)) =
            (decodeRuns (exampleRuns.take u)).count c -
              (decodeRuns (exampleRuns.take uL)).count c) ∧
        s.f2.markers[k]? = some ⟨u - uL, DNAAlphabet.DNA_ALL.map fun c =>
          (decodeRuns (exampleRuns.take u)).count c -
            (decodeRuns (exampleRuns.take uL)).count c⟩ ∧
        SmallMarkerFill.marker s.f1.markers (symbolCounts (exampleRuns.take u)) u (k * 2 ^ 1) =
          s.f2.markers[k]? :=
  ⟨exampleRuns_valid, by decide,
    SmallMarkerFill.fill_deltas_fit (FMIndex.ofRuns exampleRuns 2) 1 (by decide) (by decide)
      rfl exampleRuns_valid rfl (by decide)⟩

/-- Claim C30 (does not hold of the code): on the BWT `AAACCC` (runs `A x 3,
C x 3`, `N = 6`) with sample rate 2, `initialize` succeeds.  For `find('A', 2)`
the nearest marker of position 3 is small marker 2, whose unit index is 2, the
number of runs, and whose position is 6: the forward walk does nothing and the
backward walk reads `_runs[2]`, outside the runs, so the assertion
`currIdx < _runs.size()` fails.  For `find('C', 0)` the nearest marker of
position 1 has unit index 1, position 3 and count 0 for `C`: the backward walk
reads the run `C x 3` and subtracts 2 from `r = 0`, which wraps to
`2 ^ 64 - 2`, while `C` does not occur in the first symbol. -/
theorem MarkerFind.find_backward_leaves_runs :
    ∃ x : FMIndex, FMIndex.initialize (FMIndex.ofRuns exampleRuns 2) = some x ∧
      x.bwt.runs = exampleRuns ∧ totalOf exampleRuns = 6 ∧
      MarkerFind.nearest ⟨x.bwt.runs, x.lmarkers, x.smarkers, x.sampleRate⟩ 3 =
        some ⟨2, [3, 3, 0, 0, 0, 0]⟩ ∧
      MarkerFind.forward x.bwt.runs 'A' 3 (x.bwt.runs.length + 1) ⟨6, 3, 2⟩ =
        some ⟨6, 3, 2⟩ ∧
      x.bwt.runs[2]? = none ∧
      MarkerFind.backward x.bwt.runs 'A' 3 (x.bwt.runs.length + 2) ⟨6, 3, 2⟩ = none ∧
      x.getOcc 'A' 2 = none ∧
      MarkerFind.nearest ⟨x.bwt.runs, x.lmarkers, x.smarkers, x.sampleRate⟩ 1 =
        some ⟨1, [3, 0, 0, 0, 0, 0]⟩ ∧
      MarkerFind.backward x.bwt.runs 'C' 1 (x.bwt.runs.length + 2) ⟨3, 0, 1⟩ =
        some ⟨1, 2 ^ 64 - 2, 0⟩ ∧
      x.getOcc 'C' 0 = some (2 ^ 64 - 2) ∧ naiveOcc exampleRuns 'C' 0 = 0 := by
  refine ⟨_, rfl, rfl, ?_, ?_, ?_, ?_, ?_, ?_, ?_, ?_, ?_, ?_⟩ <;> decide

/-! ## The reciprocal edges on the end of an edge -/

theorem Bigraph.removeIf_subset (g : Bigraph) (pred : Edge → Bool) :
    ∀ (ps r : List Nat), g.removeIf pred ps = some r → ∀ p ∈ r, p ∈ ps := by
  intro ps
  induction ps with
  | nil =>
    intro r h p hp
    simp only [Bigraph.removeIf, Option.some.injEq] at h
    subst h
    cases hp
  | cons x xs ih =>
    intro r h p hp
    simp only [Bigraph.removeIf] at h
    cases hx : g.deref x with
    | none => simp [hx] at h
    | some e =>
      cases hr : g.removeIf pred xs with
      | none => simp [hx, hr] at h
      | some r0 =>
        simp only [hx, hr, Option.map_some', Option.some.injEq] at h
        subst h
        by_cases hpe : pred e = true
        · rw [if_pos hpe] at hp
          exact List.mem_cons_of_mem _ (ih r0 hr p hp)
        · rw [if_neg hpe] at hp
          rcases List.mem_cons.mp hp with rfl | hp
          · exact List.mem_cons_self _ _
          · exact List.mem_cons_of_mem _ (ih r0 hr p hp)

theorem Bigraph.minElement_mem (g : Bigraph) (l : List Nat) (m : Nat)
    (h : g.minElement l = some m) : m ∈ l := by
  cases l with
  | nil => cases h
  | cons x xs =>
    simp only [Bigraph.minElement, Option.some.injEq] at h
    subst h
    exact (g.minElementFrom_spec xs x).1

/-- The twin of an edge that obeys the rule of the directions passes the filter
of the direction of the edge. -/
theorem Bigraph.twinRule_reciprocal (g : Bigraph) (p : Nat) (h : g.twinRule p = true) :
    g.reciprocalTwin p = true := by
  simp only [Bigraph.twinRule] at h
  simp only [Bigraph.reciprocalTwin]
  cases he : g.deref p with
  | none => simp [he] at h
  | some e =>
    cases ht : g.deref (g.twinOf p) with
    | none => simp [he, ht] at h
    | some t =>
      simp only [he, ht, Bool.and_eq_true, decide_eq_true_eq, beq_iff_eq] at h
      obtain ⟨hc, hd⟩ := h
      obtain ⟨_, ed, ec, _, _, _⟩ := e
      obtain ⟨_, td, tc, _, _, _⟩ := t
      simp only at hc hd ⊢
      cases ed <;> cases td <;> cases ec <;> cases tc <;>
        simp_all [MaximalOverlapVisitor.predicateEdge, MaximalOverlapVisitor.isAntiSenseEdge,
          MaximalOverlapVisitor.isSenseEdge]

theorem Bigraph.DirectionRule.oriented {g : Bigraph} (h : g.DirectionRule) : g.Oriented :=
  fun v hv p hp => g.twinRule_reciprocal p (h v hv p hp)

/-- The reciprocal edges on the end of an edge `j` of a vertex, in a twin
consistent graph that obeys the rule of the directions: they hold the twin of
`j`, and `min_element` returns the longest of them. -/
theorem MaximalOverlapVisitor.reciprocal_has_twin (g : Bigraph) (htc : TwinConsistent g)
    (hrule : g.DirectionRule)
    (vertex : String) (v : Vertex) (hv : g.getVertex vertex = some v) (dir : Dir)
    (edges : List Nat) (hedges : g.edgesDir v dir = some edges) (j : Nat) (hj : j ∈ edges) :
    ∃ (e : Edge) (w : Vertex) (redges : List Nat) (largest : Nat),
      g.deref j = some e ∧ g.getVertex e.end_ = some w ∧
      g.removeIf (MaximalOverlapVisitor.predicateEdge dir) w.edges = some redges ∧
      g.twinOf j ∈ redges ∧ g.minElement redges = some largest ∧
      largest ∈ redges ∧ (∀ r ∈ redges, g.lenOf r ≤ g.lenOf largest) := by
  obtain ⟨hjv, e0, he0, hdir⟩ := (Bigraph.filterDir_mem g dir v.edges edges hedges j).mp hj
  obtain ⟨e, q, t, w, h1, h2, h3, _, _, h6, h7⟩ := htc vertex v hv j hjv
  have hee : e0 = e := Option.some.inj (he0.symm.trans h1)
  rw [hee] at hdir
  have hvm : v ∈ g.vertices := List.mem_of_find?_eq_some hv
  have htw : g.twinOf j = q := Bigraph.twinOf_of_deref g j q e h1 h2
  have hrt := hrule.oriented v hvm j hjv
  simp only [Bigraph.reciprocalTwin, h1, htw, h3, hdir, Bool.not_eq_true'] at hrt
  obtain ⟨redges, hr⟩ := g.removeIf_isSome (MaximalOverlapVisitor.predicateEdge dir) w.edges
    (TwinConsistent.live htc e.end_ w h6)
  have hq := g.removeIf_mem _ w.edges redges hr q t h7 h3 hrt
  obtain ⟨largest, hm⟩ := g.minElement_isSome redges q hq
  have hmax := g.minElement_maxLen redges largest hm
  refine ⟨e, w, redges, largest, h1, h6, hr, by rw [htw]; exact hq, hm,
    g.minElement_mem redges largest hm, ?_⟩
  intro r hr
  rw [hmax]
  exact g.le_maxLen redges r hr

/-- Claim C31, amended: in a twin-consistent graph in which every edge and its
twin have the same direction exactly when their overlap is reverse-complemented,
`MaximalOverlapVisitor::visit` returns, and in every graph that differs from the
graph by edges coloured BLACK (the graph at any round of the loops), for every
edge `j` of the vertex in a direction `dir`, the edges of the end of `j` left by
`remove_if` with the predicate of `dir` hold the twin of `j`; so the list is not
empty (the assertion holds), `min_element` returns its longest edge, and the
tests on `j` have a result.  If moreover the twin of `j` has at least the
overlap length of `j` (as when the two coordinates of an overlap match in
length), the longest of these edges is at least as long as `j`, and the `size_t`
subtraction of the length of `j` from its length (a `size_t` value) is the
difference of the integers: it does not wrap. -/
theorem MaximalOverlapVisitor.reciprocal_edges_hold_twin (s : MaximalOverlapVisitor)
    (g : Bigraph) (vertex : String) (v : Vertex) (htc : TwinConsistent g)
    (hrule : g.DirectionRule) (hv : g.getVertex vertex = some v) :
    (∃ (b : Bool) (s1 : MaximalOverlapVisitor) (g1 : Bigraph),
      s.visit g vertex = some (b, s1, g1) ∧ g.Recolored g1) ∧
    ∀ g1 : Bigraph, g.Recolored g1 → ∀ (dir : Dir) (edges : List Nat),
      g1.edgesDir v dir = some edges → ∀ j ∈ edges,
      ∃ (e : Edge) (w : Vertex) (redges : List Nat) (largest : Nat),
        g1.deref j = some e ∧ g1.getVertex e.end_ = some w ∧
        g1.removeIf (MaximalOverlapVisitor.predicateEdge dir) w.edges = some redges ∧
        g1.twinOf j ∈ redges ∧ redges ≠ [] ∧ g1.minElement redges = some largest ∧
        (∀ r ∈ redges, g1.lenOf r ≤ g1.lenOf largest) ∧
        (∀ first : Nat, ∃ b : Bool,
          MaximalOverlapVisitor.dropsEdge s.delta g1 dir first j = some b) ∧
        (g1.lenOf j ≤ g1.lenOf (g1.twinOf j) →
          e.coord.length ≤ g1.lenOf largest ∧
          (g1.lenOf largest < 2 ^ 64 →
            sub64 (g1.lenOf largest) e.coord.length =
              g1.lenOf largest - e.coord.length)) := by
  have hor := hrule.oriented
  constructor
  · obtain ⟨m1, s1, g1, h1, _, h3, _, _⟩ :=
      MaximalOverlapVisitor.visitDir_spec g htc hor vertex v hv Dir.ED_SENSE false s g
        (Bigraph.Recolored.refl g)
    obtain ⟨m2, s2, g2, k1, _, k3, _, _⟩ :=
      MaximalOverlapVisitor.visitDir_spec g htc hor vertex v hv Dir.ED_ANTISENSE m1 s1 g1 h3
    refine ⟨m2, s2, g2, ?_, k3⟩
    simp only [MaximalOverlapVisitor.visit, h1]
    exact k1
  · intro g1 hrec dir edges hedges j hj
    rw [hrec.edgesDir] at hedges
    obtain ⟨e, w, redges, largest, h1, h2, h3, h4, h5, _, h7⟩ :=
      MaximalOverlapVisitor.reciprocal_has_twin g htc hrule vertex v hv dir edges hedges j hj
    obtain ⟨e1, k1, kend, _, _, kc, _, _⟩ := hrec.deref j e h1
    refine ⟨e1, w, redges, largest, k1, by rw [hrec.getVertex, kend]; exact h2,
      by rw [hrec.removeIf]; exact h3, by rw [hrec.twinOf]; exact h4,
      List.ne_nil_of_mem h4, by rw [hrec.minElement]; exact h5, ?_, ?_, ?_⟩
    · intro r hr
      rw [hrec.lenOf]
      exact h7 r hr
    · intro first
      obtain ⟨_, _, _, b, _, _, _, _, hb⟩ :=
        MaximalOverlapVisitor.ready g htc hor vertex v hv dir edges hedges s.delta first j hj
      exact ⟨b, by rw [hrec.dropsEdge]; exact hb⟩
    · rw [hrec.lenOf, hrec.twinOf, kc]
      intro hlen
      have hl : e.coord.length ≤ g.lenOf largest := by
        rw [← g.lenOf_of_deref j e h1]
        exact Nat.le_trans hlen (h7 _ h4)
      exact ⟨hl, fun hsize => sub64_eq _ _ hl hsize⟩

/-- The theorem of claim C31 at the vertex `V` of the graph of four reads, which
has no containment edges and whose overlaps have coordinates of equal length,
with `delta = 5`. -/
theorem MaximalOverlapVisitor.reciprocal_edges_hold_twin_witness :
    TwinConsistent overlapGraph ∧ overlapGraph.NoContainmentEdges ∧
    overlapGraph.DirectionRule ∧ overlapGraph.TwinLengths ∧
    overlapGraph.getVertex "V" = some overlapV ∧
    (∃ (b : Bool) (s1 : MaximalOverlapVisitor) (g1 : Bigraph),
      MaximalOverlapVisitor.visit ⟨5, 0⟩ overlapGraph "V" = some (b, s1, g1) ∧
      overlapGraph.Recolored g1) ∧
    ∀ g1 : Bigraph, overlapGraph.Recolored g1 → ∀ (dir : Dir) (edges : List Nat),
      g1.edgesDir overlapV dir = some edges → ∀ j ∈ edges,
      ∃ (e : Edge) (w : Vertex) (redges : List Nat) (largest : Nat),
        g1.deref j = some e ∧ g1.getVertex e.end_ = some w ∧
        g1.removeIf (MaximalOverlapVisitor.predicateEdge dir) w.edges = some redges ∧
        g1.twinOf j ∈ redges ∧ redges ≠ [] ∧ g1.minElement redges = some largest ∧
        (∀ r ∈ redges, g1.lenOf r ≤ g1.lenOf largest) ∧
        (∀ first : Nat, ∃ b : Bool,
          MaximalOverlapVisitor.dropsEdge (5 : Nat) g1 dir first j = some b) ∧
        (g1.lenOf j ≤ g1.lenOf (g1.twinOf j) →
          e.coord.length ≤ g1.lenOf largest ∧
          (g1.lenOf largest < 2 ^ 64 →
            sub64 (g1.lenOf largest) e.coord.length =
              g1.lenOf largest - e.coord.length)) :=
  ⟨TwinConsistent.of_check _ (by decide), by unfold Bigraph.NoContainmentEdges; decide,
    by unfold Bigraph.DirectionRule; decide, by unfold Bigraph.TwinLengths; decide, by decide,
    MaximalOverlapVisitor.reciprocal_edges_hold_twin ⟨5, 0⟩ overlapGraph "V" overlapV
      (TwinConsistent.of_check _ (by decide)) (by unfold Bigraph.DirectionRule; decide)
      (by decide)⟩

/-- Claim C31 as stated does not hold: the graph that `EdgeCreator::create`
builds from three reads, a suffix-prefix overlap of 30 bases of `V` and `U`, and
an overlap of the last 20 bases of `V` with the first 10 bases of `W` is twin
consistent, has no containment edges and obeys the rule of the directions.  The
vertex `V` has the SENSE edges 0 (of length 30) and 2 (of length 20, to `W`); the
only reciprocal edge on `W` is the twin 3 of the edge 2, of length 10, which is
less than the length of the edge 2: the subtraction `10 - 20` wraps to
`2 ^ 64 - 10`, and with `delta = 5` the visitor colours the edge 2 and its twin
BLACK. -/
theorem MaximalOverlapVisitor.visit_wraps_on_shorter_twin :
    TwinConsistent unevenGraph ∧ unevenGraph.NoContainmentEdges ∧
    unevenGraph.DirectionRule ∧
    (unevenGraph.getVertex "V").map Vertex.edges = some [0, 2] ∧
    ((unevenGraph.getVertex "V").bind fun v => unevenGraph.edgesDir v Dir.ED_SENSE) =
      some [0, 2] ∧
    unevenGraph.sortByOverlap [0, 2] = [0, 2] ∧
    unevenGraph.lenOf 0 = 30 ∧ unevenGraph.lenOf 2 = 20 ∧
    (unevenGraph.deref 2).map (fun e => (e.end_, e.twin)) = some ("W", some 3) ∧
    ((unevenGraph.getVertex "W").bind fun w =>
      unevenGraph.removeIf (MaximalOverlapVisitor.predicateEdge Dir.ED_SENSE) w.edges) =
      some [3] ∧
    unevenGraph.minElement [3] = some 3 ∧ unevenGraph.lenOf 3 = 10 ∧
    ¬ unevenGraph.lenOf 2 ≤ unevenGraph.lenOf 3 ∧
    sub64 (unevenGraph.lenOf 3) (unevenGraph.lenOf 2) = 2 ^ 64 - 10 ∧
    MaximalOverlapVisitor.dropsEdge 5 unevenGraph Dir.ED_SENSE 0 2 = some true ∧
    (MaximalOverlapVisitor.visit ⟨5, 0⟩ unevenGraph "V").map
      (fun r => (r.1, r.2.1.dummys, r.2.2.isBlack 2, r.2.2.isBlack 3)) =
      some (true, 1, true, true) := by
  refine ⟨TwinConsistent.of_check _ (by decide), ?_, ?_, ?_⟩
  · unfold Bigraph.NoContainmentEdges
    decide
  · unfold Bigraph.DirectionRule
    decide
  · decide

end Moga
